import Mathlib

/-!
# YAML_parser: the configuration-grammar parser and its YAML serializer

A shallow embedding of `src/config_parser.h`, `src/config_parser.cpp` and
`src/YAML_parser.cpp`.

* `std::string` is a `List Char` (one `Char` per byte of the buffer); the texts of
  exceptions and of the diagnostic stream are Lean `String`s.
* `std::unordered_map<std::string, std::shared_ptr<ConfigValue>>` is an association
  list with unique keys, kept in the order of first insertion.  The order in which a
  range-`for` visits the bindings is left to the implementation by C++: the serializer
  for an arbitrary order of iteration is `outputYAMLIn`, and `outputYAML` is the
  serializer for a container that hands out its bindings in the order of first insertion.
* `std::shared_ptr<ConfigValue>` is the value itself: a `ConfigValue` is never mutated
  after construction, so sharing is not observable.
* An exception thrown by `ConfigParser::error` is the outcome `Result.thrown`, which
  carries the text of the exception and the parser at the moment of the throw.
* The `while` loops that step the cursor one character at a time run on the measure
  `input.length - pos`; the recursive descent (`parseValue`, `parseDict`, the loop of
  `parseFile`) runs on a fuel counter and yields `Result.outOfFuel` should it be used up.
-/

namespace YAMLParser

/-! ## `<cctype>` in the default "C" locale -/

/-- The sentinel `char(0)` that `advance` stores once the cursor is past the end. -/
def NUL : Char := Char.ofNat 0

/-- Models `std::isspace`: space, `\t`, `\n`, `\v`, `\f`, `\r`. -/
def isspace (c : Char) : Bool := c.toNat == 32 || (9 ≤ c.toNat && c.toNat ≤ 13)

/-- Models `std::isdigit`: `0`..`9`. -/
def isdigit (c : Char) : Bool := 48 ≤ c.toNat && c.toNat ≤ 57

/-- Models `std::isalpha`: `A`..`Z` and `a`..`z`. -/
def isalpha (c : Char) : Bool :=
  (65 ≤ c.toNat && c.toNat ≤ 90) || (97 ≤ c.toNat && c.toNat ≤ 122)

/-- Models `std::isalnum`: a letter or a digit. -/
def isalnum (c : Char) : Bool := isalpha c || isdigit c

/-! ## The value model (`class ConfigValue`) -/

/-- Models `ConfigValue`: the variant `std::variant<Number, Dict>` with `Number = int` and
`Dict = std::unordered_map<std::string, std::shared_ptr<ConfigValue>>`. -/
inductive ConfigValue where
  | number : Int → ConfigValue
  | dict : List (List Char × ConfigValue) → ConfigValue

/-- The default-constructed `ConfigValue` holds the first alternative, `Number`, with
value `0`. -/
instance : Inhabited ConfigValue := ⟨.number 0⟩

/-- Models `ConfigValue::Dict`, also the type of `ConfigParser::constants`. -/
abbrev Dict := List (List Char × ConfigValue)

/-- Models `m.find(key)`: the value bound to `key`, `none` standing for `m.end()`. -/
def Dict.find : Dict → List Char → Option ConfigValue
  | [], _ => none
  | (k, v) :: rest, key => if k = key then some v else Dict.find rest key

/-- Models `m[key] = value`: overwrite the binding of `key` if there is one, add one if not. -/
def Dict.assign : Dict → List Char → ConfigValue → Dict
  | [], key, value => [(key, value)]
  | (k, v) :: rest, key, value =>
    if k = key then (k, value) :: rest else (k, v) :: Dict.assign rest key value

/-- The keys of a map, in iteration order. -/
def Dict.keys (d : Dict) : List (List Char) := d.map Prod.fst

/-! ## The parser state (`class ConfigParser`) -/

/-- The data members of `ConfigParser`. -/
structure ConfigParser where
  input : List Char
  pos : Nat
  currentChar : Char
  constants : Dict

/-- What a member function that may throw produces. -/
inductive Result (α : Type) where
  | ok (value : α) (self : ConfigParser)
  | thrown (what : String) (self : ConfigParser)
  | outOfFuel

/-! ## `std::stoi` -/

/-- The value of a decimal digit character. -/
def digitValue (c : Char) : Nat := c.toNat - 48

/-- The number a string of decimal digits denotes. -/
def decimalValue (digits : List Char) : Nat :=
  digits.foldl (fun acc c => 10 * acc + digitValue c) 0

/-- Models `INT_MAX` of a 32-bit `int`. -/
def INT_MAX : Nat := 2147483647

/-- Models `std::stoi` on the strings `parseNumber` passes to it, which are non-empty and made
of decimal digits only: the value, or `none` when `std::stoi` throws (no digit to
convert: `std::invalid_argument`; a value above `INT_MAX`: `std::out_of_range`). -/
def stoi (str : List Char) : Option Int :=
  let digits := str.takeWhile (fun c => isdigit c)
  if digits = [] then none
  else if decimalValue digits ≤ INT_MAX then some (Int.ofNat (decimalValue digits))
  else none

namespace ConfigParser

/-- Models `ConfigParser::ConfigParser() : pos(0), currentChar(0) {}`. -/
def new : ConfigParser := ⟨[], 0, NUL, []⟩

/-- Models `ConfigParser::error`: throws `message + " at position " + std::to_string(pos)`. -/
def error {α : Type} (self : ConfigParser) (message : String) : Result α :=
  .thrown (message ++ " at position " ++ toString self.pos) self

/-- Models `ConfigParser::advance`. -/
def advance (self : ConfigParser) : ConfigParser :=
  let pos := self.pos + 1
  if pos < self.input.length then
    { self with pos := pos, currentChar := self.input.getD pos NUL }
  else
    { self with pos := pos, currentChar := NUL }

/-- The loop of `skipWhitespace`, at most `n` iterations. -/
def skipWhitespaceLoop : Nat → ConfigParser → ConfigParser
  | 0, self => self
  | n + 1, self =>
    if self.pos < self.input.length ∧ isspace self.currentChar = true then
      skipWhitespaceLoop n self.advance
    else self

/-- Models `ConfigParser::skipWhitespace`.  Every iteration advances `pos` by one, so the loop
makes at most `input.length - pos` iterations. -/
def skipWhitespace (self : ConfigParser) : ConfigParser :=
  skipWhitespaceLoop (self.input.length - self.pos) self

/-- The loop of `skipComment`, at most `n` iterations. -/
def skipCommentLoop : Nat → ConfigParser → ConfigParser
  | 0, self => self
  | n + 1, self =>
    if self.pos < self.input.length ∧ self.currentChar ≠ '\n' then
      skipCommentLoop n self.advance
    else self

/-- Models `ConfigParser::skipComment`: stops on the newline, which it does not consume. -/
def skipComment (self : ConfigParser) : ConfigParser :=
  skipCommentLoop (self.input.length - self.pos) self

/-- Models `ConfigParser::expect`.  It returns `true` or throws; `ok` stands for `true`. -/
def expect (self : ConfigParser) (expected : Char) : Result Unit :=
  let s := self.skipWhitespace
  if s.currentChar = expected then
    .ok () s.advance
  else
    s.error ("Expected '" ++ String.singleton expected ++ "', got '"
      ++ String.singleton s.currentChar ++ "'")

/-- The second loop of `parseName`, at most `n` iterations; `name` is the text so far. -/
def parseNameLoop : Nat → ConfigParser → List Char → List Char × ConfigParser
  | 0, self, name => (name, self)
  | n + 1, self, name =>
    if self.pos < self.input.length ∧ isalnum self.currentChar = true then
      parseNameLoop n self.advance (name ++ [self.currentChar])
    else (name, self)

/-- Models `ConfigParser::parseName`: the empty string when no name starts here. -/
def parseName (self : ConfigParser) : List Char × ConfigParser :=
  if self.pos < self.input.length ∧ isalpha self.currentChar = true then
    let s := self.advance
    parseNameLoop (s.input.length - s.pos) s [self.currentChar]
  else
    ([], self)

/-- The digit loop of `parseNumber`, at most `n` iterations. -/
def parseNumberLoop : Nat → ConfigParser → List Char → List Char × ConfigParser
  | 0, self, numberStr => (numberStr, self)
  | n + 1, self, numberStr =>
    if self.pos < self.input.length ∧ isdigit self.currentChar = true then
      parseNumberLoop n self.advance (numberStr ++ [self.currentChar])
    else (numberStr, self)

/-- Models `ConfigParser::parseNumber`. -/
def parseNumber (self : ConfigParser) : Result ConfigValue :=
  if '1' ≤ self.currentChar ∧ self.currentChar ≤ '9' then
    let s := self.advance
    let (numberStr, s) := parseNumberLoop (s.input.length - s.pos) s [self.currentChar]
    match stoi numberStr with
    | some value => .ok (.number value) s
    | none => s.error ("Invalid number: " ++ String.mk numberStr)
  else
    self.error "Number must start with digit 1-9"

/-- Models `ConfigParser::parseConstantExpression`. -/
def parseConstantExpression (self : ConfigParser) : Result ConfigValue :=
  match self.expect '?' with
  | .thrown w s => .thrown w s
  | .outOfFuel => .outOfFuel
  | .ok _ s1 =>
    match s1.expect '(' with
    | .thrown w s => .thrown w s
    | .outOfFuel => .outOfFuel
    | .ok _ s2 =>
      let (name, s3) := s2.parseName
      if name = [] then
        s3.error "Expected constant name in expression"
      else
        match s3.expect ')' with
        | .thrown w s => .thrown w s
        | .outOfFuel => .outOfFuel
        | .ok _ s4 =>
          match s4.constants.find name with
          | none => s4.error ("Undefined constant: " ++ String.mk name)
          | some value => .ok value s4

mutual

/-- Models `ConfigParser::parseValue`. -/
def parseValue : Nat → ConfigParser → Result ConfigValue
  | 0, _ => .outOfFuel
  | fuel + 1, self =>
    let s := self.skipWhitespace
    if s.currentChar = '{' then
      parseDict fuel s
    else if s.currentChar = '?' then
      s.parseConstantExpression
    else if isdigit s.currentChar = true then
      s.parseNumber
    else
      s.error ("Expected value, got: " ++ String.singleton s.currentChar)

/-- Models `ConfigParser::parseDict`. -/
def parseDict : Nat → ConfigParser → Result ConfigValue
  | 0, _ => .outOfFuel
  | fuel + 1, self =>
    match self.expect '{' with
    | .thrown w s => .thrown w s
    | .outOfFuel => .outOfFuel
    | .ok _ s1 =>
      match parseDictLoop fuel s1 [] with
      | .thrown w s => .thrown w s
      | .outOfFuel => .outOfFuel
      | .ok dict s2 =>
        match s2.expect '}' with
        | .thrown w s => .thrown w s
        | .outOfFuel => .outOfFuel
        | .ok _ s3 => .ok (.dict dict) s3

/-- The `while` loop of `parseDict`; `dict` is the local map built so far.  Leaving the
loop, by its condition or by `break`, is `ok`. -/
def parseDictLoop : Nat → ConfigParser → Dict → Result Dict
  | 0, _, _ => .outOfFuel
  | fuel + 1, self, dict =>
    if self.pos < self.input.length ∧ self.currentChar ≠ '}' then
      let s1 := self.skipWhitespace
      if s1.currentChar = '}' then .ok dict s1
      else
        let (name, s2) := s1.parseName
        if name = [] then
          s2.error "Expected name in dictionary"
        else
          let s3 := s2.skipWhitespace
          match s3.expect '-' with
          | .thrown w s => .thrown w s
          | .outOfFuel => .outOfFuel
          | .ok _ s4 =>
            match s4.expect '>' with
            | .thrown w s => .thrown w s
            | .outOfFuel => .outOfFuel
            | .ok _ s5 =>
              match parseValue fuel s5 with
              | .thrown w s => .thrown w s
              | .outOfFuel => .outOfFuel
              | .ok value s6 =>
                let dict := dict.assign name value
                let s7 := s6.skipWhitespace
                if s7.currentChar = '.' then
                  parseDictLoop fuel s7.advance.skipWhitespace dict
                else if s7.currentChar ≠ '}' then
                  s7.error "Expected '.' or '\x7d' after dictionary entry"
                else
                  parseDictLoop fuel s7.skipWhitespace dict
    else .ok dict self

end

/-- Models `ConfigParser::parseConstant`. -/
def parseConstant (fuel : Nat) (self : ConfigParser) : Result Unit :=
  let (name, s1) := self.parseName
  if name = [] then
    s1.error "Expected constant name"
  else
    let s2 := s1.skipWhitespace
    match s2.expect '<' with
    | .thrown w s => .thrown w s
    | .outOfFuel => .outOfFuel
    | .ok _ s3 =>
      match s3.expect '-' with
      | .thrown w s => .thrown w s
      | .outOfFuel => .outOfFuel
      | .ok _ s4 =>
        match parseValue fuel s4 with
        | .thrown w s => .thrown w s
        | .outOfFuel => .outOfFuel
        | .ok value s5 =>
          .ok () { s5 with constants := s5.constants.assign name value }

/-- The `while (pos < input.length())` loop of `parseFile` (the body of its `try`). -/
def parseFileLoop : Nat → ConfigParser → Result Unit
  | 0, _ => .outOfFuel
  | fuel + 1, self =>
    if self.pos < self.input.length then
      let s1 := self.skipWhitespace
      if s1.pos ≥ s1.input.length then .ok () s1
      else if s1.currentChar = ';' then
        parseFileLoop fuel s1.skipComment
      else
        let savePos := s1.pos
        let saveChar := s1.currentChar
        let (name, s2) := s1.parseName
        if name ≠ [] then
          let s3 := s2.skipWhitespace
          if s3.currentChar = '<' ∧ s3.pos + 1 < s3.input.length
              ∧ s3.input.getD (s3.pos + 1) NUL = '-' then
            match parseConstant fuel { s3 with pos := savePos, currentChar := saveChar } with
            | .thrown w s => .thrown w s
            | .outOfFuel => .outOfFuel
            | .ok _ s4 => parseFileLoop fuel s4
          else
            match parseDict fuel { s3 with pos := savePos, currentChar := saveChar } with
            | .thrown w s => .thrown w s
            | .outOfFuel => .outOfFuel
            | .ok _ s4 => parseFileLoop fuel s4
        else
          s2.error ("Unexpected character: " ++ String.singleton s2.currentChar)
    else .ok () self

/-- The fuel that `parseFile` gives to the recursive descent over `input`. -/
def parseFuel (input : List Char) : Nat := 2 * input.length + 3

/-- Models `const char*` semantics of `e.what()`: the text up to the first NUL character. -/
def cstr (what : String) : String := String.mk (what.data.takeWhile (fun c => c ≠ NUL))

/-- What a call of `parseFile` leaves behind: the value returned, the text written to
`std::cerr`, and the parser. -/
structure ParseFileResult where
  returned : Bool
  cerr : String
  self : ConfigParser

/-- Models `ConfigParser::parseFile`.  `file` is what opening and reading `filename` gives: `none`
when the file cannot be opened, otherwise its content.  The result is `none` only when
the fuel of the descent is used up. -/
def parseFile (self : ConfigParser) (filename : String) (file : Option (List Char)) :
    Option ParseFileResult :=
  match file with
  | none => some ⟨false, "Error: Cannot open file " ++ filename ++ "\n", self⟩
  | some content =>
    let s : ConfigParser := { self with input := content }
    let s : ConfigParser := { s with pos := 0 }
    let s : ConfigParser :=
      if s.input ≠ [] then { s with currentChar := s.input.getD 0 NUL } else s
    match parseFileLoop (parseFuel content) s with
    | .ok _ s1 => some ⟨true, "", s1⟩
    | .thrown what s1 => some ⟨false, "Parse error: " ++ cstr what ++ "\n", s1⟩
    | .outOfFuel => none

/-- Models `out << value` for an `int`: decimal digits, `-` first when negative. -/
def intToChars : Int → List Char
  | .ofNat n => Nat.toDigits 10 n
  | .negSucc n => '-' :: Nat.toDigits 10 (n + 1)

mutual

/-- Models `ConfigParser::outputYAMLValue`: the text written to `out`, the entries of a
dictionary in the sequence of the list. -/
def outputYAMLValue : ConfigValue → Nat → List Char
  | .number n, _ => intToChars n
  | .dict [], _ => "\x7b\x7d".toList
  | .dict (e :: es), indent => '\n' :: outputYAMLEntries (e :: es) indent

/-- The `for` loop of `outputYAMLValue` over the entries of a non-empty dictionary. -/
def outputYAMLEntries : List (List Char × ConfigValue) → Nat → List Char
  | [], _ => []
  | (key, val) :: rest, indent =>
    List.replicate (indent + 2) ' ' ++ key ++ ": ".toList
      ++ outputYAMLValue val (indent + 2) ++ ['\n'] ++ outputYAMLEntries rest indent

end

/-- The `for` loop of `outputYAML` over the constants. -/
def outputYAMLConstants : Dict → List Char
  | [] => []
  | (name, value) :: rest =>
    name ++ ": ".toList ++ outputYAMLValue value 0 ++ ['\n'] ++ outputYAMLConstants rest

/-- Models `ConfigParser::outputYAML`: the text written to `out`, the constants in the
sequence of the list, which is the order of first insertion (`outputYAMLIn` is the
serializer for any other order of iteration). -/
def outputYAML (self : ConfigParser) : List Char := outputYAMLConstants self.constants

end ConfigParser

/-! ## The cursor seen as a position in the buffer -/

/-- The parser over `inp` whose cursor is at offset `p`, `currentChar` being the
character there (the sentinel past the end), and whose table is `t`. -/
def cursor (inp : List Char) (p : Nat) (t : Dict) : ConfigParser :=
  ⟨inp, p, inp.getD p NUL, t⟩

/-- Whether a text starts with a character satisfying `P`. -/
def headIs (P : Char → Bool) : List Char → Bool
  | [] => false
  | c :: _ => P c

/-- A name of the grammar: a letter followed by letters and digits. -/
def isName : List Char → Bool
  | [] => false
  | c :: cs => isalpha c && cs.all isalnum

/-- A number literal of the grammar: a digit `1`..`9` followed by digits. -/
def isNumber : List Char → Bool
  | [] => false
  | c :: cs => decide ('1' ≤ c ∧ c ≤ '9') && cs.all isdigit

/-- A run of whitespace. -/
def isWs (ws : List Char) : Bool := ws.all isspace

/-! ## The grammar of the input, as syntax trees with their whitespace

`value := dict | constantRef | number`, `dict := "{" ws? [ entry { "." entry } ] ws? "}"`,
`entry := name ws? "->" ws? value`, `constantRef := "?" "(" name ")"`. -/

mutual

/-- A value of the grammar. -/
inductive SValue where
  | num (digits : List Char)
  | ref (name : List Char)
  | empty (ws : List Char)
  | dict (ws : List Char) (entries : SEntries)

/-- The entries of a non-empty dictionary: `name ws1 "->" ws2 value ws3`, and between two
entries `"." ws4`. -/
inductive SEntries where
  | last (name ws1 ws2 : List Char) (value : SValue) (ws3 : List Char)
  | more (name ws1 ws2 : List Char) (value : SValue) (ws3 ws4 : List Char) (rest : SEntries)

end

mutual

/-- The text of a value. -/
def SValue.text : SValue → List Char
  | .num digits => digits
  | .ref name => '?' :: '(' :: (name ++ [')'])
  | .empty ws => '{' :: (ws ++ ['}'])
  | .dict ws entries => '{' :: (ws ++ (entries.text ++ ['}']))

/-- The text of the entries of a dictionary, from the first name up to the closing
brace, which is not part of it. -/
def SEntries.text : SEntries → List Char
  | .last name ws1 ws2 value ws3 => name ++ (ws1 ++ '-' :: '>' :: (ws2 ++ (value.text ++ ws3)))
  | .more name ws1 ws2 value ws3 ws4 rest =>
    name ++ (ws1 ++ '-' :: '>' :: (ws2 ++ (value.text ++ (ws3 ++ '.' :: (ws4 ++ rest.text)))))

end

mutual

/-- Whether a syntax tree follows the lexical rules: names are names, number literals are
number literals of a value up to `INT_MAX`, whitespace is whitespace. -/
def SValue.wf : SValue → Bool
  | .num digits => isNumber digits && decide (decimalValue digits ≤ INT_MAX)
  | .ref name => isName name
  | .empty ws => isWs ws
  | .dict ws entries => isWs ws && entries.wf

/-- Whether the entries of a dictionary follow the lexical rules. -/
def SEntries.wf : SEntries → Bool
  | .last name ws1 ws2 value ws3 =>
    isName name && isWs ws1 && isWs ws2 && value.wf && isWs ws3
  | .more name ws1 ws2 value ws3 ws4 rest =>
    isName name && isWs ws1 && isWs ws2 && value.wf && isWs ws3 && isWs ws4 && rest.wf

end

mutual

/-- What a value denotes when the constants defined so far are `t`; `none` when it refers
to a constant that `t` does not bind. -/
def SValue.eval (t : Dict) : SValue → Option ConfigValue
  | .num digits => some (.number (Int.ofNat (decimalValue digits)))
  | .ref name => t.find name
  | .empty _ => some (.dict [])
  | .dict _ entries =>
    match entries.eval t [] with
    | some d => some (.dict d)
    | none => none

/-- The map that the entries of a dictionary add up to, starting from `acc`. -/
def SEntries.eval (t : Dict) : SEntries → Dict → Option Dict
  | .last name _ _ value _, acc =>
    match value.eval t with
    | some v => some (acc.assign name v)
    | none => none
  | .more name _ _ value _ _ rest, acc =>
    match value.eval t with
    | some v => rest.eval t (acc.assign name v)
    | none => none

end

/-- What stands at the top level of a document: a constant definition
`ws0 name ws1 "<-" ws2 value`, or a comment `ws0 ";" body "\n"`. -/
inductive SItem where
  | definition (ws0 name ws1 ws2 : List Char) (value : SValue)
  | comment (ws0 body : List Char)

/-- The text of a top-level item. -/
def SItem.text : SItem → List Char
  | .definition ws0 name ws1 ws2 value =>
    ws0 ++ (name ++ (ws1 ++ '<' :: '-' :: (ws2 ++ value.text)))
  | .comment ws0 body => ws0 ++ ';' :: (body ++ ['\n'])

/-- Whether a top-level item follows the lexical rules. -/
def SItem.wf : SItem → Bool
  | .definition ws0 name ws1 ws2 value =>
    isWs ws0 && isName name && isWs ws1 && isWs ws2 && value.wf
  | .comment ws0 body => isWs ws0 && body.all (fun c => c != '\n')

/-- The text of a sequence of top-level items. -/
def documentText : List SItem → List Char
  | [] => []
  | item :: items => item.text ++ documentText items

/-- Whether all the items follow the lexical rules. -/
def documentWf : List SItem → Bool
  | [] => true
  | item :: items => item.wf && documentWf items

/-- The constant table after the items, in document order, starting from `t`; `none`
when a value refers to a constant that is not bound at that point. -/
def evalDocument : Dict → List SItem → Option Dict
  | t, [] => some t
  | t, .definition _ name _ _ value :: items =>
    match value.eval t with
    | some v => evalDocument (t.assign name v) items
    | none => none
  | t, .comment _ _ :: items => evalDocument t items

/-- The names that the items define, in document order, with repetitions. -/
def definedNames : List SItem → List (List Char)
  | [] => []
  | .definition _ name _ _ _ :: items => name :: definedNames items
  | .comment _ _ :: items => definedNames items

/-- The value of the last entry with key `k` among the entries of a dictionary. -/
def SEntries.lastValueOf (k : List Char) : SEntries → Option SValue
  | .last name _ _ value _ => if name = k then some value else none
  | .more name _ _ value _ _ rest =>
    match rest.lastValueOf k with
    | some x => some x
    | none => if name = k then some value else none

mutual

/-- Whether every number in a value lies in `1 .. INT_MAX`. -/
def ConfigValue.inRange : ConfigValue → Bool
  | .number n => decide (1 ≤ n ∧ n ≤ Int.ofNat INT_MAX)
  | .dict d => entriesInRange d

/-- Whether every number in the values of a map lies in `1 .. INT_MAX`. -/
def entriesInRange : List (List Char × ConfigValue) → Bool
  | [] => true
  | (_, v) :: rest => v.inRange && entriesInRange rest

end

/-- An entry of a dictionary with the separator behind it:
`name ws1 "->" ws2 value ws3 "." ws4`. -/
structure SField where
  name : List Char
  ws1 : List Char
  ws2 : List Char
  value : SValue
  ws3 : List Char
  ws4 : List Char

/-- The text of an entry and its separator. -/
def SField.text (f : SField) : List Char :=
  f.name ++ (f.ws1 ++ '-' :: '>' :: (f.ws2 ++ (f.value.text ++ (f.ws3 ++ '.' :: f.ws4))))

/-- Whether an entry and its separator follow the lexical rules. -/
def SField.wf (f : SField) : Bool :=
  isName f.name && isWs f.ws1 && isWs f.ws2 && f.value.wf && isWs f.ws3 && isWs f.ws4

/-- The text of a sequence of entries, each with its separator. -/
def fieldsText : List SField → List Char
  | [] => []
  | f :: fs => f.text ++ fieldsText fs

/-- Whether the entries follow the lexical rules. -/
def fieldsWf : List SField → Bool
  | [] => true
  | f :: fs => f.wf && fieldsWf fs

/-- Whether the values of the entries refer only to constants that `t` binds. -/
def fieldsBound (t : Dict) : List SField → Bool
  | [] => true
  | f :: fs => (f.value.eval t).isSome && fieldsBound t fs

/-- The part of a dictionary that stands before the value of one of its entries:
`wsb "{" ws0 fields name ws1 "->"`, where `wsb` is the whitespace before the brace and
`fields` are the entries before that one. -/
structure SFrame where
  wsb : List Char
  ws0 : List Char
  fields : List SField
  name : List Char
  ws1 : List Char

/-- The text of the part of a dictionary before the value of an entry. -/
def SFrame.text (f : SFrame) : List Char :=
  f.wsb ++ '{' :: (f.ws0 ++ (fieldsText f.fields ++ (f.name ++ (f.ws1 ++ ['-', '>']))))

/-- Whether the part of a dictionary before the value of an entry follows the lexical
rules. -/
def SFrame.wf (f : SFrame) : Bool :=
  isWs f.wsb && isWs f.ws0 && fieldsWf f.fields && isName f.name && isWs f.ws1

/-- The text of nested dictionaries, outermost first, each up to the value of the entry
that holds the next. -/
def pathText : List SFrame → List Char
  | [] => []
  | f :: fs => f.text ++ pathText fs

/-- Whether the nested dictionaries follow the lexical rules. -/
def pathWf : List SFrame → Bool
  | [] => true
  | f :: fs => f.wf && pathWf fs

/-- Whether the entries before the path refer only to constants that `t` binds. -/
def pathBound (t : Dict) : List SFrame → Bool
  | [] => true
  | f :: fs => fieldsBound t f.fields && pathBound t fs

/-- The relation `EntryAt k key val v`: the dictionary `v` has an entry `key`, with value `val`, at
nesting depth `k`: depth 1 for the entries of `v` itself, depth `k + 1` for the entries at
depth `k` of a dictionary that is the value of an entry of `v`. -/
inductive EntryAt : Nat → List Char → ConfigValue → ConfigValue → Prop
  | here {d : Dict} {key : List Char} {val : ConfigValue} :
      (key, val) ∈ d → EntryAt 1 key val (.dict d)
  | inside {d d' : Dict} {k : Nat} {key key' : List Char} {val : ConfigValue} :
      (key', ConfigValue.dict d') ∈ d → EntryAt k key val (.dict d') →
      EntryAt (k + 1) key val (.dict d)

/-! ## Example documents -/

/-- The document `a <- { x -> 1 . y -> { z -> 2 } }`. -/
def exampleNested : List SItem :=
  [.definition [] ['a'] [' '] [' ']
    (.dict [' '] (.more ['x'] [' '] [' '] (.num ['1']) [' '] [' ']
      (.last ['y'] [' '] [' ']
        (.dict [' '] (.last ['z'] [' '] [' '] (.num ['2']) [' '])) [' '])))]

/-- The part `{ k -> 1 . m ->` of a dictionary, after one space. -/
def exampleFrame : SFrame :=
  { wsb := [' '], ws0 := [' '],
    fields := [{ name := ['k'], ws1 := [' '], ws2 := [' '], value := .num ['1'],
                 ws3 := [' '], ws4 := [' '] }],
    name := ['m'], ws1 := [' '] }

/-- The document `a <- 1 b <- { k -> ?(a) } a <- 2`. -/
def exampleEntryReference : List SItem :=
  [.definition [] ['a'] [' '] [' '] (.num ['1']),
   .definition [' '] ['b'] [' '] [' ']
     (.dict [' '] (.last ['k'] [' '] [' '] (.ref ['a']) [' '])),
   .definition [' '] ['a'] [' '] [' '] (.num ['2'])]

/-- The document `a <- 1 b <- ?(a) a <- 2`. -/
def exampleRedefinition : List SItem :=
  [.definition [] ['a'] [' '] [' '] (.num ['1']),
   .definition [' '] ['b'] [' '] [' '] (.ref ['a']),
   .definition [' '] ['a'] [' '] [' '] (.num ['2'])]

end YAMLParser

namespace YAMLParser
open ConfigParser

/-! ## The parser seen from the text that remains to be read -/

/-- The relation `At inp σ t s`: the parser `s` reads `inp` with table `t`, its cursor is inside
the buffer, `currentChar` is the character there, and `σ` is the text that remains. -/
def At (inp σ : List Char) (t : Dict) (s : ConfigParser) : Prop :=
  ∃ p, p ≤ inp.length ∧ inp.drop p = σ ∧ s = cursor inp p t

/-- The name that stands at the head of a text: empty when the text does not start
with a letter. -/
def nameOf : List Char → List Char
  | [] => []
  | c :: r => if isalpha c = true then c :: r.takeWhile isalnum else []

/-- Whether a text has as many opening as closing braces. -/
def balanced (π : List Char) : Prop := π.count '{' = π.count '}'

/-- The relation `Consumed σ τ`: the text `τ` is what remains of `σ` behind a text with
as many opening as closing braces. -/
def Consumed (σ τ : List Char) : Prop := ∃ π, σ = π ++ τ ∧ balanced π

/-- A dictionary that is not closed: every non-empty part of the text read from its opening
brace on has more opening than closing braces. -/
def Unclosed (σ : List Char) : Prop :=
  ∀ π, π ≠ [] → π <+: σ → π.count '}' < π.count '{'

/-- Whether every non-empty part of a text, read from its start, has more opening than
closing braces, when `o` opening and `c` closing braces stand before the text. -/
def openAfter (o c : Nat) : List Char → Bool
  | [] => true
  | x :: r =>
    decide ((if x = '}' then c + 1 else c) < (if x = '{' then o + 1 else o))
      && openAfter (if x = '{' then o + 1 else o) (if x = '}' then c + 1 else c) r

mutual

/-- Whether every key of every dictionary in a value is a name of the grammar. -/
def ConfigValue.namesOk : ConfigValue → Bool
  | .number _ => true
  | .dict d => entriesNamesOk d

/-- Whether every key of a map, and of every dictionary in its values, is a name of the
grammar. -/
def entriesNamesOk : List (List Char × ConfigValue) → Bool
  | [] => true
  | (k, v) :: rest => isName k && v.namesOk && entriesNamesOk rest

end

/-- What an outcome stated on remaining texts says of a result of the parser over `inp`:
`some (a, τ)` is the return of `a` with `τ` left to read, `none` is an exception; the table
is `t` in both. -/
def Result.agrees {α : Type} (inp : List Char) (t : Dict) (o : Option (α × List Char))
    (r : Result α) : Prop :=
  match o, r with
  | some (a, τ), .ok a' s' => a' = a ∧ At inp τ t s'
  | none, .thrown _ s' => ∃ τ, At inp τ t s'
  | _, _ => False

/-- What an outcome of the top-level loop says of its result over `inp`: `(true, t)` is the
return at the end of the input with table `t`, `(false, t)` an exception raised with
table `t`. -/
def Result.agreesFile (inp : List Char) (o : Bool × Dict) (r : Result Unit) : Prop :=
  match r with
  | .ok _ s' => o.1 = true ∧ At inp [] o.2 s'
  | .thrown _ s' => o.1 = false ∧ ∃ τ, At inp τ o.2 s'
  | .outOfFuel => False

/-- The behaviour of `parseValue` on the remaining text `σ` with table `t`: one outcome, the
same for every buffer that ends with `σ` and every fuel above the length of `σ` by two.  A
value returned has names for keys (when the table has), and the text read for it, after
the whitespace in front, is not empty and has balanced braces. -/
def ValueSpec (σ : List Char) (t : Dict) : Prop :=
  ∃ o : Option (ConfigValue × List Char),
    (∀ v τ, o = some (v, τ) →
      (entriesNamesOk t = true → v.namesOk = true) ∧
      Consumed (σ.dropWhile isspace) τ ∧ τ.length < (σ.dropWhile isspace).length) ∧
    ∀ inp s fuel, At inp σ t s → σ.length + 2 ≤ fuel →
      Result.agrees inp t o (parseValue fuel s)

/-- The behaviour of `parseDict` on the remaining text `σ` with table `t`, as for
`parseValue`; the fuel needed is above the length of `σ` by one. -/
def DictSpec (σ : List Char) (t : Dict) : Prop :=
  ∃ o : Option (ConfigValue × List Char),
    (∀ v τ, o = some (v, τ) →
      (entriesNamesOk t = true → v.namesOk = true) ∧
      Consumed (σ.dropWhile isspace) τ ∧ τ.length < (σ.dropWhile isspace).length) ∧
    ∀ inp s fuel, At inp σ t s → σ.length + 1 ≤ fuel →
      Result.agrees inp t o (parseDict fuel s)

/-- The behaviour of the entry loop of `parseDict` on the remaining text `σ` with table `t`
and the map `acc` built so far. -/
def LoopSpec (σ : List Char) (t : Dict) (acc : Dict) : Prop :=
  ∃ o : Option (Dict × List Char),
    (∀ d τ, o = some (d, τ) →
      (entriesNamesOk t = true → entriesNamesOk acc = true → entriesNamesOk d = true) ∧
      Consumed σ τ) ∧
    ∀ inp s fuel, At inp σ t s → σ.length + 1 ≤ fuel →
      Result.agrees inp t o (parseDictLoop fuel s acc)

/-- The behaviour of the top-level loop of `parseFile` on the remaining text `σ` with table
`t`: one outcome for every buffer that ends with `σ` and every fuel above the length of `σ`
by two. -/
def FileSpec (σ : List Char) (t : Dict) : Prop :=
  ∃ o : Bool × Dict,
    (entriesNamesOk t = true → entriesNamesOk o.2 = true) ∧
    ∀ inp s fuel, At inp σ t s → σ.length + 2 ≤ fuel →
      Result.agreesFile inp o (parseFileLoop fuel s)

/-! ## The program -/

/-- What a run of the program leaves behind: the exit status and the texts written to
`std::cout` and `std::cerr`. -/
structure MainResult where
  status : Nat
  cout : List Char
  cerr : String

/-- Models `printUsage`: the text written to `std::cout`. -/
def printUsage (programName : String) : List Char :=
  ("Usage: " ++ programName ++ " -f <input_file>\n"
    ++ "Converts configuration files to YAML format\n").toList

/-- Models `main`.  `argv` are the arguments, with the name of the program first, and
`files` is the file system: what opening and reading a file name gives.  The result is `none`
only when the fuel of the descent is used up. -/
def main (argv : List String) (files : String → Option (List Char)) : Option MainResult :=
  if argv.length ≠ 3 ∨ argv.getD 1 "" ≠ "-f" then
    some ⟨1, printUsage (argv.getD 0 ""), ""⟩
  else
    let filename := argv.getD 2 ""
    match parseFile ConfigParser.new filename (files filename) with
    | none => none
    | some r =>
      if r.returned = true then some ⟨0, r.self.outputYAML, r.cerr⟩
      else some ⟨1, [], r.cerr⟩

/-! ## Dictionaries with a separator before the closing brace -/

/-- The names of the entries of a dictionary literal, in the order of the text. -/
def SEntries.names : SEntries → List (List Char)
  | .last name _ _ _ _ => [name]
  | .more name _ _ _ _ _ rest => name :: rest.names

/-- The map that entries, each with its separator behind it, add to `acc`; `none` when one
refers to a constant that `t` does not bind. -/
def evalFields (t : Dict) : List SField → Dict → Option Dict
  | [], acc => some acc
  | f :: fs, acc =>
    match f.value.eval t with
    | none => none
    | some v => evalFields t fs (acc.assign f.name v)

end YAMLParser

namespace YAMLParser
open ConfigParser

/-! ## The order in which a map is iterated

The range-`for` loops of `outputYAML` and `outputYAMLValue` run over a
`std::unordered_map`, whose order of iteration C++ leaves to the implementation.  The
two loops are `outputYAMLConstants` and `outputYAMLEntries`, which write the bindings of
a sequence one after the other; the sequence that they are given is the one in which the
container hands out its bindings. -/

/-- An order of iteration of `std::unordered_map`: `order d` is the sequence in which a
range-`for` over the map `d` visits the bindings, each of them once. -/
def IterationOrder (order : Dict → Dict) : Prop := ∀ d : Dict, (order d).Perm d

mutual

/-- The value as the serializer walks it: the bindings of every dictionary in it, in the
sequence in which the range-`for` visits them. -/
def ConfigValue.visited (order : Dict → Dict) : ConfigValue → ConfigValue
  | .number n => .number n
  | .dict d => .dict (order (entriesVisited order d))

/-- The bindings of a map, each value as the serializer walks it. -/
def entriesVisited (order : Dict → Dict) :
    List (List Char × ConfigValue) → List (List Char × ConfigValue)
  | [] => []
  | (k, v) :: rest => (k, v.visited order) :: entriesVisited order rest

end

/-- Models `ConfigParser::outputYAML` when the maps are iterated in the order `order`: the
text written to `out`.  The function `outputYAML` is the case of a container that hands
out its bindings in the order of first insertion. -/
def ConfigParser.outputYAMLIn (order : Dict → Dict) (self : ConfigParser) : List Char :=
  outputYAMLConstants (order (entriesVisited order self.constants))

/-! ## The texts that the recursive descent reads

What `parseValue` reads when it returns, as syntax trees with their whitespace.  The
function `expect` skips whitespace in front of the character that it expects, and the
entry loop of `parseDict` tests for the closing brace at the head of every iteration:

`value := dict | constantRef | number`,
`dict := "{" ws? [ entry ws? { "." ws? entry ws? } [ "." ws? ] ] "}"`,
`entry := name ws? "-" ws? ">" ws? value`, `constantRef := "?" ws? "(" name ws? ")"`. -/

mutual

/-- A value as `parseValue` reads it. -/
inductive PValue where
  | num (digits : List Char)
  | ref (ws1 name ws2 : List Char)
  | dict (ws0 : List Char) (entries : PEntries)

/-- The entries of a dictionary as the loop of `parseDict` reads them, up to the closing
brace: no entry (`done`); a last entry `name ws1 "-" wm ">" ws2 value ws3` in front of the
brace (`last`); or an entry, the separator `"." ws4`, and what follows (`more`), which
is `done` when the separator stands before the brace. -/
inductive PEntries where
  | done
  | last (name ws1 wm ws2 : List Char) (value : PValue) (ws3 : List Char)
  | more (name ws1 wm ws2 : List Char) (value : PValue) (ws3 ws4 : List Char)
      (rest : PEntries)

end

mutual

/-- The text of a value that `parseValue` reads. -/
def PValue.text : PValue → List Char
  | .num digits => digits
  | .ref ws1 name ws2 => '?' :: (ws1 ++ '(' :: (name ++ (ws2 ++ [')'])))
  | .dict ws0 entries => '{' :: (ws0 ++ (entries.text ++ ['}']))

/-- The text of the entries of a dictionary, from the first name up to the closing brace,
which is not part of it. -/
def PEntries.text : PEntries → List Char
  | .done => []
  | .last name ws1 wm ws2 value ws3 =>
    name ++ (ws1 ++ '-' :: (wm ++ '>' :: (ws2 ++ (value.text ++ ws3))))
  | .more name ws1 wm ws2 value ws3 ws4 rest =>
    name ++ (ws1 ++ '-' :: (wm ++ '>' :: (ws2 ++ (value.text
      ++ (ws3 ++ '.' :: (ws4 ++ rest.text))))))

end

mutual

/-- Whether the parts of a value are what they are named: names are names, number
literals are number literals of a value up to `INT_MAX`, whitespace is whitespace. -/
def PValue.wf : PValue → Bool
  | .num digits => isNumber digits && decide (decimalValue digits ≤ INT_MAX)
  | .ref ws1 name ws2 => isWs ws1 && isName name && isWs ws2
  | .dict ws0 entries => isWs ws0 && entries.wf

/-- Whether the parts of the entries of a dictionary are what they are named. -/
def PEntries.wf : PEntries → Bool
  | .done => true
  | .last name ws1 wm ws2 value ws3 =>
    isName name && isWs ws1 && isWs wm && isWs ws2 && value.wf && isWs ws3
  | .more name ws1 wm ws2 value ws3 ws4 rest =>
    isName name && isWs ws1 && isWs wm && isWs ws2 && value.wf && isWs ws3 && isWs ws4
      && rest.wf

end

mutual

/-- What a value denotes when the constants defined so far are `t`; `none` when it refers
to a constant that `t` does not bind. -/
def PValue.eval (t : Dict) : PValue → Option ConfigValue
  | .num digits => some (.number (Int.ofNat (decimalValue digits)))
  | .ref _ name _ => t.find name
  | .dict _ entries =>
    match entries.eval t [] with
    | some d => some (.dict d)
    | none => none

/-- The map that the entries of a dictionary add up to, starting from `acc`. -/
def PEntries.eval (t : Dict) : PEntries → Dict → Option Dict
  | .done, acc => some acc
  | .last name _ _ _ value _, acc =>
    match value.eval t with
    | some v => some (acc.assign name v)
    | none => none
  | .more name _ _ _ value _ _ rest, acc =>
    match value.eval t with
    | some v => rest.eval t (acc.assign name v)
    | none => none

end

mutual

/-- The value with the whitespace between `-` and `>` taken out of every entry. -/
def PValue.joinArrows : PValue → PValue
  | .num digits => .num digits
  | .ref ws1 name ws2 => .ref ws1 name ws2
  | .dict ws0 entries => .dict ws0 entries.joinArrows

/-- The entries with the whitespace between `-` and `>` taken out of every entry. -/
def PEntries.joinArrows : PEntries → PEntries
  | .done => .done
  | .last name ws1 _ ws2 value ws3 => .last name ws1 [] ws2 value.joinArrows ws3
  | .more name ws1 _ ws2 value ws3 ws4 rest =>
    .more name ws1 [] ws2 value.joinArrows ws3 ws4 rest.joinArrows

end

/-- What the top-level loop of `parseFile` reads in one iteration that stores a constant
or skips a comment: a definition `ws0 name ws1 "<-" ws2 value`, or a comment
`ws0 ";" body "\n"`. -/
inductive PItem where
  | definition (ws0 name ws1 ws2 : List Char) (value : PValue)
  | comment (ws0 body : List Char)

/-- The text of a top-level item. -/
def PItem.text : PItem → List Char
  | .definition ws0 name ws1 ws2 value =>
    ws0 ++ (name ++ (ws1 ++ '<' :: '-' :: (ws2 ++ value.text)))
  | .comment ws0 body => ws0 ++ ';' :: (body ++ ['\n'])

/-- Whether the parts of a top-level item are what they are named. -/
def PItem.wf : PItem → Bool
  | .definition ws0 name ws1 ws2 value =>
    isWs ws0 && isName name && isWs ws1 && isWs ws2 && value.wf
  | .comment ws0 body => isWs ws0 && body.all (fun c => c != '\n')

/-- The text of a sequence of top-level items. -/
def itemsText : List PItem → List Char
  | [] => []
  | item :: items => item.text ++ itemsText items

/-- Whether the parts of all the items are what they are named. -/
def itemsWf : List PItem → Bool
  | [] => true
  | item :: items => item.wf && itemsWf items

/-- The constant table after the items, in the order of the text, starting from `t`;
`none` when a value refers to a constant that is not bound at that point. -/
def evalItems : Dict → List PItem → Option Dict
  | t, [] => some t
  | t, .definition _ name _ _ value :: items =>
    match value.eval t with
    | some v => evalItems (t.assign name v) items
    | none => none
  | t, .comment _ _ :: items => evalItems t items

/-- What may stand behind the last item of a document that parses: whitespace, or
whitespace and a comment that the end of the input ends. -/
def isTrailer (text : List Char) : Bool :=
  isWs text ||
    (decide ((text.dropWhile isspace).headD NUL = ';')
      && (text.dropWhile isspace).all (fun c => c != '\n'))

/-! ## What the recursive descent has read when it returns -/

/-- What `parseValue` with fuel `f` has read when it returns: whitespace and the text of a
value, which denotes the value returned. -/
def ValueSound (t : Dict) (f : Nat) : Prop :=
  ∀ inp σ s v s', At inp σ t s → parseValue f s = .ok v s' →
    ∃ w a τ, isWs w = true ∧ PValue.wf a = true ∧ σ = w ++ (a.text ++ τ)
      ∧ a.eval t = some v ∧ At inp τ t s'

/-- What `parseDict` with fuel `f` has read when it returns: whitespace and a dictionary
literal, which denotes the dictionary returned. -/
def DictSound (t : Dict) (f : Nat) : Prop :=
  ∀ inp σ s v s', At inp σ t s → parseDict f s = .ok v s' →
    ∃ w ws0 es τ d, isWs w = true ∧ isWs ws0 = true ∧ PEntries.wf es = true
      ∧ σ = w ++ '{' :: (ws0 ++ (es.text ++ '}' :: τ)) ∧ es.eval t [] = some d
      ∧ v = .dict d ∧ At inp τ t s'

/-- What the entry loop of `parseDict` with fuel `f` has read when it returns: whitespace
and entries, which add up to the map returned; it returns at a closing brace or at the
end of the input. -/
def LoopSound (t : Dict) (f : Nat) : Prop :=
  ∀ inp σ s acc d s', At inp σ t s → parseDictLoop f s acc = .ok d s' →
    ∃ w es τ, isWs w = true ∧ PEntries.wf es = true ∧ σ = w ++ (es.text ++ τ)
      ∧ es.eval t acc = some d ∧ (τ = [] ∨ ∃ ρ, τ = '}' :: ρ) ∧ At inp τ t s'

/-- What the top-level loop of `parseFile` with fuel `f` has read when it returns: top-level
items and, behind them, whitespace or a comment that the end of the input ends; the table
left is the table of the items. -/
def FileSound (f : Nat) : Prop :=
  ∀ inp σ t s s', At inp σ t s → parseFileLoop f s = .ok () s' →
    ∃ items trailer t', itemsWf items = true ∧ isTrailer trailer = true
      ∧ σ = itemsText items ++ trailer ∧ evalItems t items = some t' ∧ At inp [] t' s'

end YAMLParser
namespace YAMLParser
open ConfigParser

/-! ## Facts about characters -/

theorem isspace_not_isalnum {c : Char} (h : isspace c = true) : isalnum c = false := by
  simp only [isspace, isalnum, isalpha, isdigit, Bool.or_eq_true, Bool.and_eq_true,
    decide_eq_true_eq, beq_iff_eq, Bool.or_eq_false_iff, Bool.and_eq_false_iff,
    decide_eq_false_iff_not] at *
  omega

theorem isspace_not_isdigit {c : Char} (h : isspace c = true) : isdigit c = false := by
  simp only [isspace, isdigit, Bool.or_eq_true, Bool.and_eq_true,
    decide_eq_true_eq, beq_iff_eq, Bool.and_eq_false_iff, decide_eq_false_iff_not] at *
  omega

theorem isalpha_not_isspace {c : Char} (h : isalpha c = true) : isspace c = false := by
  simp only [isspace, isalpha, Bool.or_eq_true, Bool.and_eq_true,
    decide_eq_true_eq, beq_iff_eq, Bool.or_eq_false_iff, Bool.and_eq_false_iff,
    decide_eq_false_iff_not, beq_eq_false_iff_ne] at *
  omega

theorem isalpha_not_isdigit {c : Char} (h : isalpha c = true) : isdigit c = false := by
  simp only [isdigit, isalpha, Bool.or_eq_true, Bool.and_eq_true,
    decide_eq_true_eq, Bool.and_eq_false_iff, decide_eq_false_iff_not] at *
  omega

theorem isdigit_not_isspace {c : Char} (h : isdigit c = true) : isspace c = false := by
  simp only [isspace, isdigit, Bool.or_eq_true, Bool.and_eq_true,
    decide_eq_true_eq, beq_iff_eq, Bool.or_eq_false_iff, Bool.and_eq_false_iff,
    decide_eq_false_iff_not, beq_eq_false_iff_ne] at *
  omega

theorem isalpha_isalnum {c : Char} (h : isalpha c = true) : isalnum c = true := by
  simp [isalnum, h]

theorem char_le_iff (a b : Char) : a ≤ b ↔ a.toNat ≤ b.toNat := by
  rw [Char.le_def]
  exact Iff.rfl

/-! ## Facts about `headIs` -/

@[simp] theorem headIs_nil (P : Char → Bool) : headIs P [] = false := rfl

@[simp] theorem headIs_cons (P : Char → Bool) (c : Char) (r : List Char) :
    headIs P (c :: r) = P c := rfl

theorem headIs_append_of_all {P Q : Char → Bool} {ws rest : List Char}
    (hws : ∀ c ∈ ws, Q c = true) (hQ : ∀ c, Q c = true → P c = false)
    (hrest : headIs P rest = false) : headIs P (ws ++ rest) = false := by
  cases ws with
  | nil => simpa using hrest
  | cons c r => simpa using hQ c (hws c (by simp))

/-! ## Facts about the cursor -/

@[simp] theorem cursor_input (inp : List Char) (p : Nat) (t : Dict) :
    (cursor inp p t).input = inp := rfl

@[simp] theorem cursor_pos (inp : List Char) (p : Nat) (t : Dict) :
    (cursor inp p t).pos = p := rfl

@[simp] theorem cursor_constants (inp : List Char) (p : Nat) (t : Dict) :
    (cursor inp p t).constants = t := rfl

theorem drop_after {inp a b : List Char} {p : Nat} (h : inp.drop p = a ++ b) :
    inp.drop (p + a.length) = b := by
  rw [← List.drop_drop, h, List.drop_left]

theorem lt_length_of_drop {inp r : List Char} {p : Nat} {c : Char}
    (h : inp.drop p = c :: r) : p < inp.length := by
  by_contra hlt
  have : inp.drop p = [] := List.drop_eq_nil_iff.mpr (by omega)
  rw [this] at h
  cases h

theorem getD_of_drop {inp r : List Char} {p : Nat} {c : Char}
    (h : inp.drop p = c :: r) : inp.getD p NUL = c := by
  have h1 : (inp.drop p).head? = some c := by rw [h]; rfl
  rw [List.head?_drop] at h1
  rw [List.getD_eq_getElem?_getD, h1]
  rfl

theorem currentChar_of_drop {inp r : List Char} {p : Nat} {c : Char} (t : Dict)
    (h : inp.drop p = c :: r) : (cursor inp p t).currentChar = c :=
  getD_of_drop h

theorem currentChar_of_drop_nil {inp : List Char} {p : Nat} (t : Dict)
    (h : inp.drop p = []) : (cursor inp p t).currentChar = NUL := by
  have hle : inp.length ≤ p := List.drop_eq_nil_iff.mp h
  show inp.getD p NUL = NUL
  rw [List.getD_eq_getElem?_getD, List.getElem?_eq_none hle]
  rfl

theorem advance_cursor (inp : List Char) (p : Nat) (t : Dict) :
    (cursor inp p t).advance = cursor inp (p + 1) t := by
  unfold advance cursor
  by_cases h : p + 1 < inp.length
  · simp [h]
  · have hle : inp.length ≤ p + 1 := by omega
    simp [h, List.getD_eq_getElem?_getD, List.getElem?_eq_none hle]

theorem length_le_of_drop {inp a b : List Char} {p : Nat} (h : inp.drop p = a ++ b) :
    a.length ≤ inp.length - p := by
  have := congrArg List.length h
  rw [List.length_drop, List.length_append] at this
  omega

end YAMLParser

namespace YAMLParser
open ConfigParser

/-! ## The lexical helpers on a cursor -/

theorem skipWhitespaceLoop_cursor (inp : List Char) (t : Dict) :
    ∀ (ws rest : List Char) (n p : Nat), inp.drop p = ws ++ rest →
      (∀ c ∈ ws, isspace c = true) → headIs isspace rest = false → ws.length ≤ n →
      skipWhitespaceLoop n (cursor inp p t) = cursor inp (p + ws.length) t := by
  intro ws
  induction ws with
  | nil =>
    intro rest n p h _ hrest _
    cases n with
    | zero => rfl
    | succ n =>
      simp only [List.nil_append] at h
      have hc : ¬ ((cursor inp p t).pos < (cursor inp p t).input.length
          ∧ isspace (cursor inp p t).currentChar = true) := by
        rintro ⟨h1, h2⟩
        cases rest with
        | nil =>
          have := List.drop_eq_nil_iff.mp h
          simp only [cursor_pos, cursor_input] at h1
          omega
        | cons c r =>
          rw [currentChar_of_drop t h] at h2
          simp only [headIs_cons] at hrest
          rw [hrest] at h2
          cases h2
      simp only [skipWhitespaceLoop, if_neg hc, List.length_nil, Nat.add_zero]
  | cons c ws ih =>
    intro rest n p h hws hrest hn
    cases n with
    | zero => simp at hn
    | succ n =>
      have h0 : inp.drop p = c :: (ws ++ rest) := by simpa using h
      have hc : (cursor inp p t).pos < (cursor inp p t).input.length
          ∧ isspace (cursor inp p t).currentChar = true := by
        refine ⟨lt_length_of_drop h0, ?_⟩
        rw [currentChar_of_drop t h0]
        exact hws c (by simp)
      have h1 : inp.drop (p + 1) = ws ++ rest := by
        have := drop_after (a := [c]) (b := ws ++ rest) (by simpa using h)
        simpa using this
      simp only [skipWhitespaceLoop, if_pos hc, advance_cursor]
      rw [ih rest n (p + 1) h1 (fun x hx => hws x (by simp [hx])) hrest
        (by simp at hn; omega)]
      simp only [List.length_cons]
      congr 1
      omega

/-- Function `skipWhitespace` consumes a run of whitespace that ends before a character that is
not whitespace, or at the end of the buffer. -/
theorem skipWhitespace_cursor {inp ws rest : List Char} {p : Nat} (t : Dict)
    (h : inp.drop p = ws ++ rest) (hws : ∀ c ∈ ws, isspace c = true)
    (hrest : headIs isspace rest = false) :
    (cursor inp p t).skipWhitespace = cursor inp (p + ws.length) t :=
  skipWhitespaceLoop_cursor inp t ws rest _ p h hws hrest (length_le_of_drop h)

/-- Function `skipWhitespace` stays where it is when the text ahead does not start with
whitespace. -/
theorem skipWhitespace_stay {inp rest : List Char} {p : Nat} (t : Dict)
    (h : inp.drop p = rest) (hrest : headIs isspace rest = false) :
    (cursor inp p t).skipWhitespace = cursor inp p t := by
  have := @skipWhitespace_cursor inp [] rest p t (by simpa using h) (by simp) hrest
  simpa using this

theorem parseNameLoop_cursor (inp : List Char) (t : Dict) :
    ∀ (cs rest : List Char) (n p : Nat) (acc : List Char), inp.drop p = cs ++ rest →
      (∀ c ∈ cs, isalnum c = true) → headIs isalnum rest = false → cs.length ≤ n →
      parseNameLoop n (cursor inp p t) acc = (acc ++ cs, cursor inp (p + cs.length) t) := by
  intro cs
  induction cs with
  | nil =>
    intro rest n p acc h _ hrest _
    cases n with
    | zero => simp [parseNameLoop]
    | succ n =>
      simp only [List.nil_append] at h
      have hc : ¬ ((cursor inp p t).pos < (cursor inp p t).input.length
          ∧ isalnum (cursor inp p t).currentChar = true) := by
        rintro ⟨h1, h2⟩
        cases rest with
        | nil =>
          have := List.drop_eq_nil_iff.mp h
          simp only [cursor_pos, cursor_input] at h1
          omega
        | cons c r =>
          rw [currentChar_of_drop t h] at h2
          simp only [headIs_cons] at hrest
          rw [hrest] at h2
          cases h2
      simp only [parseNameLoop, if_neg hc, List.length_nil, Nat.add_zero, List.append_nil]
  | cons c cs ih =>
    intro rest n p acc h hcs hrest hn
    cases n with
    | zero => simp at hn
    | succ n =>
      have h0 : inp.drop p = c :: (cs ++ rest) := by simpa using h
      have hc : (cursor inp p t).pos < (cursor inp p t).input.length
          ∧ isalnum (cursor inp p t).currentChar = true := by
        refine ⟨lt_length_of_drop h0, ?_⟩
        rw [currentChar_of_drop t h0]
        exact hcs c (by simp)
      have h1 : inp.drop (p + 1) = cs ++ rest := by
        have := drop_after (a := [c]) (b := cs ++ rest) (by simpa using h)
        simpa using this
      rw [parseNameLoop, if_pos hc, advance_cursor, currentChar_of_drop t h0]
      rw [ih rest n (p + 1) (acc ++ [c]) h1 (fun x hx => hcs x (by simp [hx])) hrest
        (by simp at hn; omega)]
      have harith : p + 1 + cs.length = p + (c :: cs).length := by
        simp only [List.length_cons]; omega
      rw [harith]
      simp only [List.append_assoc, List.singleton_append]

end YAMLParser

namespace YAMLParser
open ConfigParser

theorem isWs_mem {ws : List Char} (h : isWs ws = true) : ∀ c ∈ ws, isspace c = true := by
  simpa [isWs, List.all_eq_true] using h

theorem isName_cons {c : Char} {cs : List Char} (h : isName (c :: cs) = true) :
    isalpha c = true ∧ ∀ x ∈ cs, isalnum x = true := by
  simpa [isName, List.all_eq_true] using h

theorem isName_ne_nil {name : List Char} (h : isName name = true) : name ≠ [] := by
  intro h0
  rw [h0] at h
  cases h

theorem isNumber_cons {c : Char} {cs : List Char} (h : isNumber (c :: cs) = true) :
    ('1' ≤ c ∧ c ≤ '9') ∧ ∀ x ∈ cs, isdigit x = true := by
  simpa [isNumber, List.all_eq_true] using h

theorem isdigit_of_19 {c : Char} (h : '1' ≤ c ∧ c ≤ '9') : isdigit c = true := by
  rw [char_le_iff, char_le_iff] at h
  have h1 : ('1' : Char).toNat = 49 := rfl
  have h9 : ('9' : Char).toNat = 57 := rfl
  rw [h1, h9] at h
  simp only [isdigit, Bool.and_eq_true, decide_eq_true_eq]
  omega

/-- Function `parseName` reads a name that ends before a character that is neither a letter nor
a digit, or at the end of the buffer. -/
theorem parseName_cursor {inp name rest : List Char} {p : Nat} (t : Dict)
    (h : inp.drop p = name ++ rest) (hname : isName name = true)
    (hrest : headIs isalnum rest = false) :
    (cursor inp p t).parseName = (name, cursor inp (p + name.length) t) := by
  cases name with
  | nil => cases hname
  | cons c cs =>
    obtain ⟨hc, hcs⟩ := isName_cons hname
    have h0 : inp.drop p = c :: (cs ++ rest) := by simpa using h
    have hcond : (cursor inp p t).pos < (cursor inp p t).input.length
        ∧ isalpha (cursor inp p t).currentChar = true := by
      refine ⟨lt_length_of_drop h0, ?_⟩
      rw [currentChar_of_drop t h0]
      exact hc
    have h1 : inp.drop (p + 1) = cs ++ rest := by
      have := drop_after (a := [c]) (b := cs ++ rest) (by simpa using h)
      simpa using this
    rw [parseName, if_pos hcond]
    simp only [advance_cursor, currentChar_of_drop t h0]
    rw [parseNameLoop_cursor inp t cs rest _ (p + 1) [c] h1 hcs hrest
      (by simpa using length_le_of_drop h1)]
    have harith : p + 1 + cs.length = p + (c :: cs).length := by
      simp only [List.length_cons]; omega
    rw [harith]
    simp

/-- Function `parseName` yields the empty string, and does not move, when the text ahead does
not start with a letter. -/
theorem parseName_none {inp : List Char} {p : Nat} (t : Dict)
    (h : headIs isalpha (inp.drop p) = false) :
    (cursor inp p t).parseName = ([], cursor inp p t) := by
  have hcond : ¬ ((cursor inp p t).pos < (cursor inp p t).input.length
      ∧ isalpha (cursor inp p t).currentChar = true) := by
    rintro ⟨h1, h2⟩
    cases hd : inp.drop p with
    | nil =>
      have := List.drop_eq_nil_iff.mp hd
      simp only [cursor_pos, cursor_input] at h1
      omega
    | cons c r =>
      rw [currentChar_of_drop t hd] at h2
      rw [hd, headIs_cons, h2] at h
      cases h
  rw [parseName, if_neg hcond]

/-- Function `expect` skips whitespace and consumes the expected character. -/
theorem expect_cursor {inp ws rest : List Char} {p : Nat} {c : Char} (t : Dict)
    (h : inp.drop p = ws ++ c :: rest) (hws : isWs ws = true) (hc : isspace c = false) :
    (cursor inp p t).expect c = .ok () (cursor inp (p + ws.length + 1) t) := by
  have hs := skipWhitespace_cursor t h (isWs_mem hws) (by simpa using hc)
  have hcur : (cursor inp (p + ws.length) t).currentChar = c :=
    currentChar_of_drop t (drop_after h)
  simp only [expect, hs, hcur, if_true, advance_cursor]

/-- Function `expect` consumes the expected character when the cursor is on it. -/
theorem expect_here {inp r : List Char} {p : Nat} {c : Char} (t : Dict)
    (h : inp.drop p = c :: r) (hc : isspace c = false) :
    (cursor inp p t).expect c = .ok () (cursor inp (p + 1) t) := by
  have := @expect_cursor inp [] r p c t (by simpa using h) rfl hc
  simpa using this

/-- Function `expect` throws, at the first character after the whitespace, when that character
is not the expected one. -/
theorem expect_fail {inp ws rest : List Char} {p : Nat} {e : Char} (t : Dict)
    (h : inp.drop p = ws ++ rest) (hws : isWs ws = true)
    (hrest : headIs isspace rest = false)
    (hne : (cursor inp (p + ws.length) t).currentChar ≠ e) :
    (cursor inp p t).expect e =
      (cursor inp (p + ws.length) t).error ("Expected '" ++ String.singleton e ++ "', got '"
        ++ String.singleton (cursor inp (p + ws.length) t).currentChar ++ "'") := by
  have hs := skipWhitespace_cursor t h (isWs_mem hws) hrest
  simp only [expect, hs, if_neg hne]

theorem parseNumberLoop_cursor (inp : List Char) (t : Dict) :
    ∀ (cs rest : List Char) (n p : Nat) (acc : List Char), inp.drop p = cs ++ rest →
      (∀ c ∈ cs, isdigit c = true) → headIs isdigit rest = false → cs.length ≤ n →
      parseNumberLoop n (cursor inp p t) acc = (acc ++ cs, cursor inp (p + cs.length) t) := by
  intro cs
  induction cs with
  | nil =>
    intro rest n p acc h _ hrest _
    cases n with
    | zero => simp [parseNumberLoop]
    | succ n =>
      simp only [List.nil_append] at h
      have hc : ¬ ((cursor inp p t).pos < (cursor inp p t).input.length
          ∧ isdigit (cursor inp p t).currentChar = true) := by
        rintro ⟨h1, h2⟩
        cases rest with
        | nil =>
          have := List.drop_eq_nil_iff.mp h
          simp only [cursor_pos, cursor_input] at h1
          omega
        | cons c r =>
          rw [currentChar_of_drop t h] at h2
          simp only [headIs_cons] at hrest
          rw [hrest] at h2
          cases h2
      simp only [parseNumberLoop, if_neg hc, List.length_nil, Nat.add_zero, List.append_nil]
  | cons c cs ih =>
    intro rest n p acc h hcs hrest hn
    cases n with
    | zero => simp at hn
    | succ n =>
      have h0 : inp.drop p = c :: (cs ++ rest) := by simpa using h
      have hc : (cursor inp p t).pos < (cursor inp p t).input.length
          ∧ isdigit (cursor inp p t).currentChar = true := by
        refine ⟨lt_length_of_drop h0, ?_⟩
        rw [currentChar_of_drop t h0]
        exact hcs c (by simp)
      have h1 : inp.drop (p + 1) = cs ++ rest := by
        have := drop_after (a := [c]) (b := cs ++ rest) (by simpa using h)
        simpa using this
      rw [parseNumberLoop, if_pos hc, advance_cursor, currentChar_of_drop t h0]
      rw [ih rest n (p + 1) (acc ++ [c]) h1 (fun x hx => hcs x (by simp [hx])) hrest
        (by simp at hn; omega)]
      have harith : p + 1 + cs.length = p + (c :: cs).length := by
        simp only [List.length_cons]; omega
      rw [harith]
      simp only [List.append_assoc, List.singleton_append]

theorem isNumber_all_isdigit {ds : List Char} (h : isNumber ds = true) :
    ∀ c ∈ ds, isdigit c = true := by
  cases ds with
  | nil => cases h
  | cons c cs =>
    obtain ⟨h1, h2⟩ := isNumber_cons h
    intro x hx
    rcases List.mem_cons.mp hx with rfl | hx
    · exact isdigit_of_19 h1
    · exact h2 x hx

/-- Function `std::stoi` on a non-empty string of digits. -/
theorem stoi_digits {ds : List Char} (hne : ds ≠ []) (h : ∀ c ∈ ds, isdigit c = true) :
    stoi ds = if decimalValue ds ≤ INT_MAX then some (Int.ofNat (decimalValue ds)) else none := by
  have htw : ds.takeWhile (fun c => isdigit c) = ds := List.takeWhile_eq_self_iff.mpr h
  simp only [stoi, htw, if_neg hne]

/-- Function `parseNumber` on a number literal that ends before a character that is not a digit,
or at the end of the buffer: it consumes exactly the literal; the result is its value
when that is at most `INT_MAX`, and the exception "Invalid number" otherwise. -/
theorem parseNumber_cursor {inp ds rest : List Char} {p : Nat} (t : Dict)
    (h : inp.drop p = ds ++ rest) (hds : isNumber ds = true)
    (hrest : headIs isdigit rest = false) :
    (cursor inp p t).parseNumber =
      if decimalValue ds ≤ INT_MAX then
        .ok (.number (Int.ofNat (decimalValue ds))) (cursor inp (p + ds.length) t)
      else
        (cursor inp (p + ds.length) t).error ("Invalid number: " ++ String.mk ds) := by
  cases ds with
  | nil => cases hds
  | cons c cs =>
    obtain ⟨hc, hcs⟩ := isNumber_cons hds
    have h0 : inp.drop p = c :: (cs ++ rest) := by simpa using h
    have hcur := currentChar_of_drop t h0
    have hcond : '1' ≤ (cursor inp p t).currentChar ∧ (cursor inp p t).currentChar ≤ '9' := by
      rw [hcur]; exact hc
    have h1 : inp.drop (p + 1) = cs ++ rest := by
      have := drop_after (a := [c]) (b := cs ++ rest) (by simpa using h)
      simpa using this
    rw [parseNumber, if_pos hcond]
    simp only [advance_cursor, hcur]
    rw [parseNumberLoop_cursor inp t cs rest _ (p + 1) [c] h1 hcs hrest
      (by simpa using length_le_of_drop h1)]
    have harith : p + 1 + cs.length = p + (c :: cs).length := by
      simp only [List.length_cons]; omega
    rw [harith]
    simp only [List.singleton_append]
    rw [stoi_digits (by simp) (isNumber_all_isdigit hds)]
    by_cases hle : decimalValue (c :: cs) ≤ INT_MAX
    · simp only [if_pos hle]
    · simp only [if_neg hle]

/-- Function `parseNumber` throws without moving when the current character is not `1`..`9`. -/
theorem parseNumber_bad_start (s : ConfigParser)
    (h : ¬ ('1' ≤ s.currentChar ∧ s.currentChar ≤ '9')) :
    s.parseNumber = s.error "Number must start with digit 1-9" := by
  rw [parseNumber, if_neg h]

/-- Function `parseConstantExpression` on `?(name)`: the value bound to `name`, or the exception
"Undefined constant" when there is none. -/
theorem parseConstantExpression_cursor {inp name rest : List Char} {p : Nat} (t : Dict)
    (h : inp.drop p = '?' :: '(' :: (name ++ ')' :: rest)) (hname : isName name = true) :
    (cursor inp p t).parseConstantExpression =
      match t.find name with
      | some value => .ok value (cursor inp (p + name.length + 3) t)
      | none => (cursor inp (p + name.length + 3) t).error
          ("Undefined constant: " ++ String.mk name) := by
  have e1 := expect_here (c := '?') t h (by decide)
  have h1 : inp.drop (p + 1) = '(' :: (name ++ ')' :: rest) := by
    have := drop_after (a := ['?']) (by simpa using h)
    simpa using this
  have e2 := expect_here (c := '(') t h1 (by decide)
  have h2 : inp.drop (p + 1 + 1) = name ++ ')' :: rest := by
    have := drop_after (a := ['(']) (by simpa using h1)
    simpa using this
  have e3 := parseName_cursor t h2 hname (by simp; decide)
  have h3 := drop_after h2
  have e4 := expect_here (c := ')') t h3 (by decide)
  have harith : p + 1 + 1 + name.length + 1 = p + name.length + 3 := by omega
  rw [harith] at e4
  simp only [parseConstantExpression, e1, e2, e3, e4, if_neg (isName_ne_nil hname),
    cursor_constants]
  cases t.find name <;> rfl

end YAMLParser

namespace YAMLParser
open ConfigParser

/-! ## One step of the recursive descent -/

/-- Function `parseValue` on a number literal, after whitespace. -/
theorem parseValue_number {inp wsb ds rest : List Char} {p : Nat} (t : Dict) (fuel : Nat)
    (h : inp.drop p = wsb ++ (ds ++ rest)) (hws : isWs wsb = true)
    (hds : isNumber ds = true) (hrest : headIs isdigit rest = false) :
    parseValue (fuel + 1) (cursor inp p t) =
      if decimalValue ds ≤ INT_MAX then
        .ok (.number (Int.ofNat (decimalValue ds))) (cursor inp (p + wsb.length + ds.length) t)
      else
        (cursor inp (p + wsb.length + ds.length) t).error
          ("Invalid number: " ++ String.mk ds) := by
  cases ds with
  | nil => cases hds
  | cons c cs =>
    have hc : isdigit c = true := isNumber_all_isdigit hds c (by simp)
    have hs := skipWhitespace_cursor t h (isWs_mem hws)
      (by simpa using isdigit_not_isspace hc)
    have h1 := drop_after h
    have hcur : (cursor inp (p + wsb.length) t).currentChar = c :=
      currentChar_of_drop t (by simpa using h1)
    have n1 : c ≠ '{' := by rintro rfl; exact absurd hc (by decide)
    have n2 : c ≠ '?' := by rintro rfl; exact absurd hc (by decide)
    rw [parseValue]
    simp only [hs, hcur, if_neg n1, if_neg n2, hc, if_true]
    exact parseNumber_cursor t h1 hds hrest

/-- Function `parseValue` on `?(name)`, after whitespace. -/
theorem parseValue_reference {inp wsb name rest : List Char} {p : Nat} (t : Dict) (fuel : Nat)
    (h : inp.drop p = wsb ++ '?' :: '(' :: (name ++ ')' :: rest)) (hws : isWs wsb = true)
    (hname : isName name = true) :
    parseValue (fuel + 1) (cursor inp p t) =
      match t.find name with
      | some value => .ok value (cursor inp (p + wsb.length + name.length + 3) t)
      | none => (cursor inp (p + wsb.length + name.length + 3) t).error
          ("Undefined constant: " ++ String.mk name) := by
  have hs := skipWhitespace_cursor t h (isWs_mem hws) (by simp; decide)
  have h1 := drop_after h
  have hcur : (cursor inp (p + wsb.length) t).currentChar = '?' :=
    currentChar_of_drop t h1
  rw [parseValue]
  simp only [hs, hcur, if_neg (show ('?' : Char) ≠ '{' by decide), if_true]
  exact parseConstantExpression_cursor t h1 hname

/-- Function `parseValue` on a text that starts, after whitespace, with a digit `0`: the exception
"Number must start with digit 1-9" at the offset of that digit. -/
theorem parseValue_zero {inp wsb rest : List Char} {p : Nat} (t : Dict) (fuel : Nat)
    (h : inp.drop p = wsb ++ '0' :: rest) (hws : isWs wsb = true) :
    parseValue (fuel + 1) (cursor inp p t) =
      (cursor inp (p + wsb.length) t).error "Number must start with digit 1-9" := by
  have hs := skipWhitespace_cursor t h (isWs_mem hws) (by simp; decide)
  have h1 := drop_after h
  have hcur : (cursor inp (p + wsb.length) t).currentChar = '0' :=
    currentChar_of_drop t h1
  rw [parseValue]
  simp only [hs, hcur, if_neg (show ('0' : Char) ≠ '{' by decide),
    if_neg (show ('0' : Char) ≠ '?' by decide), show isdigit '0' = true by decide, if_true]
  apply parseNumber_bad_start
  rw [hcur]
  decide

/-- Function `parseValue` on a text that starts, after whitespace, with an opening brace, is
`parseDict` at that brace, and `parseDict` consumes the brace, runs its loop and expects
the closing brace. -/
theorem parseValue_brace {inp wsb rest : List Char} {p : Nat} (t : Dict) (fuel : Nat)
    (h : inp.drop p = wsb ++ '{' :: rest) (hws : isWs wsb = true) :
    parseValue (fuel + 2) (cursor inp p t) =
      match parseDictLoop fuel (cursor inp (p + wsb.length + 1) t) [] with
      | .thrown w s => .thrown w s
      | .outOfFuel => .outOfFuel
      | .ok dict s2 =>
        match s2.expect '}' with
        | .thrown w s => .thrown w s
        | .outOfFuel => .outOfFuel
        | .ok _ s3 => .ok (.dict dict) s3 := by
  have hs := skipWhitespace_cursor t h (isWs_mem hws) (by simp; decide)
  have h1 := drop_after h
  have hcur : (cursor inp (p + wsb.length) t).currentChar = '{' :=
    currentChar_of_drop t h1
  have e1 := expect_here (c := '{') t h1 (by decide)
  rw [parseValue]
  simp only [hs, hcur, if_true]
  rw [parseDict]
  simp only [e1]

/-- The loop of `parseDict` ends at the closing brace, after whitespace. -/
theorem parseDictLoop_done {inp wsb rest : List Char} {p : Nat} (t : Dict) (fuel : Nat)
    (acc : Dict) (h : inp.drop p = wsb ++ '}' :: rest) (hws : isWs wsb = true) :
    parseDictLoop (fuel + 1) (cursor inp p t) acc = .ok acc (cursor inp (p + wsb.length) t) := by
  have hs := skipWhitespace_cursor t h (isWs_mem hws) (by simp; decide)
  have h1 := drop_after h
  have hcur : (cursor inp (p + wsb.length) t).currentChar = '}' :=
    currentChar_of_drop t h1
  rw [parseDictLoop]
  by_cases hc : (cursor inp p t).pos < (cursor inp p t).input.length
      ∧ (cursor inp p t).currentChar ≠ '}'
  · simp only [if_pos hc, hs, hcur, if_true]
  · rw [if_neg hc]
    cases wsb with
    | nil => simp
    | cons c cs =>
      exfalso
      apply hc
      have h0 : inp.drop p = c :: (cs ++ '}' :: rest) := by simpa using h
      refine ⟨lt_length_of_drop h0, ?_⟩
      rw [currentChar_of_drop t h0]
      rintro rfl
      exact absurd (isWs_mem hws '}' (by simp)) (by decide)

end YAMLParser

namespace YAMLParser
open ConfigParser

/-- One iteration of the loop of `parseDict` up to the value of the entry: the name,
the arrow, and then `parseValue`. -/
theorem parseDictLoop_header {inp wsb name ws1 r1 : List Char} {p : Nat} (t : Dict)
    (fuel : Nat) (acc : Dict)
    (h : inp.drop p = wsb ++ (name ++ (ws1 ++ '-' :: '>' :: r1)))
    (hws : isWs wsb = true) (hname : isName name = true) (hws1 : isWs ws1 = true) :
    parseDictLoop (fuel + 1) (cursor inp p t) acc =
      match parseValue fuel (cursor inp (p + wsb.length + name.length + ws1.length + 2) t) with
      | .thrown w s => .thrown w s
      | .outOfFuel => .outOfFuel
      | .ok value s6 =>
        if s6.skipWhitespace.currentChar = '.' then
          parseDictLoop fuel s6.skipWhitespace.advance.skipWhitespace (acc.assign name value)
        else if s6.skipWhitespace.currentChar ≠ '}' then
          s6.skipWhitespace.error "Expected '.' or '\x7d' after dictionary entry"
        else
          parseDictLoop fuel s6.skipWhitespace.skipWhitespace (acc.assign name value) := by
  cases name with
  | nil => cases hname
  | cons a as =>
    obtain ⟨ha, _⟩ := isName_cons hname
    -- the loop condition holds: the text ahead starts with whitespace or a letter
    have hcond : (cursor inp p t).pos < (cursor inp p t).input.length
        ∧ (cursor inp p t).currentChar ≠ '}' := by
      cases wsb with
      | nil =>
        have h0 : inp.drop p = a :: (as ++ (ws1 ++ '-' :: '>' :: r1)) := by simpa using h
        refine ⟨lt_length_of_drop h0, ?_⟩
        rw [currentChar_of_drop t h0]
        rintro rfl
        exact absurd ha (by decide)
      | cons c cs =>
        have h0 : inp.drop p = c :: (cs ++ (a :: as ++ (ws1 ++ '-' :: '>' :: r1))) := by
          simpa using h
        refine ⟨lt_length_of_drop h0, ?_⟩
        rw [currentChar_of_drop t h0]
        rintro rfl
        exact absurd (isWs_mem hws '}' (by simp)) (by decide)
    have hs1 := skipWhitespace_cursor t h (isWs_mem hws)
      (by simpa using isalpha_not_isspace ha)
    have h1 := drop_after h
    have hcur1 : (cursor inp (p + wsb.length) t).currentChar = a :=
      currentChar_of_drop t (by simpa using h1)
    have hne1 : a ≠ '}' := by rintro rfl; exact absurd ha (by decide)
    have hn := parseName_cursor t h1 hname
      (headIs_append_of_all (isWs_mem hws1) (fun c hc => isspace_not_isalnum hc)
        (by simp; decide))
    have h2 := drop_after h1
    have hs2 := skipWhitespace_cursor t h2 (isWs_mem hws1) (by simp; decide)
    have h3 := drop_after h2
    have e1 : (cursor inp (p + wsb.length + (a :: as).length + ws1.length) t).expect '-'
        = .ok () (cursor inp (p + wsb.length + (a :: as).length + ws1.length + 1) t) :=
      expect_here t h3 (by decide)
    have h4 : inp.drop (p + wsb.length + (a :: as).length + ws1.length + 1) = '>' :: r1 := by
      have := drop_after (a := ['-']) (by simpa using h3)
      simpa using this
    have e2 : (cursor inp (p + wsb.length + (a :: as).length + ws1.length + 1) t).expect '>'
        = .ok () (cursor inp (p + wsb.length + (a :: as).length + ws1.length + 2) t) :=
      expect_here t h4 (by decide)
    rw [parseDictLoop, if_pos hcond]
    simp only [hs1, hcur1, if_neg hne1, hn, if_neg (isName_ne_nil hname), hs2, e1, e2]

/-- An iteration of the loop of `parseDict` in which `parseValue` throws, throws. -/
theorem parseDictLoop_entry_thrown {inp wsb name ws1 r1 : List Char} {p : Nat} (t : Dict)
    (fuel : Nat) (acc : Dict) {w : String} {s : ConfigParser}
    (h : inp.drop p = wsb ++ (name ++ (ws1 ++ '-' :: '>' :: r1)))
    (hws : isWs wsb = true) (hname : isName name = true) (hws1 : isWs ws1 = true)
    (hv : parseValue fuel (cursor inp (p + wsb.length + name.length + ws1.length + 2) t)
      = .thrown w s) :
    parseDictLoop (fuel + 1) (cursor inp p t) acc = .thrown w s := by
  rw [parseDictLoop_header t fuel acc h hws hname hws1, hv]

/-- An iteration of the loop of `parseDict` over an entry that the closing brace
follows: the entry is stored and the loop goes on at the brace. -/
theorem parseDictLoop_entry_close {inp wsb name ws1 r1 ws3 r2 : List Char} {p q : Nat}
    (t : Dict) (fuel : Nat) (acc : Dict) {value : ConfigValue}
    (h : inp.drop p = wsb ++ (name ++ (ws1 ++ '-' :: '>' :: r1)))
    (hws : isWs wsb = true) (hname : isName name = true) (hws1 : isWs ws1 = true)
    (hv : parseValue fuel (cursor inp (p + wsb.length + name.length + ws1.length + 2) t)
      = .ok value (cursor inp q t))
    (h2 : inp.drop q = ws3 ++ '}' :: r2) (hws3 : isWs ws3 = true) :
    parseDictLoop (fuel + 1) (cursor inp p t) acc =
      parseDictLoop fuel (cursor inp (q + ws3.length) t) (acc.assign name value) := by
  have hs := skipWhitespace_cursor t h2 (isWs_mem hws3) (by simp; decide)
  have h3 := drop_after h2
  have hcur : (cursor inp (q + ws3.length) t).currentChar = '}' := currentChar_of_drop t h3
  have hs' := skipWhitespace_stay t h3 (by simp; decide)
  rw [parseDictLoop_header t fuel acc h hws hname hws1, hv]
  simp only [hs, hcur, hs', if_neg (show ('}' : Char) ≠ '.' by decide), ne_eq,
    not_true_eq_false, if_false]

/-- An iteration of the loop of `parseDict` over an entry that a separator follows: the
entry is stored and the loop goes on after the separator and the whitespace behind it. -/
theorem parseDictLoop_entry_sep {inp wsb name ws1 r1 ws3 ws4 r2 : List Char} {p q : Nat}
    (t : Dict) (fuel : Nat) (acc : Dict) {value : ConfigValue}
    (h : inp.drop p = wsb ++ (name ++ (ws1 ++ '-' :: '>' :: r1)))
    (hws : isWs wsb = true) (hname : isName name = true) (hws1 : isWs ws1 = true)
    (hv : parseValue fuel (cursor inp (p + wsb.length + name.length + ws1.length + 2) t)
      = .ok value (cursor inp q t))
    (h2 : inp.drop q = ws3 ++ '.' :: (ws4 ++ r2)) (hws3 : isWs ws3 = true)
    (hws4 : isWs ws4 = true) (hr2 : headIs isspace r2 = false) :
    parseDictLoop (fuel + 1) (cursor inp p t) acc =
      parseDictLoop fuel (cursor inp (q + ws3.length + 1 + ws4.length) t)
        (acc.assign name value) := by
  have hs := skipWhitespace_cursor t h2 (isWs_mem hws3) (by simp; decide)
  have h3 := drop_after h2
  have hcur : (cursor inp (q + ws3.length) t).currentChar = '.' := currentChar_of_drop t h3
  have h4 : inp.drop (q + ws3.length + 1) = ws4 ++ r2 := by
    have := drop_after (a := ['.']) (by simpa using h3)
    simpa using this
  have hs' := skipWhitespace_cursor t h4 (isWs_mem hws4) hr2
  rw [parseDictLoop_header t fuel acc h hws hname hws1, hv]
  simp only [hs, hcur, if_true, advance_cursor, hs']

/-- After its loop, `parseDict` consumes the closing brace. -/
theorem parseValue_dict_close {inp wsb rest r2 : List Char} {p q : Nat} (t : Dict)
    (fuel : Nat) {dict : Dict}
    (h : inp.drop p = wsb ++ '{' :: rest) (hws : isWs wsb = true)
    (hl : parseDictLoop fuel (cursor inp (p + wsb.length + 1) t) [] = .ok dict (cursor inp q t))
    (h2 : inp.drop q = '}' :: r2) :
    parseValue (fuel + 2) (cursor inp p t) = .ok (.dict dict) (cursor inp (q + 1) t) := by
  have e := expect_here (c := '}') t h2 (by decide)
  rw [parseValue_brace t fuel h hws, hl]
  simp only [e]

/-- When the loop of `parseDict` throws, so does `parseValue`. -/
theorem parseValue_dict_thrown {inp wsb rest : List Char} {p : Nat} (t : Dict)
    (fuel : Nat) {w : String} {s : ConfigParser}
    (h : inp.drop p = wsb ++ '{' :: rest) (hws : isWs wsb = true)
    (hl : parseDictLoop fuel (cursor inp (p + wsb.length + 1) t) [] = .thrown w s) :
    parseValue (fuel + 2) (cursor inp p t) = .thrown w s := by
  rw [parseValue_brace t fuel h hws, hl]

end YAMLParser

namespace YAMLParser
open ConfigParser

/-! ## The parser on the text of a syntax tree -/

theorem drop_after2 {inp a b c : List Char} {p : Nat} (h : inp.drop p = a ++ (b ++ c)) :
    inp.drop (p + a.length + b.length) = c :=
  drop_after (drop_after h)

theorem SValue.headIs_isspace_text (v : SValue) (hwf : v.wf = true) (rest : List Char) :
    headIs isspace (v.text ++ rest) = false := by
  cases v with
  | num ds =>
    cases ds with
    | nil => simp [SValue.wf, isNumber] at hwf
    | cons c cs =>
      have h1 : isNumber (c :: cs) = true := by
        simp only [SValue.wf, Bool.and_eq_true] at hwf; exact hwf.1
      simpa [SValue.text] using isdigit_not_isspace (isNumber_all_isdigit h1 c (by simp))
  | ref n => simp [SValue.text]; decide
  | empty ws => simp [SValue.text]; decide
  | dict ws es => simp [SValue.text]; decide

mutual

/-- Function `parseValue` on the text of a value whose references are bound yields what the value
denotes and consumes exactly that text. -/
theorem parseValue_text (t : Dict) (inp : List Char) :
    ∀ (v : SValue) (wsb rest : List Char) (p fuel : Nat) (cv : ConfigValue),
      v.wf = true → v.eval t = some cv → inp.drop p = wsb ++ (v.text ++ rest) →
      isWs wsb = true → headIs isdigit rest = false → v.text.length < fuel →
      parseValue fuel (cursor inp p t) = .ok cv (cursor inp (p + wsb.length + v.text.length) t)
  | .num ds, wsb, rest, p, fuel, cv, hwf, hev, h, hws, hrest, hfuel => by
    simp only [SValue.wf, Bool.and_eq_true, decide_eq_true_eq] at hwf
    simp only [SValue.eval, Option.some.injEq] at hev
    simp only [SValue.text] at h hfuel ⊢
    obtain ⟨f, rfl⟩ : ∃ f, fuel = f + 1 := ⟨fuel - 1, by omega⟩
    rw [parseValue_number t f h hws hwf.1 hrest, if_pos hwf.2, hev]
  | .ref n, wsb, rest, p, fuel, cv, hwf, hev, h, hws, _, hfuel => by
    simp only [SValue.wf] at hwf
    simp only [SValue.eval] at hev
    simp only [SValue.text] at h hfuel ⊢
    obtain ⟨f, rfl⟩ : ∃ f, fuel = f + 1 := ⟨fuel - 1, by omega⟩
    rw [@parseValue_reference inp wsb n rest p t f (by simpa using h) hws hwf, hev]
    simp only [List.length_cons, List.length_append, List.length_nil]
    congr 2
  | .empty ws, wsb, rest, p, fuel, cv, hwf, hev, h, hws, _, hfuel => by
    simp only [SValue.wf] at hwf
    simp only [SValue.eval, Option.some.injEq] at hev
    simp only [SValue.text] at h hfuel ⊢
    simp only [List.length_cons, List.length_append, List.length_nil] at hfuel
    obtain ⟨f, rfl⟩ : ∃ f, fuel = f + 3 := ⟨fuel - 3, by omega⟩
    have h0 : inp.drop p = wsb ++ '{' :: (ws ++ '}' :: rest) := by simpa using h
    have h1 : inp.drop (p + wsb.length + 1) = ws ++ '}' :: rest := by
      have := drop_after2 (a := wsb) (b := ['{']) (by simpa using h0)
      simpa using this
    have hl := parseDictLoop_done t f [] h1 hwf
    have h2 := drop_after h1
    rw [parseValue_dict_close t (f + 1) h0 hws hl h2, hev]
    simp only [List.length_cons, List.length_append, List.length_nil]
    congr 2
    omega
  | .dict ws es, wsb, rest, p, fuel, cv, hwf, hev, h, hws, _, hfuel => by
    simp only [SValue.wf, Bool.and_eq_true] at hwf
    simp only [SValue.text] at h hfuel ⊢
    simp only [List.length_cons, List.length_append, List.length_nil] at hfuel
    obtain ⟨f, rfl⟩ : ∃ f, fuel = f + 2 := ⟨fuel - 2, by omega⟩
    cases hd : es.eval t [] with
    | none => simp [SValue.eval, hd] at hev
    | some d =>
      simp only [SValue.eval, hd, Option.some.injEq] at hev
      have h0 : inp.drop p = wsb ++ '{' :: (ws ++ (es.text ++ '}' :: rest)) := by
        simpa using h
      have h1 : inp.drop (p + wsb.length + 1) = ws ++ (es.text ++ '}' :: rest) := by
        have := drop_after2 (a := wsb) (b := ['{']) (by simpa using h0)
        simpa using this
      have hl := parseDictLoop_text t inp es ws rest (p + wsb.length + 1) f [] d hwf.2 hd h1
        hwf.1 (by omega)
      have h2 := drop_after2 h1
      rw [parseValue_dict_close t f h0 hws hl h2, hev]
      simp only [List.length_cons, List.length_append, List.length_nil]
      congr 2
      omega

/-- The loop of `parseDict` on the text of the entries of a dictionary yields the map
they add up to and stops at the closing brace. -/
theorem parseDictLoop_text (t : Dict) (inp : List Char) :
    ∀ (es : SEntries) (wsb rest : List Char) (p fuel : Nat) (acc d : Dict),
      es.wf = true → es.eval t acc = some d → inp.drop p = wsb ++ (es.text ++ '}' :: rest) →
      isWs wsb = true → es.text.length < fuel →
      parseDictLoop fuel (cursor inp p t) acc =
        .ok d (cursor inp (p + wsb.length + es.text.length) t)
  | .last n w1 w2 v w3, wsb, rest, p, fuel, acc, d, hwf, hev, h, hws, hfuel => by
    simp only [SEntries.wf, Bool.and_eq_true] at hwf
    obtain ⟨⟨⟨⟨hn, hw1⟩, hw2⟩, hv⟩, hw3⟩ := hwf
    simp only [SEntries.text] at h hfuel ⊢
    simp only [List.length_cons, List.length_append, List.length_nil] at hfuel
    have hnl : 0 < n.length := List.length_pos.mpr (isName_ne_nil hn)
    obtain ⟨f, rfl⟩ : ∃ f, fuel = f + 2 := ⟨fuel - 2, by omega⟩
    cases hcv : v.eval t with
    | none => simp [SEntries.eval, hcv] at hev
    | some cv =>
      simp only [SEntries.eval, hcv, Option.some.injEq] at hev
      have h0 : inp.drop p
          = wsb ++ (n ++ (w1 ++ '-' :: '>' :: (w2 ++ (v.text ++ (w3 ++ '}' :: rest))))) := by
        simpa using h
      have h1 : inp.drop (p + wsb.length + n.length + w1.length + 2)
          = w2 ++ (v.text ++ (w3 ++ '}' :: rest)) := by
        have := drop_after (a := ['-', '>']) (b := w2 ++ (v.text ++ (w3 ++ '}' :: rest)))
          (by simpa using drop_after (drop_after2 h0))
        simpa using this
      have hpv := parseValue_text t inp v w2 (w3 ++ '}' :: rest) _ (f + 1) cv hv hcv h1 hw2
        (headIs_append_of_all (isWs_mem hw3) (fun c hc => isspace_not_isdigit hc)
          (by simp; decide)) (by omega)
      have h2 := drop_after2 h1
      rw [parseDictLoop_entry_close t (f + 1) acc h0 hws hn hw1 hpv h2 hw3]
      have h3 := drop_after h2
      have := @parseDictLoop_done inp [] rest _ t f (acc.assign n cv) (by simpa using h3) rfl
      rw [this, hev]
      simp only [List.length_cons, List.length_append, List.length_nil]
      congr 2
      omega
  | .more n w1 w2 v w3 w4 es, wsb, rest, p, fuel, acc, d, hwf, hev, h, hws, hfuel => by
    simp only [SEntries.wf, Bool.and_eq_true] at hwf
    obtain ⟨⟨⟨⟨⟨⟨hn, hw1⟩, hw2⟩, hv⟩, hw3⟩, hw4⟩, hes⟩ := hwf
    simp only [SEntries.text] at h hfuel ⊢
    simp only [List.length_cons, List.length_append, List.length_nil] at hfuel
    obtain ⟨f, rfl⟩ : ∃ f, fuel = f + 1 := ⟨fuel - 1, by omega⟩
    cases hcv : v.eval t with
    | none => simp [SEntries.eval, hcv] at hev
    | some cv =>
      simp only [SEntries.eval, hcv] at hev
      have h0 : inp.drop p = wsb ++ (n ++ (w1 ++ '-' :: '>' ::
          (w2 ++ (v.text ++ (w3 ++ '.' :: (w4 ++ (es.text ++ '}' :: rest))))))) := by
        simpa using h
      have h1 : inp.drop (p + wsb.length + n.length + w1.length + 2)
          = w2 ++ (v.text ++ (w3 ++ '.' :: (w4 ++ (es.text ++ '}' :: rest)))) := by
        have := drop_after (a := ['-', '>'])
          (b := w2 ++ (v.text ++ (w3 ++ '.' :: (w4 ++ (es.text ++ '}' :: rest)))))
          (by simpa using drop_after (drop_after2 h0))
        simpa using this
      have hpv := parseValue_text t inp v w2 (w3 ++ '.' :: (w4 ++ (es.text ++ '}' :: rest)))
        _ f cv hv hcv h1 hw2
        (headIs_append_of_all (isWs_mem hw3) (fun c hc => isspace_not_isdigit hc)
          (by simp; decide)) (by omega)
      have h2 := drop_after2 h1
      have hes_head : headIs isspace (es.text ++ '}' :: rest) = false := by
        cases es with
        | last n' _ _ _ _ =>
          simp only [SEntries.wf, Bool.and_eq_true] at hes
          obtain ⟨a, as, rfl⟩ := List.exists_cons_of_ne_nil (isName_ne_nil hes.1.1.1.1)
          simpa [SEntries.text] using isalpha_not_isspace (isName_cons hes.1.1.1.1).1
        | more n' _ _ _ _ _ _ =>
          simp only [SEntries.wf, Bool.and_eq_true] at hes
          obtain ⟨a, as, rfl⟩ := List.exists_cons_of_ne_nil (isName_ne_nil hes.1.1.1.1.1.1)
          simpa [SEntries.text] using isalpha_not_isspace (isName_cons hes.1.1.1.1.1.1).1
      rw [parseDictLoop_entry_sep t f acc h0 hws hn hw1 hpv h2 hw3 hw4 hes_head]
      have h3 : inp.drop (p + wsb.length + n.length + w1.length + 2 + w2.length + v.text.length
          + w3.length + 1 + w4.length) = [] ++ (es.text ++ '}' :: rest) := by
        have := drop_after (a := ['.']) (drop_after h2)
        simpa using drop_after this
      rw [parseDictLoop_text t inp es [] rest _ f (acc.assign n cv) d hes hev h3 rfl (by omega)]
      simp only [List.length_cons, List.length_append, List.length_nil]
      congr 2
      omega

end

end YAMLParser

namespace YAMLParser
open ConfigParser

/-! ## One iteration of the loop of `parseFile` -/

/-- The lookahead of `parseFile` after a name: the two characters `<-`. -/
theorem lookahead_arrow {inp r : List Char} {q : Nat} (t : Dict)
    (h : inp.drop q = '<' :: '-' :: r) :
    (cursor inp q t).currentChar = '<' ∧ q + 1 < inp.length ∧ inp.getD (q + 1) NUL = '-' := by
  have h1 : inp.drop (q + 1) = '-' :: r := by
    have := drop_after (a := ['<']) (by simpa using h)
    simpa using this
  exact ⟨currentChar_of_drop t h, lt_length_of_drop h1, getD_of_drop h1⟩

/-- Function `parseConstant` on `name <-`: it reads the name, consumes the definition token and
calls `parseValue`; the value is stored under the name. -/
theorem parseConstant_header {inp name ws1 r1 : List Char} {q : Nat} (t : Dict)
    (fuel : Nat) (h : inp.drop q = name ++ (ws1 ++ '<' :: '-' :: r1))
    (hname : isName name = true) (hws1 : isWs ws1 = true) :
    parseConstant fuel (cursor inp q t) =
      match parseValue fuel (cursor inp (q + name.length + ws1.length + 2) t) with
      | .thrown w s => .thrown w s
      | .outOfFuel => .outOfFuel
      | .ok value s5 => .ok () { s5 with constants := s5.constants.assign name value } := by
  have hn := parseName_cursor t h hname
    (headIs_append_of_all (isWs_mem hws1) (fun c hc => isspace_not_isalnum hc)
      (by simp; decide))
  have h2 := drop_after h
  have hs2 := skipWhitespace_cursor t h2 (isWs_mem hws1) (by simp; decide)
  have h3 := drop_after h2
  have e1 : (cursor inp (q + name.length + ws1.length) t).expect '<'
      = .ok () (cursor inp (q + name.length + ws1.length + 1) t) :=
    expect_here t h3 (by decide)
  have h4 : inp.drop (q + name.length + ws1.length + 1) = '-' :: r1 := by
    have := drop_after (a := ['<']) (by simpa using h3)
    simpa using this
  have e2 : (cursor inp (q + name.length + ws1.length + 1) t).expect '-'
      = .ok () (cursor inp (q + name.length + ws1.length + 2) t) :=
    expect_here t h4 (by decide)
  simp only [parseConstant, hn, if_neg (isName_ne_nil hname), hs2, e1, e2]

/-- An iteration of the loop of `parseFile` over `name <-`: the lookahead sees the
definition token, the cursor goes back to the name, and `parseConstant` runs. -/
theorem parseFileLoop_header {inp wsb name ws1 r1 : List Char} {p : Nat} (t : Dict)
    (fuel : Nat) (h : inp.drop p = wsb ++ (name ++ (ws1 ++ '<' :: '-' :: r1)))
    (hws : isWs wsb = true) (hname : isName name = true) (hws1 : isWs ws1 = true) :
    parseFileLoop (fuel + 1) (cursor inp p t) =
      match parseValue fuel (cursor inp (p + wsb.length + name.length + ws1.length + 2) t) with
      | .thrown w s => .thrown w s
      | .outOfFuel => .outOfFuel
      | .ok value s5 =>
        parseFileLoop fuel { s5 with constants := s5.constants.assign name value } := by
  obtain ⟨a, as, hcons⟩ := List.exists_cons_of_ne_nil (isName_ne_nil hname)
  have ha : isalpha a = true := by rw [hcons] at hname; exact (isName_cons hname).1
  have hs1 := skipWhitespace_cursor t h (isWs_mem hws)
    (by rw [hcons]; simpa using isalpha_not_isspace ha)
  have h1 := drop_after h
  have h1' : inp.drop (p + wsb.length) = a :: (as ++ (ws1 ++ '<' :: '-' :: r1)) := by
    rw [hcons] at h1; simpa using h1
  have hcur1 : inp.getD (p + wsb.length) NUL = a := getD_of_drop h1'
  have hlt1 : ¬ (inp.length ≤ p + wsb.length) := not_le.mpr (lt_length_of_drop h1')
  have hlt0 : (cursor inp p t).pos < (cursor inp p t).input.length := by
    simp only [cursor_pos, cursor_input]
    omega
  have hne1 : (cursor inp (p + wsb.length) t).currentChar ≠ ';' := by
    show inp.getD (p + wsb.length) NUL ≠ ';'
    rw [hcur1]
    rintro rfl; exact absurd ha (by decide)
  have hn := parseName_cursor t h1 hname
    (headIs_append_of_all (isWs_mem hws1) (fun c hc => isspace_not_isalnum hc)
      (by simp; decide))
  have h2 := drop_after h1
  have hs2 := skipWhitespace_cursor t h2 (isWs_mem hws1) (by simp; decide)
  have h3 := drop_after h2
  have hla := lookahead_arrow t h3
  have hrewind : ConfigParser.mk inp (p + wsb.length)
      (cursor inp (p + wsb.length) t).currentChar
      (cursor inp (p + wsb.length + name.length + ws1.length) t).constants
      = cursor inp (p + wsb.length) t := rfl
  have hpc := parseConstant_header t fuel h1 hname hws1
  rw [parseFileLoop, if_pos hlt0]
  simp only [hs1, ge_iff_le, cursor_pos, cursor_input, hlt1, if_false, if_neg hne1, hn, ne_eq,
    isName_ne_nil hname, not_false_eq_true, if_true, hs2, hla, and_self, hrewind, hpc]
  cases parseValue fuel (cursor inp (p + wsb.length + name.length + ws1.length + 2) t) <;> rfl

/-- An iteration of the loop of `parseFile` over a definition whose value `parseValue`
accepts: the value is stored under the name and the loop goes on behind the value. -/
theorem parseFileLoop_definition {inp wsb name ws1 r1 : List Char} {p q : Nat} (t : Dict)
    (fuel : Nat) {value : ConfigValue}
    (h : inp.drop p = wsb ++ (name ++ (ws1 ++ '<' :: '-' :: r1)))
    (hws : isWs wsb = true) (hname : isName name = true) (hws1 : isWs ws1 = true)
    (hv : parseValue fuel (cursor inp (p + wsb.length + name.length + ws1.length + 2) t)
      = .ok value (cursor inp q t)) :
    parseFileLoop (fuel + 1) (cursor inp p t)
      = parseFileLoop fuel (cursor inp q (t.assign name value)) := by
  rw [parseFileLoop_header t fuel h hws hname hws1, hv]
  rfl

/-- An iteration of the loop of `parseFile` over a definition whose value makes
`parseValue` throw, throws. -/
theorem parseFileLoop_definition_thrown {inp wsb name ws1 r1 : List Char} {p : Nat} (t : Dict)
    (fuel : Nat) {w : String} {s : ConfigParser}
    (h : inp.drop p = wsb ++ (name ++ (ws1 ++ '<' :: '-' :: r1)))
    (hws : isWs wsb = true) (hname : isName name = true) (hws1 : isWs ws1 = true)
    (hv : parseValue fuel (cursor inp (p + wsb.length + name.length + ws1.length + 2) t)
      = .thrown w s) :
    parseFileLoop (fuel + 1) (cursor inp p t) = .thrown w s := by
  rw [parseFileLoop_header t fuel h hws hname hws1, hv]

/-- The loop of `parseFile` ends when only whitespace is left. -/
theorem parseFileLoop_end {inp wsb : List Char} {p : Nat} (t : Dict) (fuel : Nat)
    (h : inp.drop p = wsb) (hws : isWs wsb = true) :
    parseFileLoop (fuel + 1) (cursor inp p t) = .ok () (cursor inp (p + wsb.length) t) := by
  have hs := @skipWhitespace_cursor inp wsb [] p t (by simpa using h) (isWs_mem hws) rfl
  have hlen := congrArg List.length h
  rw [List.length_drop] at hlen
  rw [parseFileLoop]
  by_cases hlt : (cursor inp p t).pos < (cursor inp p t).input.length
  · rw [if_pos hlt]
    simp only [cursor_pos, cursor_input] at hlt
    have hl : inp.length ≤ p + wsb.length := by omega
    simp only [hs, ge_iff_le, cursor_pos, cursor_input, hl, if_true]
  · rw [if_neg hlt]
    simp only [cursor_pos, cursor_input] at hlt
    have h0 : wsb.length = 0 := by omega
    rw [h0]
    rfl

end YAMLParser

namespace YAMLParser
open ConfigParser

theorem headIs_dropWhile (P : Char → Bool) (l : List Char) :
    headIs P (l.dropWhile P) = false := by
  induction l with
  | nil => rfl
  | cons c r ih =>
    by_cases hc : P c = true
    · simpa [List.dropWhile_cons, hc] using ih
    · simp [List.dropWhile_cons, hc]

/-- Function `skipWhitespace` moves the cursor over the longest run of whitespace ahead. -/
theorem skipWhitespace_total (inp : List Char) (p : Nat) (t : Dict) :
    (cursor inp p t).skipWhitespace
      = cursor inp (p + ((inp.drop p).takeWhile isspace).length) t :=
  @skipWhitespace_cursor inp _ ((inp.drop p).dropWhile isspace) p t
    (List.takeWhile_append_dropWhile _ _).symm
    (fun _ hc => (List.mem_takeWhile_imp hc)) (headIs_dropWhile _ _)

/-- The loop of `parseFile` started inside a run of whitespace does what it does when
started behind any part of that whitespace. -/
theorem parseFileLoop_skip {inp ws rest : List Char} {p : Nat} (t : Dict) (fuel : Nat)
    (h : inp.drop p = ws ++ rest) (hws : isWs ws = true) :
    parseFileLoop fuel (cursor inp p t) = parseFileLoop fuel (cursor inp (p + ws.length) t) := by
  cases fuel with
  | zero => rfl
  | succ fuel =>
    have h1 := drop_after h
    have htw : (inp.drop p).takeWhile isspace = ws ++ rest.takeWhile isspace := by
      rw [h, List.takeWhile_append]
      have : (ws.takeWhile isspace) = ws := List.takeWhile_eq_self_iff.mpr (isWs_mem hws)
      simp [this]
    have hs1 := skipWhitespace_total inp p t
    have hs2 := skipWhitespace_total inp (p + ws.length) t
    rw [htw] at hs1
    rw [h1] at hs2
    have harith : p + (ws ++ rest.takeWhile isspace).length
        = p + ws.length + (rest.takeWhile isspace).length := by
      rw [List.length_append]; omega
    rw [harith] at hs1
    have hlen := congrArg List.length h
    rw [List.length_drop, List.length_append] at hlen
    by_cases hlt : p + ws.length < inp.length
    · have hlt0 : p < inp.length := by omega
      have c1 : (cursor inp p t).pos < (cursor inp p t).input.length := hlt0
      have c2 : (cursor inp (p + ws.length) t).pos
          < (cursor inp (p + ws.length) t).input.length := hlt
      conv_lhs => rw [parseFileLoop, if_pos c1]
      conv_rhs => rw [parseFileLoop, if_pos c2]
      simp only [hs1, hs2]
    · have hrest : rest = [] := List.length_eq_zero.mp (by omega)
      subst hrest
      have c2 : ¬ ((cursor inp (p + ws.length) t).pos
          < (cursor inp (p + ws.length) t).input.length) := hlt
      rw [show parseFileLoop (fuel + 1) (cursor inp (p + ws.length) t)
        = .ok () (cursor inp (p + ws.length) t) by
          rw [parseFileLoop, if_neg c2]]
      have := parseFileLoop_end t fuel (by simpa using h) hws
      exact this

theorem skipCommentLoop_cursor (inp : List Char) (t : Dict) :
    ∀ (body rest : List Char) (n p : Nat), inp.drop p = body ++ rest →
      (∀ c ∈ body, c ≠ '\n') → headIs (fun c => c != '\n') rest = false → body.length ≤ n →
      skipCommentLoop n (cursor inp p t) = cursor inp (p + body.length) t := by
  intro body
  induction body with
  | nil =>
    intro rest n p h _ hrest _
    cases n with
    | zero => rfl
    | succ n =>
      simp only [List.nil_append] at h
      have hc : ¬ ((cursor inp p t).pos < (cursor inp p t).input.length
          ∧ (cursor inp p t).currentChar ≠ '\n') := by
        rintro ⟨h1, h2⟩
        cases rest with
        | nil =>
          have := List.drop_eq_nil_iff.mp h
          simp only [cursor_pos, cursor_input] at h1
          omega
        | cons c r =>
          rw [currentChar_of_drop t h] at h2
          simp only [headIs_cons, bne_eq_false_iff_eq] at hrest
          exact h2 hrest
      simp only [skipCommentLoop, if_neg hc, List.length_nil, Nat.add_zero]
  | cons c body ih =>
    intro rest n p h hbody hrest hn
    cases n with
    | zero => simp at hn
    | succ n =>
      have h0 : inp.drop p = c :: (body ++ rest) := by simpa using h
      have hc : (cursor inp p t).pos < (cursor inp p t).input.length
          ∧ (cursor inp p t).currentChar ≠ '\n' := by
        refine ⟨lt_length_of_drop h0, ?_⟩
        rw [currentChar_of_drop t h0]
        exact hbody c (by simp)
      have h1 : inp.drop (p + 1) = body ++ rest := by
        have := drop_after (a := [c]) (b := body ++ rest) (by simpa using h)
        simpa using this
      rw [skipCommentLoop, if_pos hc, advance_cursor]
      rw [ih rest n (p + 1) h1 (fun x hx => hbody x (by simp [hx])) hrest
        (by simp at hn; omega)]
      have harith : p + 1 + body.length = p + (c :: body).length := by
        simp only [List.length_cons]; omega
      rw [harith]

/-- Function `skipComment` moves the cursor to the next newline, or to the end of the buffer. -/
theorem skipComment_cursor {inp body rest : List Char} {p : Nat} (t : Dict)
    (h : inp.drop p = body ++ rest) (hbody : ∀ c ∈ body, c ≠ '\n')
    (hrest : headIs (fun c => c != '\n') rest = false) :
    (cursor inp p t).skipComment = cursor inp (p + body.length) t :=
  skipCommentLoop_cursor inp t body rest _ p h hbody hrest (length_le_of_drop h)

/-- An iteration of the loop of `parseFile` over a comment: the loop goes on at the
newline that ends the comment. -/
theorem parseFileLoop_comment {inp wsb body rest : List Char} {p : Nat} (t : Dict)
    (fuel : Nat) (h : inp.drop p = wsb ++ ';' :: (body ++ rest)) (hws : isWs wsb = true)
    (hbody : ∀ c ∈ body, c ≠ '\n') (hrest : headIs (fun c => c != '\n') rest = false) :
    parseFileLoop (fuel + 1) (cursor inp p t)
      = parseFileLoop fuel (cursor inp (p + wsb.length + 1 + body.length) t) := by
  have hs1 := skipWhitespace_cursor t h (isWs_mem hws) (by simp; decide)
  have h1 := drop_after h
  have hcur1 : (cursor inp (p + wsb.length) t).currentChar = ';' := currentChar_of_drop t h1
  have hlt1 : ¬ (inp.length ≤ p + wsb.length) := not_le.mpr (lt_length_of_drop h1)
  have hlt0 : (cursor inp p t).pos < (cursor inp p t).input.length := by
    simp only [cursor_pos, cursor_input]
    omega
  have hsc : (cursor inp (p + wsb.length) t).skipComment
      = cursor inp (p + wsb.length + (';' :: body).length) t :=
    @skipComment_cursor inp (';' :: body) rest _ t (by simpa using h1)
      (by
        intro c hc
        rcases List.mem_cons.mp hc with rfl | hc
        · decide
        · exact hbody c hc) hrest
  rw [parseFileLoop, if_pos hlt0]
  simp only [hs1, ge_iff_le, cursor_pos, cursor_input, hlt1, if_false, hcur1, if_true, hsc]
  congr 2
  simp only [List.length_cons]
  omega

/-- An iteration of the loop of `parseFile` over a name that the definition token does
not follow: `parseDict` is called at the name and throws, because the name does not
start with an opening brace. -/
theorem parseFileLoop_bare_name {inp wsb name ws1 r1 : List Char} {p : Nat} (t : Dict)
    (fuel : Nat) (h : inp.drop p = wsb ++ (name ++ (ws1 ++ r1)))
    (hws : isWs wsb = true) (hname : isName name = true) (hws1 : isWs ws1 = true)
    (hmax : headIs isalnum (ws1 ++ r1) = false) (hr1 : headIs isspace r1 = false)
    (hno : ∀ r, r1 ≠ '<' :: '-' :: r) :
    parseFileLoop (fuel + 2) (cursor inp p t) =
      (cursor inp (p + wsb.length) t).error ("Expected '\x7b', got '"
        ++ String.singleton (name.headD NUL) ++ "'") := by
  obtain ⟨a, as, hcons⟩ := List.exists_cons_of_ne_nil (isName_ne_nil hname)
  have ha : isalpha a = true := by rw [hcons] at hname; exact (isName_cons hname).1
  have hs1 := skipWhitespace_cursor t h (isWs_mem hws)
    (by rw [hcons]; simpa using isalpha_not_isspace ha)
  have h1 := drop_after h
  have h1' : inp.drop (p + wsb.length) = a :: (as ++ (ws1 ++ r1)) := by
    rw [hcons] at h1; simpa using h1
  have hcur1 : (cursor inp (p + wsb.length) t).currentChar = a := currentChar_of_drop t h1'
  have hlt1 : ¬ (inp.length ≤ p + wsb.length) := not_le.mpr (lt_length_of_drop h1')
  have hlt0 : (cursor inp p t).pos < (cursor inp p t).input.length := by
    simp only [cursor_pos, cursor_input]
    omega
  have hne1 : (cursor inp (p + wsb.length) t).currentChar ≠ ';' := by
    rw [hcur1]
    rintro rfl; exact absurd ha (by decide)
  have hn := parseName_cursor t h1 hname hmax
  have h2 := drop_after h1
  have hs2 := skipWhitespace_cursor t h2 (isWs_mem hws1) hr1
  have h3 := drop_after h2
  have hla : ¬ ((cursor inp (p + wsb.length + name.length + ws1.length) t).currentChar = '<'
      ∧ p + wsb.length + name.length + ws1.length + 1 < inp.length
      ∧ inp.getD (p + wsb.length + name.length + ws1.length + 1) NUL = '-') := by
    rintro ⟨c1, c2, c3⟩
    cases r1 with
    | nil =>
      have := List.drop_eq_nil_iff.mp h3
      omega
    | cons x r =>
      rw [currentChar_of_drop t h3] at c1
      subst c1
      have h4 : inp.drop (p + wsb.length + name.length + ws1.length + 1) = r := by
        have := drop_after (a := ['<']) (by simpa using h3)
        simpa using this
      cases r with
      | nil =>
        have := List.drop_eq_nil_iff.mp h4
        omega
      | cons y r' =>
        rw [getD_of_drop h4] at c3
        subst c3
        exact hno r' rfl
  have hrewind : ConfigParser.mk inp (p + wsb.length)
      (cursor inp (p + wsb.length) t).currentChar
      (cursor inp (p + wsb.length + name.length + ws1.length) t).constants
      = cursor inp (p + wsb.length) t := rfl
  have hexp := @expect_fail inp [] _ _ '{' t (by simpa using h1')
    rfl (by simpa using isalpha_not_isspace ha)
    (by
      simp only [List.length_nil, Nat.add_zero]
      rw [hcur1]
      rintro rfl; exact absurd ha (by decide))
  simp only [List.length_nil, Nat.add_zero, hcur1] at hexp
  rw [parseFileLoop, if_pos hlt0]
  simp only [hs1, ge_iff_le, cursor_pos, cursor_input, hlt1, if_false, if_neg hne1, hn, ne_eq,
    isName_ne_nil hname, not_false_eq_true, if_true, hs2, hla, hrewind]
  rw [parseDict, hexp, hcons]
  rfl

end YAMLParser

namespace YAMLParser
open ConfigParser

/-! ## The loop of `parseFile` on the text of a document -/

theorem headIs_isdigit_ws_cons {ws rest : List Char} {c : Char} (hws : isWs ws = true)
    (hc : isdigit c = false) : headIs isdigit (ws ++ c :: rest) = false :=
  headIs_append_of_all (isWs_mem hws) (fun _ hx => isspace_not_isdigit hx) (by simpa using hc)

theorem documentText_head {items : List SItem} {tail : List Char}
    (hwf : documentWf items = true) (htail : headIs isdigit tail = false) :
    headIs isdigit (documentText items ++ tail) = false := by
  cases items with
  | nil => simpa [documentText] using htail
  | cons item items =>
    simp only [documentWf, Bool.and_eq_true] at hwf
    cases item with
    | definition ws0 name ws1 ws2 value =>
      simp only [SItem.wf, Bool.and_eq_true] at hwf
      obtain ⟨a, as, rfl⟩ := List.exists_cons_of_ne_nil (isName_ne_nil hwf.1.1.1.1.2)
      have ha := (isName_cons hwf.1.1.1.1.2).1
      simp only [documentText, SItem.text, List.append_assoc, List.cons_append]
      exact headIs_isdigit_ws_cons hwf.1.1.1.1.1 (isalpha_not_isdigit ha)
    | comment ws0 body =>
      simp only [SItem.wf, Bool.and_eq_true] at hwf
      simp only [documentText, SItem.text, List.append_assoc, List.cons_append]
      exact headIs_isdigit_ws_cons hwf.1.1 (by decide)

/-- The loop of `parseFile` over the text of items whose references are bound: the
definitions are stored in document order, and the loop goes on behind the items. -/
theorem parseFileLoop_document (inp : List Char) :
    ∀ (items : List SItem) (wsb tail : List Char) (p fuel : Nat) (t t' : Dict),
      documentWf items = true → evalDocument t items = some t' →
      inp.drop p = wsb ++ (documentText items ++ tail) → isWs wsb = true →
      headIs isdigit tail = false → (documentText items).length < fuel →
      parseFileLoop fuel (cursor inp p t)
        = parseFileLoop (fuel - items.length)
            (cursor inp (p + wsb.length + (documentText items).length) t')
  | [], wsb, tail, p, fuel, t, t', _, hev, h, hws, _, _ => by
    simp only [evalDocument, Option.some.injEq] at hev
    subst hev
    simp only [documentText, List.nil_append] at h
    simpa [documentText] using parseFileLoop_skip t fuel h hws
  | .definition ws0 name ws1 ws2 value :: items, wsb, tail, p, fuel, t, t', hwf, hev, h, hws,
      htail, hfuel => by
    simp only [documentWf, SItem.wf, Bool.and_eq_true] at hwf
    obtain ⟨⟨⟨⟨⟨hw0, hn⟩, hw1⟩, hw2⟩, hv⟩, hitems⟩ := hwf
    simp only [documentText, SItem.text, List.length_append, List.length_cons] at hfuel
    have hnl : 0 < name.length := List.length_pos.mpr (isName_ne_nil hn)
    obtain ⟨f, rfl⟩ : ∃ f, fuel = f + 1 := ⟨fuel - 1, by omega⟩
    cases hcv : value.eval t with
    | none => simp [evalDocument, hcv] at hev
    | some cv =>
      simp only [evalDocument, hcv] at hev
      have hwsb : isWs (wsb ++ ws0) = true := by
        simp only [isWs, List.all_append, Bool.and_eq_true] at hws hw0 ⊢
        exact ⟨hws, hw0⟩
      have h0 : inp.drop p = (wsb ++ ws0) ++ (name ++ (ws1 ++ '<' :: '-' ::
          (ws2 ++ (value.text ++ (documentText items ++ tail))))) := by
        simpa [documentText, SItem.text] using h
      have h1 : inp.drop (p + (wsb ++ ws0).length + name.length + ws1.length + 2)
          = ws2 ++ (value.text ++ (documentText items ++ tail)) := by
        have := drop_after (a := ['<', '-'])
          (b := ws2 ++ (value.text ++ (documentText items ++ tail)))
          (by simpa using drop_after (drop_after2 h0))
        simpa using this
      have hpv := parseValue_text t inp value ws2 (documentText items ++ tail) _ f cv hv hcv h1
        hw2 (documentText_head hitems htail) (by omega)
      rw [parseFileLoop_definition t f h0 hwsb hn hw1 hpv]
      have h2 : inp.drop (p + (wsb ++ ws0).length + name.length + ws1.length + 2 + ws2.length
          + value.text.length) = [] ++ (documentText items ++ tail) := by
        simpa using drop_after2 h1
      rw [parseFileLoop_document inp items [] tail _ f (t.assign name cv) t' hitems hev h2 rfl
        htail (by omega)]
      congr 1
      · simp only [List.length_cons]; omega
      · congr 1
        simp only [documentText, SItem.text, List.length_append, List.length_cons,
          List.length_nil]
        omega
  | .comment ws0 body :: items, wsb, tail, p, fuel, t, t', hwf, hev, h, hws, htail, hfuel => by
    simp only [documentWf, SItem.wf, Bool.and_eq_true, List.all_eq_true, bne_iff_ne] at hwf
    obtain ⟨⟨hw0, hbody⟩, hitems⟩ := hwf
    simp only [documentText, SItem.text, List.length_append, List.length_cons] at hfuel
    obtain ⟨f, rfl⟩ : ∃ f, fuel = f + 1 := ⟨fuel - 1, by omega⟩
    simp only [evalDocument] at hev
    have hwsb : isWs (wsb ++ ws0) = true := by
      simp only [isWs, List.all_append, Bool.and_eq_true] at hws hw0 ⊢
      exact ⟨hws, hw0⟩
    have h0 : inp.drop p = (wsb ++ ws0) ++ ';' :: (body ++ '\n' ::
        (documentText items ++ tail)) := by
      simpa [documentText, SItem.text] using h
    rw [parseFileLoop_comment t f h0 hwsb hbody (by simp)]
    have h1 : inp.drop (p + (wsb ++ ws0).length + 1 + body.length)
        = ['\n'] ++ (documentText items ++ tail) := by
      have := drop_after (a := [';']) (drop_after h0)
      simpa using drop_after this
    rw [parseFileLoop_document inp items ['\n'] tail _ f t t' hitems hev h1 (by decide)
      htail (by simp at hfuel ⊢; omega)]
    congr 1
    · simp only [List.length_cons]; omega
    · congr 1
      simp only [documentText, SItem.text, List.length_append, List.length_cons,
        List.length_nil]
      omega

end YAMLParser

namespace YAMLParser
open ConfigParser

/-! ## `parseFile` on a fresh parser, and the text written to `std::cerr` -/

/-- Function `parseFile` on a parser as constructed, in terms of its loop. -/
theorem parseFile_new (filename : String) (inp : List Char) :
    parseFile ConfigParser.new filename (some inp) =
      match parseFileLoop (parseFuel inp) (cursor inp 0 []) with
      | .ok _ s1 => some ⟨true, "", s1⟩
      | .thrown what s1 => some ⟨false, "Parse error: " ++ cstr what ++ "\n", s1⟩
      | .outOfFuel => none := by
  cases inp with
  | nil => rfl
  | cons c r => rfl

theorem digitChar_isdigit (n : Nat) (h : n < 10) : isdigit (Nat.digitChar n) = true := by
  interval_cases n <;> decide

theorem toDigitsCore_isdigit :
    ∀ (fuel n : Nat) (ds : List Char), (∀ c ∈ ds, isdigit c = true) →
      ∀ c ∈ Nat.toDigitsCore 10 fuel n ds, isdigit c = true := by
  intro fuel
  induction fuel with
  | zero => intro n ds hds c hc; exact hds c (by simpa [Nat.toDigitsCore] using hc)
  | succ fuel ih =>
    intro n ds hds c hc
    have hd : ∀ x ∈ Nat.digitChar (n % 10) :: ds, isdigit x = true := by
      intro x hx
      rcases List.mem_cons.mp hx with rfl | hx
      · exact digitChar_isdigit _ (Nat.mod_lt _ (by decide))
      · exact hds x hx
    simp only [Nat.toDigitsCore] at hc
    split at hc
    · exact hd c hc
    · exact ih _ _ hd c hc

theorem toDigits_isdigit (n : Nat) : ∀ c ∈ Nat.toDigits 10 n, isdigit c = true :=
  toDigitsCore_isdigit _ _ [] (by simp)

theorem cstr_eq_self (s : String) (h : ∀ c ∈ s.data, c ≠ NUL) : cstr s = s := by
  have : s.data.takeWhile (fun c => decide (c ≠ NUL)) = s.data :=
    List.takeWhile_eq_self_iff.mpr (fun c hc => by simpa using h c hc)
  simp only [cstr, this]

/-- The text of an exception thrown by `error` reaches `std::cerr` whole when the
message has no NUL character in it. -/
theorem cstr_error (message : String) (k : Nat) (h : ∀ c ∈ message.data, c ≠ NUL) :
    cstr (message ++ " at position " ++ toString k) = message ++ " at position " ++ toString k := by
  apply cstr_eq_self
  intro c hc
  simp only [String.data_append, List.mem_append] at hc
  rcases hc with (hc | hc) | hc
  · exact h c hc
  · revert c; decide
  · have hd : isdigit c = true := toDigits_isdigit k c hc
    rintro rfl
    exact absurd hd (by decide)

/-! ## Facts about the maps -/

theorem Dict.find_assign_same (d : Dict) (k : List Char) (v : ConfigValue) :
    (d.assign k v).find k = some v := by
  induction d with
  | nil => simp [Dict.assign, Dict.find]
  | cons e rest ih =>
    obtain ⟨k', v'⟩ := e
    by_cases hk : k' = k
    · simp [Dict.assign, Dict.find, hk]
    · simp [Dict.assign, Dict.find, hk, ih]

theorem Dict.find_assign_other (d : Dict) {k m : List Char} (v : ConfigValue) (h : m ≠ k) :
    (d.assign k v).find m = d.find m := by
  induction d with
  | nil => simp [Dict.assign, Dict.find, Ne.symm h]
  | cons e rest ih =>
    obtain ⟨k', v'⟩ := e
    by_cases hk : k' = k
    · subst hk
      simp [Dict.assign, Dict.find, Ne.symm h]
    · by_cases hm : k' = m
      · subst hm
        simp [Dict.assign, Dict.find, hk]
      · simp [Dict.assign, Dict.find, hk, hm, ih]

theorem Dict.keys_assign (d : Dict) (k : List Char) (v : ConfigValue) :
    (d.assign k v).keys = if k ∈ d.keys then d.keys else d.keys ++ [k] := by
  induction d with
  | nil => simp [Dict.assign, Dict.keys]
  | cons e rest ih =>
    obtain ⟨k', v'⟩ := e
    simp only [Dict.keys] at ih
    by_cases hk : k' = k
    · simp [Dict.assign, Dict.keys, hk]
    · have hk' : ¬ k = k' := fun h => hk h.symm
      by_cases hmem : k ∈ List.map Prod.fst rest
      · simp [Dict.assign, Dict.keys, hk, hmem, ih]
      · simp [Dict.assign, Dict.keys, hk, hk', hmem, ih]

theorem Dict.keys_assign_nodup (d : Dict) (k : List Char) (v : ConfigValue)
    (h : d.keys.Nodup) : (d.assign k v).keys.Nodup := by
  rw [Dict.keys_assign]
  split
  · exact h
  · rename_i hmem
    exact List.Nodup.append h (by simp) (by simpa using hmem)

theorem Dict.mem_keys_assign (d : Dict) (k m : List Char) (v : ConfigValue) :
    m ∈ (d.assign k v).keys ↔ m ∈ d.keys ∨ m = k := by
  rw [Dict.keys_assign]
  split
  · rename_i hmem
    constructor
    · exact Or.inl
    · rintro (h | rfl)
      · exact h
      · exact hmem
  · simp

theorem Dict.length_keys (d : Dict) : d.keys.length = d.length := by
  simp [Dict.keys]

/-! ## Facts about the constant table of a document -/

theorem evalDocument_append (t : Dict) (a b : List SItem) :
    evalDocument t (a ++ b) =
      match evalDocument t a with
      | some t1 => evalDocument t1 b
      | none => none := by
  induction a generalizing t with
  | nil => rfl
  | cons item a ih =>
    cases item with
    | definition ws0 name ws1 ws2 value =>
      simp only [List.cons_append, evalDocument]
      cases value.eval t with
      | none => rfl
      | some v => exact ih _
    | comment ws0 body => simpa [evalDocument] using ih t

theorem evalDocument_keys (items : List SItem) :
    ∀ (t t' : Dict), evalDocument t items = some t' → t.keys.Nodup →
      t'.keys.Nodup ∧ ∀ m, m ∈ t'.keys ↔ m ∈ t.keys ∨ m ∈ definedNames items := by
  induction items with
  | nil =>
    intro t t' h hn
    simp only [evalDocument, Option.some.injEq] at h
    subst h
    simp [definedNames, hn]
  | cons item items ih =>
    intro t t' h hn
    cases item with
    | definition ws0 name ws1 ws2 value =>
      simp only [evalDocument] at h
      cases hv : value.eval t with
      | none => simp [hv] at h
      | some v =>
        simp only [hv] at h
        obtain ⟨h1, h2⟩ := ih _ _ h (Dict.keys_assign_nodup t name v hn)
        refine ⟨h1, fun m => ?_⟩
        rw [h2, Dict.mem_keys_assign]
        simp only [definedNames, List.mem_cons]
        tauto
    | comment ws0 body =>
      simp only [evalDocument] at h
      simpa [definedNames] using ih _ _ h hn

theorem evalDocument_find_of_not_defined (items : List SItem) (m : List Char) :
    ∀ (t t' : Dict), evalDocument t items = some t' → m ∉ definedNames items →
      t'.find m = t.find m := by
  induction items with
  | nil =>
    intro t t' h _
    simp only [evalDocument, Option.some.injEq] at h
    rw [h]
  | cons item items ih =>
    intro t t' h hm
    cases item with
    | definition ws0 name ws1 ws2 value =>
      simp only [evalDocument] at h
      simp only [definedNames, List.mem_cons, not_or] at hm
      cases hv : value.eval t with
      | none => simp [hv] at h
      | some v =>
        simp only [hv] at h
        rw [ih _ _ h hm.2, Dict.find_assign_other t v hm.1]
    | comment ws0 body =>
      simp only [evalDocument] at h
      simp only [definedNames] at hm
      exact ih _ _ h hm

/-- The number of bindings of the constant table of a document is the number of distinct
names that the document defines. -/
theorem evalDocument_length {items : List SItem} {t : Dict}
    (h : evalDocument [] items = some t) : t.length = (definedNames items).dedup.length := by
  obtain ⟨h1, h2⟩ := evalDocument_keys items [] t h (by simp [Dict.keys])
  rw [← Dict.length_keys, ← List.toFinset_card_of_nodup h1, ← List.card_toFinset]
  congr 1
  ext m
  rw [List.mem_toFinset, List.mem_toFinset, h2]
  simp [Dict.keys]

theorem length_le_documentText (items : List SItem) :
    items.length ≤ (documentText items).length := by
  induction items with
  | nil => simp
  | cons item items ih =>
    cases item <;>
      simp only [documentText, SItem.text, List.length_append, List.length_cons] <;> omega

theorem headIs_isdigit_ws {ws : List Char} (hws : isWs ws = true) :
    headIs isdigit ws = false := by
  have := @headIs_append_of_all isdigit isspace ws [] (isWs_mem hws)
    (fun _ hx => isspace_not_isdigit hx) rfl
  simpa using this

/-- The loop of `parseFile` over a whole document (items, then whitespace): it ends with
the constant table of the document. -/
theorem parseFileLoop_whole {items : List SItem} {ws : List Char} {t : Dict}
    (hwf : documentWf items = true) (hws : isWs ws = true)
    (hev : evalDocument [] items = some t) :
    parseFileLoop (parseFuel (documentText items ++ ws)) (cursor (documentText items ++ ws) 0 [])
      = .ok () (cursor (documentText items ++ ws) (documentText items ++ ws).length t) := by
  have hlen := length_le_documentText items
  have h0 : (documentText items ++ ws).drop 0 = [] ++ (documentText items ++ ws) := rfl
  rw [parseFileLoop_document _ items [] ws 0 _ [] t hwf hev h0 rfl (headIs_isdigit_ws hws)
    (by simp only [parseFuel, List.length_append]; omega)]
  have h1 : (documentText items ++ ws).drop (0 + ([] : List Char).length +
      (documentText items).length) = ws := by
    simp
  obtain ⟨f, hf⟩ : ∃ f, parseFuel (documentText items ++ ws) - items.length = f + 1 :=
    ⟨parseFuel (documentText items ++ ws) - items.length - 1, by
      simp only [parseFuel, List.length_append]; omega⟩
  rw [hf, parseFileLoop_end _ f h1 hws]
  congr 1
  simp

end YAMLParser

namespace YAMLParser
open ConfigParser

/-! ## Decimal digits: `std::stoi` and `operator<<` are inverse on number literals -/

theorem decimalValue_append (xs : List Char) (x : Char) :
    decimalValue (xs ++ [x]) = 10 * decimalValue xs + digitValue x := by
  simp [decimalValue, List.foldl_append]

theorem foldl_decimal_ge (cs : List Char) (a : Nat) :
    a ≤ cs.foldl (fun acc c => 10 * acc + digitValue c) a := by
  induction cs generalizing a with
  | nil => simp
  | cons c cs ih =>
    simp only [List.foldl_cons]
    exact le_trans (by omega) (ih _)

theorem digitValue_19 {c : Char} (h : '1' ≤ c ∧ c ≤ '9') : 1 ≤ digitValue c := by
  rw [char_le_iff, char_le_iff] at h
  have h1 : ('1' : Char).toNat = 49 := rfl
  rw [h1] at h
  simp only [digitValue]
  omega

/-- A number literal denotes a number that is at least one. -/
theorem decimalValue_pos {ds : List Char} (h : isNumber ds = true) : 1 ≤ decimalValue ds := by
  cases ds with
  | nil => cases h
  | cons c cs =>
    obtain ⟨hc, _⟩ := isNumber_cons h
    have := foldl_decimal_ge cs (10 * 0 + digitValue c)
    have h1 := digitValue_19 hc
    simp only [decimalValue, List.foldl_cons]
    omega

theorem digitValue_lt {c : Char} (h : isdigit c = true) : digitValue c < 10 := by
  simp only [isdigit, Bool.and_eq_true, decide_eq_true_eq] at h
  simp only [digitValue]
  omega

theorem digitChar_digitValue {c : Char} (h : isdigit c = true) :
    Nat.digitChar (digitValue c) = c := by
  simp only [isdigit, Bool.and_eq_true, decide_eq_true_eq] at h
  have hc : c = Char.ofNat c.toNat := (Char.ofNat_toNat c).symm
  simp only [digitValue]
  generalize c.toNat = n at h hc
  obtain ⟨h1, h2⟩ := h
  subst hc
  interval_cases n <;> rfl

theorem isNumber_prefix {xs : List Char} {x : Char} (h : isNumber (xs ++ [x]) = true)
    (hne : xs ≠ []) : isNumber xs = true := by
  cases xs with
  | nil => exact absurd rfl hne
  | cons c cs =>
    simp only [List.cons_append, isNumber, Bool.and_eq_true, List.all_append] at h ⊢
    exact ⟨h.1, h.2.1⟩

theorem toDigitsCore_decimalValue :
    ∀ (ds : List Char), isNumber ds = true → ∀ (fuel : Nat) (acc : List Char),
      decimalValue ds < fuel → Nat.toDigitsCore 10 fuel (decimalValue ds) acc = ds ++ acc := by
  intro ds
  induction ds using List.reverseRecOn with
  | nil => intro h; cases h
  | append_singleton xs x ih =>
    intro h fuel acc hfuel
    have hx : isdigit x = true := isNumber_all_isdigit h x (by simp)
    have hlt := digitValue_lt hx
    rw [decimalValue_append] at hfuel ⊢
    obtain ⟨f, rfl⟩ : ∃ f, fuel = f + 1 := ⟨fuel - 1, by omega⟩
    have hmod : (10 * decimalValue xs + digitValue x) % 10 = digitValue x := by omega
    have hdiv : (10 * decimalValue xs + digitValue x) / 10 = decimalValue xs := by omega
    simp only [Nat.toDigitsCore, hmod, hdiv, digitChar_digitValue hx]
    by_cases hxs : xs = []
    · subst hxs
      simp [decimalValue]
    · have hn := isNumber_prefix h hxs
      have hpos := decimalValue_pos hn
      rw [if_neg (by omega), ih hn f _ (by omega)]
      simp

/-- Writing the value of a number literal gives back the literal. -/
theorem toDigits_decimalValue {ds : List Char} (h : isNumber ds = true) :
    Nat.toDigits 10 (decimalValue ds) = ds := by
  have := toDigitsCore_decimalValue ds h (decimalValue ds + 1) [] (by omega)
  simpa [Nat.toDigits] using this

end YAMLParser

namespace YAMLParser
open ConfigParser

/-! ## An exception thrown at a value position reaches `parseFile` -/

theorem isWs_append {a b : List Char} (ha : isWs a = true) (hb : isWs b = true) :
    isWs (a ++ b) = true := by
  simp only [isWs, List.all_append, Bool.and_eq_true] at ha hb ⊢
  exact ⟨ha, hb⟩

theorem headIs_isspace_name {name rest : List Char} (h : isName name = true) :
    headIs isspace (name ++ rest) = false := by
  obtain ⟨a, as, rfl⟩ := List.exists_cons_of_ne_nil (isName_ne_nil h)
  simpa using isalpha_not_isspace (isName_cons h).1

/-- The loop of `parseDict` over entries that are each followed by a separator: it goes
on behind them, with some map built from them. -/
theorem parseDictLoop_fields (inp : List Char) (t : Dict) :
    ∀ (fields : List SField) (wsb rest : List Char) (p fuel : Nat) (acc : Dict),
      fieldsWf fields = true → fieldsBound t fields = true →
      inp.drop p = wsb ++ (fieldsText fields ++ rest) → isWs wsb = true →
      headIs isspace rest = false → (fieldsText fields).length < fuel →
      ∃ (acc' : Dict) (q : Nat) (w : List Char), isWs w = true ∧ inp.drop q = w ++ rest
        ∧ q + w.length = p + wsb.length + (fieldsText fields).length
        ∧ parseDictLoop fuel (cursor inp p t) acc
          = parseDictLoop (fuel - fields.length) (cursor inp q t) acc' := by
  intro fields
  induction fields with
  | nil =>
    intro wsb rest p fuel acc _ _ h hws _ _
    exact ⟨acc, p, wsb, hws, by simpa [fieldsText] using h, by simp [fieldsText], rfl⟩
  | cons f fs ih =>
    intro wsb rest p fuel acc hwf hb h hws hrest hfuel
    simp only [fieldsWf, SField.wf, Bool.and_eq_true] at hwf
    obtain ⟨⟨⟨⟨⟨⟨hn, hw1⟩, hw2⟩, hv⟩, hw3⟩, hw4⟩, hfs⟩ := hwf
    simp only [fieldsBound, Bool.and_eq_true] at hb
    obtain ⟨hb1, hb2⟩ := hb
    obtain ⟨cv, hcv⟩ := Option.isSome_iff_exists.mp hb1
    simp only [fieldsText, SField.text, List.length_append, List.length_cons] at hfuel
    obtain ⟨g, rfl⟩ : ∃ g, fuel = g + 1 := ⟨fuel - 1, by omega⟩
    have h0 : inp.drop p = wsb ++ (f.name ++ (f.ws1 ++ '-' :: '>' ::
        (f.ws2 ++ (f.value.text ++ (f.ws3 ++ '.' :: (f.ws4 ++ (fieldsText fs ++ rest))))))) := by
      simpa [fieldsText, SField.text] using h
    have h1 : inp.drop (p + wsb.length + f.name.length + f.ws1.length + 2)
        = f.ws2 ++ (f.value.text ++ (f.ws3 ++ '.' :: (f.ws4 ++ (fieldsText fs ++ rest)))) := by
      have := drop_after (a := ['-', '>'])
        (b := f.ws2 ++ (f.value.text ++ (f.ws3 ++ '.' :: (f.ws4 ++ (fieldsText fs ++ rest)))))
        (by simpa using drop_after (drop_after2 h0))
      simpa using this
    have hpv := parseValue_text t inp f.value f.ws2
      (f.ws3 ++ '.' :: (f.ws4 ++ (fieldsText fs ++ rest))) _ g cv hv hcv h1 hw2
      (headIs_isdigit_ws_cons hw3 (by decide)) (by omega)
    have h2 := drop_after2 h1
    have hhead : headIs isspace (fieldsText fs ++ rest) = false := by
      cases fs with
      | nil => simpa [fieldsText] using hrest
      | cons f' fs' =>
        simp only [fieldsWf, SField.wf, Bool.and_eq_true] at hfs
        have := @headIs_isspace_name f'.name
          (f'.ws1 ++ '-' :: '>' :: (f'.ws2 ++ (f'.value.text ++ (f'.ws3 ++ '.' :: f'.ws4)))
            ++ (fieldsText fs' ++ rest)) hfs.1.1.1.1.1.1
        simpa [fieldsText, SField.text] using this
    have hstep := parseDictLoop_entry_sep t g acc h0 hws hn hw1 hpv h2 hw3 hw4 hhead
    have h3 : inp.drop (p + wsb.length + f.name.length + f.ws1.length + 2 + f.ws2.length
        + f.value.text.length + f.ws3.length + 1 + f.ws4.length)
        = [] ++ (fieldsText fs ++ rest) := by
      have := drop_after (a := ['.']) (drop_after h2)
      simpa using drop_after this
    obtain ⟨acc', q, w, hw, hq, hlen, hloop⟩ := ih [] rest _ g (acc.assign f.name cv) hfs hb2
      h3 rfl hrest (by omega)
    refine ⟨acc', q, w, hw, hq, ?_, ?_⟩
    · simp only [fieldsText, SField.text, List.length_append, List.length_cons,
        List.length_nil] at hlen ⊢
      omega
    · rw [hstep, hloop]
      have hsub : g - fs.length = g + 1 - (f :: fs).length := by
        simp only [List.length_cons]; omega
      rw [hsub]

/-- When `parseValue` throws at the value of an entry, `parseValue` at the dictionary
that holds the entry throws the same. -/
theorem parseValue_frame_thrown (inp : List Char) (t : Dict) (frame : SFrame)
    (rest : List Char) (p N : Nat) (w : String) (s : ConfigParser)
    (hwf : frame.wf = true) (hb : fieldsBound t frame.fields = true)
    (h : inp.drop p = frame.text ++ rest)
    (hv : ∀ f, N ≤ f → parseValue f (cursor inp (p + frame.text.length) t) = .thrown w s) :
    ∀ F, N + frame.text.length ≤ F → parseValue F (cursor inp p t) = .thrown w s := by
  intro F hF
  simp only [SFrame.wf, Bool.and_eq_true] at hwf
  obtain ⟨⟨⟨⟨hwsb, hw0⟩, hfs⟩, hn⟩, hw1⟩ := hwf
  have hnl : 0 < frame.name.length := List.length_pos.mpr (isName_ne_nil hn)
  have hlen : frame.text.length = frame.wsb.length + 1 + frame.ws0.length
      + (fieldsText frame.fields).length + frame.name.length + frame.ws1.length + 2 := by
    simp only [SFrame.text, List.length_append, List.length_cons, List.length_nil]
    omega
  obtain ⟨G, rfl⟩ : ∃ G, F = G + 2 := ⟨F - 2, by omega⟩
  have h0 : inp.drop p = frame.wsb ++ '{' :: (frame.ws0 ++ (fieldsText frame.fields
      ++ (frame.name ++ (frame.ws1 ++ '-' :: '>' :: rest)))) := by
    simpa [SFrame.text] using h
  apply parseValue_dict_thrown t G h0 hwsb
  have h1 : inp.drop (p + frame.wsb.length + 1) = frame.ws0 ++ (fieldsText frame.fields
      ++ (frame.name ++ (frame.ws1 ++ '-' :: '>' :: rest))) := by
    have := drop_after (a := ['{']) (drop_after h0)
    simpa using this
  obtain ⟨acc', q, w', hw', hq, hql, hloop⟩ := parseDictLoop_fields inp t frame.fields frame.ws0
    (frame.name ++ (frame.ws1 ++ '-' :: '>' :: rest)) _ G [] hfs hb h1 hw0
    (headIs_isspace_name hn) (by omega)
  have hfl : frame.fields.length ≤ (fieldsText frame.fields).length := by
    clear hloop hq hql h1 h0 hlen hb hfs h hv
    induction frame.fields with
    | nil => simp
    | cons f fs ih =>
      simp only [fieldsText, SField.text, List.length_append, List.length_cons]
      omega
  obtain ⟨g, hg⟩ : ∃ g, G - frame.fields.length = g + 1 :=
    ⟨G - frame.fields.length - 1, by omega⟩
  rw [hloop, hg]
  apply parseDictLoop_entry_thrown t g acc' hq hw' hn hw1
  have hpos : q + w'.length + frame.name.length + frame.ws1.length + 2
      = p + frame.text.length := by omega
  rw [hpos]
  exact hv g (by omega)

/-- When `parseValue` throws at the value of an entry nested in dictionaries,
`parseValue` at the outermost dictionary throws the same. -/
theorem parseValue_path_thrown (inp : List Char) (t : Dict) (w : String) (s : ConfigParser) :
    ∀ (path : List SFrame) (rest : List Char) (p N : Nat),
      pathWf path = true → pathBound t path = true → inp.drop p = pathText path ++ rest →
      (∀ f, N ≤ f → parseValue f (cursor inp (p + (pathText path).length) t) = .thrown w s) →
      ∀ F, N + (pathText path).length ≤ F → parseValue F (cursor inp p t) = .thrown w s := by
  intro path
  induction path with
  | nil =>
    intro rest p N _ _ _ hv F hF
    simp only [pathText, List.length_nil, Nat.add_zero] at hv hF
    exact hv F hF
  | cons frame path ih =>
    intro rest p N hwf hb h hv F hF
    simp only [pathWf, Bool.and_eq_true] at hwf
    simp only [pathBound, Bool.and_eq_true] at hb
    simp only [pathText, List.length_append] at hv hF
    have h0 : inp.drop p = frame.text ++ (pathText path ++ rest) := by
      simpa [pathText] using h
    have hinner := ih rest (p + frame.text.length) N hwf.2 hb.2 (drop_after h0)
      (fun f hf => by
        have := hv f hf
        rwa [← Nat.add_assoc] at this)
    exact parseValue_frame_thrown inp t frame (pathText path ++ rest) p
      (N + (pathText path).length) w s hwf.1 hb.1 h0 hinner F (by omega)

/-- The text of a document that breaks off inside a definition: well-formed items, then
`ws0 name ws1 "<-"`, then nested dictionaries up to the value of an entry, then `rest`. -/
theorem parseFile_thrown_at_value (filename : String) (items : List SItem) (t : Dict)
    (ws0 name ws1 : List Char) (path : List SFrame) (rest : List Char) (w : String)
    (s : ConfigParser) (hwf : documentWf items = true) (hev : evalDocument [] items = some t)
    (hws0 : isWs ws0 = true) (hname : isName name = true) (hws1 : isWs ws1 = true)
    (hpath : pathWf path = true) (hbound : pathBound t path = true)
    (hv : ∀ f, 1 ≤ f → parseValue f
      (cursor (documentText items ++ (ws0 ++ (name ++ (ws1 ++ '<' :: '-' ::
          (pathText path ++ rest)))))
        ((documentText items).length + ws0.length + name.length + ws1.length + 2
          + (pathText path).length) t) = .thrown w s) :
    parseFile ConfigParser.new filename (some (documentText items ++ (ws0 ++ (name ++ (ws1
        ++ '<' :: '-' :: (pathText path ++ rest))))))
      = some ⟨false, "Parse error: " ++ cstr w ++ "\n", s⟩ := by
  obtain ⟨a, as, hcons⟩ := List.exists_cons_of_ne_nil (isName_ne_nil hname)
  have ha : isalpha a = true := by rw [hcons] at hname; exact (isName_cons hname).1
  have hlen := length_le_documentText items
  generalize hinp : documentText items ++ (ws0 ++ (name ++ (ws1 ++ '<' :: '-' ::
    (pathText path ++ rest)))) = inp at hv ⊢
  have hil : inp.length = (documentText items).length + ws0.length + name.length + ws1.length
      + 2 + (pathText path).length + rest.length := by
    rw [← hinp]
    simp only [List.length_append, List.length_cons]
    omega
  have htail : headIs isdigit (ws0 ++ (name ++ (ws1 ++ '<' :: '-' ::
      (pathText path ++ rest)))) = false := by
    rw [hcons]
    exact headIs_isdigit_ws_cons hws0 (isalpha_not_isdigit ha)
  have h0 : inp.drop 0 = [] ++ (documentText items ++ (ws0 ++ (name ++ (ws1 ++ '<' :: '-' ::
      (pathText path ++ rest))))) := by
    rw [← hinp]; rfl
  rw [parseFile_new]
  rw [parseFileLoop_document inp items [] _ 0 _ [] t hwf hev h0 rfl htail
    (by simp only [parseFuel]; omega)]
  obtain ⟨f, hf⟩ : ∃ f, parseFuel inp - items.length = f + 1 :=
    ⟨parseFuel inp - items.length - 1, by simp only [parseFuel]; omega⟩
  have h1 : inp.drop (0 + ([] : List Char).length + (documentText items).length)
      = ws0 ++ (name ++ (ws1 ++ '<' :: '-' :: (pathText path ++ rest))) := by
    rw [← hinp]; simp
  have h2 : inp.drop (0 + ([] : List Char).length + (documentText items).length + ws0.length
      + name.length + ws1.length + 2) = pathText path ++ rest := by
    have := drop_after (a := ['<', '-']) (b := pathText path ++ rest)
      (by simpa using drop_after (drop_after2 h1))
    simpa using this
  have hthrow := parseValue_path_thrown inp t w s path rest _ 1 hpath hbound h2
    (fun g hg => by
      have := hv g hg
      simpa using this)
    f (by simp only [parseFuel] at hf; omega)
  rw [hf, parseFileLoop_definition_thrown t f h1 hws0 hname hws1 hthrow]

end YAMLParser

namespace YAMLParser
open ConfigParser

/-! ## What the parser keeps true on every input -/

theorem advance_constants (s : ConfigParser) : s.advance.constants = s.constants := by
  unfold advance
  dsimp only
  split <;> rfl

theorem skipWhitespaceLoop_constants :
    ∀ (n : Nat) (s : ConfigParser), (skipWhitespaceLoop n s).constants = s.constants := by
  intro n
  induction n with
  | zero => intro s; rfl
  | succ n ih =>
    intro s
    rw [skipWhitespaceLoop]
    split
    · rw [ih, advance_constants]
    · rfl

theorem skipWhitespace_constants (s : ConfigParser) :
    s.skipWhitespace.constants = s.constants :=
  skipWhitespaceLoop_constants _ s

theorem skipCommentLoop_constants :
    ∀ (n : Nat) (s : ConfigParser), (skipCommentLoop n s).constants = s.constants := by
  intro n
  induction n with
  | zero => intro s; rfl
  | succ n ih =>
    intro s
    rw [skipCommentLoop]
    split
    · rw [ih, advance_constants]
    · rfl

theorem skipComment_constants (s : ConfigParser) : s.skipComment.constants = s.constants :=
  skipCommentLoop_constants _ s

theorem parseNameLoop_constants :
    ∀ (n : Nat) (s : ConfigParser) (acc : List Char),
      (parseNameLoop n s acc).2.constants = s.constants := by
  intro n
  induction n with
  | zero => intro s acc; rfl
  | succ n ih =>
    intro s acc
    rw [parseNameLoop]
    split
    · rw [ih, advance_constants]
    · rfl

theorem parseName_constants (s : ConfigParser) : s.parseName.2.constants = s.constants := by
  unfold parseName
  split
  · simp only [parseNameLoop_constants, advance_constants]
  · rfl

theorem expect_constants {s s' : ConfigParser} {c : Char} {u : Unit}
    (h : s.expect c = .ok u s') : s'.constants = s.constants := by
  unfold expect at h
  simp only at h
  split at h
  · injection h with _ h
    rw [← h, advance_constants, skipWhitespace_constants]
  · cases h

theorem parseNumberLoop_constants :
    ∀ (n : Nat) (s : ConfigParser) (acc : List Char),
      (parseNumberLoop n s acc).2.constants = s.constants := by
  intro n
  induction n with
  | zero => intro s acc; rfl
  | succ n ih =>
    intro s acc
    rw [parseNumberLoop]
    split
    · rw [ih, advance_constants]
    · rfl

theorem parseNumberLoop_digits :
    ∀ (n : Nat) (s : ConfigParser) (acc : List Char),
      ∃ ds, (parseNumberLoop n s acc).1 = acc ++ ds ∧ ∀ x ∈ ds, isdigit x = true := by
  intro n
  induction n with
  | zero => intro s acc; exact ⟨[], by simp [parseNumberLoop], by simp⟩
  | succ n ih =>
    intro s acc
    rw [parseNumberLoop]
    split
    · rename_i hc
      obtain ⟨ds, h1, h2⟩ := ih s.advance (acc ++ [s.currentChar])
      refine ⟨s.currentChar :: ds, by simpa using h1, ?_⟩
      intro x hx
      rcases List.mem_cons.mp hx with rfl | hx
      · exact hc.2
      · exact h2 x hx
    · exact ⟨[], by simp, by simp⟩

/-- A number that `parseNumber` yields lies in `1 .. INT_MAX`. -/
theorem parseNumber_inRange {s s' : ConfigParser} {v : ConfigValue}
    (h : s.parseNumber = .ok v s') : v.inRange = true ∧ s'.constants = s.constants := by
  unfold parseNumber at h
  split at h
  · rename_i hc
    obtain ⟨ds, h1, h2⟩ :=
      parseNumberLoop_digits (s.advance.input.length - s.advance.pos) s.advance [s.currentChar]
    have hcs := parseNumberLoop_constants (s.advance.input.length - s.advance.pos) s.advance
      [s.currentChar]
    have hnum : isNumber (s.currentChar :: ds) = true := by
      simp only [isNumber, Bool.and_eq_true, decide_eq_true_eq, List.all_eq_true]
      exact ⟨hc, h2⟩
    simp only [h1, List.singleton_append,
      stoi_digits (List.cons_ne_nil _ _) (isNumber_all_isdigit hnum)] at h
    by_cases hle : decimalValue (s.currentChar :: ds) ≤ INT_MAX
    · simp only [if_pos hle, Result.ok.injEq] at h
      obtain ⟨hv, hs⟩ := h
      subst hv
      subst hs
      refine ⟨?_, by rw [hcs, advance_constants]⟩
      have hpos := decimalValue_pos hnum
      simp only [ConfigValue.inRange, decide_eq_true_eq, Int.ofNat_eq_coe]
      exact ⟨by exact_mod_cast hpos, by exact_mod_cast hle⟩
    · simp only [if_neg hle] at h
      cases h
  · cases h

theorem Dict.find_inRange {t : Dict} {k : List Char} {v : ConfigValue}
    (ht : entriesInRange t = true) (h : t.find k = some v) : v.inRange = true := by
  induction t with
  | nil => cases h
  | cons e rest ih =>
    obtain ⟨k', v'⟩ := e
    simp only [entriesInRange, Bool.and_eq_true] at ht
    simp only [Dict.find] at h
    split at h
    · injection h with h
      rw [← h]; exact ht.1
    · exact ih ht.2 h

theorem Dict.assign_inRange {t : Dict} (k : List Char) {v : ConfigValue}
    (ht : entriesInRange t = true) (hv : v.inRange = true) :
    entriesInRange (t.assign k v) = true := by
  induction t with
  | nil => simp [Dict.assign, entriesInRange, hv]
  | cons e rest ih =>
    obtain ⟨k', v'⟩ := e
    simp only [entriesInRange, Bool.and_eq_true] at ht
    simp only [Dict.assign]
    split
    · simp [entriesInRange, hv, ht.2]
    · simp [entriesInRange, ht.1, ih ht.2]

theorem parseConstantExpression_inRange {s s' : ConfigParser} {v : ConfigValue}
    (ht : entriesInRange s.constants = true) (h : s.parseConstantExpression = .ok v s') :
    v.inRange = true ∧ s'.constants = s.constants := by
  unfold parseConstantExpression at h
  split at h
  · cases h
  · cases h
  · rename_i u1 s1 e1
    split at h
    · cases h
    · cases h
    · rename_i u2 s2 e2
      have c1 := expect_constants e1
      have c2 := expect_constants e2
      have c3 := parseName_constants s2
      revert h
      generalize s2.parseName = r at c3 ⊢
      obtain ⟨name, s3⟩ := r
      intro h
      simp only at h c3
      split at h
      · cases h
      · split at h
        · cases h
        · cases h
        · rename_i u4 s4 e4
          have c4 := expect_constants e4
          split at h
          · cases h
          · rename_i value hf
            injection h with hv hs
            subst hv
            subst hs
            have hall : s4.constants = s.constants := by rw [c4, c3, c2, c1]
            rw [hall] at hf
            exact ⟨Dict.find_inRange ht hf, hall⟩

end YAMLParser

namespace YAMLParser
open ConfigParser

/-- The recursive descent yields values whose numbers lie in `1 .. INT_MAX`, and leaves
the constant table as it is. -/
theorem descent_inRange :
    ∀ (fuel : Nat),
      (∀ (s s' : ConfigParser) (v : ConfigValue), parseValue fuel s = .ok v s' →
        entriesInRange s.constants = true → v.inRange = true ∧ s'.constants = s.constants)
      ∧ (∀ (s s' : ConfigParser) (v : ConfigValue), parseDict fuel s = .ok v s' →
        entriesInRange s.constants = true → v.inRange = true ∧ s'.constants = s.constants)
      ∧ (∀ (s s' : ConfigParser) (acc d : Dict), parseDictLoop fuel s acc = .ok d s' →
        entriesInRange s.constants = true → entriesInRange acc = true →
        entriesInRange d = true ∧ s'.constants = s.constants) := by
  intro fuel
  induction fuel with
  | zero =>
    refine ⟨?_, ?_, ?_⟩
    · intro s s' v h; rw [parseValue] at h; cases h
    · intro s s' v h; rw [parseDict] at h; cases h
    · intro s s' acc d h; rw [parseDictLoop] at h; cases h
  | succ fuel ih =>
    obtain ⟨ihV, ihD, ihL⟩ := ih
    refine ⟨?_, ?_, ?_⟩
    · intro s s' v h ht
      rw [parseValue] at h
      have hc := skipWhitespace_constants s
      split at h
      · obtain ⟨h1, h2⟩ := ihD _ _ _ h (by rw [hc]; exact ht)
        exact ⟨h1, by rw [h2, hc]⟩
      · split at h
        · obtain ⟨h1, h2⟩ := parseConstantExpression_inRange (by rw [hc]; exact ht) h
          exact ⟨h1, by rw [h2, hc]⟩
        · split at h
          · obtain ⟨h1, h2⟩ := parseNumber_inRange h
            exact ⟨h1, by rw [h2, hc]⟩
          · cases h
    · intro s s' v h ht
      rw [parseDict] at h
      split at h
      · cases h
      · cases h
      · rename_i u1 s1 e1
        have c1 := expect_constants e1
        split at h
        · cases h
        · cases h
        · rename_i dict s2 e2
          obtain ⟨hd, c2⟩ := ihL _ _ _ _ e2 (by rw [c1]; exact ht) rfl
          split at h
          · cases h
          · cases h
          · rename_i u3 s3 e3
            have c3 := expect_constants e3
            simp only [Result.ok.injEq] at h
            obtain ⟨hv, hs⟩ := h
            subst hv
            subst hs
            exact ⟨hd, by rw [c3, c2, c1]⟩
    · intro s s' acc d h ht hacc
      rw [parseDictLoop] at h
      split at h
      · simp only at h
        have c1 := skipWhitespace_constants s
        split at h
        · simp only [Result.ok.injEq] at h
          obtain ⟨hv, hs⟩ := h
          subst hv
          subst hs
          exact ⟨hacc, c1⟩
        · have c2 := parseName_constants s.skipWhitespace
          revert h
          generalize s.skipWhitespace.parseName = r at c2 ⊢
          obtain ⟨name, s2⟩ := r
          intro h
          simp only at h c2
          split at h
          · cases h
          · have c3 := skipWhitespace_constants s2
            split at h
            · cases h
            · cases h
            · rename_i u4 s4 e4
              have c4 := expect_constants e4
              split at h
              · cases h
              · cases h
              · rename_i u5 s5 e5
                have c5 := expect_constants e5
                have hall5 : s5.constants = s.constants := by rw [c5, c4, c3, c2, c1]
                split at h
                · cases h
                · cases h
                · rename_i value s6 e6
                  obtain ⟨hv, c6⟩ := ihV _ _ _ e6 (by rw [hall5]; exact ht)
                  have c7 := skipWhitespace_constants s6
                  have hall7 : s6.skipWhitespace.constants = s.constants := by
                    rw [c7, c6, hall5]
                  have hacc' := Dict.assign_inRange name hacc hv
                  split at h
                  · obtain ⟨h1, h2⟩ := ihL _ _ _ _ h
                      (by rw [skipWhitespace_constants, advance_constants, hall7]; exact ht)
                      hacc'
                    exact ⟨h1, by
                      rw [h2, skipWhitespace_constants, advance_constants, hall7]⟩
                  · split at h
                    · cases h
                    · obtain ⟨h1, h2⟩ := ihL _ _ _ _ h
                        (by rw [skipWhitespace_constants, hall7]; exact ht) hacc'
                      exact ⟨h1, by rw [h2, skipWhitespace_constants, hall7]⟩
      · simp only [Result.ok.injEq] at h
        obtain ⟨hv, hs⟩ := h
        subst hv
        subst hs
        exact ⟨hacc, rfl⟩

theorem parseConstant_inRange {fuel : Nat} {s s' : ConfigParser} {u : Unit}
    (h : parseConstant fuel s = .ok u s') (ht : entriesInRange s.constants = true) :
    entriesInRange s'.constants = true := by
  unfold parseConstant at h
  have c1 := parseName_constants s
  revert h
  generalize s.parseName = r at c1 ⊢
  obtain ⟨name, s1⟩ := r
  intro h
  simp only at h c1
  split at h
  · cases h
  · have c2 := skipWhitespace_constants s1
    split at h
    · cases h
    · cases h
    · rename_i u3 s3 e3
      have c3 := expect_constants e3
      split at h
      · cases h
      · cases h
      · rename_i u4 s4 e4
        have c4 := expect_constants e4
        have hall : s4.constants = s.constants := by rw [c4, c3, c2, c1]
        split at h
        · cases h
        · cases h
        · rename_i value s5 e5
          obtain ⟨hv, c5⟩ := (descent_inRange fuel).1 _ _ _ e5 (by rw [hall]; exact ht)
          simp only [Result.ok.injEq] at h
          obtain ⟨_, hs⟩ := h
          subst hs
          simp only
          exact Dict.assign_inRange name (by rw [c5, hall]; exact ht) hv

/-- The loop of `parseFile` keeps every number of the constant table in `1 .. INT_MAX`. -/
theorem parseFileLoop_inRange :
    ∀ (fuel : Nat) (s s' : ConfigParser) (u : Unit), parseFileLoop fuel s = .ok u s' →
      entriesInRange s.constants = true → entriesInRange s'.constants = true := by
  intro fuel
  induction fuel with
  | zero => intro s s' u h; rw [parseFileLoop] at h; cases h
  | succ fuel ih =>
    intro s s' u h ht
    rw [parseFileLoop] at h
    split at h
    · simp only at h
      have c1 := skipWhitespace_constants s
      split at h
      · simp only [Result.ok.injEq] at h
        obtain ⟨_, hs⟩ := h
        subst hs
        rw [c1]; exact ht
      · split at h
        · exact ih _ _ _ h (by rw [skipComment_constants, c1]; exact ht)
        · have c2 := parseName_constants s.skipWhitespace
          revert h
          generalize s.skipWhitespace.parseName = r at c2 ⊢
          obtain ⟨name, s2⟩ := r
          intro h
          simp only at h c2
          have c3 := skipWhitespace_constants s2
          have hall : s2.skipWhitespace.constants = s.constants := by rw [c3, c2, c1]
          split at h
          · split at h
            · split at h
              · cases h
              · cases h
              · rename_i u4 s4 e4
                exact ih _ _ _ h (parseConstant_inRange e4 (by simp only [hall]; exact ht))
            · split at h
              · cases h
              · cases h
              · rename_i v4 s4 e4
                obtain ⟨_, c4⟩ := (descent_inRange fuel).2.1 _ _ _ e4
                  (by simp only [hall]; exact ht)
                exact ih _ _ _ h (by rw [c4]; simp only [hall]; exact ht)
          · cases h
    · simp only [Result.ok.injEq] at h
      obtain ⟨_, hs⟩ := h
      subst hs
      exact ht

/-- After a successful `parseFile` on a fresh parser, every number of the constant table
lies in `1 .. INT_MAX`. -/
theorem parseFile_inRange {filename : String} {inp : List Char} {r : ParseFileResult}
    (h : parseFile ConfigParser.new filename (some inp) = some r) (hr : r.returned = true) :
    entriesInRange r.self.constants = true := by
  rw [parseFile_new] at h
  split at h
  · rename_i u s1 e1
    simp only [Option.some.injEq] at h
    subst h
    exact parseFileLoop_inRange _ _ _ _ e1 rfl
  · simp only [Option.some.injEq] at h
    subst h
    cases hr
  · cases h

end YAMLParser

namespace YAMLParser
open ConfigParser

/-! ## The parser seen from the text that remains to be read

Every function of the parser depends on the buffer and the cursor only through the text
that remains; the lemmas below state this for the functions that do not recurse. -/

theorem at_cursor {inp : List Char} {p : Nat} (t : Dict) (hp : p ≤ inp.length) :
    At inp (inp.drop p) t (cursor inp p t) := ⟨p, hp, rfl, rfl⟩

theorem drop_takeWhile_length (P : Char → Bool) (l : List Char) :
    l.drop (l.takeWhile P).length = l.dropWhile P := by
  induction l with
  | nil => rfl
  | cons c r ih =>
    by_cases hc : P c = true
    · simp [List.takeWhile_cons, List.dropWhile_cons, hc, ih]
    · simp [List.takeWhile_cons, List.dropWhile_cons, hc]

theorem at_of_drop {inp π τ : List Char} {p : Nat} (t : Dict) (hp : p ≤ inp.length)
    (h : inp.drop p = π ++ τ) : At inp τ t (cursor inp (p + π.length) t) := by
  have hlen := length_le_of_drop h
  exact ⟨p + π.length, by omega, drop_after h, rfl⟩

theorem at_input {inp σ : List Char} {t : Dict} {s : ConfigParser} (h : At inp σ t s) :
    s.input = inp := by
  obtain ⟨p, _, _, rfl⟩ := h
  rfl

theorem at_constants {inp σ : List Char} {t : Dict} {s : ConfigParser} (h : At inp σ t s) :
    s.constants = t := by
  obtain ⟨p, _, _, rfl⟩ := h
  rfl

theorem at_pos {inp σ : List Char} {t : Dict} {s : ConfigParser} (h : At inp σ t s) :
    s.pos + σ.length = inp.length := by
  obtain ⟨p, hp, hd, rfl⟩ := h
  have := congrArg List.length hd
  rw [List.length_drop] at this
  simp only [cursor_pos]
  omega

theorem at_currentChar {inp σ : List Char} {t : Dict} {s : ConfigParser} (h : At inp σ t s) :
    s.currentChar = σ.headD NUL := by
  obtain ⟨p, hp, hd, rfl⟩ := h
  cases σ with
  | nil => exact currentChar_of_drop_nil t hd
  | cons c r => exact currentChar_of_drop t hd

theorem at_pos_lt {inp σ : List Char} {t : Dict} {s : ConfigParser} (h : At inp σ t s) :
    s.pos < s.input.length ↔ σ ≠ [] := by
  have h1 := at_pos h
  rw [at_input h]
  cases σ with
  | nil => simp only [List.length_nil] at h1; simp; omega
  | cons c r => simp only [List.length_cons] at h1; simp; omega

/-- Two parsers over the same buffer that have the same text left are the same parser. -/
theorem at_unique {inp σ : List Char} {t : Dict} {s s' : ConfigParser} (h : At inp σ t s)
    (h' : At inp σ t s') : s = s' := by
  have e1 := at_pos h
  have e2 := at_pos h'
  obtain ⟨p, _, _, rfl⟩ := h
  obtain ⟨q, _, _, rfl⟩ := h'
  simp only [cursor_pos] at e1 e2
  have : p = q := by omega
  rw [this]

theorem at_advance {inp σ : List Char} {c : Char} {t : Dict} {s : ConfigParser}
    (h : At inp (c :: σ) t s) : At inp σ t s.advance := by
  obtain ⟨p, hp, hd, rfl⟩ := h
  rw [advance_cursor]
  exact @at_of_drop inp [c] σ p t hp hd

theorem at_skipWhitespace {inp σ : List Char} {t : Dict} {s : ConfigParser}
    (h : At inp σ t s) : At inp (σ.dropWhile isspace) t s.skipWhitespace := by
  obtain ⟨p, hp, hd, rfl⟩ := h
  rw [skipWhitespace_total, hd]
  exact at_of_drop t hp (hd.trans (List.takeWhile_append_dropWhile isspace σ).symm)

theorem at_skipComment {inp σ : List Char} {t : Dict} {s : ConfigParser}
    (h : At inp σ t s) : At inp (σ.dropWhile (fun c => c != '\n')) t s.skipComment := by
  obtain ⟨p, hp, hd, rfl⟩ := h
  have hsplit : inp.drop p = σ.takeWhile (fun c => c != '\n') ++ σ.dropWhile (fun c => c != '\n') :=
    hd.trans (List.takeWhile_append_dropWhile _ σ).symm
  rw [skipComment_cursor t hsplit
    (fun c hc => by simpa using List.mem_takeWhile_imp hc) (headIs_dropWhile _ _)]
  exact at_of_drop t hp hsplit

/-! ### Names -/

theorem nameOf_cons_pos {c : Char} (r : List Char) (hc : isalpha c = true) :
    nameOf (c :: r) = c :: r.takeWhile isalnum := by
  rw [nameOf, if_pos hc]

theorem nameOf_cons_neg {c : Char} (r : List Char) (hc : ¬ isalpha c = true) :
    nameOf (c :: r) = [] := by
  rw [nameOf, if_neg hc]

theorem nameOf_cases (σ : List Char) : nameOf σ = [] ∨ isName (nameOf σ) = true := by
  cases σ with
  | nil => exact Or.inl rfl
  | cons c r =>
    by_cases hc : isalpha c = true
    · right
      rw [nameOf_cons_pos r hc]
      simp only [isName, hc, Bool.true_and, List.all_eq_true]
      exact fun x hx => List.mem_takeWhile_imp hx
    · exact Or.inl (nameOf_cons_neg r hc)

theorem nameOf_append (σ : List Char) : σ = nameOf σ ++ σ.drop (nameOf σ).length := by
  cases σ with
  | nil => rfl
  | cons c r =>
    by_cases hc : isalpha c = true
    · rw [nameOf_cons_pos r hc]
      simp only [List.length_cons, List.drop_succ_cons, List.cons_append, List.cons.injEq,
        true_and]
      rw [drop_takeWhile_length]
      exact (List.takeWhile_append_dropWhile isalnum r).symm
    · rw [nameOf_cons_neg r hc]
      rfl

theorem headIs_isalnum_after_name (σ : List Char) (h : nameOf σ ≠ []) :
    headIs isalnum (σ.drop (nameOf σ).length) = false := by
  cases σ with
  | nil => exact absurd rfl h
  | cons c r =>
    by_cases hc : isalpha c = true
    · rw [nameOf_cons_pos r hc]
      simp only [List.length_cons, List.drop_succ_cons]
      rw [drop_takeWhile_length]
      exact headIs_dropWhile _ _
    · exact absurd (nameOf_cons_neg r hc) h

end YAMLParser

namespace YAMLParser
open ConfigParser

/-! ### Tokens, from the text that remains -/

theorem at_parseName {inp σ : List Char} {t : Dict} {s : ConfigParser} (h : At inp σ t s) :
    ∃ s', s.parseName = (nameOf σ, s') ∧ At inp (σ.drop (nameOf σ).length) t s' := by
  obtain ⟨p, hp, hd, rfl⟩ := h
  rcases nameOf_cases σ with h0 | hname
  · have hnone : headIs isalpha (inp.drop p) = false := by
      rw [hd]
      cases σ with
      | nil => rfl
      | cons c r =>
        by_cases hc : isalpha c = true
        · rw [nameOf_cons_pos r hc] at h0
          cases h0
        · simpa using hc
    refine ⟨cursor inp p t, ?_, ?_⟩
    · rw [parseName_none t hnone, h0]
    · rw [h0]
      exact ⟨p, hp, hd, rfl⟩
  · have hsplit : inp.drop p = nameOf σ ++ σ.drop (nameOf σ).length :=
      hd.trans (nameOf_append σ)
    refine ⟨cursor inp (p + (nameOf σ).length) t, ?_, at_of_drop t hp hsplit⟩
    exact parseName_cursor t hsplit hname
      (headIs_isalnum_after_name σ (isName_ne_nil hname))

theorem at_expect_ok {inp σ τ : List Char} {c : Char} {t : Dict} {s : ConfigParser}
    (h : At inp σ t s) (hσ : σ.dropWhile isspace = c :: τ) :
    ∃ s', s.expect c = .ok () s' ∧ At inp τ t s' := by
  have h1 := at_skipWhitespace h
  rw [hσ] at h1
  have hc : s.skipWhitespace.currentChar = c := at_currentChar h1
  refine ⟨s.skipWhitespace.advance, ?_, at_advance h1⟩
  rw [expect]
  exact if_pos hc

theorem at_expect_thrown {inp σ : List Char} {c : Char} {t : Dict} {s : ConfigParser}
    (h : At inp σ t s) (hσ : (σ.dropWhile isspace).headD NUL ≠ c) :
    ∃ w s', s.expect c = .thrown w s' ∧ At inp (σ.dropWhile isspace) t s' := by
  have h1 := at_skipWhitespace h
  have hc : s.skipWhitespace.currentChar ≠ c := by
    rw [at_currentChar h1]
    exact hσ
  rw [expect, if_neg hc]
  exact ⟨_, _, rfl, h1⟩

/-- The text behind the whitespace in front starts with `c` or does not. -/
theorem dropWhile_head_cases (σ : List Char) (c : Char) (hc : c ≠ NUL) :
    (∃ τ, σ.dropWhile isspace = c :: τ) ∨ (σ.dropWhile isspace).headD NUL ≠ c := by
  cases hσ : σ.dropWhile isspace with
  | nil => exact Or.inr (fun h => hc h.symm)
  | cons d τ =>
    by_cases hd : d = c
    · exact Or.inl ⟨τ, by rw [hd]⟩
    · exact Or.inr hd

theorem dropWhile_isspace_idem (σ : List Char) :
    (σ.dropWhile isspace).dropWhile isspace = σ.dropWhile isspace := by
  have h := headIs_dropWhile isspace σ
  cases hσ : σ.dropWhile isspace with
  | nil => rfl
  | cons c r =>
    rw [hσ] at h
    have hc : ¬ isspace c = true := by simpa using h
    rw [List.dropWhile_cons, if_neg hc]

theorem length_dropWhile_le (P : Char → Bool) (σ : List Char) :
    (σ.dropWhile P).length ≤ σ.length := by
  conv_rhs => rw [← List.takeWhile_append_dropWhile P σ]
  rw [List.length_append]
  omega

/-! ### Texts with balanced braces -/

theorem consumed_refl (σ : List Char) : Consumed σ σ := ⟨[], rfl, rfl⟩

theorem consumed_trans {σ τ υ : List Char} (h1 : Consumed σ τ) (h2 : Consumed τ υ) :
    Consumed σ υ := by
  obtain ⟨π1, e1, b1⟩ := h1
  obtain ⟨π2, e2, b2⟩ := h2
  refine ⟨π1 ++ π2, by rw [e1, e2, List.append_assoc], ?_⟩
  unfold balanced at *
  rw [List.count_append, List.count_append, b1, b2]

theorem consumed_length {σ τ : List Char} (h : Consumed σ τ) : τ.length ≤ σ.length := by
  obtain ⟨π, e, _⟩ := h
  rw [e, List.length_append]
  omega

theorem consumed_of_plain {σ π τ : List Char} (e : σ = π ++ τ)
    (h : ∀ c ∈ π, c ≠ '{' ∧ c ≠ '}') : Consumed σ τ := by
  refine ⟨π, e, ?_⟩
  unfold balanced
  rw [List.count_eq_zero.mpr (fun hm => (h _ hm).1 rfl),
    List.count_eq_zero.mpr (fun hm => (h _ hm).2 rfl)]

theorem consumed_cons {c : Char} (σ : List Char) (h1 : c ≠ '{') (h2 : c ≠ '}') :
    Consumed (c :: σ) σ :=
  @consumed_of_plain (c :: σ) [c] σ rfl (fun d hd => by
    rw [List.mem_singleton.mp hd]
    exact ⟨h1, h2⟩)

theorem consumed_dropWhile (P : Char → Bool) (σ : List Char) (h1 : P '{' = false)
    (h2 : P '}' = false) : Consumed σ (σ.dropWhile P) :=
  consumed_of_plain (List.takeWhile_append_dropWhile P σ).symm (fun c hc => by
    have := List.mem_takeWhile_imp hc
    constructor
    · intro e
      rw [e, h1] at this
      cases this
    · intro e
      rw [e, h2] at this
      cases this)

theorem consumed_name (σ : List Char) : Consumed σ (σ.drop (nameOf σ).length) := by
  refine consumed_of_plain (nameOf_append σ) (fun c hc => ?_)
  rcases nameOf_cases σ with h0 | hname
  · rw [h0] at hc
    cases hc
  · have hal : isalnum c = true := by
      cases hn : nameOf σ with
      | nil => rw [hn] at hc; cases hc
      | cons a as =>
        rw [hn] at hname hc
        obtain ⟨ha, has⟩ := isName_cons hname
        rcases List.mem_cons.mp hc with e | hm
        · rw [e]
          simp [isalnum, ha]
        · exact has c hm
    constructor
    · intro e
      rw [e] at hal
      revert hal
      decide
    · intro e
      rw [e] at hal
      revert hal
      decide

theorem consumed_braces {σ τ : List Char} (h : Consumed σ ('}' :: τ)) :
    Consumed ('{' :: σ) τ := by
  obtain ⟨π, e, b⟩ := h
  refine ⟨'{' :: (π ++ ['}']), by rw [e]; simp, ?_⟩
  unfold balanced at *
  simp only [List.count_cons, List.count_append, List.count_nil, b]
  simp

/-! ### Outcomes -/

theorem agrees_some {α : Type} {inp : List Char} {t : Dict} {a : α} {τ : List Char}
    {r : Result α} (h : Result.agrees inp t (some (a, τ)) r) :
    ∃ s', r = .ok a s' ∧ At inp τ t s' := by
  cases r with
  | ok a' s' =>
    obtain ⟨e, hat⟩ := h
    exact ⟨s', by rw [e], hat⟩
  | thrown w s' => exact False.elim h
  | outOfFuel => exact False.elim h

theorem agrees_none {α : Type} {inp : List Char} {t : Dict} {r : Result α}
    (h : Result.agrees inp t (none : Option (α × List Char)) r) :
    ∃ w s' τ, r = .thrown w s' ∧ At inp τ t s' := by
  cases r with
  | ok a' s' => exact False.elim h
  | thrown w s' =>
    obtain ⟨τ, hat⟩ := h
    exact ⟨w, s', τ, rfl, hat⟩
  | outOfFuel => exact False.elim h

theorem agrees_ok {α : Type} {inp : List Char} {t : Dict} {a : α} {τ : List Char}
    {s' : ConfigParser} (h : At inp τ t s') :
    Result.agrees inp t (some (a, τ)) (.ok a s') := ⟨rfl, h⟩

theorem agrees_thrown {α : Type} {inp : List Char} {t : Dict} {τ : List Char} {w : String}
    {s' : ConfigParser} (h : At inp τ t s') :
    Result.agrees inp t (none : Option (α × List Char)) (.thrown w s') := ⟨τ, h⟩

theorem agrees_error {α : Type} {inp : List Char} {t : Dict} {τ : List Char} (message : String)
    {s' : ConfigParser} (h : At inp τ t s') :
    Result.agrees inp t (none : Option (α × List Char)) (s'.error message) := ⟨τ, h⟩

/-! ### Keys that are names -/

theorem Dict.find_namesOk {t : Dict} {k : List Char} {v : ConfigValue}
    (ht : entriesNamesOk t = true) (h : t.find k = some v) : v.namesOk = true := by
  induction t with
  | nil => cases h
  | cons e rest ih =>
    obtain ⟨k', v'⟩ := e
    simp only [entriesNamesOk, Bool.and_eq_true] at ht
    by_cases hk : k' = k
    · simp only [Dict.find, hk, if_true, Option.some.injEq] at h
      rw [← h]
      exact ht.1.2
    · simp only [Dict.find, hk, if_false] at h
      exact ih ht.2 h

theorem Dict.assign_namesOk {t : Dict} {k : List Char} {v : ConfigValue}
    (ht : entriesNamesOk t = true) (hk : isName k = true) (hv : v.namesOk = true) :
    entriesNamesOk (t.assign k v) = true := by
  induction t with
  | nil => simp [Dict.assign, entriesNamesOk, hv, hk]
  | cons e rest ih =>
    obtain ⟨k', v'⟩ := e
    simp only [entriesNamesOk, Bool.and_eq_true] at ht
    by_cases hkk : k' = k
    · simp only [Dict.assign, hkk, if_true, entriesNamesOk, Bool.and_eq_true]
      exact ⟨⟨hk, hv⟩, ht.2⟩
    · simp only [Dict.assign, hkk, if_false, entriesNamesOk, Bool.and_eq_true]
      exact ⟨ht.1, ih ht.2⟩

end YAMLParser

namespace YAMLParser
open ConfigParser

/-! ### Numbers and references, from the text that remains -/

theorem digit_not_brace {c : Char} (h : isdigit c = true) : c ≠ '{' ∧ c ≠ '}' := by
  constructor
  · intro e
    rw [e] at h
    revert h
    decide
  · intro e
    rw [e] at h
    revert h
    decide

/-- Function `parseNumber` has one outcome on a remaining text. -/
theorem parseNumber_spec (σ : List Char) (t : Dict) :
    ∃ o : Option (ConfigValue × List Char),
      (∀ v τ, o = some (v, τ) →
        v.namesOk = true ∧ Consumed σ τ ∧ τ.length < σ.length) ∧
      ∀ inp s, At inp σ t s → Result.agrees inp t o s.parseNumber := by
  by_cases h19 : '1' ≤ σ.headD NUL ∧ σ.headD NUL ≤ '9'
  · cases σ with
    | nil => exact absurd h19 (by decide)
    | cons c r =>
      simp only [List.headD_cons] at h19
      have hds : isNumber (c :: r.takeWhile isdigit) = true := by
        simp only [isNumber, h19, and_self, decide_True, Bool.true_and, List.all_eq_true]
        exact fun x hx => List.mem_takeWhile_imp hx
      have hsplit : c :: r = (c :: r.takeWhile isdigit) ++ r.dropWhile isdigit := by
        rw [List.cons_append, List.takeWhile_append_dropWhile]
      have hcons : Consumed (c :: r) (r.dropWhile isdigit) :=
        consumed_of_plain hsplit (fun d hd => by
          rcases List.mem_cons.mp hd with e | hm
          · rw [e]
            exact digit_not_brace (isdigit_of_19 h19)
          · exact digit_not_brace (List.mem_takeWhile_imp hm))
      have hlen : (r.dropWhile isdigit).length < (c :: r).length := by
        have := length_dropWhile_le isdigit r
        simp only [List.length_cons]
        omega
      by_cases hle : decimalValue (c :: r.takeWhile isdigit) ≤ INT_MAX
      · refine ⟨some (.number (Int.ofNat (decimalValue (c :: r.takeWhile isdigit))),
          r.dropWhile isdigit), ?_, ?_⟩
        · intro v τ e
          simp only [Option.some.injEq, Prod.mk.injEq] at e
          rw [← e.1, ← e.2]
          exact ⟨rfl, hcons, hlen⟩
        · intro inp s hat
          obtain ⟨p, hp, hd, rfl⟩ := hat
          rw [parseNumber_cursor t (hd.trans hsplit) hds (headIs_dropWhile _ _), if_pos hle]
          exact agrees_ok (at_of_drop t hp (hd.trans hsplit))
      · refine ⟨none, (fun _ _ e => by cases e), ?_⟩
        intro inp s hat
        obtain ⟨p, hp, hd, rfl⟩ := hat
        rw [parseNumber_cursor t (hd.trans hsplit) hds (headIs_dropWhile _ _), if_neg hle]
        exact agrees_error _ (at_of_drop t hp (hd.trans hsplit))
  · refine ⟨none, (fun _ _ e => by cases e), ?_⟩
    intro inp s hat
    rw [parseNumber_bad_start s (by rw [at_currentChar hat]; exact h19)]
    exact agrees_error _ hat

/-- Function `parseConstantExpression` has one outcome on a remaining text; the value
returned is the one that the table binds to the name. -/
theorem parseConstantExpression_spec (σ : List Char) (t : Dict) :
    ∃ o : Option (ConfigValue × List Char),
      (∀ v τ, o = some (v, τ) →
        (entriesNamesOk t = true → v.namesOk = true) ∧
        Consumed (σ.dropWhile isspace) τ ∧ τ.length < (σ.dropWhile isspace).length) ∧
      ∀ inp s, At inp σ t s → Result.agrees inp t o s.parseConstantExpression := by
  rcases dropWhile_head_cases σ '?' (by decide) with ⟨ρ1, h1⟩ | h1
  swap
  · refine ⟨none, (fun _ _ e => by cases e), ?_⟩
    intro inp s hat
    obtain ⟨w, s', e, hat'⟩ := at_expect_thrown hat h1
    rw [parseConstantExpression, e]
    exact agrees_thrown hat'
  rcases dropWhile_head_cases ρ1 '(' (by decide) with ⟨ρ2, h2⟩ | h2
  swap
  · refine ⟨none, (fun _ _ e => by cases e), ?_⟩
    intro inp s hat
    obtain ⟨s1, e1, hat1⟩ := at_expect_ok hat h1
    obtain ⟨w, s', e, hat'⟩ := at_expect_thrown hat1 h2
    rw [parseConstantExpression, e1]
    dsimp only
    rw [e]
    exact agrees_thrown hat'
  by_cases hn : nameOf ρ2 = []
  · refine ⟨none, (fun _ _ e => by cases e), ?_⟩
    intro inp s hat
    obtain ⟨s1, e1, hat1⟩ := at_expect_ok hat h1
    obtain ⟨s2, e2, hat2⟩ := at_expect_ok hat1 h2
    obtain ⟨s3, e3, hat3⟩ := at_parseName hat2
    rw [parseConstantExpression, e1]
    dsimp only
    rw [e2]
    dsimp only
    rw [e3]
    dsimp only
    rw [if_pos hn]
    exact agrees_error _ hat3
  rcases dropWhile_head_cases (ρ2.drop (nameOf ρ2).length) ')' (by decide) with ⟨τ, h3⟩ | h3
  swap
  · refine ⟨none, (fun _ _ e => by cases e), ?_⟩
    intro inp s hat
    obtain ⟨s1, e1, hat1⟩ := at_expect_ok hat h1
    obtain ⟨s2, e2, hat2⟩ := at_expect_ok hat1 h2
    obtain ⟨s3, e3, hat3⟩ := at_parseName hat2
    obtain ⟨w, s', e, hat'⟩ := at_expect_thrown hat3 h3
    rw [parseConstantExpression, e1]
    dsimp only
    rw [e2]
    dsimp only
    rw [e3]
    dsimp only
    rw [if_neg hn, e]
    exact agrees_thrown hat'
  cases hf : t.find (nameOf ρ2) with
  | none =>
    refine ⟨none, (fun _ _ e => by cases e), ?_⟩
    intro inp s hat
    obtain ⟨s1, e1, hat1⟩ := at_expect_ok hat h1
    obtain ⟨s2, e2, hat2⟩ := at_expect_ok hat1 h2
    obtain ⟨s3, e3, hat3⟩ := at_parseName hat2
    obtain ⟨s4, e4, hat4⟩ := at_expect_ok hat3 h3
    rw [parseConstantExpression, e1]
    dsimp only
    rw [e2]
    dsimp only
    rw [e3]
    dsimp only
    rw [if_neg hn, e4]
    dsimp only
    rw [at_constants hat4, hf]
    exact agrees_error _ hat4
  | some value =>
    refine ⟨some (value, τ), ?_, ?_⟩
    · intro v τ' e
      simp only [Option.some.injEq, Prod.mk.injEq] at e
      rw [← e.1, ← e.2]
      have c1 : Consumed ('?' :: ρ1) ρ1 := consumed_cons ρ1 (by decide) (by decide)
      have c2 : Consumed ρ1 (ρ1.dropWhile isspace) :=
        consumed_dropWhile isspace ρ1 (by decide) (by decide)
      have c3 : Consumed ('(' :: ρ2) ρ2 := consumed_cons ρ2 (by decide) (by decide)
      have c4 := consumed_name ρ2
      have c5 : Consumed (ρ2.drop (nameOf ρ2).length)
          ((ρ2.drop (nameOf ρ2).length).dropWhile isspace) :=
        consumed_dropWhile isspace _ (by decide) (by decide)
      have c6 : Consumed (')' :: τ) τ := consumed_cons τ (by decide) (by decide)
      rw [h2] at c2
      rw [h3] at c5
      have call := consumed_trans c1 (consumed_trans c2 (consumed_trans c3
        (consumed_trans c4 (consumed_trans c5 c6))))
      rw [h1]
      refine ⟨fun ht => Dict.find_namesOk ht hf, call, ?_⟩
      have l2 := consumed_length c2
      have l3 := consumed_length (consumed_trans c4 c5)
      simp only [List.length_cons] at l2 l3 ⊢
      omega
    · intro inp s hat
      obtain ⟨s1, e1, hat1⟩ := at_expect_ok hat h1
      obtain ⟨s2, e2, hat2⟩ := at_expect_ok hat1 h2
      obtain ⟨s3, e3, hat3⟩ := at_parseName hat2
      obtain ⟨s4, e4, hat4⟩ := at_expect_ok hat3 h3
      rw [parseConstantExpression, e1]
      dsimp only
      rw [e2]
      dsimp only
      rw [e3]
      dsimp only
      rw [if_neg hn, e4]
      dsimp only
      rw [at_constants hat4, hf]
      exact agrees_ok hat4

end YAMLParser

namespace YAMLParser
open ConfigParser

/-! ### One iteration of the entry loop of `parseDict` -/

theorem at_loop_cond {inp σ : List Char} {t : Dict} {s : ConfigParser} (h : At inp σ t s) :
    (s.pos < s.input.length ∧ s.currentChar ≠ '}') ↔ (σ ≠ [] ∧ σ.headD NUL ≠ '}') := by
  rw [at_pos_lt h, at_currentChar h]

/-- The entry loop of `parseDict` returns at once at the end of the input and on a closing
brace. -/
theorem parseDictLoop_stop {inp σ : List Char} {t : Dict} {s : ConfigParser} (acc : Dict)
    (f : Nat) (hat : At inp σ t s) (h : ¬ (σ ≠ [] ∧ σ.headD NUL ≠ '}')) :
    parseDictLoop (f + 1) s acc = .ok acc s := by
  rw [parseDictLoop, if_neg (fun hc => h ((at_loop_cond hat).mp hc))]

theorem length_dropWhile_lt {σ : List Char} (hσ : σ ≠ []) (h1 : σ.headD NUL ≠ '}')
    (h2 : (σ.dropWhile isspace).headD NUL = '}') :
    (σ.dropWhile isspace).length < σ.length := by
  cases σ with
  | nil => exact absurd rfl hσ
  | cons c r =>
    by_cases hc : isspace c = true
    · rw [List.dropWhile_cons, if_pos hc]
      have := length_dropWhile_le isspace r
      simp only [List.length_cons]
      omega
    · rw [List.dropWhile_cons, if_neg hc] at h2
      exact absurd h2 h1

/-- One iteration of the entry loop of `parseDict`, started where `σ` remains, with an entry
still to come: either it raises an exception, or the loop goes on, with a map `d`, where
a strictly shorter text `τ` remains.  The break on a closing brace behind whitespace is a case
of the second: the loop that goes on there returns at once. -/
theorem parseDictLoop_step (σ : List Char) (t : Dict) (acc : Dict) (hσ : σ ≠ [])
    (hb : σ.headD NUL ≠ '}')
    (HV : ∀ σ', σ'.length + 3 ≤ σ.length → ValueSpec σ' t) :
    (∀ inp s f, At inp σ t s → σ.length ≤ f →
        ∃ w s' τ, parseDictLoop (f + 1) s acc = .thrown w s' ∧ At inp τ t s') ∨
    (∃ d τ, τ.length < σ.length ∧ Consumed σ τ ∧
        (entriesNamesOk t = true → entriesNamesOk acc = true → entriesNamesOk d = true) ∧
        ∀ inp s f, At inp σ t s → σ.length ≤ f →
          ∃ s', At inp τ t s' ∧ parseDictLoop (f + 1) s acc = parseDictLoop f s' d) := by
  have hcond : ∀ {inp s}, At inp σ t s → (s.pos < s.input.length ∧ s.currentChar ≠ '}') :=
    fun hat => (at_loop_cond hat).mpr ⟨hσ, hb⟩
  have c1 : Consumed σ (σ.dropWhile isspace) :=
    consumed_dropWhile isspace σ (by decide) (by decide)
  -- the break on a closing brace
  by_cases h1 : (σ.dropWhile isspace).headD NUL = '}'
  · right
    refine ⟨acc, σ.dropWhile isspace, length_dropWhile_lt hσ hb h1, c1, fun _ h => h, ?_⟩
    intro inp s f hat hf
    have hat1 := at_skipWhitespace hat
    refine ⟨s.skipWhitespace, hat1, ?_⟩
    have hf1 : f = (f - 1) + 1 := by
      have : 1 ≤ σ.length := List.length_pos.mpr hσ
      omega
    rw [parseDictLoop, if_pos (hcond hat)]
    dsimp only
    rw [if_pos ((at_currentChar hat1).trans h1), hf1,
      parseDictLoop_stop acc (f - 1) hat1 (fun hc => hc.2 h1)]
  -- the name of the entry
  by_cases hn : nameOf (σ.dropWhile isspace) = []
  · left
    intro inp s f hat hf
    have hat1 := at_skipWhitespace hat
    obtain ⟨s2, e2, hat2⟩ := at_parseName hat1
    rw [parseDictLoop, if_pos (hcond hat)]
    dsimp only
    rw [if_neg (fun hc => h1 ((at_currentChar hat1).symm.trans hc)), e2]
    dsimp only
    rw [if_pos hn]
    exact ⟨_, _, _, rfl, hat2⟩
  have hname : isName (nameOf (σ.dropWhile isspace)) = true :=
    (nameOf_cases _).resolve_left hn
  have c2 := consumed_name (σ.dropWhile isspace)
  have c3 : Consumed ((σ.dropWhile isspace).drop (nameOf (σ.dropWhile isspace)).length)
      (((σ.dropWhile isspace).drop (nameOf (σ.dropWhile isspace)).length).dropWhile isspace) :=
    consumed_dropWhile isspace _ (by decide) (by decide)
  have lname : 1 ≤ (nameOf (σ.dropWhile isspace)).length :=
    List.length_pos.mpr hn
  have l2 : ((σ.dropWhile isspace).drop (nameOf (σ.dropWhile isspace)).length).length
      + (nameOf (σ.dropWhile isspace)).length = (σ.dropWhile isspace).length := by
    have := congrArg List.length (nameOf_append (σ.dropWhile isspace))
    rw [List.length_append] at this
    omega
  -- the arrow
  rcases dropWhile_head_cases
    (((σ.dropWhile isspace).drop (nameOf (σ.dropWhile isspace)).length).dropWhile isspace)
    '-' (by decide) with ⟨σ4, h4⟩ | h4
  swap
  · left
    intro inp s f hat hf
    have hat1 := at_skipWhitespace hat
    obtain ⟨s2, e2, hat2⟩ := at_parseName hat1
    have hat3 := at_skipWhitespace hat2
    obtain ⟨w, s', e, hat'⟩ := at_expect_thrown hat3 h4
    rw [parseDictLoop, if_pos (hcond hat)]
    dsimp only
    rw [if_neg (fun hc => h1 ((at_currentChar hat1).symm.trans hc)), e2]
    dsimp only
    rw [if_neg hn, e]
    exact ⟨_, _, _, rfl, hat'⟩
  have c4 : Consumed
      (((σ.dropWhile isspace).drop (nameOf (σ.dropWhile isspace)).length).dropWhile isspace)
      σ4 := by
    have i1 := consumed_dropWhile isspace
      (((σ.dropWhile isspace).drop (nameOf (σ.dropWhile isspace)).length).dropWhile isspace)
      (by decide) (by decide)
    rw [h4] at i1
    exact consumed_trans i1 (consumed_cons σ4 (by decide) (by decide))
  have l4 : σ4.length + 1 ≤
      ((σ.dropWhile isspace).drop (nameOf (σ.dropWhile isspace)).length).length := by
    have i1 := length_dropWhile_le isspace
      (((σ.dropWhile isspace).drop (nameOf (σ.dropWhile isspace)).length).dropWhile isspace)
    have i2 := length_dropWhile_le isspace
      ((σ.dropWhile isspace).drop (nameOf (σ.dropWhile isspace)).length)
    rw [h4] at i1
    simp only [List.length_cons] at i1
    omega
  rcases dropWhile_head_cases σ4 '>' (by decide) with ⟨σ5, h5⟩ | h5
  swap
  · left
    intro inp s f hat hf
    have hat1 := at_skipWhitespace hat
    obtain ⟨s2, e2, hat2⟩ := at_parseName hat1
    have hat3 := at_skipWhitespace hat2
    obtain ⟨s4, e4, hat4⟩ := at_expect_ok hat3 h4
    obtain ⟨w, s', e, hat'⟩ := at_expect_thrown hat4 h5
    rw [parseDictLoop, if_pos (hcond hat)]
    dsimp only
    rw [if_neg (fun hc => h1 ((at_currentChar hat1).symm.trans hc)), e2]
    dsimp only
    rw [if_neg hn, e4]
    dsimp only
    rw [e]
    exact ⟨_, _, _, rfl, hat'⟩
  have c5 : Consumed σ4 σ5 := by
    have i1 := consumed_dropWhile isspace σ4 (by decide) (by decide)
    rw [h5] at i1
    exact consumed_trans i1 (consumed_cons σ5 (by decide) (by decide))
  have l5 : σ5.length + 1 ≤ σ4.length := by
    have i1 := length_dropWhile_le isspace σ4
    rw [h5] at i1
    simp only [List.length_cons] at i1
    omega
  have l1 := length_dropWhile_le isspace σ
  have c15 : Consumed σ σ5 :=
    consumed_trans c1 (consumed_trans c2 (consumed_trans c3 (consumed_trans c4 c5)))
  -- the value
  obtain ⟨oV, pV, hV⟩ := HV σ5 (by omega)
  cases oV with
  | none =>
    left
    intro inp s f hat hf
    have hat1 := at_skipWhitespace hat
    obtain ⟨s2, e2, hat2⟩ := at_parseName hat1
    have hat3 := at_skipWhitespace hat2
    obtain ⟨s4, e4, hat4⟩ := at_expect_ok hat3 h4
    obtain ⟨s5, e5, hat5⟩ := at_expect_ok hat4 h5
    obtain ⟨w, s', τ, e, hat'⟩ := agrees_none (hV inp s5 f hat5 (by omega))
    rw [parseDictLoop, if_pos (hcond hat)]
    dsimp only
    rw [if_neg (fun hc => h1 ((at_currentChar hat1).symm.trans hc)), e2]
    dsimp only
    rw [if_neg hn, e4]
    dsimp only
    rw [e5]
    dsimp only
    rw [e]
    exact ⟨_, _, _, rfl, hat'⟩
  | some x =>
    obtain ⟨v, σ6⟩ := x
    obtain ⟨hvn, c6, l6⟩ := pV v σ6 rfl
    have l5' := length_dropWhile_le isspace σ5
    have c56 : Consumed σ5 σ6 :=
      consumed_trans (consumed_dropWhile isspace σ5 (by decide) (by decide)) c6
    have c7 : Consumed σ6 (σ6.dropWhile isspace) :=
      consumed_dropWhile isspace σ6 (by decide) (by decide)
    have l7 := length_dropWhile_le isspace σ6
    have hacc : entriesNamesOk t = true → entriesNamesOk acc = true →
        entriesNamesOk (acc.assign (nameOf (σ.dropWhile isspace)) v) = true :=
      fun ht ha => Dict.assign_namesOk ha hname (hvn ht)
    -- what follows the value
    by_cases hdot : (σ6.dropWhile isspace).headD NUL = '.'
    · right
      cases h7 : σ6.dropWhile isspace with
      | nil =>
        rw [h7] at hdot
        exact absurd hdot (by decide)
      | cons c σ8 =>
        rw [h7] at hdot c7 l7
        simp only [List.headD_cons] at hdot
        rw [hdot] at h7 c7
        simp only [List.length_cons] at l7
        have l9 := length_dropWhile_le isspace σ8
        refine ⟨acc.assign (nameOf (σ.dropWhile isspace)) v, σ8.dropWhile isspace,
          by omega, ?_, hacc, ?_⟩
        · exact consumed_trans c15 (consumed_trans c56 (consumed_trans c7
            (consumed_trans (consumed_cons σ8 (by decide) (by decide))
              (consumed_dropWhile isspace σ8 (by decide) (by decide)))))
        · intro inp s f hat hf
          have hat1 := at_skipWhitespace hat
          obtain ⟨s2, e2, hat2⟩ := at_parseName hat1
          have hat3 := at_skipWhitespace hat2
          obtain ⟨s4, e4, hat4⟩ := at_expect_ok hat3 h4
          obtain ⟨s5, e5, hat5⟩ := at_expect_ok hat4 h5
          obtain ⟨s6, e6, hat6⟩ := agrees_some (hV inp s5 f hat5 (by omega))
          have hat7 := at_skipWhitespace hat6
          rw [h7] at hat7
          have hat9 := at_skipWhitespace (at_advance hat7)
          have hc7 : s6.skipWhitespace.currentChar = '.' := at_currentChar hat7
          refine ⟨_, hat9, ?_⟩
          rw [parseDictLoop, if_pos (hcond hat)]
          dsimp only
          rw [if_neg (fun hc => h1 ((at_currentChar hat1).symm.trans hc)), e2]
          dsimp only
          rw [if_neg hn, e4]
          dsimp only
          rw [e5]
          dsimp only
          rw [e6]
          dsimp only
          rw [if_pos hc7]
    · by_cases hclose : (σ6.dropWhile isspace).headD NUL = '}'
      · right
        refine ⟨acc.assign (nameOf (σ.dropWhile isspace)) v, σ6.dropWhile isspace,
          by omega, consumed_trans c15 (consumed_trans c56 c7), hacc, ?_⟩
        intro inp s f hat hf
        have hat1 := at_skipWhitespace hat
        obtain ⟨s2, e2, hat2⟩ := at_parseName hat1
        have hat3 := at_skipWhitespace hat2
        obtain ⟨s4, e4, hat4⟩ := at_expect_ok hat3 h4
        obtain ⟨s5, e5, hat5⟩ := at_expect_ok hat4 h5
        obtain ⟨s6, e6, hat6⟩ := agrees_some (hV inp s5 f hat5 (by omega))
        have hat7 := at_skipWhitespace hat6
        have hat8 := at_skipWhitespace hat7
        rw [dropWhile_isspace_idem] at hat8
        refine ⟨_, hat8, ?_⟩
        rw [parseDictLoop, if_pos (hcond hat)]
        dsimp only
        rw [if_neg (fun hc => h1 ((at_currentChar hat1).symm.trans hc)), e2]
        dsimp only
        rw [if_neg hn, e4]
        dsimp only
        rw [e5]
        dsimp only
        rw [e6]
        dsimp only
        rw [if_neg (fun hc => hdot ((at_currentChar hat7).symm.trans hc)),
          if_neg (fun hc => hc ((at_currentChar hat7).trans hclose))]
      · left
        intro inp s f hat hf
        have hat1 := at_skipWhitespace hat
        obtain ⟨s2, e2, hat2⟩ := at_parseName hat1
        have hat3 := at_skipWhitespace hat2
        obtain ⟨s4, e4, hat4⟩ := at_expect_ok hat3 h4
        obtain ⟨s5, e5, hat5⟩ := at_expect_ok hat4 h5
        obtain ⟨s6, e6, hat6⟩ := agrees_some (hV inp s5 f hat5 (by omega))
        have hat7 := at_skipWhitespace hat6
        rw [parseDictLoop, if_pos (hcond hat)]
        dsimp only
        rw [if_neg (fun hc => h1 ((at_currentChar hat1).symm.trans hc)), e2]
        dsimp only
        rw [if_neg hn, e4]
        dsimp only
        rw [e5]
        dsimp only
        rw [e6]
        dsimp only
        rw [if_neg (fun hc => hdot ((at_currentChar hat7).symm.trans hc)),
          if_pos (fun hc => hclose ((at_currentChar hat7).symm.trans hc))]
        exact ⟨_, _, _, rfl, hat7⟩

end YAMLParser

namespace YAMLParser
open ConfigParser

/-! ### The recursive descent has one outcome on a remaining text -/

/-- The entry loop of `parseDict`, from its iterations. -/
theorem loopSpec_of_shorter (σ : List Char) (t : Dict)
    (HV : ∀ σ', σ'.length + 3 ≤ σ.length → ValueSpec σ' t)
    (HL : ∀ σ' acc, σ'.length < σ.length → LoopSpec σ' t acc) (acc : Dict) :
    LoopSpec σ t acc := by
  by_cases hgo : σ ≠ [] ∧ σ.headD NUL ≠ '}'
  · rcases parseDictLoop_step σ t acc hgo.1 hgo.2 HV with hthrow | ⟨d, τ, hlt, hc, hn, hstep⟩
    · refine ⟨none, (fun _ _ e => by cases e), ?_⟩
      intro inp s fuel hat hf
      obtain ⟨f, rfl⟩ : ∃ f, fuel = f + 1 := ⟨fuel - 1, by omega⟩
      obtain ⟨w, s', τ, e, hat'⟩ := hthrow inp s f hat (by omega)
      rw [e]
      exact agrees_thrown hat'
    · obtain ⟨o, po, ho⟩ := HL τ d hlt
      refine ⟨o, ?_, ?_⟩
      · intro d' τ' e
        obtain ⟨hn', hc'⟩ := po d' τ' e
        exact ⟨fun ht ha => hn' ht (hn ht ha), consumed_trans hc hc'⟩
      · intro inp s fuel hat hf
        obtain ⟨f, rfl⟩ : ∃ f, fuel = f + 1 := ⟨fuel - 1, by omega⟩
        obtain ⟨s', hat', e⟩ := hstep inp s f hat (by omega)
        rw [e]
        exact ho inp s' f hat' (by omega)
  · refine ⟨some (acc, σ), ?_, ?_⟩
    · intro d τ e
      simp only [Option.some.injEq, Prod.mk.injEq] at e
      rw [← e.1, ← e.2]
      exact ⟨fun _ h => h, consumed_refl σ⟩
    · intro inp s fuel hat hf
      obtain ⟨f, rfl⟩ : ∃ f, fuel = f + 1 := ⟨fuel - 1, by omega⟩
      rw [parseDictLoop_stop acc f hat hgo]
      exact agrees_ok hat

/-- Function `parseDict`, from its entry loop. -/
theorem dictSpec_of_loop (σ : List Char) (t : Dict)
    (HL : ∀ σ' acc, σ'.length < σ.length → LoopSpec σ' t acc) : DictSpec σ t := by
  rcases dropWhile_head_cases σ '{' (by decide) with ⟨σ1, h1⟩ | h1
  swap
  · refine ⟨none, (fun _ _ e => by cases e), ?_⟩
    intro inp s fuel hat hf
    obtain ⟨f, rfl⟩ : ∃ f, fuel = f + 1 := ⟨fuel - 1, by omega⟩
    obtain ⟨w, s', e, hat'⟩ := at_expect_thrown hat h1
    rw [parseDict, e]
    exact agrees_thrown hat'
  have l0 := length_dropWhile_le isspace σ
  have l1 : σ1.length + 1 = (σ.dropWhile isspace).length := by
    rw [h1]
    rfl
  obtain ⟨oL, pL, hL⟩ := HL σ1 [] (by omega)
  cases oL with
  | none =>
    refine ⟨none, (fun _ _ e => by cases e), ?_⟩
    intro inp s fuel hat hf
    obtain ⟨f, rfl⟩ : ∃ f, fuel = f + 1 := ⟨fuel - 1, by omega⟩
    obtain ⟨s1, e1, hat1⟩ := at_expect_ok hat h1
    obtain ⟨w, s', τ, e, hat'⟩ := agrees_none (hL inp s1 f hat1 (by omega))
    rw [parseDict, e1]
    dsimp only
    rw [e]
    exact agrees_thrown hat'
  | some x =>
    obtain ⟨d, σ2⟩ := x
    obtain ⟨hdn, c2⟩ := pL d σ2 rfl
    rcases dropWhile_head_cases σ2 '}' (by decide) with ⟨τ, h3⟩ | h3
    swap
    · refine ⟨none, (fun _ _ e => by cases e), ?_⟩
      intro inp s fuel hat hf
      obtain ⟨f, rfl⟩ : ∃ f, fuel = f + 1 := ⟨fuel - 1, by omega⟩
      obtain ⟨s1, e1, hat1⟩ := at_expect_ok hat h1
      obtain ⟨s2, e2, hat2⟩ := agrees_some (hL inp s1 f hat1 (by omega))
      obtain ⟨w, s', e, hat'⟩ := at_expect_thrown hat2 h3
      rw [parseDict, e1]
      dsimp only
      rw [e2]
      dsimp only
      rw [e]
      exact agrees_thrown hat'
    · refine ⟨some (.dict d, τ), ?_, ?_⟩
      · intro v τ' e
        simp only [Option.some.injEq, Prod.mk.injEq] at e
        rw [← e.1, ← e.2]
        have c3 := consumed_dropWhile isspace σ2 (by decide) (by decide)
        rw [h3] at c3
        have l2 := consumed_length (consumed_trans c2 c3)
        simp only [List.length_cons] at l2
        refine ⟨fun ht => ?_, ?_, by omega⟩
        · show entriesNamesOk d = true
          exact hdn ht rfl
        · rw [h1]
          exact consumed_braces (consumed_trans c2 c3)
      · intro inp s fuel hat hf
        obtain ⟨f, rfl⟩ : ∃ f, fuel = f + 1 := ⟨fuel - 1, by omega⟩
        obtain ⟨s1, e1, hat1⟩ := at_expect_ok hat h1
        obtain ⟨s2, e2, hat2⟩ := agrees_some (hL inp s1 f hat1 (by omega))
        obtain ⟨s3, e3, hat3⟩ := at_expect_ok hat2 h3
        rw [parseDict, e1]
        dsimp only
        rw [e2]
        dsimp only
        rw [e3]
        exact agrees_ok hat3

/-- Function `parseValue`, from `parseDict` behind the whitespace in front. -/
theorem valueSpec_of_dict (σ : List Char) (t : Dict)
    (HD : DictSpec (σ.dropWhile isspace) t) : ValueSpec σ t := by
  have l0 := length_dropWhile_le isspace σ
  by_cases hbrace : (σ.dropWhile isspace).headD NUL = '{'
  · obtain ⟨o, po, ho⟩ := HD
    refine ⟨o, ?_, ?_⟩
    · intro v τ e
      have := po v τ e
      rw [dropWhile_isspace_idem] at this
      exact this
    · intro inp s fuel hat hf
      obtain ⟨f, rfl⟩ : ∃ f, fuel = f + 1 := ⟨fuel - 1, by omega⟩
      have hat1 := at_skipWhitespace hat
      rw [parseValue]
      rw [if_pos ((at_currentChar hat1).trans hbrace)]
      exact ho inp _ f hat1 (by omega)
  by_cases hq : (σ.dropWhile isspace).headD NUL = '?'
  · obtain ⟨o, po, ho⟩ := parseConstantExpression_spec (σ.dropWhile isspace) t
    refine ⟨o, ?_, ?_⟩
    · intro v τ e
      have := po v τ e
      rw [dropWhile_isspace_idem] at this
      exact this
    · intro inp s fuel hat hf
      obtain ⟨f, rfl⟩ : ∃ f, fuel = f + 1 := ⟨fuel - 1, by omega⟩
      have hat1 := at_skipWhitespace hat
      rw [parseValue]
      rw [if_neg (fun hc => hbrace ((at_currentChar hat1).symm.trans hc)),
        if_pos ((at_currentChar hat1).trans hq)]
      exact ho inp _ hat1
  by_cases hd : isdigit ((σ.dropWhile isspace).headD NUL) = true
  · obtain ⟨o, po, ho⟩ := parseNumber_spec (σ.dropWhile isspace) t
    refine ⟨o, ?_, ?_⟩
    · intro v τ e
      obtain ⟨h1, h2, h3⟩ := po v τ e
      exact ⟨fun _ => h1, h2, h3⟩
    · intro inp s fuel hat hf
      obtain ⟨f, rfl⟩ : ∃ f, fuel = f + 1 := ⟨fuel - 1, by omega⟩
      have hat1 := at_skipWhitespace hat
      rw [parseValue]
      rw [if_neg (fun hc => hbrace ((at_currentChar hat1).symm.trans hc)),
        if_neg (fun hc => hq ((at_currentChar hat1).symm.trans hc)),
        if_pos (by rw [at_currentChar hat1]; exact hd)]
      exact ho inp _ hat1
  · refine ⟨none, (fun _ _ e => by cases e), ?_⟩
    intro inp s fuel hat hf
    obtain ⟨f, rfl⟩ : ∃ f, fuel = f + 1 := ⟨fuel - 1, by omega⟩
    have hat1 := at_skipWhitespace hat
    rw [parseValue]
    rw [if_neg (fun hc => hbrace ((at_currentChar hat1).symm.trans hc)),
      if_neg (fun hc => hq ((at_currentChar hat1).symm.trans hc)),
      if_neg (by rw [at_currentChar hat1]; exact hd)]
    exact agrees_error _ hat1

/-- The recursive descent is determined by the text that remains and by the table, and it
is bounded by the length of that text: `parseValue`, `parseDict` and the entry loop have,
on each remaining text, one outcome for every buffer ending with it and every fuel above
its length. -/
theorem descent_spec (t : Dict) :
    ∀ n σ, σ.length = n → ValueSpec σ t ∧ DictSpec σ t ∧ ∀ acc, LoopSpec σ t acc := by
  intro n
  induction n using Nat.strong_induction_on with
  | _ n ih =>
    intro σ hlen
    have HV : ∀ σ', σ'.length + 3 ≤ σ.length → ValueSpec σ' t :=
      fun σ' h => (ih σ'.length (by omega) σ' rfl).1
    have HL : ∀ σ' acc, σ'.length < σ.length → LoopSpec σ' t acc :=
      fun σ' acc h => (ih σ'.length (by omega) σ' rfl).2.2 acc
    have hL : ∀ acc, LoopSpec σ t acc := loopSpec_of_shorter σ t HV HL
    have hD : DictSpec σ t := dictSpec_of_loop σ t HL
    refine ⟨?_, hD, hL⟩
    apply valueSpec_of_dict
    by_cases hlt : (σ.dropWhile isspace).length < σ.length
    · exact (ih _ (by omega) _ rfl).2.1
    · have heq : σ.dropWhile isspace = σ := by
        have h1 := List.takeWhile_append_dropWhile isspace σ
        have h2 := congrArg List.length h1
        rw [List.length_append] at h2
        have h3 : σ.takeWhile isspace = [] := List.length_eq_zero.mp (by omega)
        rw [h3] at h1
        exact h1
      rw [heq]
      exact hD

theorem valueSpec (σ : List Char) (t : Dict) : ValueSpec σ t := (descent_spec t _ σ rfl).1

theorem dictSpec (σ : List Char) (t : Dict) : DictSpec σ t := (descent_spec t _ σ rfl).2.1

theorem loopSpec (σ : List Char) (t : Dict) (acc : Dict) : LoopSpec σ t acc :=
  (descent_spec t _ σ rfl).2.2 acc

end YAMLParser

namespace YAMLParser
open ConfigParser

/-! ### One iteration of the top-level loop of `parseFile` -/

/-- The top-level loop returns at once at the end of the input. -/
theorem parseFileLoop_stop {inp : List Char} {t : Dict} {s : ConfigParser} (f : Nat)
    (hat : At inp [] t s) : parseFileLoop (f + 1) s = .ok () s := by
  rw [parseFileLoop, if_neg (fun hc => (at_pos_lt hat).mp hc rfl)]

/-- Going back to a saved position restores the parser that was saved. -/
theorem at_rewind {inp σ1 σ3 : List Char} {t : Dict} {s1 s3 : ConfigParser}
    (h1 : At inp σ1 t s1) (h3 : At inp σ3 t s3) :
    ConfigParser.mk s3.input s1.pos s1.currentChar s3.constants = s1 := by
  obtain ⟨p, _, _, rfl⟩ := h1
  obtain ⟨q, _, _, rfl⟩ := h3
  rfl

/-- The lookahead of the top-level loop sees the definition token exactly when the text
that remains starts with `<-`. -/
theorem at_lookahead {inp σ : List Char} {t : Dict} {s : ConfigParser} (h : At inp σ t s) :
    (s.currentChar = '<' ∧ s.pos + 1 < s.input.length ∧ s.input.getD (s.pos + 1) NUL = '-')
      ↔ ∃ r, σ = '<' :: '-' :: r := by
  obtain ⟨p, hp, hd, rfl⟩ := h
  constructor
  · rintro ⟨h1, h2, h3⟩
    simp only [cursor_pos, cursor_input] at h2 h3
    cases σ with
    | nil =>
      rw [currentChar_of_drop_nil t hd] at h1
      exact absurd h1 (by decide)
    | cons c r =>
      rw [currentChar_of_drop t hd] at h1
      have hr : inp.drop (p + 1) = r := @drop_after inp [c] r p hd
      cases r with
      | nil =>
        have := List.drop_eq_nil_iff.mp hr
        omega
      | cons d r' =>
        rw [getD_of_drop hr] at h3
        exact ⟨r', by rw [h1, h3]⟩
  · rintro ⟨r, rfl⟩
    exact lookahead_arrow t hd

/-- Storing a binding changes the table and nothing else. -/
theorem at_assign {inp σ : List Char} {t : Dict} {s : ConfigParser} (h : At inp σ t s)
    (name : List Char) (value : ConfigValue) :
    At inp σ (t.assign name value)
      (ConfigParser.mk s.input s.pos s.currentChar (s.constants.assign name value)) := by
  obtain ⟨p, hp, hd, rfl⟩ := h
  exact ⟨p, hp, hd, rfl⟩

theorem length_dropWhile_newline_lt (ρ : List Char) :
    ((';' :: ρ).dropWhile (fun c => c != '\n')).length < (';' :: ρ).length := by
  have h : ((';' :: ρ).dropWhile (fun c => c != '\n')) = ρ.dropWhile (fun c => c != '\n') := by
    rw [List.dropWhile_cons, if_pos (by decide)]
  rw [h]
  have := length_dropWhile_le (fun c => c != '\n') ρ
  simp only [List.length_cons]
  omega

/-- One iteration of the top-level loop of `parseFile`, started where a non-empty text `σ`
remains: either it raises an exception, the table being the one of the start, or the loop
goes on, with a table `t'`, where a strictly shorter text `τ` remains.  Leaving the loop
at the end of the input behind whitespace is a case of the second. -/
theorem parseFileLoop_step (σ : List Char) (t : Dict) (hσ : σ ≠ []) :
    (∀ inp s f, At inp σ t s → σ.length ≤ f →
        ∃ w s' τ, parseFileLoop (f + 1) s = .thrown w s' ∧ At inp τ t s') ∨
    (∃ t' τ, τ.length < σ.length ∧
        (entriesNamesOk t = true → entriesNamesOk t' = true) ∧
        ∀ inp s f, At inp σ t s → σ.length ≤ f →
          ∃ s', At inp τ t' s' ∧ parseFileLoop (f + 1) s = parseFileLoop f s') := by
  have hlt : ∀ {inp s}, At inp σ t s → s.pos < s.input.length :=
    fun hat => (at_pos_lt hat).mpr hσ
  have l1 := length_dropWhile_le isspace σ
  have lσ : 1 ≤ σ.length := List.length_pos.mpr hσ
  -- the end of the input behind whitespace
  by_cases h1 : σ.dropWhile isspace = []
  · right
    refine ⟨t, [], by simpa using lσ, fun h => h, ?_⟩
    intro inp s f hat hf
    have hat1 := at_skipWhitespace hat
    rw [h1] at hat1
    refine ⟨s.skipWhitespace, hat1, ?_⟩
    have hge : s.skipWhitespace.pos ≥ s.skipWhitespace.input.length :=
      not_lt.mp (fun hc => (at_pos_lt hat1).mp hc rfl)
    obtain ⟨g, rfl⟩ : ∃ g, f = g + 1 := ⟨f - 1, by omega⟩
    rw [parseFileLoop, if_pos (hlt hat)]
    dsimp only
    rw [if_pos hge, parseFileLoop_stop g hat1]
  have hnge : ∀ {inp s}, At inp σ t s →
      ¬ s.skipWhitespace.pos ≥ s.skipWhitespace.input.length :=
    fun hat hc => absurd ((at_pos_lt (at_skipWhitespace hat)).mpr h1) (not_lt.mpr hc)
  -- a comment
  by_cases hsemi : (σ.dropWhile isspace).headD NUL = ';'
  · right
    refine ⟨t, (σ.dropWhile isspace).dropWhile (fun c => c != '\n'), ?_, fun h => h, ?_⟩
    · cases h : σ.dropWhile isspace with
      | nil => exact absurd h h1
      | cons c ρ =>
        rw [h] at hsemi l1
        simp only [List.headD_cons] at hsemi
        rw [hsemi]
        have := length_dropWhile_newline_lt ρ
        rw [hsemi] at l1
        omega
    · intro inp s f hat hf
      have hat1 := at_skipWhitespace hat
      refine ⟨_, at_skipComment hat1, ?_⟩
      rw [parseFileLoop, if_pos (hlt hat)]
      dsimp only
      rw [if_neg (hnge hat), if_pos ((at_currentChar hat1).trans hsemi)]
  -- a character that starts no name
  by_cases hn : nameOf (σ.dropWhile isspace) = []
  · left
    intro inp s f hat hf
    have hat1 := at_skipWhitespace hat
    obtain ⟨s2, e2, hat2⟩ := at_parseName hat1
    rw [hn] at hat2
    rw [parseFileLoop, if_pos (hlt hat)]
    dsimp only
    rw [if_neg (hnge hat), if_neg (fun hc => hsemi ((at_currentChar hat1).symm.trans hc)), e2]
    dsimp only
    rw [if_neg (fun hc => hc hn)]
    exact ⟨_, _, _, rfl, hat2⟩
  have hname : isName (nameOf (σ.dropWhile isspace)) = true :=
    (nameOf_cases _).resolve_left hn
  have lname : 1 ≤ (nameOf (σ.dropWhile isspace)).length := List.length_pos.mpr hn
  have l2 : ((σ.dropWhile isspace).drop (nameOf (σ.dropWhile isspace)).length).length
      + (nameOf (σ.dropWhile isspace)).length = (σ.dropWhile isspace).length := by
    have := congrArg List.length (nameOf_append (σ.dropWhile isspace))
    rw [List.length_append] at this
    omega
  have l3 := length_dropWhile_le isspace
    ((σ.dropWhile isspace).drop (nameOf (σ.dropWhile isspace)).length)
  -- a name that the definition token does not follow
  by_cases hla : ∃ r, ((σ.dropWhile isspace).drop
      (nameOf (σ.dropWhile isspace)).length).dropWhile isspace = '<' :: '-' :: r
  swap
  · left
    intro inp s f hat hf
    have hat1 := at_skipWhitespace hat
    obtain ⟨s2, e2, hat2⟩ := at_parseName hat1
    have hat3 := at_skipWhitespace hat2
    have hbrace : ((σ.dropWhile isspace).dropWhile isspace).headD NUL ≠ '{' := by
      rw [dropWhile_isspace_idem]
      cases h : σ.dropWhile isspace with
      | nil => exact absurd h h1
      | cons c ρ =>
        rw [h] at hn
        intro hc
        simp only [List.headD_cons] at hc
        rw [hc] at hn
        exact hn (nameOf_cons_neg ρ (by decide))
    obtain ⟨w, s', e, hat'⟩ := at_expect_thrown (c := '{') hat1 hbrace
    obtain ⟨g, rfl⟩ : ∃ g, f = g + 1 := ⟨f - 1, by omega⟩
    rw [parseFileLoop, if_pos (hlt hat)]
    dsimp only
    rw [if_neg (hnge hat), if_neg (fun hc => hsemi ((at_currentChar hat1).symm.trans hc)), e2]
    dsimp only
    rw [if_pos hn, if_neg (fun hc => hla ((at_lookahead hat3).mp hc)), at_rewind hat1 hat3,
      parseDict, e]
    exact ⟨_, _, _, rfl, hat'⟩
  -- a definition
  obtain ⟨r, hr⟩ := hla
  have h4 : (((σ.dropWhile isspace).drop (nameOf (σ.dropWhile isspace)).length).dropWhile
      isspace).dropWhile isspace = '<' :: ('-' :: r) := by
    rw [dropWhile_isspace_idem, hr]
  have h5 : ('-' :: r).dropWhile isspace = '-' :: r := by
    rw [List.dropWhile_cons, if_neg (by decide)]
  have lr : r.length + 3 ≤ σ.length := by
    rw [hr] at l3
    simp only [List.length_cons] at l3
    omega
  obtain ⟨oV, pV, hV⟩ := valueSpec r t
  cases oV with
  | none =>
    left
    intro inp s f hat hf
    have hat1 := at_skipWhitespace hat
    obtain ⟨s2, e2, hat2⟩ := at_parseName hat1
    have hat3 := at_skipWhitespace hat2
    obtain ⟨s4, e4, hat4⟩ := at_expect_ok hat3 h4
    obtain ⟨s5, e5, hat5⟩ := at_expect_ok hat4 h5
    obtain ⟨w, s', τ, e, hat'⟩ := agrees_none (hV inp s5 f hat5 (by omega))
    rw [parseFileLoop, if_pos (hlt hat)]
    dsimp only
    rw [if_neg (hnge hat), if_neg (fun hc => hsemi ((at_currentChar hat1).symm.trans hc)), e2]
    dsimp only
    rw [if_pos hn, if_pos ((at_lookahead hat3).mpr ⟨r, hr⟩), at_rewind hat1 hat3,
      parseConstant, e2]
    dsimp only
    rw [if_neg hn, e4]
    dsimp only
    rw [e5]
    dsimp only
    rw [e]
    exact ⟨_, _, _, rfl, hat'⟩
  | some x =>
    obtain ⟨v, τ⟩ := x
    obtain ⟨hvn, c6, l6⟩ := pV v τ rfl
    have l5 := length_dropWhile_le isspace r
    right
    refine ⟨t.assign (nameOf (σ.dropWhile isspace)) v, τ, by omega,
      fun ht => Dict.assign_namesOk ht hname (hvn ht), ?_⟩
    intro inp s f hat hf
    have hat1 := at_skipWhitespace hat
    obtain ⟨s2, e2, hat2⟩ := at_parseName hat1
    have hat3 := at_skipWhitespace hat2
    obtain ⟨s4, e4, hat4⟩ := at_expect_ok hat3 h4
    obtain ⟨s5, e5, hat5⟩ := at_expect_ok hat4 h5
    obtain ⟨s6, e6, hat6⟩ := agrees_some (hV inp s5 f hat5 (by omega))
    refine ⟨_, at_assign hat6 (nameOf (σ.dropWhile isspace)) v, ?_⟩
    rw [parseFileLoop, if_pos (hlt hat)]
    dsimp only
    rw [if_neg (hnge hat), if_neg (fun hc => hsemi ((at_currentChar hat1).symm.trans hc)), e2]
    dsimp only
    rw [if_pos hn, if_pos ((at_lookahead hat3).mpr ⟨r, hr⟩), at_rewind hat1 hat3,
      parseConstant, e2]
    dsimp only
    rw [if_neg hn, e4]
    dsimp only
    rw [e5]
    dsimp only
    rw [e6]

end YAMLParser

namespace YAMLParser
open ConfigParser

/-! ### The top-level loop has one outcome on a remaining text -/

theorem fileSpec_aux : ∀ n σ t, σ.length = n → FileSpec σ t := by
  intro n
  induction n using Nat.strong_induction_on with
  | _ n ih =>
    intro σ t hlen
    by_cases hσ : σ = []
    · refine ⟨(true, t), fun h => h, ?_⟩
      intro inp s fuel hat hf
      obtain ⟨f, rfl⟩ : ∃ f, fuel = f + 1 := ⟨fuel - 1, by omega⟩
      rw [hσ] at hat
      rw [parseFileLoop_stop f hat]
      exact ⟨rfl, hat⟩
    · rcases parseFileLoop_step σ t hσ with hthrow | ⟨t', τ, hlt, hn, hstep⟩
      · refine ⟨(false, t), fun h => h, ?_⟩
        intro inp s fuel hat hf
        obtain ⟨f, rfl⟩ : ∃ f, fuel = f + 1 := ⟨fuel - 1, by omega⟩
        obtain ⟨w, s', τ, e, hat'⟩ := hthrow inp s f hat (by omega)
        rw [e]
        exact ⟨rfl, τ, hat'⟩
      · obtain ⟨o, po, ho⟩ := ih τ.length (by omega) τ t' rfl
        refine ⟨o, fun h => po (hn h), ?_⟩
        intro inp s fuel hat hf
        obtain ⟨f, rfl⟩ : ∃ f, fuel = f + 1 := ⟨fuel - 1, by omega⟩
        obtain ⟨s', hat', e⟩ := hstep inp s f hat (by omega)
        rw [e]
        exact ho inp s' f hat' (by omega)

/-- The top-level loop of `parseFile` is determined by the text that remains and by the
table, and it is bounded by the length of that text. -/
theorem fileSpec (σ : List Char) (t : Dict) : FileSpec σ t := fileSpec_aux _ σ t rfl

theorem agreesFile_cases {inp : List Char} {o : Bool × Dict} {r : Result Unit}
    (h : Result.agreesFile inp o r) :
    (o.1 = true ∧ ∃ s', r = .ok () s' ∧ At inp [] o.2 s') ∨
    (o.1 = false ∧ ∃ w s' τ, r = .thrown w s' ∧ At inp τ o.2 s') := by
  cases r with
  | ok u s' => exact Or.inl ⟨h.1, s', rfl, h.2⟩
  | thrown w s' =>
    obtain ⟨h1, τ, h2⟩ := h
    exact Or.inr ⟨h1, w, s', τ, rfl, h2⟩
  | outOfFuel => exact False.elim h

/-! ### Function `parseFile` on every parser and every input -/

/-- Function `parseFile` starts the loop at offset 0 of the content with the table that
the parser holds. -/
theorem parseFile_start (self : ConfigParser) (filename : String) (c : Char) (r : List Char) :
    parseFile self filename (some (c :: r)) =
      match parseFileLoop (parseFuel (c :: r)) (cursor (c :: r) 0 self.constants) with
      | .ok _ s1 => some ⟨true, "", s1⟩
      | .thrown what s1 => some ⟨false, "Parse error: " ++ cstr what ++ "\n", s1⟩
      | .outOfFuel => none := rfl

/-- Function `parseFile` on an empty file: the loop is not entered. -/
theorem parseFile_empty (self : ConfigParser) (filename : String) :
    parseFile self filename (some []) =
      some ⟨true, "", ⟨[], 0, self.currentChar, self.constants⟩⟩ := rfl

/-- Function `parseFile` always returns, and what it leaves is the outcome that the
top-level loop has on the whole content with the table of the parser: the value returned,
the table left, and a cursor that is inside the buffer. -/
theorem parseFile_outcome (self : ConfigParser) (filename : String) (inp : List Char) :
    ∃ (o : Bool × Dict) (r : ParseFileResult),
      (entriesNamesOk self.constants = true → entriesNamesOk o.2 = true) ∧
      (∀ inp' s fuel, At inp' inp self.constants s → inp.length + 2 ≤ fuel →
        Result.agreesFile inp' o (parseFileLoop fuel s)) ∧
      parseFile self filename (some inp) = some r ∧
      r.returned = o.1 ∧ r.self.constants = o.2 ∧ r.self.input = inp ∧
      r.self.pos ≤ inp.length ∧ (r.returned = true → r.self.pos = inp.length ∧ r.cerr = "") ∧
      (r.returned = false → ∃ w, r.cerr = "Parse error: " ++ cstr w ++ "\n") := by
  obtain ⟨o, po, ho⟩ := fileSpec inp self.constants
  cases inp with
  | nil =>
    have hat : At [] [] self.constants (cursor [] 0 self.constants) :=
      ⟨0, Nat.le_refl 0, rfl, rfl⟩
    rcases agreesFile_cases (ho [] _ 2 hat (by simp)) with ⟨h1, s', e, hat'⟩ | ⟨h1, w, s', τ, e, _⟩
    · have e2 : parseFileLoop 2 (cursor [] 0 self.constants)
          = .ok () (cursor [] 0 self.constants) := parseFileLoop_stop 1 hat
      rw [e2] at e
      injection e with _ e
      refine ⟨o, _, po, ho, parseFile_empty self filename, h1.symm, ?_, rfl, le_refl 0,
        (fun _ => ⟨rfl, rfl⟩), (fun h => by cases h)⟩
      show self.constants = o.2
      rw [← at_constants hat', ← e]
      rfl
    · have e2 : parseFileLoop 2 (cursor [] 0 self.constants)
          = .ok () (cursor [] 0 self.constants) := parseFileLoop_stop 1 hat
      rw [e2] at e
      cases e
  | cons c r =>
    have hat : At (c :: r) (c :: r) self.constants (cursor (c :: r) 0 self.constants) :=
      ⟨0, Nat.zero_le _, rfl, rfl⟩
    have hfuel : (c :: r).length + 2 ≤ parseFuel (c :: r) := by
      unfold parseFuel
      omega
    rcases agreesFile_cases (ho _ _ _ hat hfuel) with ⟨h1, s', e, hat'⟩ | ⟨h1, w, s', τ, e, hat'⟩
    · refine ⟨o, ⟨true, "", s'⟩, po, ho, ?_, h1.symm, at_constants hat', at_input hat', ?_,
        (fun _ => ⟨?_, rfl⟩), (fun h => by cases h)⟩
      · rw [parseFile_start, e]
      · have := at_pos hat'
        show s'.pos ≤ (c :: r).length
        omega
      · have := at_pos hat'
        simp only [List.length_nil, Nat.add_zero] at this
        exact this
    · refine ⟨o, ⟨false, "Parse error: " ++ cstr w ++ "\n", s'⟩, po, ho, ?_, h1.symm,
        at_constants hat', at_input hat', ?_, (fun h => by cases h), (fun _ => ⟨w, rfl⟩)⟩
      · rw [parseFile_start, e]
      · have := at_pos hat'
        show s'.pos ≤ (c :: r).length
        omega

/-- Function `parseFile` never runs out of fuel. -/
theorem parseFile_total (self : ConfigParser) (filename : String) (file : Option (List Char)) :
    ∃ r, parseFile self filename file = some r := by
  cases file with
  | none => exact ⟨_, rfl⟩
  | some inp =>
    obtain ⟨o, r, _, _, h, _⟩ := parseFile_outcome self filename inp
    exact ⟨r, h⟩

end YAMLParser

namespace YAMLParser
open ConfigParser

/-! ### A document in front of any text -/

/-- An outcome of the top-level loop is read off its result. -/
theorem agreesFile_unique {inp : List Char} {o o' : Bool × Dict} {r : Result Unit}
    (h : Result.agreesFile inp o r) (h' : Result.agreesFile inp o' r) : o = o' := by
  cases r with
  | ok u s' =>
    obtain ⟨h1, h2⟩ := h
    obtain ⟨h1', h2'⟩ := h'
    exact Prod.ext (h1.trans h1'.symm) ((at_constants h2).symm.trans (at_constants h2'))
  | thrown w s' =>
    obtain ⟨h1, τ, h2⟩ := h
    obtain ⟨h1', τ', h2'⟩ := h'
    exact Prod.ext (h1.trans h1'.symm) ((at_constants h2).symm.trans (at_constants h2'))
  | outOfFuel => exact False.elim h

/-- Function `parseFile` on a document followed by any text `tail`: the value returned and
the table left are the outcome that the top-level loop has on `tail` with the table of
the document, which is built on the table that the parser held. -/
theorem parseFile_items_then (self : ConfigParser) (filename : String) (items : List SItem)
    (tail : List Char) (t : Dict) (o : Bool × Dict) (hwf : documentWf items = true)
    (hev : evalDocument self.constants items = some t) (htail : headIs isdigit tail = false)
    (ho : ∀ inp s fuel, At inp tail t s → tail.length + 2 ≤ fuel →
      Result.agreesFile inp o (parseFileLoop fuel s)) :
    ∃ r, parseFile self filename (some (documentText items ++ tail)) = some r
      ∧ r.returned = o.1 ∧ r.self.constants = o.2
      ∧ r.self.input = documentText items ++ tail
      ∧ (r.returned = false → ∃ w, r.cerr = "Parse error: " ++ cstr w ++ "\n") := by
  obtain ⟨o', r, _, ho', hr, h1, h2, h3, _, _, h6⟩ :=
    parseFile_outcome self filename (documentText items ++ tail)
  have hlen := length_le_documentText items
  have hat0 : At (documentText items ++ tail) (documentText items ++ tail) self.constants
      (cursor (documentText items ++ tail) 0 self.constants) := ⟨0, Nat.zero_le _, rfl, rfl⟩
  have a1 := ho' _ _ ((documentText items ++ tail).length + items.length + 2) hat0 (by omega)
  have h0 : (documentText items ++ tail).drop 0 = [] ++ (documentText items ++ tail) := rfl
  rw [parseFileLoop_document _ items [] tail 0 _ self.constants t hwf hev h0 rfl htail
    (by simp only [List.length_append]; omega)] at a1
  have hat1 : At (documentText items ++ tail) tail t
      (cursor (documentText items ++ tail) (0 + ([] : List Char).length
        + (documentText items).length) t) :=
    ⟨_, by simp, by simp, rfl⟩
  have a2 := ho _ _ ((documentText items ++ tail).length + items.length + 2 - items.length)
    hat1 (by simp only [List.length_append]; omega)
  have e := agreesFile_unique a1 a2
  exact ⟨r, hr, by rw [h1, e], by rw [h2, e], h3, h6⟩

/-- The outcome of the top-level loop in front of whitespace is its outcome behind it. -/
theorem agreesFile_skip {ws τ : List Char} {t : Dict} {o : Bool × Dict} (hws : isWs ws = true)
    (ho : ∀ inp s fuel, At inp τ t s → τ.length + 2 ≤ fuel →
      Result.agreesFile inp o (parseFileLoop fuel s)) :
    ∀ inp s fuel, At inp (ws ++ τ) t s → (ws ++ τ).length + 2 ≤ fuel →
      Result.agreesFile inp o (parseFileLoop fuel s) := by
  intro inp s fuel hat hf
  obtain ⟨p, hp, hd, rfl⟩ := hat
  rw [parseFileLoop_skip t fuel hd hws]
  rw [List.length_append] at hf
  exact ho inp _ fuel (at_of_drop t hp hd) (by omega)

/-- The outcome of the top-level loop in front of a comment is its outcome at the newline
that ends the comment. -/
theorem agreesFile_comment {ws c τ : List Char} {t : Dict} {o : Bool × Dict}
    (hws : isWs ws = true) (hc : ∀ x ∈ c, x ≠ '\n')
    (ho : ∀ inp s fuel, At inp ('\n' :: τ) t s → ('\n' :: τ).length + 2 ≤ fuel →
      Result.agreesFile inp o (parseFileLoop fuel s)) :
    ∀ inp s fuel, At inp (ws ++ ';' :: (c ++ '\n' :: τ)) t s →
      (ws ++ ';' :: (c ++ '\n' :: τ)).length + 2 ≤ fuel →
      Result.agreesFile inp o (parseFileLoop fuel s) := by
  intro inp s fuel hat hf
  obtain ⟨p, hp, hd, rfl⟩ := hat
  simp only [List.length_append, List.length_cons] at hf
  obtain ⟨f, rfl⟩ : ∃ f, fuel = f + 1 := ⟨fuel - 1, by omega⟩
  rw [parseFileLoop_comment t f hd hws hc (by simp)]
  have hd' : inp.drop p = (ws ++ ';' :: c) ++ '\n' :: τ := by
    rw [hd]
    simp
  have hat' := at_of_drop t hp hd'
  have hpos : p + (ws ++ ';' :: c).length = p + ws.length + 1 + c.length := by
    simp only [List.length_append, List.length_cons]
    omega
  rw [hpos] at hat'
  exact ho inp _ f hat' (by simp only [List.length_cons]; omega)

end YAMLParser

namespace YAMLParser
open ConfigParser

/-! ### Dictionaries that are not closed -/

theorem openAfter_spec : ∀ (σ : List Char) (o c : Nat), openAfter o c σ = true →
    ∀ π, π ≠ [] → π <+: σ → c + π.count '}' < o + π.count '{' := by
  intro σ
  induction σ with
  | nil =>
    intro o c _ π hπ hpre
    exact absurd (List.prefix_nil.mp hpre) hπ
  | cons x r ih =>
    intro o c h π hπ hpre
    simp only [openAfter, Bool.and_eq_true, decide_eq_true_eq] at h
    cases π with
    | nil => exact absurd rfl hπ
    | cons y π' =>
      obtain ⟨hxy, hpre'⟩ := List.cons_prefix_cons.mp hpre
      subst hxy
      have hc : ∀ a : Char, (y :: π').count a = (if y = a then 1 else 0) + π'.count a := by
        intro a
        rw [List.count_cons]
        by_cases hya : y = a
        · simp [hya]
          omega
        · simp [hya]
      rw [hc, hc]
      by_cases hπ' : π' = []
      · subst hπ'
        simp only [List.count_nil, Nat.add_zero]
        have := h.1
        split_ifs at this ⊢ <;> omega
      · have := ih _ _ h.2 π' hπ' hpre'
        split_ifs at this ⊢ <;> omega

theorem unclosed_of_openAfter {σ : List Char} (h : openAfter 0 0 σ = true) : Unclosed σ := by
  intro π hπ hpre
  have := openAfter_spec σ 0 0 h π hπ hpre
  omega

theorem dropWhile_ws_append {ws rest : List Char} (hws : isWs ws = true)
    (hrest : headIs isspace rest = false) : (ws ++ rest).dropWhile isspace = rest := by
  induction ws with
  | nil =>
    cases rest with
    | nil => rfl
    | cons c r =>
      have hc : ¬ isspace c = true := by simpa using hrest
      rw [List.nil_append, List.dropWhile_cons, if_neg hc]
  | cons c cs ih =>
    have hc : isspace c = true := isWs_mem hws c (by simp)
    have hcs : isWs cs = true := by
      simp only [isWs, List.all_cons, Bool.and_eq_true] at hws ⊢
      exact hws.2
    rw [List.cons_append, List.dropWhile_cons, if_pos hc]
    exact ih hcs

/-- Function `parseValue` on a dictionary that is not closed raises an exception. -/
theorem valueSpec_unclosed {wsv body : List Char} (t : Dict) (hwsv : isWs wsv = true)
    (hopen : Unclosed ('{' :: body)) (inp : List Char) (s : ConfigParser) (fuel : Nat)
    (hat : At inp (wsv ++ '{' :: body) t s) (hf : (wsv ++ '{' :: body).length + 2 ≤ fuel) :
    ∃ w s' τ, parseValue fuel s = .thrown w s' ∧ At inp τ t s' := by
  obtain ⟨oV, pV, hV⟩ := valueSpec (wsv ++ '{' :: body) t
  cases oV with
  | none => exact agrees_none (hV inp s fuel hat hf)
  | some x =>
    obtain ⟨v, τ⟩ := x
    obtain ⟨_, ⟨π, e, hb⟩, hl⟩ := pV v τ rfl
    rw [dropWhile_ws_append hwsv (by simp; decide)] at e hl
    have hπ : π ≠ [] := by
      intro h0
      rw [h0, List.nil_append] at e
      rw [e] at hl
      exact absurd hl (lt_irrefl _)
    have := hopen π hπ ⟨τ, e.symm⟩
    unfold balanced at hb
    omega

end YAMLParser

namespace YAMLParser
open ConfigParser

/-! ### Definitions whose value is a dictionary, from the entry loop -/

/-- One iteration of the loop of `parseDict` up to the value of the entry, with whitespace
between the two characters of the arrow: `expect` skips it. -/
theorem parseDictLoop_header_ws {inp wsb name ws1 wm r1 : List Char} {p : Nat} (t : Dict)
    (fuel : Nat) (acc : Dict)
    (h : inp.drop p = wsb ++ (name ++ (ws1 ++ '-' :: (wm ++ '>' :: r1))))
    (hws : isWs wsb = true) (hname : isName name = true) (hws1 : isWs ws1 = true)
    (hwm : isWs wm = true) :
    parseDictLoop (fuel + 1) (cursor inp p t) acc =
      match parseValue fuel
        (cursor inp (p + wsb.length + name.length + ws1.length + 1 + wm.length + 1) t) with
      | .thrown w s => .thrown w s
      | .outOfFuel => .outOfFuel
      | .ok value s6 =>
        if s6.skipWhitespace.currentChar = '.' then
          parseDictLoop fuel s6.skipWhitespace.advance.skipWhitespace (acc.assign name value)
        else if s6.skipWhitespace.currentChar ≠ '}' then
          s6.skipWhitespace.error "Expected '.' or '\x7d' after dictionary entry"
        else
          parseDictLoop fuel s6.skipWhitespace.skipWhitespace (acc.assign name value) := by
  cases name with
  | nil => cases hname
  | cons a as =>
    obtain ⟨ha, _⟩ := isName_cons hname
    have hcond : (cursor inp p t).pos < (cursor inp p t).input.length
        ∧ (cursor inp p t).currentChar ≠ '}' := by
      cases wsb with
      | nil =>
        have h0 : inp.drop p = a :: (as ++ (ws1 ++ '-' :: (wm ++ '>' :: r1))) := by
          simpa using h
        refine ⟨lt_length_of_drop h0, ?_⟩
        rw [currentChar_of_drop t h0]
        rintro rfl
        exact absurd ha (by decide)
      | cons c cs =>
        have h0 : inp.drop p = c :: (cs ++ (a :: as ++ (ws1 ++ '-' :: (wm ++ '>' :: r1)))) := by
          simpa using h
        refine ⟨lt_length_of_drop h0, ?_⟩
        rw [currentChar_of_drop t h0]
        rintro rfl
        exact absurd (isWs_mem hws '}' (by simp)) (by decide)
    have hs1 := skipWhitespace_cursor t h (isWs_mem hws)
      (by simpa using isalpha_not_isspace ha)
    have h1 := drop_after h
    have hcur1 : (cursor inp (p + wsb.length) t).currentChar = a :=
      currentChar_of_drop t (by simpa using h1)
    have hne1 : a ≠ '}' := by rintro rfl; exact absurd ha (by decide)
    have hn := parseName_cursor t h1 hname
      (headIs_append_of_all (isWs_mem hws1) (fun c hc => isspace_not_isalnum hc)
        (by simp; decide))
    have h2 := drop_after h1
    have hs2 := skipWhitespace_cursor t h2 (isWs_mem hws1) (by simp; decide)
    have h3 := drop_after h2
    have e1 : (cursor inp (p + wsb.length + (a :: as).length + ws1.length) t).expect '-'
        = .ok () (cursor inp (p + wsb.length + (a :: as).length + ws1.length + 1) t) :=
      expect_here t h3 (by decide)
    have h4 : inp.drop (p + wsb.length + (a :: as).length + ws1.length + 1)
        = wm ++ '>' :: r1 := by
      have := drop_after (a := ['-']) (by simpa using h3)
      simpa using this
    have e2 : (cursor inp (p + wsb.length + (a :: as).length + ws1.length + 1) t).expect '>'
        = .ok () (cursor inp
            (p + wsb.length + (a :: as).length + ws1.length + 1 + wm.length + 1) t) :=
      expect_cursor t h4 hwm (by decide)
    rw [parseDictLoop, if_pos hcond]
    simp only [hs1, hcur1, if_neg hne1, hn, if_neg (isName_ne_nil hname), hs2, e1, e2]

theorem length_le_fieldsText (fields : List SField) :
    fields.length ≤ (fieldsText fields).length := by
  induction fields with
  | nil => simp
  | cons f fs ih =>
    simp only [fieldsText, SField.text, List.length_append, List.length_cons]
    omega

/-- The loop of `parseDict` over entries that are each followed by a separator: it goes
on behind them, with the map that they add up to. -/
theorem parseDictLoop_fields_eval (inp : List Char) (t : Dict) :
    ∀ (fields : List SField) (wsb rest : List Char) (p fuel : Nat) (acc acc' : Dict),
      fieldsWf fields = true → evalFields t fields acc = some acc' →
      inp.drop p = wsb ++ (fieldsText fields ++ rest) → isWs wsb = true →
      headIs isspace rest = false → (fieldsText fields).length < fuel →
      ∃ (q : Nat) (w : List Char), isWs w = true ∧ inp.drop q = w ++ rest
        ∧ q + w.length = p + wsb.length + (fieldsText fields).length
        ∧ parseDictLoop fuel (cursor inp p t) acc
          = parseDictLoop (fuel - fields.length) (cursor inp q t) acc' := by
  intro fields
  induction fields with
  | nil =>
    intro wsb rest p fuel acc acc' _ hev h hws _ _
    simp only [evalFields, Option.some.injEq] at hev
    subst hev
    exact ⟨p, wsb, hws, by simpa [fieldsText] using h, by simp [fieldsText], rfl⟩
  | cons f fs ih =>
    intro wsb rest p fuel acc acc' hwf hev h hws hrest hfuel
    simp only [fieldsWf, SField.wf, Bool.and_eq_true] at hwf
    obtain ⟨⟨⟨⟨⟨⟨hn, hw1⟩, hw2⟩, hv⟩, hw3⟩, hw4⟩, hfs⟩ := hwf
    cases hcv : f.value.eval t with
    | none => simp [evalFields, hcv] at hev
    | some cv =>
      simp only [evalFields, hcv] at hev
      simp only [fieldsText, SField.text, List.length_append, List.length_cons] at hfuel
      obtain ⟨g, rfl⟩ : ∃ g, fuel = g + 1 := ⟨fuel - 1, by omega⟩
      have h0 : inp.drop p = wsb ++ (f.name ++ (f.ws1 ++ '-' :: '>' ::
          (f.ws2 ++ (f.value.text ++ (f.ws3 ++ '.' :: (f.ws4 ++ (fieldsText fs ++ rest)))))))
          := by
        simpa [fieldsText, SField.text] using h
      have h1 : inp.drop (p + wsb.length + f.name.length + f.ws1.length + 2)
          = f.ws2 ++ (f.value.text ++ (f.ws3 ++ '.' :: (f.ws4 ++ (fieldsText fs ++ rest))))
          := by
        have := drop_after (a := ['-', '>'])
          (b := f.ws2 ++ (f.value.text ++ (f.ws3 ++ '.' :: (f.ws4 ++ (fieldsText fs ++ rest)))))
          (by simpa using drop_after (drop_after2 h0))
        simpa using this
      have hpv := parseValue_text t inp f.value f.ws2
        (f.ws3 ++ '.' :: (f.ws4 ++ (fieldsText fs ++ rest))) _ g cv hv hcv h1 hw2
        (headIs_isdigit_ws_cons hw3 (by decide)) (by omega)
      have h2 := drop_after2 h1
      have hhead : headIs isspace (fieldsText fs ++ rest) = false := by
        cases fs with
        | nil => simpa [fieldsText] using hrest
        | cons f' fs' =>
          simp only [fieldsWf, SField.wf, Bool.and_eq_true] at hfs
          have := @headIs_isspace_name f'.name
            (f'.ws1 ++ '-' :: '>' :: (f'.ws2 ++ (f'.value.text ++ (f'.ws3 ++ '.' :: f'.ws4)))
              ++ (fieldsText fs' ++ rest)) hfs.1.1.1.1.1.1
          simpa [fieldsText, SField.text] using this
      have hstep := parseDictLoop_entry_sep t g acc h0 hws hn hw1 hpv h2 hw3 hw4 hhead
      have h3 : inp.drop (p + wsb.length + f.name.length + f.ws1.length + 2 + f.ws2.length
          + f.value.text.length + f.ws3.length + 1 + f.ws4.length)
          = [] ++ (fieldsText fs ++ rest) := by
        have := drop_after (a := ['.']) (drop_after h2)
        simpa using drop_after this
      obtain ⟨q, w, hw, hq, hlen, hloop⟩ := ih [] rest _ g (acc.assign f.name cv) acc' hfs hev
        h3 rfl hrest (by omega)
      refine ⟨q, w, hw, hq, ?_, ?_⟩
      · simp only [fieldsText, SField.text, List.length_append, List.length_cons,
          List.length_nil] at hlen ⊢
        omega
      · rw [hstep, hloop]
        have hsub : g - fs.length = g + 1 - (f :: fs).length := by
          simp only [List.length_cons]; omega
        rw [hsub]

/-- The top-level loop at the last definition of a document, whose value is a dictionary
`{ body }`: when the entry loop over `body` returns the map `d` at the closing brace, the
loop returns with `name` bound to `d`. -/
theorem agreesFile_dict_definition {ws0 name ws1 wsv body ws : List Char} (t d : Dict)
    (hws0 : isWs ws0 = true) (hname : isName name = true) (hws1 : isWs ws1 = true)
    (hwsv : isWs wsv = true) (hws : isWs ws = true)
    (hbody : ∀ inp p fuel, inp.drop p = body ++ '}' :: ws → body.length + 1 ≤ fuel →
      parseDictLoop fuel (cursor inp p t) [] = .ok d (cursor inp (p + body.length) t)) :
    ∀ inp s fuel,
      At inp (ws0 ++ (name ++ (ws1 ++ '<' :: '-' :: (wsv ++ '{' :: (body ++ '}' :: ws))))) t s →
      (ws0 ++ (name ++ (ws1 ++ '<' :: '-' :: (wsv ++ '{' :: (body ++ '}' :: ws))))).length + 2
        ≤ fuel →
      Result.agreesFile inp (true, t.assign name (.dict d)) (parseFileLoop fuel s) := by
  intro inp s fuel hat hf
  obtain ⟨p, hp, hd, rfl⟩ := hat
  simp only [List.length_append, List.length_cons] at hf
  have hnl : 1 ≤ name.length := List.length_pos.mpr (isName_ne_nil hname)
  obtain ⟨G, rfl⟩ : ∃ G, fuel = G + 2 + 1 := ⟨fuel - 3, by omega⟩
  -- the value starts behind the definition token
  have h1 : inp.drop (p + ws0.length + name.length + ws1.length + 2)
      = wsv ++ '{' :: (body ++ '}' :: ws) := by
    have := drop_after (a := ['<', '-']) (b := wsv ++ '{' :: (body ++ '}' :: ws))
      (by simpa using drop_after (drop_after2 hd))
    simpa using this
  have h2 : inp.drop (p + ws0.length + name.length + ws1.length + 2 + wsv.length + 1)
      = body ++ '}' :: ws := by
    have := drop_after (a := ['{']) (b := body ++ '}' :: ws) (by simpa using drop_after h1)
    simpa using this
  have h3 := drop_after h2
  have hl := hbody inp _ G h2 (by omega)
  have hv := parseValue_dict_close t G h1 hwsv hl h3
  have h4 : inp.drop (p + ws0.length + name.length + ws1.length + 2 + wsv.length + 1
      + body.length + 1) = ws := by
    have := drop_after (a := ['}']) (b := ws) (by simpa using h3)
    simpa using this
  rw [parseFileLoop_definition t (G + 2) hd hws0 hname hws1 hv,
    parseFileLoop_end (t.assign name (.dict d)) (G + 1) h4 hws]
  refine ⟨rfl, _, ?_, ?_, rfl⟩
  · have := congrArg List.length h4
    rw [List.length_drop] at this
    have hlen := congrArg List.length hd
    rw [List.length_drop] at hlen
    simp only [List.length_append, List.length_cons] at hlen
    omega
  · have := drop_after (a := ws) (b := []) (by simpa using h4)
    exact this

end YAMLParser

namespace YAMLParser
open ConfigParser

/-! ### Outcomes of the top-level loop on some texts -/

/-- The top-level loop on whitespace returns. -/
theorem agreesFile_end {ws : List Char} (t : Dict) (hws : isWs ws = true) :
    ∀ inp s fuel, At inp ws t s → ws.length + 2 ≤ fuel →
      Result.agreesFile inp (true, t) (parseFileLoop fuel s) := by
  intro inp s fuel hat hf
  obtain ⟨p, hp, hd, rfl⟩ := hat
  obtain ⟨f, rfl⟩ : ∃ f, fuel = f + 1 := ⟨fuel - 1, by omega⟩
  rw [parseFileLoop_end t f hd hws]
  exact ⟨rfl, @at_of_drop inp ws [] p t hp (by simpa using hd)⟩

/-- The top-level loop raises an exception on a character that is neither whitespace, nor
the start of a comment, nor a letter. -/
theorem agreesFile_unexpected {ws rest : List Char} {c : Char} (t : Dict)
    (hws : isWs ws = true) (hc1 : isspace c = false) (hc2 : c ≠ ';')
    (hc3 : ¬ isalpha c = true) :
    ∀ inp s fuel, At inp (ws ++ c :: rest) t s → (ws ++ c :: rest).length + 2 ≤ fuel →
      Result.agreesFile inp (false, t) (parseFileLoop fuel s) := by
  intro inp s fuel hat hf
  obtain ⟨f, rfl⟩ : ∃ f, fuel = f + 1 := ⟨fuel - 1, by omega⟩
  have hσ : ws ++ c :: rest ≠ [] := by simp
  have h1 : (ws ++ c :: rest).dropWhile isspace = c :: rest :=
    dropWhile_ws_append hws (by simpa using hc1)
  have hat1 := at_skipWhitespace hat
  rw [h1] at hat1
  obtain ⟨s2, e2, hat2⟩ := at_parseName hat1
  rw [nameOf_cons_neg rest hc3] at e2 hat2
  have hnge : ¬ s.skipWhitespace.pos ≥ s.skipWhitespace.input.length :=
    fun hc => absurd ((at_pos_lt hat1).mpr (by simp)) (not_lt.mpr hc)
  have hcur : s.skipWhitespace.currentChar = c := at_currentChar hat1
  rw [parseFileLoop, if_pos ((at_pos_lt hat).mpr hσ)]
  dsimp only
  rw [if_neg hnge, if_neg (fun h => hc2 (hcur.symm.trans h)), e2]
  dsimp only
  rw [if_neg (fun h => h rfl)]
  exact ⟨rfl, _, hat2⟩

/-- The top-level loop raises an exception on a name behind which whitespace separates
`<` from `-`. -/
theorem agreesFile_split_token {ws0 name ws1 wm rest : List Char} (t : Dict)
    (hws0 : isWs ws0 = true) (hname : isName name = true) (hws1 : isWs ws1 = true)
    (hwm : isWs wm = true) (hne : wm ≠ []) :
    ∀ inp s fuel, At inp (ws0 ++ (name ++ (ws1 ++ '<' :: (wm ++ '-' :: rest)))) t s →
      (ws0 ++ (name ++ (ws1 ++ '<' :: (wm ++ '-' :: rest)))).length + 2 ≤ fuel →
      Result.agreesFile inp (false, t) (parseFileLoop fuel s) := by
  intro inp s fuel hat hf
  obtain ⟨p, hp, hd, rfl⟩ := hat
  obtain ⟨f, rfl⟩ : ∃ f, fuel = f + 2 := ⟨fuel - 2, by omega⟩
  obtain ⟨c, cs, rfl⟩ := List.exists_cons_of_ne_nil hne
  have hc : isspace c = true := isWs_mem hwm c (by simp)
  rw [parseFileLoop_bare_name t f hd hws0 hname hws1
    (headIs_append_of_all (isWs_mem hws1) (fun _ hx => isspace_not_isalnum hx)
      (by simp; decide))
    (by simp; decide)
    (fun r h => by
      simp only [List.cons_append, List.cons.injEq, true_and] at h
      rw [h.1] at hc
      exact absurd hc (by decide))]
  exact ⟨rfl, _, at_of_drop t hp hd⟩

/-! ### The entry loop on some dictionary bodies -/

/-- The entry loop of `parseDict` over entries that are each followed by a separator,
the last one included, returns the map that they add up to at the closing brace. -/
theorem parseDictLoop_fields_close (t : Dict) {w0 : List Char} {fields : List SField}
    {ws : List Char} {d : Dict} (hw0 : isWs w0 = true) (hwf : fieldsWf fields = true)
    (hd : evalFields t fields [] = some d) :
    ∀ inp p fuel, inp.drop p = (w0 ++ fieldsText fields) ++ '}' :: ws →
      (w0 ++ fieldsText fields).length + 1 ≤ fuel →
      parseDictLoop fuel (cursor inp p t) []
        = .ok d (cursor inp (p + (w0 ++ fieldsText fields).length) t) := by
  intro inp p fuel h hf
  rw [List.length_append] at hf
  have h' : inp.drop p = w0 ++ (fieldsText fields ++ '}' :: ws) := by
    rw [h, List.append_assoc]
  obtain ⟨q, w, hw, hq, hlen, hloop⟩ := parseDictLoop_fields_eval inp t fields w0 ('}' :: ws)
    p fuel [] d hwf hd h' hw0 (by simp; decide) (by omega)
  have hfl := length_le_fieldsText fields
  obtain ⟨g, hg⟩ : ∃ g, fuel - fields.length = g + 1 := ⟨fuel - fields.length - 1, by omega⟩
  rw [hloop, hg, parseDictLoop_done t g d hq hw, hlen, List.length_append, Nat.add_assoc]

/-- The entry loop of `parseDict` over one entry, with whitespace between the two
characters of its arrow, returns the map of that entry at the closing brace. -/
theorem parseDictLoop_arrow_close (t : Dict) {w0 key w1 wm w2 : List Char} {value : SValue}
    {w3 ws : List Char} {v : ConfigValue} (hw0 : isWs w0 = true) (hkey : isName key = true)
    (hw1 : isWs w1 = true) (hwm : isWs wm = true) (hw2 : isWs w2 = true)
    (hvwf : value.wf = true) (hv : value.eval t = some v) (hw3 : isWs w3 = true) :
    ∀ inp p fuel,
      inp.drop p
        = (w0 ++ (key ++ (w1 ++ '-' :: (wm ++ '>' :: (w2 ++ (value.text ++ w3))))))
          ++ '}' :: ws →
      (w0 ++ (key ++ (w1 ++ '-' :: (wm ++ '>' :: (w2 ++ (value.text ++ w3)))))).length + 1
        ≤ fuel →
      parseDictLoop fuel (cursor inp p t) [] = .ok [(key, v)] (cursor inp
        (p + (w0 ++ (key ++ (w1 ++ '-' :: (wm ++ '>' :: (w2 ++ (value.text ++ w3)))))).length)
        t) := by
  intro inp p fuel h hf
  simp only [List.length_append, List.length_cons] at hf
  have hkl : 1 ≤ key.length := List.length_pos.mpr (isName_ne_nil hkey)
  obtain ⟨g, rfl⟩ : ∃ g, fuel = g + 1 + 1 := ⟨fuel - 2, by omega⟩
  have h0 : inp.drop p = w0 ++ (key ++ (w1 ++ '-' :: (wm ++ '>' ::
      (w2 ++ (value.text ++ (w3 ++ '}' :: ws)))))) := by
    rw [h]
    simp
  have h1 : inp.drop (p + w0.length + key.length + w1.length + 1 + wm.length + 1)
      = w2 ++ (value.text ++ (w3 ++ '}' :: ws)) := by
    have i1 := drop_after (a := ['-']) (b := wm ++ '>' :: (w2 ++ (value.text ++ (w3 ++ '}' :: ws))))
      (by simpa using drop_after (drop_after2 h0))
    have i2 := drop_after (a := ['>']) (b := w2 ++ (value.text ++ (w3 ++ '}' :: ws)))
      (by simpa using drop_after i1)
    simpa using i2
  have hpv := parseValue_text t inp value w2 (w3 ++ '}' :: ws) _ (g + 1) v hvwf hv h1 hw2
    (headIs_isdigit_ws_cons hw3 (by decide)) (by omega)
  have h2 := drop_after2 h1
  have hs := skipWhitespace_cursor t h2 (isWs_mem hw3) (by simp; decide)
  have h3 := drop_after h2
  have hcur : (cursor inp (p + w0.length + key.length + w1.length + 1 + wm.length + 1
      + w2.length + value.text.length + w3.length) t).currentChar = '}' :=
    currentChar_of_drop t h3
  have hs' := skipWhitespace_stay t h3 (by simp; decide)
  rw [parseDictLoop_header_ws t (g + 1) [] h0 hw0 hkey hw1 hwm, hpv]
  simp only [hs, hcur, hs', if_neg (show ('}' : Char) ≠ '.' by decide), ne_eq,
    not_true_eq_false, if_false]
  rw [parseDictLoop_done t g _ (by simpa using h3) (rfl : isWs [] = true)]
  simp only [List.length_nil, Nat.add_zero, List.length_append, List.length_cons]
  have harith : p + w0.length + key.length + w1.length + 1 + wm.length + 1 + w2.length
      + value.text.length + w3.length
      = p + (w0.length + (key.length + (w1.length + (wm.length + (w2.length
        + (value.text.length + w3.length) + 1) + 1)))) := by omega
  rw [harith]
  rfl

end YAMLParser

namespace YAMLParser
open ConfigParser

/-! ### The bindings of a map in the order of iteration -/

theorem entriesVisited_keys (order : Dict → Dict) (d : Dict) :
    Dict.keys (entriesVisited order d) = d.keys := by
  induction d with
  | nil => rfl
  | cons e rest ih =>
    obtain ⟨k, v⟩ := e
    simp only [Dict.keys, entriesVisited, List.map_cons] at ih ⊢
    rw [ih]

theorem entriesVisited_length (order : Dict → Dict) (d : Dict) :
    (entriesVisited order d).length = d.length := by
  induction d with
  | nil => rfl
  | cons e rest ih =>
    obtain ⟨k, v⟩ := e
    simp only [entriesVisited, List.length_cons, ih]

theorem mem_entriesVisited (order : Dict → Dict) {d : Dict} {k : List Char}
    {v : ConfigValue} (h : (k, v) ∈ d) : (k, v.visited order) ∈ entriesVisited order d := by
  induction d with
  | nil => cases h
  | cons e rest ih =>
    obtain ⟨k0, v0⟩ := e
    rcases List.mem_cons.mp h with heq | hmem
    · cases heq
      simp only [entriesVisited]
      exact List.mem_cons_self _ _
    · simp only [entriesVisited]
      exact List.mem_cons_of_mem _ (ih hmem)

/-- A binding of a map is visited, in whatever order the map is iterated. -/
theorem mem_visited {order : Dict → Dict} (horder : IterationOrder order) {d : Dict}
    {k : List Char} {v : ConfigValue} (h : (k, v) ∈ d) :
    (k, v.visited order) ∈ order (entriesVisited order d) :=
  (horder (entriesVisited order d)).mem_iff.mpr (mem_entriesVisited order h)

/-- The keys of the bindings visited are the keys of the map. -/
theorem visited_keys_perm {order : Dict → Dict} (horder : IterationOrder order) (d : Dict) :
    (Dict.keys (order (entriesVisited order d))).Perm d.keys := by
  have h := (horder (entriesVisited order d)).map Prod.fst
  rw [← entriesVisited_keys order d]
  exact h

theorem visited_length {order : Dict → Dict} (horder : IterationOrder order) (d : Dict) :
    (order (entriesVisited order d)).length = d.length := by
  rw [(horder (entriesVisited order d)).length_eq, entriesVisited_length]

/-- An entry at depth `k` of a dictionary is an entry at depth `k` of the dictionary as
the serializer walks it. -/
theorem EntryAt.visited {order : Dict → Dict} (horder : IterationOrder order) {k : Nat}
    {key : List Char} {val v : ConfigValue} (h : EntryAt k key val v) :
    EntryAt k key (val.visited order) (v.visited order) := by
  induction h with
  | here hmem =>
    simp only [ConfigValue.visited]
    exact EntryAt.here (mem_visited horder hmem)
  | inside hmem _ ih =>
    simp only [ConfigValue.visited] at ih ⊢
    have := mem_visited horder hmem
    simp only [ConfigValue.visited] at this
    exact EntryAt.inside this ih

/-- The two sequences in which two bindings can be visited. -/
theorem perm_pair {α : Type} {a b : α} {l : List α} (h : l.Perm [a, b]) :
    l = [a, b] ∨ l = [b, a] := by
  have hlen := h.length_eq
  match l, hlen with
  | [c, d], _ =>
    have hc : c ∈ [a, b] := h.mem_iff.mp (List.mem_cons_self _ _)
    rcases List.mem_cons.mp hc with e | e
    · subst e
      have h2 := (List.perm_cons c).mp h
      rw [List.perm_singleton.mp h2]
      exact Or.inl rfl
    · have e' : c = b := by simpa using e
      subst e'
      have h2 : ([c, d] : List α).Perm [c, a] := h.trans (List.Perm.swap c a [])
      have h3 := (List.perm_cons c).mp h2
      rw [List.perm_singleton.mp h3]
      exact Or.inr rfl

theorem outputYAMLConstants_append (l1 l2 : Dict) :
    outputYAMLConstants (l1 ++ l2) = outputYAMLConstants l1 ++ outputYAMLConstants l2 := by
  induction l1 with
  | nil => rfl
  | cons e rest ih =>
    obtain ⟨name, value⟩ := e
    show outputYAMLConstants ((name, value) :: (rest ++ l2)) = _
    rw [outputYAMLConstants, ih, outputYAMLConstants]
    simp only [List.append_assoc]

/-- The text written for a sequence of constants is empty or ends with a line
terminator. -/
theorem outputYAMLConstants_line_end (l : Dict) :
    outputYAMLConstants l = [] ∨ (outputYAMLConstants l).getLast? = some '\n' := by
  induction l with
  | nil => exact Or.inl rfl
  | cons e rest ih =>
    obtain ⟨name, value⟩ := e
    right
    simp only [outputYAMLConstants]
    rcases ih with h0 | h1
    · rw [h0, List.append_nil, List.getLast?_append]
      rfl
    · rw [List.getLast?_append, h1]
      rfl

end YAMLParser

namespace YAMLParser
open ConfigParser

/-! ### What the tokens have read when they return -/

theorem isWs_takeWhile (σ : List Char) : isWs (σ.takeWhile isspace) = true := by
  simp only [isWs, List.all_eq_true]
  exact fun c hc => List.mem_takeWhile_imp hc

theorem error_ne_ok {α : Type} (s s' : ConfigParser) (message : String) (a : α) :
    (s.error message : Result α) ≠ .ok a s' := by
  intro h
  cases h

/-- Function `skipWhitespace` reads a run of whitespace, up to a character that is not
whitespace or to the end. -/
theorem at_skipWhitespace_split {inp σ : List Char} {t : Dict} {s : ConfigParser}
    (h : At inp σ t s) :
    ∃ w σ1, isWs w = true ∧ σ = w ++ σ1 ∧ σ1.dropWhile isspace = σ1
      ∧ At inp σ1 t s.skipWhitespace :=
  ⟨σ.takeWhile isspace, σ.dropWhile isspace, isWs_takeWhile σ,
    (List.takeWhile_append_dropWhile isspace σ).symm, dropWhile_isspace_idem σ,
    at_skipWhitespace h⟩

/-- Function `parseName` reads a name, or nothing. -/
theorem at_parseName_split {inp σ : List Char} {t : Dict} {s : ConfigParser}
    (h : At inp σ t s) :
    ∃ name σ2 s2, s.parseName = (name, s2) ∧ σ = name ++ σ2
      ∧ (name = [] ∨ isName name = true) ∧ At inp σ2 t s2 := by
  obtain ⟨s2, e, hat2⟩ := at_parseName h
  exact ⟨nameOf σ, σ.drop (nameOf σ).length, s2, e, nameOf_append σ, nameOf_cases σ, hat2⟩

/-- Function `expect`, when it returns, has read whitespace and the character expected. -/
theorem at_expect_split {inp σ : List Char} {c : Char} {t : Dict} {s s' : ConfigParser}
    {u : Unit} (h : At inp σ t s) (hc : c ≠ NUL) (e : s.expect c = .ok u s') :
    ∃ w τ, isWs w = true ∧ σ = w ++ c :: τ ∧ σ.dropWhile isspace = c :: τ ∧ At inp τ t s' := by
  rcases dropWhile_head_cases σ c hc with ⟨τ, hτ⟩ | hne
  · obtain ⟨s'', e', hat'⟩ := at_expect_ok h hτ
    rw [e] at e'
    injection e' with _ hs
    refine ⟨σ.takeWhile isspace, τ, isWs_takeWhile σ, ?_, hτ, hs ▸ hat'⟩
    rw [← hτ]
    exact (List.takeWhile_append_dropWhile isspace σ).symm
  · obtain ⟨w, s'', e', _⟩ := at_expect_thrown h hne
    rw [e] at e'
    cases e'

/-- Function `parseNumber`, when it returns, has read a number literal of a value up to
`INT_MAX`, all the digits that stand there, and returns its value. -/
theorem parseNumber_inv {inp σ : List Char} {t : Dict} {s s' : ConfigParser}
    {v : ConfigValue} (hat : At inp σ t s) (e : s.parseNumber = .ok v s') :
    ∃ ds τ, σ = ds ++ τ ∧ isNumber ds = true ∧ decimalValue ds ≤ INT_MAX
      ∧ v = .number (Int.ofNat (decimalValue ds)) ∧ headIs isdigit τ = false
      ∧ At inp τ t s' := by
  by_cases h19 : '1' ≤ σ.headD NUL ∧ σ.headD NUL ≤ '9'
  · cases σ with
    | nil => exact absurd h19 (by decide)
    | cons c r =>
      simp only [List.headD_cons] at h19
      have hds : isNumber (c :: r.takeWhile isdigit) = true := by
        simp only [isNumber, h19, and_self, decide_True, Bool.true_and, List.all_eq_true]
        exact fun x hx => List.mem_takeWhile_imp hx
      have hsplit : c :: r = (c :: r.takeWhile isdigit) ++ r.dropWhile isdigit := by
        rw [List.cons_append, List.takeWhile_append_dropWhile]
      obtain ⟨p, hp, hd, rfl⟩ := hat
      rw [parseNumber_cursor t (hd.trans hsplit) hds (headIs_dropWhile _ _)] at e
      by_cases hle : decimalValue (c :: r.takeWhile isdigit) ≤ INT_MAX
      · rw [if_pos hle] at e
        injection e with e1 e2
        exact ⟨_, _, hsplit, hds, hle, e1.symm, headIs_dropWhile _ _,
          e2 ▸ at_of_drop t hp (hd.trans hsplit)⟩
      · rw [if_neg hle] at e
        exact absurd e (error_ne_ok _ _ _ _)
  · rw [parseNumber_bad_start s (by rw [at_currentChar hat]; exact h19)] at e
    exact absurd e (error_ne_ok _ _ _ _)

/-- Function `parseConstantExpression`, when it returns, has read `?`, `(`, a name that the
table binds and `)`, with whitespace before each of the three characters, and returns the
value bound to the name. -/
theorem parseConstantExpression_inv {inp σ : List Char} {t : Dict} {s s' : ConfigParser}
    {v : ConfigValue} (hat : At inp σ t s) (e : s.parseConstantExpression = .ok v s') :
    ∃ w ws1 name ws2 τ, isWs w = true ∧ isWs ws1 = true ∧ isName name = true
      ∧ isWs ws2 = true ∧ σ = w ++ '?' :: (ws1 ++ '(' :: (name ++ (ws2 ++ ')' :: τ)))
      ∧ t.find name = some v ∧ At inp τ t s' := by
  rw [parseConstantExpression] at e
  cases e1 : s.expect '?' with
  | thrown w s1 => rw [e1] at e; cases e
  | outOfFuel => rw [e1] at e; cases e
  | ok u1 s1 =>
    rw [e1] at e
    dsimp only at e
    obtain ⟨w, σ1, hw, rfl, _, hat1⟩ := at_expect_split hat (by decide) e1
    cases e2 : s1.expect '(' with
    | thrown w s2 => rw [e2] at e; cases e
    | outOfFuel => rw [e2] at e; cases e
    | ok u2 s2 =>
      rw [e2] at e
      dsimp only at e
      obtain ⟨ws1, σ2, hws1, rfl, _, hat2⟩ := at_expect_split hat1 (by decide) e2
      obtain ⟨name, σ3, s3, e3, rfl, hname, hat3⟩ := at_parseName_split hat2
      rw [e3] at e
      dsimp only at e
      by_cases hn : name = []
      · rw [if_pos hn] at e
        exact absurd e (error_ne_ok _ _ _ _)
      · rw [if_neg hn] at e
        cases e4 : s3.expect ')' with
        | thrown w s4 => rw [e4] at e; cases e
        | outOfFuel => rw [e4] at e; cases e
        | ok u4 s4 =>
          rw [e4] at e
          dsimp only at e
          obtain ⟨ws2, τ, hws2, rfl, _, hat4⟩ := at_expect_split hat3 (by decide) e4
          rw [at_constants hat4] at e
          cases hf : t.find name with
          | none =>
            rw [hf] at e
            exact absurd e (error_ne_ok _ _ _ _)
          | some value =>
            rw [hf] at e
            injection e with e5 e6
            exact ⟨w, ws1, name, ws2, τ, hw, hws1, hname.resolve_left hn, hws2, rfl,
              by rw [hf, e5], e6 ▸ hat4⟩

end YAMLParser

namespace YAMLParser
open ConfigParser

/-! ### What the recursive descent has read when it returns -/

theorem head_eq_cons {σ : List Char} {c : Char} (h : σ.headD NUL = c) (hc : c ≠ NUL) :
    ∃ ρ, σ = c :: ρ := by
  cases σ with
  | nil => exact absurd h.symm hc
  | cons d ρ =>
    simp only [List.headD_cons] at h
    exact ⟨ρ, by rw [h]⟩

theorem loopSound_succ (t : Dict) (f : Nat) (IHV : ValueSound t f) (IHL : LoopSound t f) :
    LoopSound t (f + 1) := by
  intro inp σ s acc d s' hat e
  rw [parseDictLoop] at e
  by_cases hcond : s.pos < s.input.length ∧ s.currentChar ≠ '}'
  swap
  · rw [if_neg hcond] at e
    injection e with e1 e2
    have hstop : ¬ (σ ≠ [] ∧ σ.headD NUL ≠ '}') := fun h => hcond ((at_loop_cond hat).mpr h)
    refine ⟨[], .done, σ, rfl, rfl, rfl, by rw [← e1]; rfl, ?_, e2 ▸ hat⟩
    cases σ with
    | nil => exact Or.inl rfl
    | cons c r =>
      right
      by_cases hc : c = '}'
      · exact ⟨r, by rw [hc]⟩
      · exact absurd ⟨by simp, by simpa using hc⟩ hstop
  rw [if_pos hcond] at e
  dsimp only at e
  obtain ⟨w0, σ1, hw0, rfl, hσ1, hat1⟩ := at_skipWhitespace_split hat
  by_cases hb : s.skipWhitespace.currentChar = '}'
  · rw [if_pos hb] at e
    injection e with e1 e2
    obtain ⟨ρ, hρ⟩ := head_eq_cons ((at_currentChar hat1).symm.trans hb) (by decide)
    exact ⟨w0, .done, σ1, hw0, rfl, rfl, by rw [← e1]; rfl, Or.inr ⟨ρ, hρ⟩, e2 ▸ hat1⟩
  rw [if_neg hb] at e
  obtain ⟨name, σ2, s2, e2, rfl, hname, hat2⟩ := at_parseName_split hat1
  rw [e2] at e
  dsimp only at e
  by_cases hn : name = []
  · rw [if_pos hn] at e
    exact absurd e (error_ne_ok _ _ _ _)
  rw [if_neg hn] at e
  have hname' : isName name = true := hname.resolve_left hn
  obtain ⟨w1, σ3, hw1, rfl, hσ3, hat3⟩ := at_skipWhitespace_split hat2
  cases e4 : s2.skipWhitespace.expect '-' with
  | thrown w s4 => rw [e4] at e; cases e
  | outOfFuel => rw [e4] at e; cases e
  | ok u4 s4 =>
    rw [e4] at e
    dsimp only at e
    obtain ⟨w1', σ4, hw1', rfl, _, hat4⟩ := at_expect_split hat3 (by decide) e4
    cases e5 : s4.expect '>' with
    | thrown w s5 => rw [e5] at e; cases e
    | outOfFuel => rw [e5] at e; cases e
    | ok u5 s5 =>
      rw [e5] at e
      dsimp only at e
      obtain ⟨wm, σ5, hwm, rfl, _, hat5⟩ := at_expect_split hat4 (by decide) e5
      cases e6 : parseValue f s5 with
      | thrown w s6 => rw [e6] at e; cases e
      | outOfFuel => rw [e6] at e; cases e
      | ok v s6 =>
        rw [e6] at e
        dsimp only at e
        obtain ⟨w2, a, σ6, hw2, ha, rfl, hev, hat6⟩ := IHV _ _ _ _ _ hat5 e6
        obtain ⟨w3, σ7, hw3, rfl, hσ7, hat7⟩ := at_skipWhitespace_split hat6
        by_cases hdot : s6.skipWhitespace.currentChar = '.'
        · rw [if_pos hdot] at e
          obtain ⟨σ8, rfl⟩ := head_eq_cons ((at_currentChar hat7).symm.trans hdot) (by decide)
          obtain ⟨w4, σ9, hw4, rfl, _, hat9⟩ := at_skipWhitespace_split (at_advance hat7)
          obtain ⟨w', es', τ, hw', hes', rfl, hev', hτ, hatτ⟩ := IHL _ _ _ _ _ _ hat9 e
          refine ⟨w0, .more name (w1 ++ w1') wm w2 a w3 (w4 ++ w') es', τ, hw0, ?_, ?_, ?_,
            hτ, hatτ⟩
          · simp only [PEntries.wf, hname', isWs_append hw1 hw1', hwm, hw2, ha, hw3,
              isWs_append hw4 hw', hes', Bool.and_self]
          · simp only [PEntries.text, List.append_assoc, List.cons_append]
          · simp only [PEntries.eval, hev, hev']
        · rw [if_neg hdot] at e
          by_cases hclose : s6.skipWhitespace.currentChar ≠ '}'
          · rw [if_pos hclose] at e
            exact absurd e (error_ne_ok _ _ _ _)
          · rw [if_neg hclose] at e
            have hb7 : σ7.headD NUL = '}' :=
              (at_currentChar hat7).symm.trans (not_not.mp hclose)
            obtain ⟨ρ, hρ⟩ := head_eq_cons hb7 (by decide)
            have hat8 := at_skipWhitespace hat7
            rw [hσ7] at hat8
            cases f with
            | zero =>
              rw [parseDictLoop] at e
              cases e
            | succ g =>
              rw [parseDictLoop_stop _ g hat8 (fun hc => hc.2 hb7)] at e
              injection e with e1 e2
              refine ⟨w0, .last name (w1 ++ w1') wm w2 a w3, σ7, hw0, ?_, ?_, ?_,
                Or.inr ⟨ρ, hρ⟩, e2 ▸ hat8⟩
              · simp only [PEntries.wf, hname', isWs_append hw1 hw1', hwm, hw2, ha, hw3,
                  Bool.and_self]
              · simp only [PEntries.text, List.append_assoc, List.cons_append]
              · simp only [PEntries.eval, hev, e1]

theorem dictSound_succ (t : Dict) (f : Nat) (IHL : LoopSound t f) : DictSound t (f + 1) := by
  intro inp σ s v s' hat e
  rw [parseDict] at e
  cases e1 : s.expect '{' with
  | thrown w s1 => rw [e1] at e; cases e
  | outOfFuel => rw [e1] at e; cases e
  | ok u1 s1 =>
    rw [e1] at e
    dsimp only at e
    obtain ⟨w, σ1, hw, rfl, _, hat1⟩ := at_expect_split hat (by decide) e1
    cases e2 : parseDictLoop f s1 [] with
    | thrown w s2 => rw [e2] at e; cases e
    | outOfFuel => rw [e2] at e; cases e
    | ok d s2 =>
      rw [e2] at e
      dsimp only at e
      obtain ⟨w0, es, τL, hw0, hes, rfl, hev, hτL, hat2⟩ := IHL _ _ _ _ _ _ hat1 e2
      cases e3 : s2.expect '}' with
      | thrown w s3 => rw [e3] at e; cases e
      | outOfFuel => rw [e3] at e; cases e
      | ok u3 s3 =>
        rw [e3] at e
        dsimp only at e
        injection e with e4 e5
        obtain ⟨w3, τ, _, _, hdrop, hat3⟩ := at_expect_split hat2 (by decide) e3
        rcases hτL with h0 | ⟨ρ, hρ⟩
        · rw [h0] at hdrop
          cases hdrop
        · rw [hρ, List.dropWhile_cons, if_neg (by decide)] at hdrop
          injection hdrop with _ hρτ
          rw [hρ, hρτ]
          exact ⟨w, w0, es, τ, d, hw, hw0, hes, rfl, hev, e4.symm, e5 ▸ hat3⟩

theorem valueSound_succ (t : Dict) (f : Nat) (IHD : DictSound t f) : ValueSound t (f + 1) := by
  intro inp σ s v s' hat e
  rw [parseValue] at e
  obtain ⟨w, σ1, hw, rfl, _, hat1⟩ := at_skipWhitespace_split hat
  by_cases hbrace : s.skipWhitespace.currentChar = '{'
  · rw [if_pos hbrace] at e
    obtain ⟨w', ws0, es, τ, d, hw', hws0, hes, rfl, hev, hv, hatτ⟩ := IHD _ _ _ _ _ hat1 e
    refine ⟨w ++ w', .dict ws0 es, τ, isWs_append hw hw', ?_, ?_, ?_, hatτ⟩
    · simp only [PValue.wf, hws0, hes, Bool.and_self]
    · simp only [PValue.text, List.append_assoc, List.cons_append, List.nil_append]
    · simp only [PValue.eval, hev, hv]
  rw [if_neg hbrace] at e
  by_cases hq : s.skipWhitespace.currentChar = '?'
  · rw [if_pos hq] at e
    obtain ⟨w', ws1, name, ws2, τ, hw', hws1, hname, hws2, rfl, hf, hatτ⟩ :=
      parseConstantExpression_inv hat1 e
    refine ⟨w ++ w', .ref ws1 name ws2, τ, isWs_append hw hw', ?_, ?_, ?_, hatτ⟩
    · simp only [PValue.wf, hws1, hname, hws2, Bool.and_self]
    · simp only [PValue.text, List.append_assoc, List.cons_append, List.nil_append]
    · simp only [PValue.eval, hf]
  rw [if_neg hq] at e
  by_cases hd : isdigit s.skipWhitespace.currentChar = true
  · rw [if_pos hd] at e
    obtain ⟨ds, τ, rfl, hds, hle, hv, _, hatτ⟩ := parseNumber_inv hat1 e
    refine ⟨w, .num ds, τ, hw, ?_, rfl, ?_, hatτ⟩
    · simp only [PValue.wf, hds, hle, decide_True, Bool.and_self]
    · simp only [PValue.eval, hv]
  · rw [if_neg hd] at e
    exact absurd e (error_ne_ok _ _ _ _)

/-- The recursive descent, when it returns, has read a text of the grammar that it
accepts, and what it returns is what that text denotes. -/
theorem descent_sound (t : Dict) :
    ∀ f, ValueSound t f ∧ DictSound t f ∧ LoopSound t f := by
  intro f
  induction f with
  | zero =>
    refine ⟨?_, ?_, ?_⟩
    · intro inp σ s v s' _ e
      rw [parseValue] at e
      cases e
    · intro inp σ s v s' _ e
      rw [parseDict] at e
      cases e
    · intro inp σ s acc d s' _ e
      rw [parseDictLoop] at e
      cases e
  | succ f ih =>
    exact ⟨valueSound_succ t f ih.2.1, dictSound_succ t f ih.2.2,
      loopSound_succ t f ih.1 ih.2.2⟩

theorem parseValue_sound {inp σ : List Char} {t : Dict} {s s' : ConfigParser}
    {v : ConfigValue} {f : Nat} (hat : At inp σ t s) (e : parseValue f s = .ok v s') :
    ∃ w a τ, isWs w = true ∧ PValue.wf a = true ∧ σ = w ++ (a.text ++ τ)
      ∧ a.eval t = some v ∧ At inp τ t s' :=
  (descent_sound t f).1 inp σ s v s' hat e

theorem parseDict_sound {inp σ : List Char} {t : Dict} {s s' : ConfigParser}
    {v : ConfigValue} {f : Nat} (hat : At inp σ t s) (e : parseDict f s = .ok v s') :
    ∃ w ws0 es τ d, isWs w = true ∧ isWs ws0 = true ∧ PEntries.wf es = true
      ∧ σ = w ++ '{' :: (ws0 ++ (es.text ++ '}' :: τ)) ∧ es.eval t [] = some d
      ∧ v = .dict d ∧ At inp τ t s' :=
  (descent_sound t f).2.1 inp σ s v s' hat e

theorem parseDictLoop_sound {inp σ : List Char} {t : Dict} {s s' : ConfigParser}
    {acc d : Dict} {f : Nat} (hat : At inp σ t s) (e : parseDictLoop f s acc = .ok d s') :
    ∃ w es τ, isWs w = true ∧ PEntries.wf es = true ∧ σ = w ++ (es.text ++ τ)
      ∧ es.eval t acc = some d ∧ (τ = [] ∨ ∃ ρ, τ = '}' :: ρ) ∧ At inp τ t s' :=
  (descent_sound t f).2.2 inp σ s acc d s' hat e

end YAMLParser

namespace YAMLParser
open ConfigParser

/-! ### The recursive descent on the texts that it reads -/

theorem pvalue_text_head (v : PValue) (hwf : v.wf = true) (rest : List Char) :
    headIs isspace (v.text ++ rest) = false := by
  cases v with
  | num ds =>
    cases ds with
    | nil => simp [PValue.wf, isNumber] at hwf
    | cons c cs =>
      have h1 : isNumber (c :: cs) = true := by
        simp only [PValue.wf, Bool.and_eq_true] at hwf; exact hwf.1
      simpa [PValue.text] using isdigit_not_isspace (isNumber_all_isdigit h1 c (by simp))
  | ref w1 n w2 => simp [PValue.text]; decide
  | dict ws es => simp [PValue.text]; decide

theorem pentries_text_head (es : PEntries) (hwf : es.wf = true) (rest : List Char) :
    headIs isspace (es.text ++ '}' :: rest) = false := by
  cases es with
  | done => simp [PEntries.text]; decide
  | last n _ _ _ _ _ =>
    simp only [PEntries.wf, Bool.and_eq_true] at hwf
    obtain ⟨a, as, rfl⟩ := List.exists_cons_of_ne_nil (isName_ne_nil hwf.1.1.1.1.1)
    simpa [PEntries.text] using isalpha_not_isspace (isName_cons hwf.1.1.1.1.1).1
  | more n _ _ _ _ _ _ _ =>
    simp only [PEntries.wf, Bool.and_eq_true] at hwf
    obtain ⟨a, as, rfl⟩ := List.exists_cons_of_ne_nil (isName_ne_nil hwf.1.1.1.1.1.1.1)
    simpa [PEntries.text] using isalpha_not_isspace (isName_cons hwf.1.1.1.1.1.1.1).1

/-- Function `parseValue` on `?`, `(`, a name and `)`, with whitespace in front of each of
the three characters. -/
theorem parseValue_reference_ws {inp wsb ws1 name ws2 rest : List Char} {p : Nat} (t : Dict)
    (fuel : Nat)
    (h : inp.drop p = wsb ++ '?' :: (ws1 ++ '(' :: (name ++ (ws2 ++ ')' :: rest))))
    (hws : isWs wsb = true) (hws1 : isWs ws1 = true) (hname : isName name = true)
    (hws2 : isWs ws2 = true) :
    parseValue (fuel + 1) (cursor inp p t) =
      match t.find name with
      | some value => .ok value
          (cursor inp (p + wsb.length + 1 + ws1.length + 1 + name.length + ws2.length + 1) t)
      | none => (cursor inp
          (p + wsb.length + 1 + ws1.length + 1 + name.length + ws2.length + 1) t).error
          ("Undefined constant: " ++ String.mk name) := by
  have hs := skipWhitespace_cursor t h (isWs_mem hws) (by simp; decide)
  have h1 := drop_after h
  have hcur : (cursor inp (p + wsb.length) t).currentChar = '?' :=
    currentChar_of_drop t h1
  have e1 := expect_here (c := '?') t h1 (by decide)
  have h2 : inp.drop (p + wsb.length + 1) = ws1 ++ '(' :: (name ++ (ws2 ++ ')' :: rest)) := by
    have := drop_after (a := ['?']) (by simpa using h1)
    simpa using this
  have e2 := expect_cursor (c := '(') t h2 hws1 (by decide)
  have h3 : inp.drop (p + wsb.length + 1 + ws1.length + 1) = name ++ (ws2 ++ ')' :: rest) := by
    have := drop_after (a := ['(']) (by simpa using drop_after h2)
    simpa using this
  have e3 := parseName_cursor t h3 hname
    (headIs_append_of_all (isWs_mem hws2) (fun c hc => isspace_not_isalnum hc)
      (by simp; decide))
  have h4 := drop_after h3
  have e4 := expect_cursor (c := ')') t h4 hws2 (by decide)
  rw [parseValue]
  simp only [hs, hcur, if_neg (show ('?' : Char) ≠ '{' by decide), if_true]
  simp only [parseConstantExpression, e1, e2, e3, e4, if_neg (isName_ne_nil hname),
    cursor_constants]
  cases t.find name <;> rfl

/-- An iteration of the loop of `parseDict` over an entry that the closing brace
follows, with whitespace between the two characters of the arrow. -/
theorem parseDictLoop_entry_close_ws {inp wsb name ws1 wm r1 ws3 r2 : List Char} {p q : Nat}
    (t : Dict) (fuel : Nat) (acc : Dict) {value : ConfigValue}
    (h : inp.drop p = wsb ++ (name ++ (ws1 ++ '-' :: (wm ++ '>' :: r1))))
    (hws : isWs wsb = true) (hname : isName name = true) (hws1 : isWs ws1 = true)
    (hwm : isWs wm = true)
    (hv : parseValue fuel
        (cursor inp (p + wsb.length + name.length + ws1.length + 1 + wm.length + 1) t)
      = .ok value (cursor inp q t))
    (h2 : inp.drop q = ws3 ++ '}' :: r2) (hws3 : isWs ws3 = true) :
    parseDictLoop (fuel + 1) (cursor inp p t) acc =
      parseDictLoop fuel (cursor inp (q + ws3.length) t) (acc.assign name value) := by
  have hs := skipWhitespace_cursor t h2 (isWs_mem hws3) (by simp; decide)
  have h3 := drop_after h2
  have hcur : (cursor inp (q + ws3.length) t).currentChar = '}' := currentChar_of_drop t h3
  have hs' := skipWhitespace_stay t h3 (by simp; decide)
  rw [parseDictLoop_header_ws t fuel acc h hws hname hws1 hwm, hv]
  simp only [hs, hcur, hs', if_neg (show ('}' : Char) ≠ '.' by decide), ne_eq,
    not_true_eq_false, if_false]

/-- An iteration of the loop of `parseDict` over an entry that a separator follows, with
whitespace between the two characters of the arrow. -/
theorem parseDictLoop_entry_sep_ws {inp wsb name ws1 wm r1 ws3 ws4 r2 : List Char} {p q : Nat}
    (t : Dict) (fuel : Nat) (acc : Dict) {value : ConfigValue}
    (h : inp.drop p = wsb ++ (name ++ (ws1 ++ '-' :: (wm ++ '>' :: r1))))
    (hws : isWs wsb = true) (hname : isName name = true) (hws1 : isWs ws1 = true)
    (hwm : isWs wm = true)
    (hv : parseValue fuel
        (cursor inp (p + wsb.length + name.length + ws1.length + 1 + wm.length + 1) t)
      = .ok value (cursor inp q t))
    (h2 : inp.drop q = ws3 ++ '.' :: (ws4 ++ r2)) (hws3 : isWs ws3 = true)
    (hws4 : isWs ws4 = true) (hr2 : headIs isspace r2 = false) :
    parseDictLoop (fuel + 1) (cursor inp p t) acc =
      parseDictLoop fuel (cursor inp (q + ws3.length + 1 + ws4.length) t)
        (acc.assign name value) := by
  have hs := skipWhitespace_cursor t h2 (isWs_mem hws3) (by simp; decide)
  have h3 := drop_after h2
  have hcur : (cursor inp (q + ws3.length) t).currentChar = '.' := currentChar_of_drop t h3
  have h4 : inp.drop (q + ws3.length + 1) = ws4 ++ r2 := by
    have := drop_after (a := ['.']) (by simpa using h3)
    simpa using this
  have hs' := skipWhitespace_cursor t h4 (isWs_mem hws4) hr2
  rw [parseDictLoop_header_ws t fuel acc h hws hname hws1 hwm, hv]
  simp only [hs, hcur, if_true, advance_cursor, hs']

theorem drop_behind_arrow {inp wsb name ws1 wm r1 : List Char} {p : Nat}
    (h : inp.drop p = wsb ++ (name ++ (ws1 ++ '-' :: (wm ++ '>' :: r1)))) :
    inp.drop (p + wsb.length + name.length + ws1.length + 1 + wm.length + 1) = r1 := by
  have i1 := drop_after (a := ['-']) (b := wm ++ '>' :: r1)
    (by simpa using drop_after (drop_after2 h))
  have i2 := drop_after (a := ['>']) (b := r1) (by simpa using drop_after i1)
  simpa using i2

mutual

/-- Function `parseValue` on the text of a value that it reads, whose references are bound,
yields what the value denotes and consumes exactly that text. -/
theorem parseValue_ptext (t : Dict) (inp : List Char) :
    ∀ (v : PValue) (wsb rest : List Char) (p fuel : Nat) (cv : ConfigValue),
      v.wf = true → v.eval t = some cv → inp.drop p = wsb ++ (v.text ++ rest) →
      isWs wsb = true → headIs isdigit rest = false → v.text.length < fuel →
      parseValue fuel (cursor inp p t) = .ok cv (cursor inp (p + wsb.length + v.text.length) t)
  | .num ds, wsb, rest, p, fuel, cv, hwf, hev, h, hws, hrest, hfuel => by
    simp only [PValue.wf, Bool.and_eq_true, decide_eq_true_eq] at hwf
    simp only [PValue.eval, Option.some.injEq] at hev
    simp only [PValue.text] at h hfuel ⊢
    obtain ⟨f, rfl⟩ : ∃ f, fuel = f + 1 := ⟨fuel - 1, by omega⟩
    rw [parseValue_number t f h hws hwf.1 hrest, if_pos hwf.2, hev]
  | .ref w1 n w2, wsb, rest, p, fuel, cv, hwf, hev, h, hws, _, hfuel => by
    simp only [PValue.wf, Bool.and_eq_true] at hwf
    simp only [PValue.eval] at hev
    simp only [PValue.text] at h hfuel ⊢
    obtain ⟨f, rfl⟩ : ∃ f, fuel = f + 1 := ⟨fuel - 1, by omega⟩
    rw [@parseValue_reference_ws inp wsb w1 n w2 rest p t f (by simpa using h) hws hwf.1.1
      hwf.1.2 hwf.2, hev]
    simp only [List.length_cons, List.length_append, List.length_nil]
    congr 2
    omega
  | .dict ws es, wsb, rest, p, fuel, cv, hwf, hev, h, hws, _, hfuel => by
    simp only [PValue.wf, Bool.and_eq_true] at hwf
    simp only [PValue.text] at h hfuel ⊢
    simp only [List.length_cons, List.length_append, List.length_nil] at hfuel
    obtain ⟨f, rfl⟩ : ∃ f, fuel = f + 2 := ⟨fuel - 2, by omega⟩
    cases hd : es.eval t [] with
    | none => simp [PValue.eval, hd] at hev
    | some d =>
      simp only [PValue.eval, hd, Option.some.injEq] at hev
      have h0 : inp.drop p = wsb ++ '{' :: (ws ++ (es.text ++ '}' :: rest)) := by
        simpa using h
      have h1 : inp.drop (p + wsb.length + 1) = ws ++ (es.text ++ '}' :: rest) := by
        have := drop_after2 (a := wsb) (b := ['{']) (by simpa using h0)
        simpa using this
      have hl := parseDictLoop_ptext t inp es ws rest (p + wsb.length + 1) f [] d hwf.2 hd h1
        hwf.1 (by omega)
      have h2 := drop_after2 h1
      rw [parseValue_dict_close t f h0 hws hl h2, hev]
      simp only [List.length_cons, List.length_append, List.length_nil]
      congr 2
      omega

/-- The loop of `parseDict` on the text of entries that it reads yields the map they add
up to and stops at the closing brace. -/
theorem parseDictLoop_ptext (t : Dict) (inp : List Char) :
    ∀ (es : PEntries) (wsb rest : List Char) (p fuel : Nat) (acc d : Dict),
      es.wf = true → es.eval t acc = some d → inp.drop p = wsb ++ (es.text ++ '}' :: rest) →
      isWs wsb = true → es.text.length < fuel →
      parseDictLoop fuel (cursor inp p t) acc =
        .ok d (cursor inp (p + wsb.length + es.text.length) t)
  | .done, wsb, rest, p, fuel, acc, d, _, hev, h, hws, hfuel => by
    simp only [PEntries.eval, Option.some.injEq] at hev
    simp only [PEntries.text, List.nil_append] at h hfuel ⊢
    obtain ⟨f, rfl⟩ : ∃ f, fuel = f + 1 := ⟨fuel - 1, by omega⟩
    rw [parseDictLoop_done t f acc h hws, hev]
    rfl
  | .last n w1 wm w2 v w3, wsb, rest, p, fuel, acc, d, hwf, hev, h, hws, hfuel => by
    simp only [PEntries.wf, Bool.and_eq_true] at hwf
    obtain ⟨⟨⟨⟨⟨hn, hw1⟩, hwm⟩, hw2⟩, hv⟩, hw3⟩ := hwf
    simp only [PEntries.text] at h hfuel ⊢
    simp only [List.length_cons, List.length_append, List.length_nil] at hfuel
    have hnl : 0 < n.length := List.length_pos.mpr (isName_ne_nil hn)
    obtain ⟨f, rfl⟩ : ∃ f, fuel = f + 2 := ⟨fuel - 2, by omega⟩
    cases hcv : v.eval t with
    | none => simp [PEntries.eval, hcv] at hev
    | some cv =>
      simp only [PEntries.eval, hcv, Option.some.injEq] at hev
      have h0 : inp.drop p = wsb ++ (n ++ (w1 ++ '-' :: (wm ++ '>' ::
          (w2 ++ (v.text ++ (w3 ++ '}' :: rest)))))) := by
        simpa using h
      have h1 := drop_behind_arrow h0
      have hpv := parseValue_ptext t inp v w2 (w3 ++ '}' :: rest) _ (f + 1) cv hv hcv h1 hw2
        (headIs_append_of_all (isWs_mem hw3) (fun c hc => isspace_not_isdigit hc)
          (by simp; decide)) (by omega)
      have h2 := drop_after2 h1
      rw [parseDictLoop_entry_close_ws t (f + 1) acc h0 hws hn hw1 hwm hpv h2 hw3]
      have h3 := drop_after h2
      have := @parseDictLoop_done inp [] rest _ t f (acc.assign n cv) (by simpa using h3) rfl
      rw [this, hev]
      simp only [List.length_cons, List.length_append, List.length_nil]
      congr 2
      omega
  | .more n w1 wm w2 v w3 w4 es, wsb, rest, p, fuel, acc, d, hwf, hev, h, hws, hfuel => by
    simp only [PEntries.wf, Bool.and_eq_true] at hwf
    obtain ⟨⟨⟨⟨⟨⟨⟨hn, hw1⟩, hwm⟩, hw2⟩, hv⟩, hw3⟩, hw4⟩, hes⟩ := hwf
    simp only [PEntries.text] at h hfuel ⊢
    simp only [List.length_cons, List.length_append, List.length_nil] at hfuel
    obtain ⟨f, rfl⟩ : ∃ f, fuel = f + 1 := ⟨fuel - 1, by omega⟩
    cases hcv : v.eval t with
    | none => simp [PEntries.eval, hcv] at hev
    | some cv =>
      simp only [PEntries.eval, hcv] at hev
      have h0 : inp.drop p = wsb ++ (n ++ (w1 ++ '-' :: (wm ++ '>' ::
          (w2 ++ (v.text ++ (w3 ++ '.' :: (w4 ++ (es.text ++ '}' :: rest)))))))) := by
        simpa using h
      have h1 := drop_behind_arrow h0
      have hpv := parseValue_ptext t inp v w2 (w3 ++ '.' :: (w4 ++ (es.text ++ '}' :: rest)))
        _ f cv hv hcv h1 hw2
        (headIs_append_of_all (isWs_mem hw3) (fun c hc => isspace_not_isdigit hc)
          (by simp; decide)) (by omega)
      have h2 := drop_after2 h1
      rw [parseDictLoop_entry_sep_ws t f acc h0 hws hn hw1 hwm hpv h2 hw3 hw4
        (pentries_text_head es hes rest)]
      have h3 : inp.drop (p + wsb.length + n.length + w1.length + 1 + wm.length + 1 + w2.length
          + v.text.length + w3.length + 1 + w4.length) = [] ++ (es.text ++ '}' :: rest) := by
        have := drop_after (a := ['.']) (drop_after h2)
        simpa using drop_after this
      rw [parseDictLoop_ptext t inp es [] rest _ f (acc.assign n cv) d hes hev h3 rfl (by omega)]
      simp only [List.length_cons, List.length_append, List.length_nil]
      congr 2
      omega

end

end YAMLParser

namespace YAMLParser
open ConfigParser

/-! ### What the top-level loop has read when it returns -/

theorem isTrailer_of_isWs {w : List Char} (h : isWs w = true) : isTrailer w = true := by
  simp only [isTrailer, h, Bool.true_or]

theorem isTrailer_cons_space {c : Char} {ρ : List Char} (hc : isspace c = true) :
    isTrailer (c :: ρ) = isTrailer ρ := by
  simp only [isTrailer, isWs, List.all_cons, hc, Bool.true_and, List.dropWhile_cons, if_true]

/-- A comment that the end of the input ends, behind whitespace, is a trailer. -/
theorem isTrailer_comment {w body : List Char} (hw : isWs w = true)
    (hbody : ∀ c ∈ body, c ≠ '\n') : isTrailer (w ++ ';' :: body) = true := by
  have hd : (w ++ ';' :: body).dropWhile isspace = ';' :: body :=
    dropWhile_ws_append hw (by simp; decide)
  simp only [isTrailer, hd, List.headD_cons, decide_True, Bool.true_and, List.all_cons,
    Bool.or_eq_true, Bool.and_eq_true, List.all_eq_true, bne_iff_ne]
  right
  exact ⟨by decide, hbody⟩

/-- A whitespace character in front of items and a trailer belongs to the whitespace of
the first item, or to the trailer. -/
theorem items_strip_space {items : List PItem} {trailer ρ : List Char} {c : Char}
    (hwf : itemsWf items = true) (htr : isTrailer trailer = true)
    (h : itemsText items ++ trailer = c :: ρ) (hc : isspace c = true) :
    ∃ items2 trailer2, itemsWf items2 = true ∧ isTrailer trailer2 = true
      ∧ ρ = itemsText items2 ++ trailer2 ∧ ∀ t, evalItems t items2 = evalItems t items := by
  cases items with
  | nil =>
    simp only [itemsText, List.nil_append] at h
    rw [h, isTrailer_cons_space hc] at htr
    exact ⟨[], ρ, rfl, htr, rfl, fun _ => rfl⟩
  | cons item rest =>
    simp only [itemsWf, Bool.and_eq_true] at hwf
    cases item with
    | definition ws0 name ws1 ws2 value =>
      simp only [PItem.wf, Bool.and_eq_true] at hwf
      obtain ⟨⟨⟨⟨⟨hw0, hn⟩, hw1⟩, hw2⟩, hv⟩, hrest⟩ := hwf
      cases ws0 with
      | nil =>
        obtain ⟨a, as, rfl⟩ := List.exists_cons_of_ne_nil (isName_ne_nil hn)
        simp only [itemsText, PItem.text, List.nil_append, List.cons_append,
          List.cons.injEq] at h
        rw [← h.1] at hc
        have := isalpha_not_isspace (isName_cons hn).1
        rw [hc] at this
        cases this
      | cons c0 ws0 =>
        simp only [itemsText, PItem.text, List.cons_append, List.cons.injEq] at h
        have hw0' : isWs ws0 = true := by
          simp only [isWs, List.all_cons, Bool.and_eq_true] at hw0 ⊢
          exact hw0.2
        refine ⟨.definition ws0 name ws1 ws2 value :: rest, trailer, ?_, htr, ?_,
          fun _ => rfl⟩
        · simp only [itemsWf, PItem.wf, hw0', hn, hw1, hw2, hv, hrest, Bool.and_self]
        · rw [← h.2]
          simp only [itemsText, PItem.text, List.append_assoc]
    | comment ws0 body =>
      simp only [PItem.wf, Bool.and_eq_true] at hwf
      obtain ⟨⟨hw0, hbody⟩, hrest⟩ := hwf
      cases ws0 with
      | nil =>
        simp only [itemsText, PItem.text, List.nil_append, List.cons_append,
          List.cons.injEq] at h
        rw [← h.1] at hc
        exact absurd hc (by decide)
      | cons c0 ws0 =>
        simp only [itemsText, PItem.text, List.cons_append, List.cons.injEq] at h
        have hw0' : isWs ws0 = true := by
          simp only [isWs, List.all_cons, Bool.and_eq_true] at hw0 ⊢
          exact hw0.2
        refine ⟨.comment ws0 body :: rest, trailer, ?_, htr, ?_, fun _ => rfl⟩
        · simp only [itemsWf, PItem.wf, hw0', hbody, hrest, Bool.and_self]
        · rw [← h.2]
          simp only [itemsText, PItem.text, List.append_assoc]

theorem fileSound_succ (f : Nat) (ih : FileSound f) : FileSound (f + 1) := by
  intro inp σ t s s' hat e
  rw [parseFileLoop] at e
  by_cases hlt : s.pos < s.input.length
  swap
  · rw [if_neg hlt] at e
    injection e with _ e2
    have hσ : σ = [] := by
      by_contra hne
      exact hlt ((at_pos_lt hat).mpr hne)
    rw [hσ] at hat ⊢
    exact ⟨[], [], t, rfl, rfl, rfl, rfl, e2 ▸ hat⟩
  rw [if_pos hlt] at e
  dsimp only at e
  obtain ⟨w0, σ1, hw0, rfl, hσ1, hat1⟩ := at_skipWhitespace_split hat
  by_cases hge : s.skipWhitespace.pos ≥ s.skipWhitespace.input.length
  · rw [if_pos hge] at e
    injection e with _ e2
    have hσ : σ1 = [] := by
      by_contra hne
      exact absurd ((at_pos_lt hat1).mpr hne) (not_lt.mpr hge)
    rw [hσ] at hat1 ⊢
    exact ⟨[], w0 ++ [], t, rfl, isTrailer_of_isWs (by simpa using hw0), rfl, rfl, e2 ▸ hat1⟩
  rw [if_neg hge] at e
  by_cases hsemi : s.skipWhitespace.currentChar = ';'
  · rw [if_pos hsemi] at e
    obtain ⟨ρ, rfl⟩ := head_eq_cons ((at_currentChar hat1).symm.trans hsemi) (by decide)
    have hatc := at_skipComment hat1
    have hdrop : (';' :: ρ).dropWhile (fun c => c != '\n') = ρ.dropWhile (fun c => c != '\n') := by
      rw [List.dropWhile_cons, if_pos (by decide)]
    rw [hdrop] at hatc
    have hsplit : ρ = ρ.takeWhile (fun c => c != '\n') ++ ρ.dropWhile (fun c => c != '\n') :=
      (List.takeWhile_append_dropWhile _ ρ).symm
    have hbody : ∀ c ∈ ρ.takeWhile (fun c => c != '\n'), c ≠ '\n' :=
      fun c hc => by simpa using List.mem_takeWhile_imp hc
    cases hrest : ρ.dropWhile (fun c => c != '\n') with
    | nil =>
      rw [hrest] at hatc hsplit
      cases f with
      | zero =>
        rw [parseFileLoop] at e
        cases e
      | succ g =>
        rw [parseFileLoop_stop g hatc] at e
        injection e with _ e2
        refine ⟨[], w0 ++ ';' :: ρ, t, rfl, ?_, rfl, rfl, e2 ▸ hatc⟩
        rw [hsplit, List.append_nil]
        exact isTrailer_comment hw0 hbody
    | cons c ρ' =>
      have hc : c = '\n' := by
        have := headIs_dropWhile (fun c => c != '\n') ρ
        rw [hrest] at this
        simpa using this
      rw [hrest] at hatc hsplit
      obtain ⟨items', trailer', t', hwf', htr', htext, hev', hat'⟩ := ih _ _ _ _ _ hatc e
      obtain ⟨items2, trailer2, hwf2, htr2, htext2, hev2⟩ :=
        items_strip_space hwf' htr' htext.symm (by rw [hc]; decide)
      refine ⟨.comment w0 (ρ.takeWhile (fun c => c != '\n')) :: items2, trailer2, t', ?_, htr2,
        ?_, ?_, hat'⟩
      · simp only [itemsWf, PItem.wf, hw0, hwf2, Bool.and_true, Bool.true_and,
          List.all_eq_true, bne_iff_ne]
        exact hbody
      · conv_lhs => rw [hsplit, hc, htext2]
        simp only [itemsText, PItem.text, List.append_assoc, List.cons_append,
          List.nil_append]
      · simp only [evalItems]
        rw [hev2]
        exact hev'
  rw [if_neg hsemi] at e
  obtain ⟨name, σ2, s2, e2, rfl, hname, hat2⟩ := at_parseName_split hat1
  rw [e2] at e
  dsimp only at e
  by_cases hn : name = []
  · rw [if_neg (fun hc => hc hn)] at e
    exact absurd e (error_ne_ok _ _ _ _)
  rw [if_pos hn] at e
  have hname' : isName name = true := hname.resolve_left hn
  obtain ⟨w1, σ3, hw1, rfl, hσ3, hat3⟩ := at_skipWhitespace_split hat2
  by_cases hla : s2.skipWhitespace.currentChar = '<'
      ∧ s2.skipWhitespace.pos + 1 < s2.skipWhitespace.input.length
      ∧ s2.skipWhitespace.input.getD (s2.skipWhitespace.pos + 1) NUL = '-'
  · rw [if_pos hla, at_rewind hat1 hat3] at e
    obtain ⟨r, rfl⟩ := (at_lookahead hat3).mp hla
    have h4 : ('<' :: '-' :: r).dropWhile isspace = '<' :: ('-' :: r) := by
      rw [List.dropWhile_cons, if_neg (by decide)]
    have h5 : ('-' :: r).dropWhile isspace = '-' :: r := by
      rw [List.dropWhile_cons, if_neg (by decide)]
    obtain ⟨s4, e4, hat4⟩ := at_expect_ok hat3 h4
    obtain ⟨s5, e5, hat5⟩ := at_expect_ok hat4 h5
    rw [parseConstant, e2] at e
    dsimp only at e
    rw [if_neg hn, e4] at e
    dsimp only at e
    rw [e5] at e
    dsimp only at e
    cases e6 : parseValue f s5 with
    | thrown w s6 => rw [e6] at e; cases e
    | outOfFuel => rw [e6] at e; cases e
    | ok v s6 =>
      rw [e6] at e
      dsimp only at e
      obtain ⟨w2, a, τ, hw2, ha, rfl, hev, hat6⟩ := parseValue_sound hat5 e6
      obtain ⟨items', trailer', t', hwf', htr', rfl, hev', hat'⟩ :=
        ih _ _ _ _ _ (at_assign hat6 name v) e
      refine ⟨.definition w0 name w1 w2 a :: items', trailer', t', ?_, htr', ?_, ?_, hat'⟩
      · simp only [itemsWf, PItem.wf, hw0, hname', hw1, hw2, ha, hwf', Bool.and_self]
      · simp only [itemsText, PItem.text, List.append_assoc, List.cons_append]
      · simp only [evalItems, hev, hev']
  · rw [if_neg hla, at_rewind hat1 hat3] at e
    have hbrace : ((name ++ (w1 ++ σ3)).dropWhile isspace).headD NUL ≠ '{' := by
      obtain ⟨a, as, rfl⟩ := List.exists_cons_of_ne_nil hn
      have ha := (isName_cons hname').1
      rw [List.cons_append, List.dropWhile_cons,
        if_neg (by simpa using isalpha_not_isspace ha)]
      simp only [List.headD_cons]
      rintro rfl
      exact absurd ha (by decide)
    obtain ⟨w, s4, e4, _⟩ := at_expect_thrown (c := '{') hat1 hbrace
    cases f with
    | zero =>
      rw [parseDict] at e
      cases e
    | succ g =>
      rw [parseDict, e4] at e
      cases e

/-- The top-level loop of `parseFile`, when it returns, has read top-level items of the
grammar that it accepts and a trailer, and the table left is the table of the items. -/
theorem fileSound : ∀ f, FileSound f := by
  intro f
  induction f with
  | zero =>
    intro inp σ t s s' _ e
    rw [parseFileLoop] at e
    cases e
  | succ f ih => exact fileSound_succ f ih

/-- When `parseFile` returns true, the input is a sequence of top-level items of the
grammar that the parser accepts, followed by a trailer, and the table left is the table
of the items built on the table that the parser held. -/
theorem parseFile_sound (self : ConfigParser) (filename : String) (inp : List Char)
    (r : ParseFileResult) (h : parseFile self filename (some inp) = some r)
    (hret : r.returned = true) :
    ∃ items trailer, itemsWf items = true ∧ isTrailer trailer = true
      ∧ inp = itemsText items ++ trailer
      ∧ evalItems self.constants items = some r.self.constants := by
  cases inp with
  | nil =>
    rw [parseFile_empty] at h
    injection h with h
    refine ⟨[], [], rfl, rfl, rfl, ?_⟩
    rw [← h]
    rfl
  | cons c ρ =>
    rw [parseFile_start] at h
    have hat : At (c :: ρ) (c :: ρ) self.constants (cursor (c :: ρ) 0 self.constants) :=
      ⟨0, Nat.zero_le _, rfl, rfl⟩
    cases e : parseFileLoop (parseFuel (c :: ρ)) (cursor (c :: ρ) 0 self.constants) with
    | thrown w s1 =>
      rw [e] at h
      injection h with h
      rw [← h] at hret
      cases hret
    | outOfFuel =>
      rw [e] at h
      cases h
    | ok u s1 =>
      rw [e] at h
      injection h with h
      obtain ⟨items, trailer, t', hwf, htr, htext, hev, hat'⟩ := fileSound _ _ _ _ _ _ hat e
      refine ⟨items, trailer, hwf, htr, htext, ?_⟩
      rw [hev, ← h]
      show some t' = some s1.constants
      rw [at_constants hat']

end YAMLParser

namespace YAMLParser
open ConfigParser

/-! ### The top-level loop on the texts that it reads -/

theorem itemsText_head {items : List PItem} {tail : List Char}
    (hwf : itemsWf items = true) (htail : headIs isdigit tail = false) :
    headIs isdigit (itemsText items ++ tail) = false := by
  cases items with
  | nil => simpa [itemsText] using htail
  | cons item items =>
    simp only [itemsWf, Bool.and_eq_true] at hwf
    cases item with
    | definition ws0 name ws1 ws2 value =>
      simp only [PItem.wf, Bool.and_eq_true] at hwf
      obtain ⟨a, as, rfl⟩ := List.exists_cons_of_ne_nil (isName_ne_nil hwf.1.1.1.1.2)
      have ha := (isName_cons hwf.1.1.1.1.2).1
      simp only [itemsText, PItem.text, List.append_assoc, List.cons_append]
      exact headIs_isdigit_ws_cons hwf.1.1.1.1.1 (isalpha_not_isdigit ha)
    | comment ws0 body =>
      simp only [PItem.wf, Bool.and_eq_true] at hwf
      simp only [itemsText, PItem.text, List.append_assoc, List.cons_append]
      exact headIs_isdigit_ws_cons hwf.1.1 (by decide)

theorem length_le_itemsText (items : List PItem) :
    items.length ≤ (itemsText items).length := by
  induction items with
  | nil => simp
  | cons item items ih =>
    cases item <;>
      simp only [itemsText, PItem.text, List.length_append, List.length_cons] <;> omega

/-- The loop of `parseFile` over the text of items that it reads, whose references are
bound: the definitions are stored in the order of the text, and the loop goes on behind
the items. -/
theorem parseFileLoop_items (inp : List Char) :
    ∀ (items : List PItem) (wsb tail : List Char) (p fuel : Nat) (t t' : Dict),
      itemsWf items = true → evalItems t items = some t' →
      inp.drop p = wsb ++ (itemsText items ++ tail) → isWs wsb = true →
      headIs isdigit tail = false → (itemsText items).length < fuel →
      parseFileLoop fuel (cursor inp p t)
        = parseFileLoop (fuel - items.length)
            (cursor inp (p + wsb.length + (itemsText items).length) t')
  | [], wsb, tail, p, fuel, t, t', _, hev, h, hws, _, _ => by
    simp only [evalItems, Option.some.injEq] at hev
    subst hev
    simp only [itemsText, List.nil_append] at h
    simpa [itemsText] using parseFileLoop_skip t fuel h hws
  | .definition ws0 name ws1 ws2 value :: items, wsb, tail, p, fuel, t, t', hwf, hev, h, hws,
      htail, hfuel => by
    simp only [itemsWf, PItem.wf, Bool.and_eq_true] at hwf
    obtain ⟨⟨⟨⟨⟨hw0, hn⟩, hw1⟩, hw2⟩, hv⟩, hitems⟩ := hwf
    simp only [itemsText, PItem.text, List.length_append, List.length_cons] at hfuel
    have hnl : 0 < name.length := List.length_pos.mpr (isName_ne_nil hn)
    obtain ⟨f, rfl⟩ : ∃ f, fuel = f + 1 := ⟨fuel - 1, by omega⟩
    cases hcv : value.eval t with
    | none => simp [evalItems, hcv] at hev
    | some cv =>
      simp only [evalItems, hcv] at hev
      have hwsb : isWs (wsb ++ ws0) = true := isWs_append hws hw0
      have h0 : inp.drop p = (wsb ++ ws0) ++ (name ++ (ws1 ++ '<' :: '-' ::
          (ws2 ++ (value.text ++ (itemsText items ++ tail))))) := by
        simpa [itemsText, PItem.text] using h
      have h1 : inp.drop (p + (wsb ++ ws0).length + name.length + ws1.length + 2)
          = ws2 ++ (value.text ++ (itemsText items ++ tail)) := by
        have := drop_after (a := ['<', '-'])
          (b := ws2 ++ (value.text ++ (itemsText items ++ tail)))
          (by simpa using drop_after (drop_after2 h0))
        simpa using this
      have hpv := parseValue_ptext t inp value ws2 (itemsText items ++ tail) _ f cv hv hcv h1
        hw2 (itemsText_head hitems htail) (by omega)
      rw [parseFileLoop_definition t f h0 hwsb hn hw1 hpv]
      have h2 : inp.drop (p + (wsb ++ ws0).length + name.length + ws1.length + 2 + ws2.length
          + value.text.length) = [] ++ (itemsText items ++ tail) := by
        simpa using drop_after2 h1
      rw [parseFileLoop_items inp items [] tail _ f (t.assign name cv) t' hitems hev h2 rfl
        htail (by omega)]
      congr 1
      · simp only [List.length_cons]; omega
      · congr 1
        simp only [itemsText, PItem.text, List.length_append, List.length_cons,
          List.length_nil]
        omega
  | .comment ws0 body :: items, wsb, tail, p, fuel, t, t', hwf, hev, h, hws, htail, hfuel => by
    simp only [itemsWf, PItem.wf, Bool.and_eq_true, List.all_eq_true, bne_iff_ne] at hwf
    obtain ⟨⟨hw0, hbody⟩, hitems⟩ := hwf
    simp only [itemsText, PItem.text, List.length_append, List.length_cons] at hfuel
    obtain ⟨f, rfl⟩ : ∃ f, fuel = f + 1 := ⟨fuel - 1, by omega⟩
    simp only [evalItems] at hev
    have hwsb : isWs (wsb ++ ws0) = true := isWs_append hws hw0
    have h0 : inp.drop p = (wsb ++ ws0) ++ ';' :: (body ++ '\n' ::
        (itemsText items ++ tail)) := by
      simpa [itemsText, PItem.text] using h
    rw [parseFileLoop_comment t f h0 hwsb hbody (by simp)]
    have h1 : inp.drop (p + (wsb ++ ws0).length + 1 + body.length)
        = ['\n'] ++ (itemsText items ++ tail) := by
      have := drop_after (a := [';']) (drop_after h0)
      simpa using drop_after this
    rw [parseFileLoop_items inp items ['\n'] tail _ f t t' hitems hev h1 (by decide)
      htail (by simp at hfuel ⊢; omega)]
    congr 1
    · simp only [List.length_cons]; omega
    · congr 1
      simp only [itemsText, PItem.text, List.length_append, List.length_cons,
        List.length_nil]
      omega

/-- A trailer is whitespace, or whitespace and a comment without a newline. -/
theorem isTrailer_cases {trailer : List Char} (h : isTrailer trailer = true) :
    isWs trailer = true ∨ ∃ w body, isWs w = true ∧ (∀ c ∈ body, c ≠ '\n')
      ∧ trailer = w ++ ';' :: body := by
  simp only [isTrailer, Bool.or_eq_true, Bool.and_eq_true, decide_eq_true_eq,
    List.all_eq_true, bne_iff_ne] at h
  rcases h with h | ⟨h1, h2⟩
  · exact Or.inl h
  · right
    obtain ⟨ρ, hρ⟩ := head_eq_cons h1 (by decide)
    refine ⟨trailer.takeWhile isspace, ρ, isWs_takeWhile trailer, ?_, ?_⟩
    · intro c hc
      exact h2 c (by rw [hρ]; exact List.mem_cons_of_mem _ hc)
    · rw [← hρ]
      exact (List.takeWhile_append_dropWhile isspace trailer).symm

theorem headIs_isdigit_trailer {trailer : List Char} (h : isTrailer trailer = true) :
    headIs isdigit trailer = false := by
  rcases isTrailer_cases h with hw | ⟨w, body, hw, _, rfl⟩
  · exact headIs_isdigit_ws hw
  · exact headIs_isdigit_ws_cons hw (by decide)

/-- The loop of `parseFile` on a trailer returns at the end of the trailer. -/
theorem parseFileLoop_trailer {inp trailer : List Char} {p : Nat} (t : Dict) (fuel : Nat)
    (h : inp.drop p = trailer) (htr : isTrailer trailer = true) :
    parseFileLoop (fuel + 2) (cursor inp p t) = .ok () (cursor inp (p + trailer.length) t) := by
  rcases isTrailer_cases htr with hw | ⟨w, body, hw, hbody, rfl⟩
  · exact parseFileLoop_end t (fuel + 1) h hw
  · have h0 : inp.drop p = w ++ ';' :: (body ++ []) := by simpa using h
    rw [parseFileLoop_comment t (fuel + 1) h0 hw hbody rfl]
    have h1 : inp.drop (p + w.length + 1 + body.length) = [] := by
      have := drop_after (a := [';']) (drop_after h0)
      simpa using drop_after this
    rw [parseFileLoop_end t fuel h1 rfl]
    simp only [List.length_nil, Nat.add_zero, List.length_append, List.length_cons]
    congr 2
    omega

/-- The top-level loop on a document of the grammar that the parser accepts, whose
references are bound, returns with the table of the items. -/
theorem agreesFile_items {items : List PItem} {trailer : List Char} {t t' : Dict}
    (hwf : itemsWf items = true) (htr : isTrailer trailer = true)
    (hev : evalItems t items = some t') :
    ∀ inp s fuel, At inp (itemsText items ++ trailer) t s →
      (itemsText items ++ trailer).length + 2 ≤ fuel →
      Result.agreesFile inp (true, t') (parseFileLoop fuel s) := by
  intro inp s fuel hat hf
  obtain ⟨p, hp, hd, rfl⟩ := hat
  rw [List.length_append] at hf
  have hlen := length_le_itemsText items
  rw [parseFileLoop_items inp items [] trailer p fuel t t' hwf hev (by simpa using hd) rfl
    (headIs_isdigit_trailer htr) (by omega)]
  obtain ⟨g, hg⟩ : ∃ g, fuel - items.length = g + 2 := ⟨fuel - items.length - 2, by omega⟩
  have h1 : inp.drop (p + ([] : List Char).length + (itemsText items).length) = trailer := by
    have := drop_after hd
    simpa using this
  rw [hg, parseFileLoop_trailer t' g h1 htr]
  refine ⟨rfl, _, ?_, ?_, rfl⟩
  · have := congrArg List.length hd
    rw [List.length_drop, List.length_append] at this
    simp only [List.length_nil, Nat.add_zero]
    omega
  · have := drop_after (a := trailer) (b := []) (by simpa using h1)
    exact this

/-- Function `parseFile` on a document of the grammar that the parser accepts, whose
references are bound in the table of the parser or by the document, returns true and
leaves the table of the items. -/
theorem parseFile_items (self : ConfigParser) (filename : String) {items : List PItem}
    {trailer : List Char} {t' : Dict} (hwf : itemsWf items = true)
    (htr : isTrailer trailer = true) (hev : evalItems self.constants items = some t') :
    ∃ r, parseFile self filename (some (itemsText items ++ trailer)) = some r
      ∧ r.returned = true ∧ r.self.constants = t' := by
  obtain ⟨o, r, _, ho, hr, h1, h2, _⟩ :=
    parseFile_outcome self filename (itemsText items ++ trailer)
  have hat0 : At (itemsText items ++ trailer) (itemsText items ++ trailer) self.constants
      (cursor (itemsText items ++ trailer) 0 self.constants) := ⟨0, Nat.zero_le _, rfl, rfl⟩
  have a1 := ho _ _ ((itemsText items ++ trailer).length + 2) hat0 (le_refl _)
  have a2 := agreesFile_items hwf htr hev _ _ ((itemsText items ++ trailer).length + 2) hat0
    (le_refl _)
  have e := agreesFile_unique a1 a2
  exact ⟨r, hr, by rw [h1, e], by rw [h2, e]⟩

/-- The inputs on which `parseFile` returns true are the documents of the grammar that the
parser accepts whose references are bound. -/
theorem parseFile_accepts_iff (self : ConfigParser) (filename : String) (inp : List Char) :
    (∃ r, parseFile self filename (some inp) = some r ∧ r.returned = true)
      ↔ ∃ items trailer, itemsWf items = true ∧ isTrailer trailer = true
          ∧ inp = itemsText items ++ trailer
          ∧ (evalItems self.constants items).isSome = true := by
  constructor
  · rintro ⟨r, hr, hret⟩
    obtain ⟨items, trailer, hwf, htr, htext, hev⟩ := parseFile_sound self filename inp r hr hret
    exact ⟨items, trailer, hwf, htr, htext, by rw [hev]; rfl⟩
  · rintro ⟨items, trailer, hwf, htr, rfl, hev⟩
    obtain ⟨t', ht'⟩ := Option.isSome_iff_exists.mp hev
    obtain ⟨r, hr, hret, _⟩ := parseFile_items self filename hwf htr ht'
    exact ⟨r, hr, hret⟩

end YAMLParser

namespace YAMLParser
open ConfigParser

/-! ### Texts that the entry loop of `parseDict` rejects -/

theorem loop_cond_of_drop {inp wsb rest : List Char} {c : Char} {p : Nat} (t : Dict)
    (h : inp.drop p = wsb ++ c :: rest) (hws : isWs wsb = true) (hc : c ≠ '}') :
    (cursor inp p t).pos < (cursor inp p t).input.length
      ∧ (cursor inp p t).currentChar ≠ '}' := by
  cases wsb with
  | nil =>
    have h0 : inp.drop p = c :: rest := by simpa using h
    refine ⟨lt_length_of_drop h0, ?_⟩
    rw [currentChar_of_drop t h0]
    exact hc
  | cons x xs =>
    have h0 : inp.drop p = x :: (xs ++ c :: rest) := by simpa using h
    refine ⟨lt_length_of_drop h0, ?_⟩
    rw [currentChar_of_drop t h0]
    rintro rfl
    exact absurd (isWs_mem hws '}' (by simp)) (by decide)

/-- An iteration of the loop of `parseDict` where no name stands: a character that is
not a letter, and not the closing brace, where an entry is expected. -/
theorem parseDictLoop_no_name {inp wsb rest : List Char} {c : Char} {p : Nat} (t : Dict)
    (fuel : Nat) (acc : Dict) (h : inp.drop p = wsb ++ c :: rest) (hws : isWs wsb = true)
    (hc : isspace c = false) (ha : isalpha c = false) (hb : c ≠ '}') :
    parseDictLoop (fuel + 1) (cursor inp p t) acc =
      (cursor inp (p + wsb.length) t).error "Expected name in dictionary" := by
  have hcond := loop_cond_of_drop t h hws hb
  have hs1 := skipWhitespace_cursor t h (isWs_mem hws) (by simpa using hc)
  have h1 := drop_after h
  have hcur1 : (cursor inp (p + wsb.length) t).currentChar = c := currentChar_of_drop t h1
  have hn := @parseName_none inp (p + wsb.length) t (by rw [h1]; simpa using ha)
  rw [parseDictLoop, if_pos hcond]
  simp only [hs1, hcur1, if_neg hb, hn, if_true]

/-- An iteration of the loop of `parseDict` over a key that `-` does not follow. -/
theorem parseDictLoop_no_dash {inp wsb name ws1 rest : List Char} {c : Char} {p : Nat}
    (t : Dict) (fuel : Nat) (acc : Dict)
    (h : inp.drop p = wsb ++ (name ++ (ws1 ++ c :: rest)))
    (hws : isWs wsb = true) (hname : isName name = true) (hws1 : isWs ws1 = true)
    (hmax : ws1 = [] → isalnum c = false) (hc : isspace c = false) (hne : c ≠ '-') :
    parseDictLoop (fuel + 1) (cursor inp p t) acc =
      (cursor inp (p + wsb.length + name.length + ws1.length) t).error
        ("Expected '" ++ String.singleton '-' ++ "', got '" ++ String.singleton c ++ "'") := by
  obtain ⟨a, as, hcons⟩ := List.exists_cons_of_ne_nil (isName_ne_nil hname)
  have ha : isalpha a = true := by rw [hcons] at hname; exact (isName_cons hname).1
  have hcond : (cursor inp p t).pos < (cursor inp p t).input.length
      ∧ (cursor inp p t).currentChar ≠ '}' := by
    have h0 : inp.drop p = wsb ++ a :: (as ++ (ws1 ++ c :: rest)) := by
      rw [h, hcons]; simp
    exact loop_cond_of_drop t h0 hws (by rintro rfl; exact absurd ha (by decide))
  have hs1 := skipWhitespace_cursor t h (isWs_mem hws)
    (by rw [hcons]; simpa using isalpha_not_isspace ha)
  have h1 := drop_after h
  have hcur1 : (cursor inp (p + wsb.length) t).currentChar = a :=
    currentChar_of_drop t (by rw [hcons] at h1; simpa using h1)
  have hne1 : a ≠ '}' := by rintro rfl; exact absurd ha (by decide)
  have hmax' : headIs isalnum (ws1 ++ c :: rest) = false := by
    cases ws1 with
    | nil => simpa using hmax rfl
    | cons x xs => simpa using isspace_not_isalnum (isWs_mem hws1 x (by simp))
  have hn := parseName_cursor t h1 hname hmax'
  have h2 := drop_after h1
  have hs2 := skipWhitespace_cursor t h2 (isWs_mem hws1) (by simpa using hc)
  have h3 := drop_after h2
  have hcur3 : (cursor inp (p + wsb.length + name.length + ws1.length) t).currentChar = c :=
    currentChar_of_drop t h3
  have hexp := @expect_fail inp [] (c :: rest) _ '-' t (by simpa using h3) rfl
    (by simpa using hc) (by
      simp only [List.length_nil, Nat.add_zero]
      rw [hcur3]
      exact hne)
  simp only [List.length_nil, Nat.add_zero, hcur3] at hexp
  rw [parseDictLoop, if_pos hcond]
  simp only [hs1, hcur1, if_neg hne1, hn, if_neg (isName_ne_nil hname), hs2, hexp]
  rfl

/-- An iteration of the loop of `parseDict` over a key and `-` that `>` does not
follow. -/
theorem parseDictLoop_no_gt {inp wsb name ws1 wm rest : List Char} {c : Char} {p : Nat}
    (t : Dict) (fuel : Nat) (acc : Dict)
    (h : inp.drop p = wsb ++ (name ++ (ws1 ++ '-' :: (wm ++ c :: rest))))
    (hws : isWs wsb = true) (hname : isName name = true) (hws1 : isWs ws1 = true)
    (hwm : isWs wm = true) (hc : isspace c = false) (hne : c ≠ '>') :
    parseDictLoop (fuel + 1) (cursor inp p t) acc =
      (cursor inp (p + wsb.length + name.length + ws1.length + 1 + wm.length) t).error
        ("Expected '" ++ String.singleton '>' ++ "', got '" ++ String.singleton c ++ "'") := by
  obtain ⟨a, as, hcons⟩ := List.exists_cons_of_ne_nil (isName_ne_nil hname)
  have ha : isalpha a = true := by rw [hcons] at hname; exact (isName_cons hname).1
  have hcond : (cursor inp p t).pos < (cursor inp p t).input.length
      ∧ (cursor inp p t).currentChar ≠ '}' := by
    have h0 : inp.drop p = wsb ++ a :: (as ++ (ws1 ++ '-' :: (wm ++ c :: rest))) := by
      rw [h, hcons]; simp
    exact loop_cond_of_drop t h0 hws (by rintro rfl; exact absurd ha (by decide))
  have hs1 := skipWhitespace_cursor t h (isWs_mem hws)
    (by rw [hcons]; simpa using isalpha_not_isspace ha)
  have h1 := drop_after h
  have hcur1 : (cursor inp (p + wsb.length) t).currentChar = a :=
    currentChar_of_drop t (by rw [hcons] at h1; simpa using h1)
  have hne1 : a ≠ '}' := by rintro rfl; exact absurd ha (by decide)
  have hn := parseName_cursor t h1 hname
    (headIs_append_of_all (isWs_mem hws1) (fun c hc => isspace_not_isalnum hc)
      (by simp; decide))
  have h2 := drop_after h1
  have hs2 := skipWhitespace_cursor t h2 (isWs_mem hws1) (by simp; decide)
  have h3 := drop_after h2
  have e1 : (cursor inp (p + wsb.length + name.length + ws1.length) t).expect '-'
      = .ok () (cursor inp (p + wsb.length + name.length + ws1.length + 1) t) :=
    expect_here t h3 (by decide)
  have h4 : inp.drop (p + wsb.length + name.length + ws1.length + 1) = wm ++ c :: rest := by
    have := drop_after (a := ['-']) (by simpa using h3)
    simpa using this
  have h5 := drop_after h4
  have hcur5 : (cursor inp (p + wsb.length + name.length + ws1.length + 1 + wm.length)
      t).currentChar = c := currentChar_of_drop t h5
  have hexp := @expect_fail inp wm (c :: rest) _ '>' t h4 hwm (by simpa using hc) (by
    rw [hcur5]
    exact hne)
  rw [hcur5] at hexp
  rw [parseDictLoop, if_pos hcond]
  simp only [hs1, hcur1, if_neg hne1, hn, if_neg (isName_ne_nil hname), hs2, e1, hexp]
  rfl

/-- An iteration of the loop of `parseDict` over an entry that neither a separator nor
the closing brace follows. -/
theorem parseDictLoop_no_separator {inp wsb name ws1 wm r1 ws3 r2 : List Char} {c : Char}
    {p q : Nat} (t : Dict) (fuel : Nat) (acc : Dict) {value : ConfigValue}
    (h : inp.drop p = wsb ++ (name ++ (ws1 ++ '-' :: (wm ++ '>' :: r1))))
    (hws : isWs wsb = true) (hname : isName name = true) (hws1 : isWs ws1 = true)
    (hwm : isWs wm = true)
    (hv : parseValue fuel
        (cursor inp (p + wsb.length + name.length + ws1.length + 1 + wm.length + 1) t)
      = .ok value (cursor inp q t))
    (h2 : inp.drop q = ws3 ++ c :: r2) (hws3 : isWs ws3 = true) (hc : isspace c = false)
    (hdot : c ≠ '.') (hclose : c ≠ '}') :
    parseDictLoop (fuel + 1) (cursor inp p t) acc =
      (cursor inp (q + ws3.length) t).error
        "Expected '.' or '\x7d' after dictionary entry" := by
  have hs := skipWhitespace_cursor t h2 (isWs_mem hws3) (by simpa using hc)
  have h3 := drop_after h2
  have hcur : (cursor inp (q + ws3.length) t).currentChar = c := currentChar_of_drop t h3
  rw [parseDictLoop_header_ws t fuel acc h hws hname hws1 hwm, hv]
  simp only [hs, hcur, if_neg hdot, ne_eq, hclose, not_false_eq_true, if_true]

end YAMLParser

namespace YAMLParser
open ConfigParser

/-! ### The characters of the texts that the recursive descent reads -/

theorem at_text_unique {inp τ τ' : List Char} {t : Dict} {s : ConfigParser}
    (h : At inp τ t s) (h' : At inp τ' t s) : τ = τ' := by
  obtain ⟨p, _, hd, hs⟩ := h
  obtain ⟨q, _, hd', hs'⟩ := h'
  have hp : s.pos = p := by rw [hs]; rfl
  have hq : s.pos = q := by rw [hs']; rfl
  rw [← hd, ← hd', ← hp, ← hq]

theorem isName_all_isalnum {name : List Char} (h : isName name = true) :
    ∀ c ∈ name, isalnum c = true := by
  cases name with
  | nil => cases h
  | cons a as =>
    obtain ⟨ha, has⟩ := isName_cons h
    intro c hc
    rcases List.mem_cons.mp hc with e | hm
    · rw [e]
      exact isalpha_isalnum ha
    · exact has c hm

theorem not_mem_ws {c : Char} {w : List Char} (hc : isspace c = false) (hw : isWs w = true) :
    c ∉ w := by
  intro hm
  rw [isWs_mem hw c hm] at hc
  cases hc

theorem not_mem_name {c : Char} {name : List Char} (hc : isalnum c = false)
    (hn : isName name = true) : c ∉ name := by
  intro hm
  rw [isName_all_isalnum hn c hm] at hc
  cases hc

theorem not_mem_number {c : Char} {ds : List Char} (hc : isalnum c = false)
    (hn : isNumber ds = true) : c ∉ ds := by
  intro hm
  have hd := isNumber_all_isdigit hn c hm
  simp only [isalnum, hd, Bool.or_true] at hc
  cases hc

mutual

/-- A character that is neither whitespace, nor a letter, nor a digit, nor one of the
eight characters of the grammar of values does not occur in the text of a value. -/
theorem not_mem_value_text {c : Char} (hs : isspace c = false) (ha : isalnum c = false)
    (hp : c ∉ ['{', '}', '-', '>', '.', '?', '(', ')']) :
    ∀ (a : PValue), a.wf = true → c ∉ a.text
  | .num ds, hwf => by
    simp only [PValue.wf, Bool.and_eq_true] at hwf
    exact not_mem_number ha hwf.1
  | .ref w1 n w2, hwf => by
    simp only [PValue.wf, Bool.and_eq_true] at hwf
    simp only [List.mem_cons, List.mem_singleton, List.not_mem_nil, or_false, not_or] at hp
    simp only [PValue.text, List.mem_cons, List.mem_append, List.mem_singleton, not_or,
      List.not_mem_nil, or_false]
    exact ⟨hp.2.2.2.2.2.1, not_mem_ws hs hwf.1.1, hp.2.2.2.2.2.2.1, not_mem_name ha hwf.1.2,
      not_mem_ws hs hwf.2, hp.2.2.2.2.2.2.2⟩
  | .dict w0 es, hwf => by
    simp only [PValue.wf, Bool.and_eq_true] at hwf
    have hes := not_mem_entries_text hs ha hp es hwf.2
    simp only [List.mem_cons, List.mem_singleton, List.not_mem_nil, or_false, not_or] at hp
    simp only [PValue.text, List.mem_cons, List.mem_append, List.mem_singleton, not_or,
      List.not_mem_nil, or_false]
    exact ⟨hp.1, not_mem_ws hs hwf.1, hes, hp.2.1⟩

/-- The same for the text of the entries of a dictionary. -/
theorem not_mem_entries_text {c : Char} (hs : isspace c = false) (ha : isalnum c = false)
    (hp : c ∉ ['{', '}', '-', '>', '.', '?', '(', ')']) :
    ∀ (es : PEntries), es.wf = true → c ∉ es.text
  | .done, _ => by simp [PEntries.text]
  | .last n w1 wm w2 v w3, hwf => by
    simp only [PEntries.wf, Bool.and_eq_true] at hwf
    obtain ⟨⟨⟨⟨⟨hn, hw1⟩, hwm⟩, hw2⟩, hv⟩, hw3⟩ := hwf
    have hvt := not_mem_value_text hs ha hp v hv
    simp only [List.mem_cons, List.mem_singleton, List.not_mem_nil, or_false, not_or] at hp
    simp only [PEntries.text, List.mem_cons, List.mem_append, not_or]
    exact ⟨not_mem_name ha hn, not_mem_ws hs hw1, hp.2.2.1, not_mem_ws hs hwm, hp.2.2.2.1,
      not_mem_ws hs hw2, hvt, not_mem_ws hs hw3⟩
  | .more n w1 wm w2 v w3 w4 es, hwf => by
    simp only [PEntries.wf, Bool.and_eq_true] at hwf
    obtain ⟨⟨⟨⟨⟨⟨⟨hn, hw1⟩, hwm⟩, hw2⟩, hv⟩, hw3⟩, hw4⟩, hes⟩ := hwf
    have hvt := not_mem_value_text hs ha hp v hv
    have hest := not_mem_entries_text hs ha hp es hes
    simp only [List.mem_cons, List.mem_singleton, List.not_mem_nil, or_false, not_or] at hp
    simp only [PEntries.text, List.mem_cons, List.mem_append, not_or]
    exact ⟨not_mem_name ha hn, not_mem_ws hs hw1, hp.2.2.1, not_mem_ws hs hwm, hp.2.2.2.1,
      not_mem_ws hs hw2, hvt, not_mem_ws hs hw3, hp.2.2.2.2.1, not_mem_ws hs hw4, hest⟩

end

/-- A text without the character `c`, in front of a text, that is also the start of a
text in which `c` stands behind `x`, is the start of `x`. -/
theorem prefix_of_not_mem {π τ x y : List Char} {c : Char} (h : π ++ τ = x ++ c :: y)
    (hc : c ∉ π) : π <+: x := by
  rcases List.append_eq_append_iff.mp h with ⟨a, hx, _⟩ | ⟨b, hπ, hb⟩
  · exact ⟨a, hx.symm⟩
  · cases b with
    | nil =>
      rw [List.append_nil] at hπ
      rw [hπ]
    | cons d b =>
      simp only [List.cons_append, List.cons.injEq] at hb
      exact absurd (by rw [hπ, hb.1]; simp) hc

theorem dropWhile_append_ws {w τ : List Char} (hw : isWs w = true) :
    (w ++ τ).dropWhile isspace = τ.dropWhile isspace := by
  induction w with
  | nil => rfl
  | cons c cs ih =>
    have hc : isspace c = true := isWs_mem hw c (by simp)
    have hcs : isWs cs = true := by
      simp only [isWs, List.all_cons, Bool.and_eq_true] at hw ⊢
      exact hw.2
    rw [List.cons_append, List.dropWhile_cons, if_pos hc]
    exact ih hcs

theorem unclosed_head {π rest : List Char} {c : Char} (hopen : Unclosed π)
    (hc : isspace c = false) : headIs isspace (π ++ c :: rest) = false := by
  cases π with
  | nil => simpa using hc
  | cons d π' =>
    have := hopen [d] (by simp) ⟨π', rfl⟩
    have hd : d = '{' := by
      by_contra hne
      simp only [List.count_cons, List.count_nil, beq_iff_eq] at this
      rw [if_neg hne] at this
      omega
    rw [hd]
    rfl

/-- Function `parseValue` raises an exception when, behind whitespace, a `;` stands
where the value is expected, or inside a dictionary that is not closed before it. -/
theorem valueSpec_semicolon {wsv π0 rest : List Char} (t : Dict) (hwsv : isWs wsv = true)
    (hopen : Unclosed π0) (inp : List Char) (s : ConfigParser) (fuel : Nat)
    (hat : At inp (wsv ++ (π0 ++ ';' :: rest)) t s)
    (hf : (wsv ++ (π0 ++ ';' :: rest)).length + 2 ≤ fuel) :
    ∃ w s' τ, parseValue fuel s = .thrown w s' ∧ At inp τ t s' := by
  obtain ⟨oV, pV, hV⟩ := valueSpec (wsv ++ (π0 ++ ';' :: rest)) t
  cases oV with
  | none => exact agrees_none (hV inp s fuel hat hf)
  | some x =>
    exfalso
    obtain ⟨v, τ⟩ := x
    obtain ⟨_, ⟨π, e, hb⟩, hl⟩ := pV v τ rfl
    obtain ⟨s', hs', hat'⟩ := agrees_some (hV inp s fuel hat hf)
    obtain ⟨w, a, τ', hw, ha, hσ, _, hat''⟩ := parseValue_sound hat hs'
    have hττ : τ = τ' := at_text_unique hat' hat''
    have hdrop : (wsv ++ (π0 ++ ';' :: rest)).dropWhile isspace = π0 ++ ';' :: rest :=
      dropWhile_ws_append hwsv (unclosed_head hopen (by decide))
    have hdrop' : (wsv ++ (π0 ++ ';' :: rest)).dropWhile isspace = a.text ++ τ' := by
      rw [hσ]
      exact dropWhile_ws_append hw (pvalue_text_head a ha τ')
    rw [hdrop] at e hl
    rw [hdrop] at hdrop'
    have hπ : π = a.text := by
      have : π ++ τ = a.text ++ τ := by rw [← e, hdrop', hττ]
      exact List.append_cancel_right this
    have hπne : π ≠ [] := by
      intro h0
      rw [h0, List.nil_append] at e
      rw [e] at hl
      exact absurd hl (lt_irrefl _)
    have hno : ';' ∉ π := by
      rw [hπ]
      exact not_mem_value_text (by decide) (by decide) (by decide) a ha
    have hpre : π <+: π0 := prefix_of_not_mem e.symm hno
    have := hopen π hπne hpre
    unfold balanced at hb
    omega

/-- The top-level loop at a definition in which a `;` stands where the value is
expected, or inside a dictionary that is not closed before it, raises an exception, with
the table of the start. -/
theorem agreesFile_semicolon {ws0 name ws1 wsv π0 rest : List Char} (t : Dict)
    (hws0 : isWs ws0 = true) (hname : isName name = true) (hws1 : isWs ws1 = true)
    (hwsv : isWs wsv = true) (hopen : Unclosed π0) :
    ∀ inp s fuel,
      At inp (ws0 ++ (name ++ (ws1 ++ '<' :: '-' :: (wsv ++ (π0 ++ ';' :: rest))))) t s →
      (ws0 ++ (name ++ (ws1 ++ '<' :: '-' :: (wsv ++ (π0 ++ ';' :: rest))))).length + 2
        ≤ fuel →
      Result.agreesFile inp (false, t) (parseFileLoop fuel s) := by
  intro inp s fuel hat hf
  obtain ⟨p, hp, hd, rfl⟩ := hat
  simp only [List.length_append, List.length_cons] at hf
  obtain ⟨f, rfl⟩ : ∃ f, fuel = f + 1 := ⟨fuel - 1, by omega⟩
  have hd' : inp.drop p = (ws0 ++ (name ++ (ws1 ++ ['<', '-'])))
      ++ (wsv ++ (π0 ++ ';' :: rest)) := by
    rw [hd]
    simp
  have hat5 := at_of_drop t hp hd'
  have hpos : p + (ws0 ++ (name ++ (ws1 ++ ['<', '-']))).length
      = p + ws0.length + name.length + ws1.length + 2 := by
    simp only [List.length_append, List.length_cons, List.length_nil]
    omega
  rw [hpos] at hat5
  obtain ⟨w, s', τ, e, hat'⟩ := valueSpec_semicolon t hwsv hopen inp _ f hat5
    (by simp only [List.length_append, List.length_cons]; omega)
  rw [parseFileLoop_header t f hd hws0 hname hws1, e]
  exact ⟨rfl, τ, hat'⟩

theorem unclosed_nil : Unclosed [] := by
  intro π hπ hpre
  exact absurd (List.prefix_nil.mp hpre) hπ

end YAMLParser

namespace YAMLParser
open ConfigParser

/-! ### Entries and arrows -/

/-- The entry loop of `parseDict`, when it returns from a text that does not start, behind
whitespace, with the closing brace, has read an entry: a name, `-`, `>` and a value, with
whitespace in front of each. -/
theorem parseDictLoop_entry_form {inp σ : List Char} {t : Dict} {s s' : ConfigParser}
    {acc d : Dict} {f : Nat} (hat : At inp σ t s) (e : parseDictLoop f s acc = .ok d s')
    (hne : σ.dropWhile isspace ≠ []) (hb : (σ.dropWhile isspace).headD NUL ≠ '}') :
    ∃ w key w1 wm w2 a rest v, isWs w = true ∧ isName key = true ∧ isWs w1 = true
      ∧ isWs wm = true ∧ isWs w2 = true ∧ PValue.wf a = true ∧ a.eval t = some v
      ∧ σ = w ++ (key ++ (w1 ++ '-' :: (wm ++ '>' :: (w2 ++ (a.text ++ rest))))) := by
  obtain ⟨w, es, τ, hw, hes, hσ, hev, hτ, _⟩ := parseDictLoop_sound hat e
  cases es with
  | done =>
    exfalso
    simp only [PEntries.text, List.nil_append] at hσ
    rw [hσ, dropWhile_append_ws hw] at hne hb
    rcases hτ with h0 | ⟨ρ, hρ⟩
    · rw [h0] at hne
      exact hne rfl
    · rw [hρ, List.dropWhile_cons, if_neg (by decide)] at hb
      exact hb rfl
  | last n w1 wm w2 v w3 =>
    simp only [PEntries.wf, Bool.and_eq_true] at hes
    obtain ⟨⟨⟨⟨⟨hn, hw1⟩, hwm⟩, hw2⟩, hv⟩, hw3⟩ := hes
    cases hcv : v.eval t with
    | none => simp [PEntries.eval, hcv] at hev
    | some cv =>
      refine ⟨w, n, w1, wm, w2, v, w3 ++ τ, cv, hw, hn, hw1, hwm, hw2, hv, hcv, ?_⟩
      rw [hσ]
      simp only [PEntries.text, List.append_assoc, List.cons_append]
  | more n w1 wm w2 v w3 w4 rest =>
    simp only [PEntries.wf, Bool.and_eq_true] at hes
    obtain ⟨⟨⟨⟨⟨⟨⟨hn, hw1⟩, hwm⟩, hw2⟩, hv⟩, hw3⟩, hw4⟩, hrest⟩ := hes
    cases hcv : v.eval t with
    | none => simp [PEntries.eval, hcv] at hev
    | some cv =>
      refine ⟨w, n, w1, wm, w2, v, w3 ++ '.' :: (w4 ++ (rest.text ++ τ)), cv, hw, hn, hw1,
        hwm, hw2, hv, hcv, ?_⟩
      rw [hσ]
      simp only [PEntries.text, List.append_assoc, List.cons_append]

mutual

theorem joinArrows_value_wf : ∀ (a : PValue), a.wf = true → a.joinArrows.wf = true
  | .num ds, h => h
  | .ref w1 n w2, h => h
  | .dict w0 es, h => by
    simp only [PValue.wf, PValue.joinArrows, Bool.and_eq_true] at h ⊢
    exact ⟨h.1, joinArrows_entries_wf es h.2⟩

theorem joinArrows_entries_wf : ∀ (es : PEntries), es.wf = true → es.joinArrows.wf = true
  | .done, h => h
  | .last n w1 wm w2 v w3, h => by
    simp only [PEntries.wf, PEntries.joinArrows, Bool.and_eq_true] at h ⊢
    obtain ⟨⟨⟨⟨⟨hn, hw1⟩, _⟩, hw2⟩, hv⟩, hw3⟩ := h
    exact ⟨⟨⟨⟨⟨hn, hw1⟩, rfl⟩, hw2⟩, joinArrows_value_wf v hv⟩, hw3⟩
  | .more n w1 wm w2 v w3 w4 es, h => by
    simp only [PEntries.wf, PEntries.joinArrows, Bool.and_eq_true] at h ⊢
    obtain ⟨⟨⟨⟨⟨⟨⟨hn, hw1⟩, _⟩, hw2⟩, hv⟩, hw3⟩, hw4⟩, hes⟩ := h
    exact ⟨⟨⟨⟨⟨⟨⟨hn, hw1⟩, rfl⟩, hw2⟩, joinArrows_value_wf v hv⟩, hw3⟩, hw4⟩,
      joinArrows_entries_wf es hes⟩

end

mutual

theorem joinArrows_value_eval (t : Dict) : ∀ (a : PValue), a.joinArrows.eval t = a.eval t
  | .num ds => rfl
  | .ref w1 n w2 => rfl
  | .dict w0 es => by
    simp only [PValue.joinArrows, PValue.eval, joinArrows_entries_eval t es []]

theorem joinArrows_entries_eval (t : Dict) :
    ∀ (es : PEntries) (acc : Dict), es.joinArrows.eval t acc = es.eval t acc
  | .done, _ => rfl
  | .last n w1 wm w2 v w3, acc => by
    simp only [PEntries.joinArrows, PEntries.eval, joinArrows_value_eval t v]
  | .more n w1 wm w2 v w3 w4 es, acc => by
    simp only [PEntries.joinArrows, PEntries.eval, joinArrows_value_eval t v]
    cases v.eval t with
    | none => rfl
    | some cv => exact joinArrows_entries_eval t es _

end

theorem itemsText_append (a b : List PItem) :
    itemsText (a ++ b) = itemsText a ++ itemsText b := by
  induction a with
  | nil => rfl
  | cons item a ih =>
    show itemsText (item :: (a ++ b)) = _
    rw [itemsText, ih, itemsText, List.append_assoc]

theorem itemsWf_append (a b : List PItem) :
    itemsWf (a ++ b) = (itemsWf a && itemsWf b) := by
  induction a with
  | nil => simp [itemsWf]
  | cons item a ih => simp [itemsWf, ih, Bool.and_assoc]

theorem evalItems_append (t : Dict) (a b : List PItem) :
    evalItems t (a ++ b) =
      match evalItems t a with
      | some t1 => evalItems t1 b
      | none => none := by
  induction a generalizing t with
  | nil => rfl
  | cons item a ih =>
    cases item with
    | definition ws0 name ws1 ws2 value =>
      simp only [List.cons_append, evalItems]
      cases value.eval t with
      | none => rfl
      | some v => exact ih _
    | comment ws0 body => simpa [evalItems] using ih t

/-- Function `parseFile` on a document of the grammar that the parser accepts, followed by
one more definition and whitespace: it returns true, and the name is bound to what the
value denotes. -/
theorem parseFile_items_definition (filename : String) (items : List PItem)
    (ws0 name ws1 wsv : List Char) (a : PValue) (ws : List Char) (t : Dict)
    (v : ConfigValue) (hwf : itemsWf items = true) (hev : evalItems [] items = some t)
    (hws0 : isWs ws0 = true) (hname : isName name = true) (hws1 : isWs ws1 = true)
    (hwsv : isWs wsv = true) (ha : a.wf = true) (hv : a.eval t = some v)
    (hws : isWs ws = true) :
    ∃ r, parseFile ConfigParser.new filename (some (itemsText items
          ++ (ws0 ++ (name ++ (ws1 ++ '<' :: '-' :: (wsv ++ (a.text ++ ws))))))) = some r
      ∧ r.returned = true ∧ r.self.constants = t.assign name v := by
  have hwf' : itemsWf (items ++ [.definition ws0 name ws1 wsv a]) = true := by
    rw [itemsWf_append, hwf]
    simp only [itemsWf, PItem.wf, hws0, hname, hws1, hwsv, ha, Bool.and_self]
  have hev' : evalItems ConfigParser.new.constants (items ++ [.definition ws0 name ws1 wsv a])
      = some (t.assign name v) := by
    show evalItems [] _ = _
    rw [evalItems_append, hev]
    simp only [evalItems, hv]
  obtain ⟨r, hr, h1, h2⟩ := parseFile_items ConfigParser.new filename hwf'
    (isTrailer_of_isWs hws) hev'
  refine ⟨r, ?_, h1, h2⟩
  rw [← hr]
  congr 2
  simp only [itemsText_append, itemsText, PItem.text, List.append_assoc, List.append_nil,
    List.cons_append]

end YAMLParser

namespace YAMLParser
open ConfigParser

/-! ### Exceptions raised by the entry loop, at any depth -/

theorem fields_length_le (fields : List SField) :
    fields.length ≤ (fieldsText fields).length := by
  induction fields with
  | nil => simp
  | cons f fs ih =>
    simp only [fieldsText, SField.text, List.length_append, List.length_cons]
    omega

/-- When the entry loop of `parseDict` throws behind the complete entries of a dictionary,
`parseValue` at the dictionary throws the same. -/
theorem parseValue_fields_thrown (inp : List Char) (t : Dict) {wsb w0 tail : List Char}
    (fields : List SField) (p N : Nat) (w : String) (s : ConfigParser)
    (hwsb : isWs wsb = true) (hw0 : isWs w0 = true) (hfs : fieldsWf fields = true)
    (hb : fieldsBound t fields = true)
    (h : inp.drop p = wsb ++ '{' :: (w0 ++ (fieldsText fields ++ tail)))
    (htail : headIs isspace tail = false)
    (hloop : ∀ f acc q w', N ≤ f → isWs w' = true → inp.drop q = w' ++ tail →
      q + w'.length = p + wsb.length + 1 + w0.length + (fieldsText fields).length →
      parseDictLoop (f + 1) (cursor inp q t) acc = .thrown w s) :
    ∀ F, N + (fieldsText fields).length + 3 ≤ F →
      parseValue F (cursor inp p t) = .thrown w s := by
  intro F hF
  obtain ⟨G, rfl⟩ : ∃ G, F = G + 2 := ⟨F - 2, by omega⟩
  apply parseValue_dict_thrown t G h hwsb
  have h1 : inp.drop (p + wsb.length + 1) = w0 ++ (fieldsText fields ++ tail) := by
    have := drop_after (a := ['{']) (drop_after h)
    simpa using this
  obtain ⟨acc', q, w', hw', hq, hql, hloop'⟩ := parseDictLoop_fields inp t fields w0 tail _ G []
    hfs hb h1 hw0 htail (by omega)
  have hfl := fields_length_le fields
  obtain ⟨g, hg⟩ : ∃ g, G - fields.length = g + 1 := ⟨G - fields.length - 1, by omega⟩
  rw [hloop', hg]
  exact hloop g acc' q w' (by omega) hw' hq (by omega)

/-- The text of a document that breaks off inside a definition: when `parseValue` throws
at the value of an entry nested in dictionaries, `parseFile` fails with that exception. -/
theorem parseFile_thrown_in_value (filename : String) (items : List SItem) (t : Dict)
    (ws0 name ws1 : List Char) (path : List SFrame) (rest : List Char) (w : String)
    (s : ConfigParser) (hwf : documentWf items = true) (hev : evalDocument [] items = some t)
    (hws0 : isWs ws0 = true) (hname : isName name = true) (hws1 : isWs ws1 = true)
    (hpath : pathWf path = true) (hbound : pathBound t path = true)
    (hv : ∀ f, rest.length + 1 ≤ f → parseValue f
      (cursor (documentText items ++ (ws0 ++ (name ++ (ws1 ++ '<' :: '-' ::
          (pathText path ++ rest)))))
        ((documentText items).length + ws0.length + name.length + ws1.length + 2
          + (pathText path).length) t) = .thrown w s) :
    parseFile ConfigParser.new filename (some (documentText items ++ (ws0 ++ (name ++ (ws1
        ++ '<' :: '-' :: (pathText path ++ rest))))))
      = some ⟨false, "Parse error: " ++ cstr w ++ "\n", s⟩ := by
  obtain ⟨a, as, hcons⟩ := List.exists_cons_of_ne_nil (isName_ne_nil hname)
  have ha : isalpha a = true := by rw [hcons] at hname; exact (isName_cons hname).1
  have hlen := length_le_documentText items
  generalize hinp : documentText items ++ (ws0 ++ (name ++ (ws1 ++ '<' :: '-' ::
    (pathText path ++ rest)))) = inp at hv ⊢
  have hil : inp.length = (documentText items).length + ws0.length + name.length + ws1.length
      + 2 + (pathText path).length + rest.length := by
    rw [← hinp]
    simp only [List.length_append, List.length_cons]
    omega
  have htail : headIs isdigit (ws0 ++ (name ++ (ws1 ++ '<' :: '-' ::
      (pathText path ++ rest)))) = false := by
    rw [hcons]
    exact headIs_isdigit_ws_cons hws0 (isalpha_not_isdigit ha)
  have h0 : inp.drop 0 = [] ++ (documentText items ++ (ws0 ++ (name ++ (ws1 ++ '<' :: '-' ::
      (pathText path ++ rest))))) := by
    rw [← hinp]; rfl
  rw [parseFile_new]
  rw [parseFileLoop_document inp items [] _ 0 _ [] t hwf hev h0 rfl htail
    (by simp only [parseFuel]; omega)]
  obtain ⟨f, hf⟩ : ∃ f, parseFuel inp - items.length = f + 1 :=
    ⟨parseFuel inp - items.length - 1, by simp only [parseFuel]; omega⟩
  have h1 : inp.drop (0 + ([] : List Char).length + (documentText items).length)
      = ws0 ++ (name ++ (ws1 ++ '<' :: '-' :: (pathText path ++ rest))) := by
    rw [← hinp]; simp
  have h2 : inp.drop (0 + ([] : List Char).length + (documentText items).length + ws0.length
      + name.length + ws1.length + 2) = pathText path ++ rest := by
    have := drop_after (a := ['<', '-']) (b := pathText path ++ rest)
      (by simpa using drop_after (drop_after2 h1))
    simpa using this
  have hthrow := parseValue_path_thrown inp t w s path rest _ (rest.length + 1) hpath hbound h2
    (fun g hg => by
      have := hv g hg
      simpa using this)
    f (by simp only [parseFuel] at hf; omega)
  rw [hf, parseFileLoop_definition_thrown t f h1 hws0 hname hws1 hthrow]

/-- The text of a document that breaks off inside a dictionary: well-formed items, then
`ws0 name ws1 "<-"`, then nested dictionaries up to the value of an entry, then a
dictionary with complete entries `fields`, then `tail`.  When the entry loop throws at
`tail`, `parseFile` fails with that exception. -/
theorem parseFile_thrown_in_dict (filename : String) (inp : List Char) (items : List SItem)
    (t : Dict) (ws0 name ws1 : List Char) (path : List SFrame) (wsb w0 : List Char)
    (fields : List SField) (tail : List Char) (P N : Nat) (w : String) (s : ConfigParser)
    (hwf : documentWf items = true) (hev : evalDocument [] items = some t)
    (hws0 : isWs ws0 = true) (hname : isName name = true) (hws1 : isWs ws1 = true)
    (hpath : pathWf path = true) (hbound : pathBound t path = true)
    (hwsb : isWs wsb = true) (hw0 : isWs w0 = true) (hfs : fieldsWf fields = true)
    (hb : fieldsBound t fields = true) (htail : headIs isspace tail = false)
    (hN : N + 1 ≤ tail.length)
    (hinp : inp = documentText items ++ (ws0 ++ (name ++ (ws1 ++ '<' :: '-' ::
      (pathText path ++ (wsb ++ '{' :: (w0 ++ (fieldsText fields ++ tail))))))))
    (hP : P = (documentText items).length + ws0.length + name.length + ws1.length + 2
      + (pathText path).length + wsb.length + 1 + w0.length + (fieldsText fields).length)
    (hloop : ∀ f acc q w', N ≤ f → isWs w' = true → inp.drop q = w' ++ tail →
      q + w'.length = P → parseDictLoop (f + 1) (cursor inp q t) acc = .thrown w s) :
    parseFile ConfigParser.new filename (some inp)
      = some ⟨false, "Parse error: " ++ cstr w ++ "\n", s⟩ := by
  subst hP
  have hdrop : inp.drop ((documentText items).length + ws0.length + name.length + ws1.length
      + 2 + (pathText path).length)
      = wsb ++ '{' :: (w0 ++ (fieldsText fields ++ tail)) := by
    have e : inp = (documentText items ++ ws0 ++ name ++ ws1 ++ ['<', '-'] ++ pathText path)
        ++ (wsb ++ '{' :: (w0 ++ (fieldsText fields ++ tail))) := by
      rw [hinp]; simp
    have hl : (documentText items).length + ws0.length + name.length + ws1.length
        + 2 + (pathText path).length
        = (documentText items ++ ws0 ++ name ++ ws1 ++ ['<', '-'] ++ pathText path).length := by
      simp only [List.length_append, List.length_cons, List.length_nil]
    rw [hl, e, List.drop_left]
  have key := parseFile_thrown_in_value filename items t ws0 name ws1 path
    (wsb ++ '{' :: (w0 ++ (fieldsText fields ++ tail))) w s hwf hev hws0 hname hws1 hpath
    hbound
  rw [← hinp] at key
  apply key
  intro f hf
  simp only [List.length_append, List.length_cons] at hf
  exact parseValue_fields_thrown inp t fields _ N w s hwsb hw0 hfs hb hdrop htail
    (fun g acc q w' hg hw' hq hql => hloop g acc q w' hg hw' hq (by omega)) f (by omega)

theorem error_cursor {α : Type} (inp : List Char) (p : Nat) (t : Dict) (message : String) :
    ((cursor inp p t).error message : Result α)
      = .thrown (message ++ " at position " ++ toString p) (cursor inp p t) := rfl

/-- A character that is neither a letter nor the closing brace, where an entry of a
dictionary is expected, at any depth: the parse fails with "Expected name in dictionary". -/
theorem parseFile_entry_no_name (filename : String) (items : List SItem) (t : Dict)
    (ws0 name ws1 : List Char) (path : List SFrame) (wsb w0 : List Char)
    (fields : List SField) (c : Char) (rest : List Char)
    (hwf : documentWf items = true) (hev : evalDocument [] items = some t)
    (hws0 : isWs ws0 = true) (hname : isName name = true) (hws1 : isWs ws1 = true)
    (hpath : pathWf path = true) (hbound : pathBound t path = true)
    (hwsb : isWs wsb = true) (hw0 : isWs w0 = true) (hfs : fieldsWf fields = true)
    (hb : fieldsBound t fields = true)
    (hc : isspace c = false) (ha : isalpha c = false) (hclose : c ≠ '}') :
    parseFile ConfigParser.new filename (some
      (documentText items
        ++ (ws0 ++ (name ++ (ws1 ++ '<' :: '-' :: (pathText path
          ++ (wsb ++ '{' :: (w0 ++ (fieldsText fields
            ++ (c :: rest))))))))))
      = some ⟨false, "Parse error: " ++ cstr ("Expected name in dictionary" ++ " at position "
          ++ toString ((documentText items).length + ws0.length + name.length + ws1.length + 2
            + (pathText path).length + wsb.length + 1 + w0.length
            + (fieldsText fields).length)) ++ "\n",
          cursor (documentText items
              ++ (ws0 ++ (name ++ (ws1 ++ '<' :: '-' :: (pathText path
                ++ (wsb ++ '{' :: (w0 ++ (fieldsText fields
                  ++ (c :: rest)))))))))
            ((documentText items).length + ws0.length + name.length + ws1.length + 2
            + (pathText path).length + wsb.length + 1 + w0.length
            + (fieldsText fields).length) t⟩ := by
  refine parseFile_thrown_in_dict filename _ items t ws0 name ws1 path wsb w0 fields
    (c :: rest) _ 0 _ _ hwf hev hws0 hname hws1 hpath hbound hwsb hw0 hfs hb
    (by simpa using hc) (by simp) rfl rfl ?_
  intro f acc q w' _ hw' hq hql
  rw [parseDictLoop_no_name t f acc hq hw' hc ha hclose, hql]
  rfl

/-- A key that `-` does not follow, in a dictionary at any depth: the parse fails with
"Expected '-'". -/
theorem parseFile_entry_no_dash (filename : String) (items : List SItem) (t : Dict)
    (ws0 name ws1 : List Char) (path : List SFrame) (wsb w0 : List Char)
    (fields : List SField) (key w1 : List Char) (c : Char)
    (rest : List Char)
    (hwf : documentWf items = true) (hev : evalDocument [] items = some t)
    (hws0 : isWs ws0 = true) (hname : isName name = true) (hws1 : isWs ws1 = true)
    (hpath : pathWf path = true) (hbound : pathBound t path = true)
    (hwsb : isWs wsb = true) (hw0 : isWs w0 = true) (hfs : fieldsWf fields = true)
    (hb : fieldsBound t fields = true)
    (hkey : isName key = true) (hw1 : isWs w1 = true) (hmax : w1 = [] → isalnum c = false)
    (hc : isspace c = false) (hne : c ≠ '-') :
    parseFile ConfigParser.new filename (some
      (documentText items
        ++ (ws0 ++ (name ++ (ws1 ++ '<' :: '-' :: (pathText path
          ++ (wsb ++ '{' :: (w0 ++ (fieldsText fields
            ++ (key ++ (w1 ++ c :: rest)))))))))))
      = some ⟨false, "Parse error: " ++ cstr ("Expected '" ++ String.singleton '-' ++ "', got '"
          ++ String.singleton c ++ "'" ++ " at position "
          ++ toString ((documentText items).length + ws0.length + name.length + ws1.length + 2
            + (pathText path).length + wsb.length + 1 + w0.length
            + (fieldsText fields).length
            + key.length + w1.length)) ++ "\n",
          cursor (documentText items
              ++ (ws0 ++ (name ++ (ws1 ++ '<' :: '-' :: (pathText path
                ++ (wsb ++ '{' :: (w0 ++ (fieldsText fields
                  ++ (key ++ (w1 ++ c :: rest))))))))))
            ((documentText items).length + ws0.length + name.length + ws1.length + 2
            + (pathText path).length + wsb.length + 1 + w0.length
            + (fieldsText fields).length
            + key.length + w1.length) t⟩ := by
  refine parseFile_thrown_in_dict filename _ items t ws0 name ws1 path wsb w0 fields
    (key ++ (w1 ++ c :: rest)) _ 0 _ _ hwf hev hws0 hname hws1 hpath hbound hwsb hw0 hfs hb
    (headIs_isspace_name hkey)
    (by simp only [List.length_append, List.length_cons]; omega) rfl rfl ?_
  intro f acc q w' _ hw' hq hql
  rw [parseDictLoop_no_dash t f acc hq hw' hkey hw1 hmax hc hne, hql]
  rfl

/-- A key and `-` that `>` does not follow, in a dictionary at any depth: the parse fails
with "Expected '>'". -/
theorem parseFile_entry_no_gt (filename : String) (items : List SItem) (t : Dict)
    (ws0 name ws1 : List Char) (path : List SFrame) (wsb w0 : List Char)
    (fields : List SField) (key w1 wm : List Char) (c : Char)
    (rest : List Char)
    (hwf : documentWf items = true) (hev : evalDocument [] items = some t)
    (hws0 : isWs ws0 = true) (hname : isName name = true) (hws1 : isWs ws1 = true)
    (hpath : pathWf path = true) (hbound : pathBound t path = true)
    (hwsb : isWs wsb = true) (hw0 : isWs w0 = true) (hfs : fieldsWf fields = true)
    (hb : fieldsBound t fields = true)
    (hkey : isName key = true) (hw1 : isWs w1 = true) (hwm : isWs wm = true)
    (hc : isspace c = false) (hne : c ≠ '>') :
    parseFile ConfigParser.new filename (some
      (documentText items
        ++ (ws0 ++ (name ++ (ws1 ++ '<' :: '-' :: (pathText path
          ++ (wsb ++ '{' :: (w0 ++ (fieldsText fields
            ++ (key ++ (w1 ++ '-' :: (wm ++ c :: rest))))))))))))
      = some ⟨false, "Parse error: " ++ cstr ("Expected '" ++ String.singleton '>' ++ "', got '"
          ++ String.singleton c ++ "'" ++ " at position "
          ++ toString ((documentText items).length + ws0.length + name.length + ws1.length + 2
            + (pathText path).length + wsb.length + 1 + w0.length
            + (fieldsText fields).length
            + key.length + w1.length + 1 + wm.length)) ++ "\n",
          cursor (documentText items
              ++ (ws0 ++ (name ++ (ws1 ++ '<' :: '-' :: (pathText path
                ++ (wsb ++ '{' :: (w0 ++ (fieldsText fields
                  ++ (key ++ (w1 ++ '-' :: (wm ++ c :: rest)))))))))))
            ((documentText items).length + ws0.length + name.length + ws1.length + 2
            + (pathText path).length + wsb.length + 1 + w0.length
            + (fieldsText fields).length
            + key.length + w1.length + 1 + wm.length) t⟩ := by
  refine parseFile_thrown_in_dict filename _ items t ws0 name ws1 path wsb w0 fields
    (key ++ (w1 ++ '-' :: (wm ++ c :: rest))) _ 0 _ _ hwf hev hws0 hname hws1 hpath hbound
    hwsb hw0 hfs hb (headIs_isspace_name hkey)
    (by simp only [List.length_append, List.length_cons]; omega) rfl rfl ?_
  intro f acc q w' _ hw' hq hql
  rw [parseDictLoop_no_gt t f acc hq hw' hkey hw1 hwm hc hne, hql]
  rfl

/-- An entry that neither a separator nor the closing brace follows, in a dictionary at
any depth: the parse fails with "Expected '.' or '\x7d' after dictionary entry". -/
theorem parseFile_entry_no_separator (filename : String) (items : List SItem) (t : Dict)
    (ws0 name ws1 : List Char) (path : List SFrame) (wsb w0 : List Char)
    (fields : List SField) (key w1 w2 : List Char)
    (value : SValue) (w3 : List Char) (c : Char) (rest : List Char)
    (hwf : documentWf items = true) (hev : evalDocument [] items = some t)
    (hws0 : isWs ws0 = true) (hname : isName name = true) (hws1 : isWs ws1 = true)
    (hpath : pathWf path = true) (hbound : pathBound t path = true)
    (hwsb : isWs wsb = true) (hw0 : isWs w0 = true) (hfs : fieldsWf fields = true)
    (hb : fieldsBound t fields = true)
    (hkey : isName key = true) (hw1 : isWs w1 = true) (hw2 : isWs w2 = true)
    (hvalue : value.wf = true) (hbv : (value.eval t).isSome = true) (hw3 : isWs w3 = true)
    (hdigit : w3 = [] → isdigit c = false) (hc : isspace c = false) (hdot : c ≠ '.')
    (hclose : c ≠ '}') :
    parseFile ConfigParser.new filename (some
      (documentText items
        ++ (ws0 ++ (name ++ (ws1 ++ '<' :: '-' :: (pathText path
          ++ (wsb ++ '{' :: (w0 ++ (fieldsText fields
            ++ (key ++ (w1 ++ '-' :: '>' :: (w2 ++ (value.text
              ++ (w3 ++ c :: rest))))))))))))))
      = some ⟨false, "Parse error: " ++ cstr ("Expected '.' or '\x7d' after dictionary entry"
          ++ " at position "
          ++ toString ((documentText items).length + ws0.length + name.length + ws1.length + 2
            + (pathText path).length + wsb.length + 1 + w0.length
            + (fieldsText fields).length
            + key.length + w1.length + 2 + w2.length + value.text.length + w3.length))
          ++ "\n",
          cursor (documentText items
              ++ (ws0 ++ (name ++ (ws1 ++ '<' :: '-' :: (pathText path
                ++ (wsb ++ '{' :: (w0 ++ (fieldsText fields
                  ++ (key ++ (w1 ++ '-' :: '>' :: (w2 ++ (value.text
              ++ (w3 ++ c :: rest)))))))))))))
            ((documentText items).length + ws0.length + name.length + ws1.length + 2
            + (pathText path).length + wsb.length + 1 + w0.length
            + (fieldsText fields).length
            + key.length + w1.length + 2 + w2.length + value.text.length + w3.length) t⟩ := by
  obtain ⟨cv, hcv⟩ := Option.isSome_iff_exists.mp hbv
  have hrest : headIs isdigit (w3 ++ c :: rest) = false := by
    cases w3 with
    | nil => simpa using hdigit rfl
    | cons x xs =>
      have hx : isspace x = true := isWs_mem hw3 x (by simp)
      simpa using isspace_not_isdigit hx
  generalize hinp : documentText items ++ (ws0 ++ (name ++ (ws1 ++ '<' :: '-' ::
    (pathText path ++ (wsb ++ '{' :: (w0 ++ (fieldsText fields ++ (key ++ (w1 ++ '-' :: '>' ::
      (w2 ++ (value.text ++ (w3 ++ c :: rest)))))))))))) = inp
  refine parseFile_thrown_in_dict filename inp items t ws0 name ws1 path wsb w0 fields
    (key ++ (w1 ++ '-' :: '>' :: (w2 ++ (value.text ++ (w3 ++ c :: rest))))) _
    (value.text.length + 1) _ _ hwf hev hws0 hname hws1 hpath hbound
    hwsb hw0 hfs hb (headIs_isspace_name hkey)
    (by simp only [List.length_append, List.length_cons]; omega) hinp.symm rfl ?_
  intro f acc q w' hf hw' hq hql
  have hq' : inp.drop q = w' ++ (key ++ (w1 ++ '-' :: ([] ++ '>' ::
      (w2 ++ (value.text ++ (w3 ++ c :: rest)))))) := hq
  have h1 : inp.drop (q + w'.length + key.length + w1.length + 2)
      = w2 ++ (value.text ++ (w3 ++ c :: rest)) := by
    have := drop_after (a := ['-', '>'])
      (b := w2 ++ (value.text ++ (w3 ++ c :: rest)))
      (by simpa using drop_after (drop_after2 hq))
    simpa using this
  have hpv := parseValue_text t inp value w2 (w3 ++ c :: rest) _ f cv hvalue hcv h1 hw2 hrest
    (by omega)
  have h2 := drop_after2 h1
  have hpos : q + w'.length + key.length + w1.length + 1 + ([] : List Char).length + 1
      = q + w'.length + key.length + w1.length + 2 := by simp
  rw [parseDictLoop_no_separator t f acc hq' hw' hkey hw1 rfl (by rw [hpos]; exact hpv) h2 hw3
    hc hdot hclose, error_cursor]
  have hfin : q + w'.length + key.length + w1.length + 2 + w2.length + value.text.length
      + w3.length = (documentText items).length + ws0.length + name.length + ws1.length + 2
        + (pathText path).length + wsb.length + 1 + w0.length + (fieldsText fields).length
        + key.length + w1.length + 2 + w2.length + value.text.length + w3.length := by omega
  rw [hfin]

end YAMLParser

namespace YAMLParser
open ConfigParser

/-! ## Properties of the specification -/

theorem outputYAMLConstants_eq (t : Dict) :
    outputYAMLConstants t
      = (t.map fun b => b.1 ++ ": ".toList ++ outputYAMLValue b.2 0 ++ ['\n']).flatten := by
  induction t with
  | nil => rfl
  | cons b rest ih =>
    obtain ⟨name, value⟩ := b
    simp only [outputYAMLConstants, List.map_cons, List.flatten_cons, ih]

/-- C1: for every document made of well-formed constant definitions (comment lines may
stand between them) whose references are to names defined earlier, followed by
whitespace, `parseFile` succeeds; the constant table binds each name once, the names bound
are the names that the document defines, and their number is the number of distinct names
defined.  In whatever order the maps are iterated, `outputYAML` writes, for each binding
that the iteration visits, one top-level entry `name: value` and a line terminator; the
bindings visited are as many as the distinct names defined, each name once. -/
theorem definitions_bind_distinct_names (filename : String) (items : List SItem)
    (ws : List Char) (t : Dict) (hwf : documentWf items = true) (hws : isWs ws = true)
    (hev : evalDocument [] items = some t) :
    ∃ s, parseFile ConfigParser.new filename (some (documentText items ++ ws))
        = some ⟨true, "", s⟩
      ∧ s.constants.keys.Nodup
      ∧ (∀ n, n ∈ s.constants.keys ↔ n ∈ definedNames items)
      ∧ (∀ n, s.constants.find n = t.find n)
      ∧ s.constants.length = (definedNames items).dedup.length
      ∧ ∀ order, IterationOrder order →
          s.outputYAMLIn order = ((order (entriesVisited order s.constants)).map fun b =>
            b.1 ++ ": ".toList ++ outputYAMLValue b.2 0 ++ ['\n']).flatten
          ∧ (order (entriesVisited order s.constants)).length
            = (definedNames items).dedup.length
          ∧ (Dict.keys (order (entriesVisited order s.constants))).Nodup
          ∧ ∀ n, n ∈ Dict.keys (order (entriesVisited order s.constants))
              ↔ n ∈ definedNames items := by
  obtain ⟨hnodup, hkeys⟩ := evalDocument_keys items [] t hev (by simp [Dict.keys])
  have hkeys' : ∀ n, n ∈ t.keys ↔ n ∈ definedNames items := fun n => by
    rw [hkeys]
    simp [Dict.keys]
  refine ⟨cursor (documentText items ++ ws) (documentText items ++ ws).length t, ?_, hnodup,
    hkeys', fun _ => rfl, evalDocument_length hev, fun order horder => ⟨?_, ?_, ?_, ?_⟩⟩
  · rw [parseFile_new, parseFileLoop_whole hwf hws hev]
  · exact outputYAMLConstants_eq _
  · show (order (entriesVisited order t)).length = _
    rw [visited_length horder, evalDocument_length hev]
  · exact (visited_keys_perm horder t).nodup_iff.mpr hnodup
  · intro n
    show n ∈ Dict.keys (order (entriesVisited order t)) ↔ _
    rw [(visited_keys_perm horder t).mem_iff]
    exact hkeys' n

/-- C1 at `a <- 1 b <- ?(a) a <- 2`: three definitions, two distinct names, two
bindings, and two top-level entries in whatever order the table is iterated. -/
theorem definitions_bind_distinct_names_witness :
    documentText exampleRedefinition = "a <- 1 b <- ?(a) a <- 2".toList
      ∧ (definedNames exampleRedefinition).dedup.length = 2
      ∧ ∃ s, parseFile ConfigParser.new "in.cfg" (some (documentText exampleRedefinition ++ []))
          = some ⟨true, "", s⟩
        ∧ s.constants.find ['a'] = some (.number 2)
        ∧ s.constants.find ['b'] = some (.number 1)
        ∧ s.constants.length = 2
        ∧ ∀ order, IterationOrder order →
            (order (entriesVisited order s.constants)).length = 2 := by
  obtain ⟨s, h1, _, _, hfind, hlen, hout⟩ :=
    definitions_bind_distinct_names "in.cfg" exampleRedefinition []
      [(['a'], .number 2), (['b'], .number 1)] (by decide) (by decide) rfl
  have h2 : (definedNames exampleRedefinition).dedup.length = 2 := by decide
  exact ⟨by decide, h2, s, h1, (hfind ['a']).trans rfl, (hfind ['b']).trans rfl,
    hlen.trans h2, fun order horder => (hout order horder).2.1.trans h2⟩

end YAMLParser

namespace YAMLParser
open ConfigParser

theorem documentWf_append (a b : List SItem) :
    documentWf (a ++ b) = (documentWf a && documentWf b) := by
  induction a with
  | nil => simp [documentWf]
  | cons item a ih => simp [documentWf, ih, Bool.and_assoc]

/-- Function `parseFile` on a fresh parser and a whole document: it succeeds with the constant
table of the document. -/
theorem parseFile_whole (filename : String) {items : List SItem} {ws : List Char} {t : Dict}
    (hwf : documentWf items = true) (hws : isWs ws = true)
    (hev : evalDocument [] items = some t) :
    parseFile ConfigParser.new filename (some (documentText items ++ ws))
      = some ⟨true, "", cursor (documentText items ++ ws) (documentText items ++ ws).length t⟩ := by
  rw [parseFile_new, parseFileLoop_whole hwf hws hev]

/-- C2: in a well-formed document, a name is bound after the parse to what its last
definition denotes, whatever definitions of that name stand before it (first part); and
parsing one more definition of `name` changes the binding of no other name (second
part: the tables for the document up to that definition, without it and with it). -/
theorem last_definition_wins (filename : String) (pre post : List SItem)
    (ws0 name ws1 ws2 : List Char) (value : SValue) (ws : List Char) (t1 t : Dict)
    (v : ConfigValue)
    (hwf : documentWf (pre ++ .definition ws0 name ws1 ws2 value :: post) = true)
    (hws : isWs ws = true) (hpre : evalDocument [] pre = some t1)
    (hv : value.eval t1 = some v) (hpost : evalDocument (t1.assign name v) post = some t)
    (hlast : name ∉ definedNames post) :
    (∃ s, parseFile ConfigParser.new filename
          (some (documentText (pre ++ .definition ws0 name ws1 ws2 value :: post) ++ ws))
          = some ⟨true, "", s⟩
        ∧ s.constants.find name = some v)
    ∧ (∃ s1 s2, parseFile ConfigParser.new filename (some (documentText pre ++ ws))
          = some ⟨true, "", s1⟩
        ∧ parseFile ConfigParser.new filename
          (some (documentText (pre ++ [.definition ws0 name ws1 ws2 value]) ++ ws))
          = some ⟨true, "", s2⟩
        ∧ s1.constants = t1
        ∧ s2.constants.find name = some v
        ∧ ∀ m, m ≠ name → s2.constants.find m = s1.constants.find m) := by
  rw [documentWf_append] at hwf
  simp only [documentWf, Bool.and_eq_true] at hwf
  obtain ⟨hwpre, hwdef, hwpost⟩ := hwf
  have hev1 : evalDocument [] (pre ++ [.definition ws0 name ws1 ws2 value])
      = some (t1.assign name v) := by
    rw [evalDocument_append, hpre]
    simp only [evalDocument, hv]
  have hev2 : evalDocument [] (pre ++ .definition ws0 name ws1 ws2 value :: post) = some t := by
    rw [evalDocument_append, hpre]
    simp only [evalDocument, hv, hpost]
  have hw1 : documentWf (pre ++ [.definition ws0 name ws1 ws2 value]) = true := by
    rw [documentWf_append]
    simp [documentWf, hwpre, hwdef]
  have hw2 : documentWf (pre ++ .definition ws0 name ws1 ws2 value :: post) = true := by
    rw [documentWf_append]
    simp [documentWf, hwpre, hwdef, hwpost]
  refine ⟨⟨_, parseFile_whole filename hw2 hws hev2, ?_⟩,
    ⟨_, _, parseFile_whole filename hwpre hws hpre, parseFile_whole filename hw1 hws hev1, rfl,
      ?_, ?_⟩⟩
  · rw [cursor_constants, evalDocument_find_of_not_defined post name _ _ hpost hlast]
    exact Dict.find_assign_same t1 name v
  · exact Dict.find_assign_same t1 name v
  · intro m hm
    exact Dict.find_assign_other t1 v hm

/-- C2 at `a <- 1 b <- ?(a) a <- 2`: `a` is bound to `2`, and `b` keeps its binding. -/
theorem last_definition_wins_witness :
    documentText (List.take 2 exampleRedefinition
        ++ .definition [' '] ['a'] [' '] [' '] (.num ['2']) :: [])
      = "a <- 1 b <- ?(a) a <- 2".toList
    ∧ (∃ s, parseFile ConfigParser.new "in.cfg" (some (documentText
          (List.take 2 exampleRedefinition
            ++ .definition [' '] ['a'] [' '] [' '] (.num ['2']) :: []) ++ []))
          = some ⟨true, "", s⟩
        ∧ s.constants.find ['a'] = some (.number 2))
    ∧ (∃ s1 s2, parseFile ConfigParser.new "in.cfg"
          (some (documentText (List.take 2 exampleRedefinition) ++ []))
          = some ⟨true, "", s1⟩
        ∧ parseFile ConfigParser.new "in.cfg" (some (documentText
          (List.take 2 exampleRedefinition
            ++ [.definition [' '] ['a'] [' '] [' '] (.num ['2'])]) ++ []))
          = some ⟨true, "", s2⟩
        ∧ s1.constants = [(['a'], .number 1), (['b'], .number 1)]
        ∧ s2.constants.find ['a'] = some (.number 2)
        ∧ ∀ m, m ≠ ['a'] → s2.constants.find m = s1.constants.find m) :=
  ⟨by decide,
    last_definition_wins "in.cfg" (List.take 2 exampleRedefinition) [] [' '] ['a'] [' '] [' ']
      (.num ['2']) [] [(['a'], .number 1), (['b'], .number 1)]
      [(['a'], .number 2), (['b'], .number 1)] (.number 2) (by decide) (by decide) rfl rfl rfl
      (by decide)⟩

/-- C3: when, after well-formed definitions and comments and after whitespace, a name
stands at the top level and what follows it (after whitespace) does not start with `<-`,
`parseFile` fails: `parseDict` is called at the name and throws, its first character not
being an opening brace.  The error is reported at the first character of the name and
the constant table is as the items before left it. -/
theorem bare_name_rejected (filename : String) (items : List SItem) (t : Dict)
    (ws name ws1 rest : List Char) (hwf : documentWf items = true)
    (hev : evalDocument [] items = some t) (hws : isWs ws = true)
    (hname : isName name = true) (hws1 : isWs ws1 = true)
    (hmax : headIs isalnum (ws1 ++ rest) = false) (hrest : headIs isspace rest = false)
    (hno : ∀ r, rest ≠ '<' :: '-' :: r) :
    parseFile ConfigParser.new filename
        (some (documentText items ++ (ws ++ (name ++ (ws1 ++ rest)))))
      = some ⟨false,
          "Parse error: " ++ ("Expected '\x7b', got '" ++ String.singleton (name.headD NUL)
            ++ "'" ++ " at position " ++ toString ((documentText items).length + ws.length))
            ++ "\n",
          cursor (documentText items ++ (ws ++ (name ++ (ws1 ++ rest))))
            ((documentText items).length + ws.length) t⟩ := by
  obtain ⟨a, as, hcons⟩ := List.exists_cons_of_ne_nil (isName_ne_nil hname)
  have ha : isalpha a = true := by rw [hcons] at hname; exact (isName_cons hname).1
  have hlen := length_le_documentText items
  have htail : headIs isdigit (ws ++ (name ++ (ws1 ++ rest))) = false := by
    rw [hcons]
    exact headIs_isdigit_ws_cons hws (isalpha_not_isdigit ha)
  have h0 : (documentText items ++ (ws ++ (name ++ (ws1 ++ rest)))).drop 0
      = [] ++ (documentText items ++ (ws ++ (name ++ (ws1 ++ rest)))) := rfl
  rw [parseFile_new]
  rw [parseFileLoop_document _ items [] _ 0 _ [] t hwf hev h0 rfl htail
    (by simp only [parseFuel, List.length_append]; omega)]
  obtain ⟨f, hf⟩ : ∃ f, parseFuel (documentText items ++ (ws ++ (name ++ (ws1 ++ rest))))
      - items.length = f + 2 :=
    ⟨parseFuel (documentText items ++ (ws ++ (name ++ (ws1 ++ rest)))) - items.length - 2, by
      simp only [parseFuel, List.length_append]; omega⟩
  have h1 : (documentText items ++ (ws ++ (name ++ (ws1 ++ rest)))).drop
      (0 + ([] : List Char).length + (documentText items).length)
      = ws ++ (name ++ (ws1 ++ rest)) := by
    simp
  rw [hf, parseFileLoop_bare_name _ f h1 hws hname hws1 hmax hrest hno]
  simp only [ConfigParser.error, cursor_pos, List.length_nil, Nat.add_zero, Nat.zero_add]
  rw [cstr_error]
  intro c hc
  rw [hcons] at hc
  simp only [String.data_append, List.mem_append, List.headD_cons] at hc
  rcases hc with (hc | hc) | hc
  · revert c; decide
  · simp only [String.singleton, String.data_push, List.mem_append, List.mem_singleton] at hc
    rcases hc with hc | rfl
    · cases hc
    · rintro rfl; exact absurd ha (by decide)
  · revert c; decide

/-- C3 at `x -> 1`: the bare entry is rejected, and so is `a < - 1`, where whitespace
parts the two characters of the definition token. -/
theorem bare_name_rejected_witness :
    parseFile ConfigParser.new "in.cfg" (some "x -> 1".toList)
      = some ⟨false, "Parse error: Expected '\x7b', got 'x' at position 0\n",
          cursor "x -> 1".toList 0 []⟩
    ∧ parseFile ConfigParser.new "in.cfg" (some "a < - 1".toList)
      = some ⟨false, "Parse error: Expected '\x7b', got 'a' at position 0\n",
          cursor "a < - 1".toList 0 []⟩ :=
  ⟨bare_name_rejected "in.cfg" [] [] [] ['x'] [' '] "-> 1".toList (by decide) rfl (by decide)
      (by decide) (by decide) (by decide) (by decide) (by intro r h; cases h),
    bare_name_rejected "in.cfg" [] [] [] ['a'] [' '] "< - 1".toList (by decide) rfl (by decide)
      (by decide) (by decide) (by decide) (by decide) (by intro r h; cases h)⟩

end YAMLParser

namespace YAMLParser
open ConfigParser

/-- The map that the entries of a dictionary add up to binds a key to what the value of
the last entry with that key denotes. -/
theorem SEntries.eval_find (t : Dict) (k : List Char) :
    ∀ (es : SEntries) (acc d : Dict), es.eval t acc = some d →
      match es.lastValueOf k with
      | some sv => sv.eval t = d.find k ∧ (d.find k).isSome = true
      | none => d.find k = acc.find k
  | .last name w1 w2 value w3, acc, d, h => by
    cases hv : value.eval t with
    | none => simp [SEntries.eval, hv] at h
    | some v =>
      simp only [SEntries.eval, hv, Option.some.injEq] at h
      subst h
      by_cases hk : name = k
      · subst hk
        simp [SEntries.lastValueOf, hv, Dict.find_assign_same]
      · simp only [SEntries.lastValueOf, if_neg hk]
        exact Dict.find_assign_other acc v (Ne.symm hk)
  | .more name w1 w2 value w3 w4 rest, acc, d, h => by
    cases hv : value.eval t with
    | none => simp [SEntries.eval, hv] at h
    | some v =>
      simp only [SEntries.eval, hv] at h
      have ih := SEntries.eval_find t k rest (acc.assign name v) d h
      cases hl : rest.lastValueOf k with
      | some sv =>
        simp only [hl] at ih
        simpa [SEntries.lastValueOf, hl] using ih
      | none =>
        simp only [hl] at ih
        by_cases hk : name = k
        · subst hk
          simp [SEntries.lastValueOf, hl, hv, ih, Dict.find_assign_same]
        · simp only [SEntries.lastValueOf, hl, if_neg hk]
          rw [ih]
          exact Dict.find_assign_other acc v (Ne.symm hk)

/-- C5: when `n` is bound to `v` at the point where `m <- ?(n)` stands, `m` is bound to
`v` after the parse, whatever the rest of the document does to `n` (first part); and when
`m` is defined as a dictionary whose last entry with key `k` has the value `?(n)`, that
entry holds `v` (second part).  `post` is any continuation that does not define `m`
again; it may define `n` again. -/
theorem reference_keeps_value (filename : String) (pre post : List SItem)
    (ws0 m ws1 ws2 n ws : List Char) (t1 : Dict) (v : ConfigValue) (hws : isWs ws = true)
    (hpre : evalDocument [] pre = some t1) (hn : t1.find n = some v)
    (hlast : m ∉ definedNames post) :
    (∀ t, documentWf (pre ++ .definition ws0 m ws1 ws2 (.ref n) :: post) = true →
      evalDocument (t1.assign m v) post = some t →
      ∃ s, parseFile ConfigParser.new filename
            (some (documentText (pre ++ .definition ws0 m ws1 ws2 (.ref n) :: post) ++ ws))
            = some ⟨true, "", s⟩
          ∧ s.constants.find m = some v)
    ∧ (∀ w es k d t,
      documentWf (pre ++ .definition ws0 m ws1 ws2 (.dict w es) :: post) = true →
      es.eval t1 [] = some d → es.lastValueOf k = some (.ref n) →
      evalDocument (t1.assign m (.dict d)) post = some t →
      ∃ s, parseFile ConfigParser.new filename
            (some (documentText (pre ++ .definition ws0 m ws1 ws2 (.dict w es) :: post) ++ ws))
            = some ⟨true, "", s⟩
          ∧ s.constants.find m = some (.dict d) ∧ d.find k = some v) := by
  constructor
  · intro t hwf hpost
    have hev : evalDocument [] (pre ++ .definition ws0 m ws1 ws2 (.ref n) :: post) = some t := by
      rw [evalDocument_append, hpre]
      simp only [evalDocument, SValue.eval, hn, hpost]
    refine ⟨_, parseFile_whole filename hwf hws hev, ?_⟩
    rw [cursor_constants, evalDocument_find_of_not_defined post m _ _ hpost hlast]
    exact Dict.find_assign_same t1 m v
  · intro w es k d t hwf hd hk hpost
    have hev : evalDocument [] (pre ++ .definition ws0 m ws1 ws2 (.dict w es) :: post)
        = some t := by
      rw [evalDocument_append, hpre]
      simp only [evalDocument, SValue.eval, hd, hpost]
    refine ⟨_, parseFile_whole filename hwf hws hev, ?_, ?_⟩
    · rw [cursor_constants, evalDocument_find_of_not_defined post m _ _ hpost hlast]
      exact Dict.find_assign_same t1 m _
    · have := SEntries.eval_find t1 k es [] d hd
      simp only [hk, SValue.eval, hn] at this
      exact this.1.symm

/-- C5 at `a <- 1 b <- ?(a) a <- 2`, which yields `b = 1` and `a = 2`, and at
`a <- 1 b <- { k -> ?(a) } a <- 2`, which yields `b = { k = 1 }` and `a = 2`. -/
theorem reference_keeps_value_witness :
    documentText exampleRedefinition = "a <- 1 b <- ?(a) a <- 2".toList
    ∧ documentText exampleEntryReference = "a <- 1 b <- \x7b k -> ?(a) \x7d a <- 2".toList
    ∧ (∃ s, parseFile ConfigParser.new "in.cfg" (some (documentText exampleRedefinition ++ []))
          = some ⟨true, "", s⟩
        ∧ s.constants.find ['b'] = some (.number 1)
        ∧ s.constants.find ['a'] = some (.number 2))
    ∧ (∃ s, parseFile ConfigParser.new "in.cfg" (some (documentText exampleEntryReference ++ []))
          = some ⟨true, "", s⟩
        ∧ s.constants.find ['b'] = some (.dict [(['k'], .number 1)])
        ∧ s.constants.find ['a'] = some (.number 2)) := by
  have h := reference_keeps_value "in.cfg" (List.take 1 exampleRedefinition)
    (List.drop 2 exampleRedefinition) [' '] ['b'] [' '] [' '] ['a'] []
    [(['a'], .number 1)] (.number 1) (by decide) rfl rfl (by decide)
  obtain ⟨s, hs, hb⟩ := h.1 [(['a'], .number 2), (['b'], .number 1)] (by decide) rfl
  obtain ⟨s', hs', hb', _⟩ := h.2 [' '] (.last ['k'] [' '] [' '] (.ref ['a']) [' ']) ['k']
    [(['k'], .number 1)] [(['a'], .number 2), (['b'], .dict [(['k'], .number 1)])]
    (by decide) rfl rfl rfl
  refine ⟨by decide, by decide, ⟨s, hs, hb, ?_⟩, ⟨s', hs', hb', ?_⟩⟩
  · have e := @parseFile_whole "in.cfg" exampleRedefinition []
      [(['a'], .number 2), (['b'], .number 1)] (by decide) (by decide) rfl
    have hs2 : parseFile ConfigParser.new "in.cfg" (some (documentText exampleRedefinition ++ []))
        = some ⟨true, "", s⟩ := hs
    rw [e] at hs2
    injection hs2 with hs2
    injection hs2 with _ _ hs2
    rw [← hs2]
    rfl
  · have e := @parseFile_whole "in.cfg" exampleEntryReference []
      [(['a'], .number 2), (['b'], .dict [(['k'], .number 1)])] (by decide) (by decide) rfl
    have hs2 : parseFile ConfigParser.new "in.cfg"
        (some (documentText exampleEntryReference ++ [])) = some ⟨true, "", s'⟩ := hs'
    rw [e] at hs2
    injection hs2 with hs2
    injection hs2 with _ _ hs2
    rw [← hs2]
    rfl

end YAMLParser

namespace YAMLParser
open ConfigParser

/-- C8: for every name `n` and every number literal `d` up to `INT_MAX`, parsing
`n <- d` and rendering the table writes `n: d` and one line terminator: the digits
written are the digits read. -/
theorem number_round_trip (filename : String) (n d : List Char) (hn : isName n = true)
    (hd : isNumber d = true) (hmax : decimalValue d ≤ INT_MAX) :
    ∃ s, parseFile ConfigParser.new filename (some (n ++ " <- ".toList ++ d))
        = some ⟨true, "", s⟩
      ∧ s.constants = [(n, .number (Int.ofNat (decimalValue d)))]
      ∧ s.outputYAML = n ++ ": ".toList ++ d ++ ['\n'] := by
  have hwf : documentWf [.definition [] n [' '] [' '] (.num d)] = true := by
    simp only [documentWf, SItem.wf, SValue.wf, hn, hd, Bool.and_true, Bool.true_and,
      Bool.and_eq_true, decide_eq_true_eq]
    exact ⟨⟨⟨by decide, by decide⟩, by decide⟩, hmax⟩
  have hev : evalDocument [] [.definition [] n [' '] [' '] (.num d)]
      = some [(n, .number (Int.ofNat (decimalValue d)))] := rfl
  have htext : documentText [.definition [] n [' '] [' '] (.num d)] ++ []
      = n ++ " <- ".toList ++ d := by
    simp [documentText, SItem.text, SValue.text]
  have h := @parseFile_whole filename _ [] _ hwf (by decide) hev
  rw [htext] at h
  refine ⟨_, h, rfl, ?_⟩
  simp only [outputYAML, cursor_constants, outputYAMLConstants, outputYAMLValue, intToChars,
    toDigits_decimalValue hd, List.append_nil]

/-- C8 at `foo <- 5`, which renders the line `foo: 5`. -/
theorem number_round_trip_witness :
    ∃ s, parseFile ConfigParser.new "in.cfg" (some ("foo".toList ++ " <- ".toList ++ "5".toList))
        = some ⟨true, "", s⟩
      ∧ s.constants = [("foo".toList, .number (Int.ofNat (decimalValue "5".toList)))]
      ∧ s.outputYAML = "foo".toList ++ ": ".toList ++ "5".toList ++ ['\n'] :=
  number_round_trip "in.cfg" "foo".toList "5".toList (by decide) (by decide) (by decide)

end YAMLParser

namespace YAMLParser
open ConfigParser

/-! ## The lines that the serializer writes -/

theorem outputYAMLValue_dict_cons (e : List Char × ConfigValue) (es : Dict) (indent : Nat) :
    outputYAMLValue (.dict (e :: es)) indent = '\n' :: outputYAMLEntries (e :: es) indent := by
  simp only [outputYAMLValue]

theorem outputYAMLEntries_line {d : Dict} {key : List Char} {val : ConfigValue}
    (h : (key, val) ∈ d) (indent : Nat) :
    ∃ pre post, '\n' :: outputYAMLEntries d indent
      = pre ++ '\n' :: (List.replicate (indent + 2) ' ' ++ key ++ ": ".toList
          ++ outputYAMLValue val (indent + 2)) ++ '\n' :: post := by
  induction d with
  | nil => cases h
  | cons e rest ih =>
    obtain ⟨k0, v0⟩ := e
    rcases List.mem_cons.mp h with heq | hmem
    · cases heq
      exact ⟨[], outputYAMLEntries rest indent, by simp [outputYAMLEntries]⟩
    · obtain ⟨pre, post, hp⟩ := ih hmem
      refine ⟨'\n' :: (List.replicate (indent + 2) ' ' ++ k0 ++ ": ".toList
        ++ outputYAMLValue v0 (indent + 2)) ++ pre, post, ?_⟩
      have : '\n' :: outputYAMLEntries ((k0, v0) :: rest) indent
          = ('\n' :: (List.replicate (indent + 2) ' ' ++ k0 ++ ": ".toList
            ++ outputYAMLValue v0 (indent + 2))) ++ ('\n' :: outputYAMLEntries rest indent) := by
        simp [outputYAMLEntries]
      rw [this, hp]
      simp

theorem outputYAMLValue_dict_of_mem {d : Dict} {e : List Char × ConfigValue} (h : e ∈ d)
    (indent : Nat) : outputYAMLValue (.dict d) indent = '\n' :: outputYAMLEntries d indent := by
  cases d with
  | nil => cases h
  | cons e0 es => exact outputYAMLValue_dict_cons e0 es indent

/-- An entry at depth `k` of a dictionary rendered at indentation `indent` is written on
a line of its own that starts with `indent + 2 * k` spaces. -/
theorem outputYAMLValue_entry_line {k : Nat} {key : List Char} {val v : ConfigValue}
    (h : EntryAt k key val v) :
    ∀ indent, ∃ pre post, outputYAMLValue v indent
      = pre ++ '\n' :: (List.replicate (indent + 2 * k) ' ' ++ key ++ ": ".toList
          ++ outputYAMLValue val (indent + 2 * k)) ++ '\n' :: post := by
  induction h with
  | here hmem =>
    intro indent
    rw [outputYAMLValue_dict_of_mem hmem]
    exact outputYAMLEntries_line hmem indent
  | @inside d d' k key key' val hmem _ ih =>
    intro indent
    obtain ⟨pre1, post1, h1⟩ := outputYAMLEntries_line hmem indent
    obtain ⟨pre, post, h2⟩ := ih (indent + 2)
    rw [outputYAMLValue_dict_of_mem hmem, h1, h2]
    refine ⟨pre1 ++ '\n' :: (List.replicate (indent + 2) ' ' ++ key' ++ ": ".toList ++ pre),
      post ++ '\n' :: post1, ?_⟩
    have harith : indent + 2 + 2 * k = indent + 2 * (k + 1) := by omega
    rw [harith]
    simp

/-- C9: in whatever order the maps are iterated, a constant of the table whose value is a
non-empty dictionary is rendered, at the start of a line, as `name: ` and a line break, and
every entry at nesting depth `k` of the dictionary stands on a line of its own made of
`2 * k` spaces, the key, `: ` and the rendered value (for a nested non-empty dictionary, a
line break and its own entries, two spaces deeper).  The document
`a <- { x -> 1 . y -> { z -> 2 } }` parses to one constant `a` with the two entries `x = 1`
and `y`, the latter with the one entry `z = 2`; its rendering is `a: `, then the line
`  x: 1` and the lines `  y: `, `    z: 2`, with `x` before `y` or `y` before `x`; each
line terminator written after a nested dictionary adds an empty line. -/
theorem nested_entries_indented (order : Dict → Dict) (horder : IterationOrder order) :
    (∀ (t : Dict) (name : List Char) (d : Dict), (name, ConfigValue.dict d) ∈ t → d ≠ [] →
      ∃ before after,
        outputYAMLConstants (order (entriesVisited order t))
          = before ++ (name ++ ": ".toList
              ++ outputYAMLValue ((ConfigValue.dict d).visited order) 0) ++ '\n' :: after
        ∧ (before = [] ∨ before.getLast? = some '\n')
        ∧ (∃ body, outputYAMLValue ((ConfigValue.dict d).visited order) 0 = '\n' :: body)
        ∧ ∀ k key val, EntryAt k key val (.dict d) →
            ∃ pre post, outputYAMLValue ((ConfigValue.dict d).visited order) 0
              = pre ++ '\n' :: (List.replicate (2 * k) ' ' ++ key ++ ": ".toList
                  ++ outputYAMLValue (val.visited order) (2 * k)) ++ '\n' :: post)
    ∧ documentText exampleNested = "a <- \x7b x -> 1 . y -> \x7b z -> 2 \x7d \x7d".toList
    ∧ ∃ s, parseFile ConfigParser.new "in.cfg" (some (documentText exampleNested ++ []))
          = some ⟨true, "", s⟩
        ∧ s.constants.length = 1
        ∧ (∃ d : Dict, s.constants.find ['a'] = some (.dict d) ∧ d.length = 2
            ∧ d.find ['x'] = some (.number 1)
            ∧ d.find ['y'] = some (.dict [(['z'], .number 2)]))
        ∧ (s.outputYAMLIn order = "a: \n  x: 1\n  y: \n    z: 2\n\n\n".toList
            ∨ s.outputYAMLIn order = "a: \n  y: \n    z: 2\n\n  x: 1\n\n".toList) := by
  refine ⟨fun t name d hmem hd => ?_, by decide, ?_⟩
  · obtain ⟨l1, l2, hl⟩ := List.append_of_mem (mem_visited horder hmem)
    refine ⟨outputYAMLConstants l1, outputYAMLConstants l2, ?_,
      outputYAMLConstants_line_end l1, ?_, ?_⟩
    · rw [hl, outputYAMLConstants_append, outputYAMLConstants]
      simp only [List.append_assoc, List.cons_append, List.nil_append]
    · have hlen := visited_length horder d
      simp only [ConfigValue.visited]
      cases hv : order (entriesVisited order d) with
      | nil =>
        rw [hv] at hlen
        exact absurd (List.length_eq_zero.mp hlen.symm) hd
      | cons e es => exact ⟨_, outputYAMLValue_dict_cons e es 0⟩
    · intro k key val h
      have := outputYAMLValue_entry_line (EntryAt.visited horder h) 0
      simpa using this
  · refine ⟨_, @parseFile_whole "in.cfg" exampleNested []
      [(['a'], .dict [(['x'], .number 1), (['y'], .dict [(['z'], .number 2)])])]
      (by decide) (by decide) rfl, rfl,
      ⟨[(['x'], .number 1), (['y'], .dict [(['z'], .number 2)])], rfl, rfl, rfl, rfl⟩, ?_⟩
    have hz : order [(['z'], ConfigValue.number 2)] = [(['z'], ConfigValue.number 2)] :=
      List.perm_singleton.mp (horder _)
    have houter : ∀ v : ConfigValue, order [(['a'], v)] = [(['a'], v)] :=
      fun v => List.perm_singleton.mp (horder _)
    have hout : ∀ s : ConfigParser,
        s.constants = [(['a'], .dict [(['x'], .number 1), (['y'], .dict [(['z'], .number 2)])])] →
        s.outputYAMLIn order = outputYAMLConstants [(['a'], .dict (order
          [(['x'], .number 1), (['y'], .dict [(['z'], .number 2)])]))] := by
      intro s hs
      simp only [outputYAMLIn, hs, entriesVisited, ConfigValue.visited, hz, houter]
    rw [hout _ rfl]
    rcases perm_pair (horder [(['x'], .number 1), (['y'], .dict [(['z'], .number 2)])])
      with h | h
    · left
      rw [h]
      decide
    · right
      rw [h]
      decide

/-- C9 under the order of iteration that visits the bindings last inserted first (`y`
before `x` in the example), at the value of `a` in `a <- { x -> 1 . y -> { z -> 2 } }`:
the entry `z` at depth 2 stands on a line of its own that starts with four spaces. -/
theorem nested_entries_indented_witness :
    IterationOrder List.reverse
    ∧ ∃ pre post, outputYAMLValue ((ConfigValue.dict
          [(['x'], .number 1), (['y'], .dict [(['z'], .number 2)])]).visited List.reverse) 0
        = pre ++ '\n' :: (List.replicate (2 * 2) ' ' ++ ['z'] ++ ": ".toList
            ++ outputYAMLValue ((ConfigValue.number 2).visited List.reverse) (2 * 2))
          ++ '\n' :: post := by
  have hrev : IterationOrder List.reverse := fun d => List.reverse_perm d
  obtain ⟨_, _, _, _, _, h⟩ := (nested_entries_indented List.reverse hrev).1
    [(['a'], .dict [(['x'], .number 1), (['y'], .dict [(['z'], .number 2)])])] ['a']
    [(['x'], .number 1), (['y'], .dict [(['z'], .number 2)])]
    (List.mem_singleton.mpr rfl) (by simp)
  exact ⟨hrev, h 2 ['z'] (.number 2)
    (EntryAt.inside (List.mem_cons_of_mem _ (List.mem_cons_self _ _))
      (EntryAt.here (List.mem_cons_self _ _)))⟩

/-- C10: for every name `n` and whitespace `ws`, parsing `n <- {ws}` binds `n` to an
empty dictionary, which is rendered as `n: {}` and one line terminator; and an empty
dictionary that is the value of a dictionary entry is rendered inline, `key: {}`, on the
line of that entry. -/
theorem empty_dictionary_inline (filename : String) (n ws : List Char)
    (hn : isName n = true) (hws : isWs ws = true) :
    (∃ s, parseFile ConfigParser.new filename (some (n ++ " <- ".toList ++ '{' :: (ws ++ ['}'])))
        = some ⟨true, "", s⟩
      ∧ s.constants = [(n, .dict [])]
      ∧ s.outputYAML = n ++ ": \x7b\x7d\n".toList)
    ∧ ∀ (key : List Char) (rest : Dict) (indent : Nat),
        outputYAMLEntries ((key, .dict []) :: rest) indent
          = List.replicate (indent + 2) ' ' ++ key ++ ": \x7b\x7d\n".toList
            ++ outputYAMLEntries rest indent := by
  have hwf : documentWf [.definition [] n [' '] [' '] (.empty ws)] = true := by
    simp only [documentWf, SItem.wf, SValue.wf, hn, hws, Bool.and_true, Bool.true_and,
      Bool.and_eq_true]
    exact ⟨by decide, by decide⟩
  have hev : evalDocument [] [.definition [] n [' '] [' '] (.empty ws)]
      = some [(n, .dict [])] := rfl
  have htext : documentText [.definition [] n [' '] [' '] (.empty ws)] ++ []
      = n ++ " <- ".toList ++ '{' :: (ws ++ ['}']) := by
    simp [documentText, SItem.text, SValue.text]
  have h := @parseFile_whole filename _ [] _ hwf (by decide) hev
  rw [htext] at h
  refine ⟨⟨_, h, rfl, ?_⟩, ?_⟩
  · simp [outputYAML, outputYAMLConstants, outputYAMLValue]
  · intro key rest indent
    simp [outputYAMLEntries, outputYAMLValue]

/-- C10 at `e <- {}` and at `e <- { }`, both rendered `e: {}`. -/
theorem empty_dictionary_inline_witness :
    (∃ s, parseFile ConfigParser.new "in.cfg" (some "e <- \x7b\x7d".toList)
        = some ⟨true, "", s⟩ ∧ s.outputYAML = "e: \x7b\x7d\n".toList)
    ∧ (∃ s, parseFile ConfigParser.new "in.cfg" (some "e <- \x7b \x7d".toList)
        = some ⟨true, "", s⟩ ∧ s.outputYAML = "e: \x7b\x7d\n".toList) := by
  obtain ⟨⟨s, h1, _, h2⟩, _⟩ :=
    empty_dictionary_inline "in.cfg" ['e'] [] (by decide) (by decide)
  obtain ⟨⟨s', h1', _, h2'⟩, _⟩ :=
    empty_dictionary_inline "in.cfg" ['e'] [' '] (by decide) (by decide)
  exact ⟨⟨s, h1, h2⟩, ⟨s', h1', h2'⟩⟩

end YAMLParser

namespace YAMLParser
open ConfigParser

theorem drop_of_eq_append {inp front tail : List Char} {q : Nat} (h : inp = front ++ tail)
    (hq : q = front.length) : inp.drop q = tail := by
  rw [h, hq, List.drop_left]

theorem isName_no_NUL {name : List Char} (h : isName name = true) : ∀ c ∈ name, c ≠ NUL := by
  obtain ⟨a, as, rfl⟩ := List.exists_cons_of_ne_nil (isName_ne_nil h)
  obtain ⟨ha, has⟩ := isName_cons h
  intro c hc
  rcases List.mem_cons.mp hc with rfl | hc
  · rintro rfl; exact absurd ha (by decide)
  · rintro rfl; exact absurd (has _ hc) (by decide)

/-- C4: a reference `?(n)` that stands as the value of a definition, or as the value of
an entry of a dictionary nested at any depth in it, at a point where the table built so
far (`t`, from the well-formed items before) does not bind `n`, makes `parseFile` fail
with "Undefined constant: n", reported just behind the reference.  `rest` is arbitrary:
it may define `n` (a forward reference), and `n` may be the name being defined (a
self-reference). -/
theorem undefined_reference_rejected (filename : String) (items : List SItem) (t : Dict)
    (ws0 name ws1 : List Char) (path : List SFrame) (wsv n rest : List Char)
    (hwf : documentWf items = true) (hev : evalDocument [] items = some t)
    (hws0 : isWs ws0 = true) (hname : isName name = true) (hws1 : isWs ws1 = true)
    (hpath : pathWf path = true) (hbound : pathBound t path = true)
    (hwsv : isWs wsv = true) (hn : isName n = true) (hunbound : t.find n = none) :
    parseFile ConfigParser.new filename (some (documentText items ++ (ws0 ++ (name ++ (ws1
        ++ '<' :: '-' :: (pathText path ++ (wsv ++ '?' :: '(' :: (n ++ ')' :: rest))))))))
      = some ⟨false,
          "Parse error: " ++ ("Undefined constant: " ++ String.mk n ++ " at position "
            ++ toString ((documentText items).length + ws0.length + name.length + ws1.length
              + 2 + (pathText path).length + wsv.length + n.length + 3)) ++ "\n",
          cursor (documentText items ++ (ws0 ++ (name ++ (ws1
            ++ '<' :: '-' :: (pathText path ++ (wsv ++ '?' :: '(' :: (n ++ ')' :: rest)))))))
            ((documentText items).length + ws0.length + name.length + ws1.length
              + 2 + (pathText path).length + wsv.length + n.length + 3) t⟩ := by
  have hd : (documentText items ++ (ws0 ++ (name ++ (ws1
      ++ '<' :: '-' :: (pathText path ++ (wsv ++ '?' :: '(' :: (n ++ ')' :: rest))))))).drop
      ((documentText items).length + ws0.length + name.length + ws1.length + 2
        + (pathText path).length) = wsv ++ '?' :: '(' :: (n ++ ')' :: rest) :=
    @drop_of_eq_append _ (documentText items ++ ws0 ++ name ++ ws1 ++ ['<', '-'] ++ pathText path)
      _ _ (by simp) (by simp only [List.length_append, List.length_cons, List.length_nil])
  have hv : ∀ f, 1 ≤ f → parseValue f
      (cursor (documentText items ++ (ws0 ++ (name ++ (ws1 ++ '<' :: '-' ::
          (pathText path ++ (wsv ++ '?' :: '(' :: (n ++ ')' :: rest)))))))
        ((documentText items).length + ws0.length + name.length + ws1.length + 2
          + (pathText path).length) t)
      = .thrown ("Undefined constant: " ++ String.mk n ++ " at position "
            ++ toString ((documentText items).length + ws0.length + name.length + ws1.length
              + 2 + (pathText path).length + wsv.length + n.length + 3))
          (cursor (documentText items ++ (ws0 ++ (name ++ (ws1
            ++ '<' :: '-' :: (pathText path ++ (wsv ++ '?' :: '(' :: (n ++ ')' :: rest)))))))
            ((documentText items).length + ws0.length + name.length + ws1.length
              + 2 + (pathText path).length + wsv.length + n.length + 3) t) := by
    intro f hf
    obtain ⟨g, rfl⟩ : ∃ g, f = g + 1 := ⟨f - 1, by omega⟩
    rw [parseValue_reference t g hd hwsv hn, hunbound]
    rfl
  rw [parseFile_thrown_at_value filename items t ws0 name ws1 path _ _ _ hwf hev hws0 hname hws1
    hpath hbound hv]
  rw [cstr_error]
  intro c hc
  simp only [String.data_append, List.mem_append] at hc
  rcases hc with hc | hc
  · revert c; decide
  · exact isName_no_NUL hn c hc

/-- C4 at `b <- ?(undefined)`, at the self-reference `a <- ?(a)`, at the forward
reference `b <- ?(a) a <- 1`, and at the nested reference `b <- { k -> 1 . m -> ?(a) }`. -/
theorem undefined_reference_rejected_witness :
    parseFile ConfigParser.new "in.cfg" (some "b <- ?(undefined)".toList)
      = some ⟨false, "Parse error: Undefined constant: undefined at position 17\n",
          cursor "b <- ?(undefined)".toList 17 []⟩
    ∧ parseFile ConfigParser.new "in.cfg" (some "a <- ?(a)".toList)
      = some ⟨false, "Parse error: Undefined constant: a at position 9\n",
          cursor "a <- ?(a)".toList 9 []⟩
    ∧ parseFile ConfigParser.new "in.cfg" (some "b <- ?(a) a <- 1".toList)
      = some ⟨false, "Parse error: Undefined constant: a at position 9\n",
          cursor "b <- ?(a) a <- 1".toList 9 []⟩
    ∧ parseFile ConfigParser.new "in.cfg" (some "b <- \x7b k -> 1 . m -> ?(a) \x7d".toList)
      = some ⟨false, "Parse error: Undefined constant: a at position 25\n",
          cursor "b <- \x7b k -> 1 . m -> ?(a) \x7d".toList 25 []⟩ :=
  ⟨undefined_reference_rejected "in.cfg" [] [] [] ['b'] [' '] [] [' '] "undefined".toList []
      (by decide) rfl (by decide) (by decide) (by decide) (by decide) (by decide) (by decide)
      (by decide) rfl,
    undefined_reference_rejected "in.cfg" [] [] [] ['a'] [' '] [] [' '] ['a'] []
      (by decide) rfl (by decide) (by decide) (by decide) (by decide) (by decide) (by decide)
      (by decide) rfl,
    undefined_reference_rejected "in.cfg" [] [] [] ['b'] [' '] [] [' '] ['a'] " a <- 1".toList
      (by decide) rfl (by decide) (by decide) (by decide) (by decide) (by decide) (by decide)
      (by decide) rfl,
    undefined_reference_rejected "in.cfg" [] [] [] ['b'] [' '] [exampleFrame] [' '] ['a']
      " \x7d".toList
      (by decide) rfl (by decide) (by decide) (by decide) (by decide) (by decide) (by decide)
      (by decide) rfl⟩

/-- C6: a digit `0` that stands (after whitespace) where the value of a definition, or of
an entry of a dictionary nested at any depth in it, is expected makes `parseFile` fail
with "Number must start with digit 1-9", reported at the offset of that `0`; the constant
table is left as the items before made it, so the definition binds nothing. -/
theorem leading_zero_rejected (filename : String) (items : List SItem) (t : Dict)
    (ws0 name ws1 : List Char) (path : List SFrame) (wsv rest : List Char)
    (hwf : documentWf items = true) (hev : evalDocument [] items = some t)
    (hws0 : isWs ws0 = true) (hname : isName name = true) (hws1 : isWs ws1 = true)
    (hpath : pathWf path = true) (hbound : pathBound t path = true)
    (hwsv : isWs wsv = true) :
    parseFile ConfigParser.new filename (some (documentText items ++ (ws0 ++ (name ++ (ws1
        ++ '<' :: '-' :: (pathText path ++ (wsv ++ '0' :: rest)))))))
      = some ⟨false,
          "Parse error: " ++ ("Number must start with digit 1-9" ++ " at position "
            ++ toString ((documentText items).length + ws0.length + name.length + ws1.length
              + 2 + (pathText path).length + wsv.length)) ++ "\n",
          cursor (documentText items ++ (ws0 ++ (name ++ (ws1
            ++ '<' :: '-' :: (pathText path ++ (wsv ++ '0' :: rest))))))
            ((documentText items).length + ws0.length + name.length + ws1.length
              + 2 + (pathText path).length + wsv.length) t⟩ := by
  have hd : (documentText items ++ (ws0 ++ (name ++ (ws1
      ++ '<' :: '-' :: (pathText path ++ (wsv ++ '0' :: rest)))))).drop
      ((documentText items).length + ws0.length + name.length + ws1.length + 2
        + (pathText path).length) = wsv ++ '0' :: rest :=
    @drop_of_eq_append _ (documentText items ++ ws0 ++ name ++ ws1 ++ ['<', '-'] ++ pathText path)
      _ _ (by simp) (by simp only [List.length_append, List.length_cons, List.length_nil])
  have hv : ∀ f, 1 ≤ f → parseValue f
      (cursor (documentText items ++ (ws0 ++ (name ++ (ws1 ++ '<' :: '-' ::
          (pathText path ++ (wsv ++ '0' :: rest))))))
        ((documentText items).length + ws0.length + name.length + ws1.length + 2
          + (pathText path).length) t)
      = .thrown ("Number must start with digit 1-9" ++ " at position "
            ++ toString ((documentText items).length + ws0.length + name.length + ws1.length
              + 2 + (pathText path).length + wsv.length))
          (cursor (documentText items ++ (ws0 ++ (name ++ (ws1
            ++ '<' :: '-' :: (pathText path ++ (wsv ++ '0' :: rest))))))
            ((documentText items).length + ws0.length + name.length + ws1.length
              + 2 + (pathText path).length + wsv.length) t) := by
    intro f hf
    obtain ⟨g, rfl⟩ : ∃ g, f = g + 1 := ⟨f - 1, by omega⟩
    rw [parseValue_zero t g hd hwsv]
    rfl
  rw [parseFile_thrown_at_value filename items t ws0 name ws1 path _ _ _ hwf hev hws0 hname hws1
    hpath hbound hv]
  rw [cstr_error]
  decide

/-- C6 at `n <- 0`, at `n <- 007`, and at the entry value of `n <- { k -> 1 . m -> 0 }`. -/
theorem leading_zero_rejected_witness :
    parseFile ConfigParser.new "in.cfg" (some "n <- 0".toList)
      = some ⟨false, "Parse error: Number must start with digit 1-9 at position 5\n",
          cursor "n <- 0".toList 5 []⟩
    ∧ parseFile ConfigParser.new "in.cfg" (some "n <- 007".toList)
      = some ⟨false, "Parse error: Number must start with digit 1-9 at position 5\n",
          cursor "n <- 007".toList 5 []⟩
    ∧ parseFile ConfigParser.new "in.cfg" (some "n <- \x7b k -> 1 . m -> 0 \x7d".toList)
      = some ⟨false, "Parse error: Number must start with digit 1-9 at position 21\n",
          cursor "n <- \x7b k -> 1 . m -> 0 \x7d".toList 21 []⟩
    ∧ (cursor "n <- 0".toList 5 []).constants.find ['n'] = none :=
  ⟨leading_zero_rejected "in.cfg" [] [] [] ['n'] [' '] [] [' '] []
      (by decide) rfl (by decide) (by decide) (by decide) (by decide) (by decide) (by decide),
    leading_zero_rejected "in.cfg" [] [] [] ['n'] [' '] [] [' '] ['0', '7']
      (by decide) rfl (by decide) (by decide) (by decide) (by decide) (by decide) (by decide),
    leading_zero_rejected "in.cfg" [] [] [] ['n'] [' '] [exampleFrame] [' '] " \x7d".toList
      (by decide) rfl (by decide) (by decide) (by decide) (by decide) (by decide) (by decide),
    rfl⟩

end YAMLParser

namespace YAMLParser
open ConfigParser

theorem isNumber_no_NUL {d : List Char} (h : isNumber d = true) : ∀ c ∈ d, c ≠ NUL := by
  intro c hc
  have := isNumber_all_isdigit h c hc
  rintro rfl
  exact absurd this (by decide)

/-- C7: on a number literal `d` (first digit `1`..`9`) that ends before a character that
is not a digit, `parseNumber` consumes exactly `d`, and yields the number that `d`
denotes when that is at most `INT_MAX = 2147483647`, or throws "Invalid number"
otherwise (first part); such a literal above `INT_MAX`, as the value of a definition or of
an entry of a dictionary nested in it, makes `parseFile` fail with that error (second
part); and every number in the table of a successful parse, of any input, lies in
`1 .. INT_MAX` (third part). -/
theorem number_literal_range :
    (∀ (inp d rest : List Char) (p : Nat) (t : Dict), inp.drop p = d ++ rest →
      isNumber d = true → headIs isdigit rest = false →
      (cursor inp p t).parseNumber =
        if decimalValue d ≤ INT_MAX then
          .ok (.number (Int.ofNat (decimalValue d))) (cursor inp (p + d.length) t)
        else
          .thrown ("Invalid number: " ++ String.mk d ++ " at position "
            ++ toString (p + d.length)) (cursor inp (p + d.length) t))
    ∧ (∀ (filename : String) (items : List SItem) (t : Dict) (ws0 name ws1 : List Char)
        (path : List SFrame) (wsv d rest : List Char),
      documentWf items = true → evalDocument [] items = some t → isWs ws0 = true →
      isName name = true → isWs ws1 = true → pathWf path = true → pathBound t path = true →
      isWs wsv = true → isNumber d = true → headIs isdigit rest = false →
      INT_MAX < decimalValue d →
      parseFile ConfigParser.new filename (some (documentText items ++ (ws0 ++ (name ++ (ws1
          ++ '<' :: '-' :: (pathText path ++ (wsv ++ (d ++ rest))))))))
        = some ⟨false,
            "Parse error: " ++ ("Invalid number: " ++ String.mk d ++ " at position "
              ++ toString ((documentText items).length + ws0.length + name.length + ws1.length
                + 2 + (pathText path).length + wsv.length + d.length)) ++ "\n",
            cursor (documentText items ++ (ws0 ++ (name ++ (ws1
              ++ '<' :: '-' :: (pathText path ++ (wsv ++ (d ++ rest)))))))
              ((documentText items).length + ws0.length + name.length + ws1.length
                + 2 + (pathText path).length + wsv.length + d.length) t⟩)
    ∧ (∀ (filename : String) (inp : List Char) (r : ParseFileResult),
      parseFile ConfigParser.new filename (some inp) = some r → r.returned = true →
      entriesInRange r.self.constants = true) := by
  refine ⟨?_, ?_, ?_⟩
  · intro inp d rest p t h hd hrest
    exact parseNumber_cursor t h hd hrest
  · intro filename items t ws0 name ws1 path wsv d rest hwf hev hws0 hname hws1 hpath hbound
      hwsv hd hrest hbig
    have hdrop : (documentText items ++ (ws0 ++ (name ++ (ws1
        ++ '<' :: '-' :: (pathText path ++ (wsv ++ (d ++ rest))))))).drop
        ((documentText items).length + ws0.length + name.length + ws1.length + 2
          + (pathText path).length) = wsv ++ (d ++ rest) :=
      @drop_of_eq_append _
        (documentText items ++ ws0 ++ name ++ ws1 ++ ['<', '-'] ++ pathText path)
        _ _ (by simp) (by simp only [List.length_append, List.length_cons, List.length_nil])
    have hv : ∀ f, 1 ≤ f → parseValue f
        (cursor (documentText items ++ (ws0 ++ (name ++ (ws1 ++ '<' :: '-' ::
            (pathText path ++ (wsv ++ (d ++ rest)))))))
          ((documentText items).length + ws0.length + name.length + ws1.length + 2
            + (pathText path).length) t)
        = .thrown ("Invalid number: " ++ String.mk d ++ " at position "
              ++ toString ((documentText items).length + ws0.length + name.length + ws1.length
                + 2 + (pathText path).length + wsv.length + d.length))
            (cursor (documentText items ++ (ws0 ++ (name ++ (ws1
              ++ '<' :: '-' :: (pathText path ++ (wsv ++ (d ++ rest)))))))
              ((documentText items).length + ws0.length + name.length + ws1.length
                + 2 + (pathText path).length + wsv.length + d.length) t) := by
      intro f hf
      obtain ⟨g, rfl⟩ : ∃ g, f = g + 1 := ⟨f - 1, by omega⟩
      rw [parseValue_number t g hdrop hwsv hd hrest, if_neg (by omega)]
      rfl
    rw [parseFile_thrown_at_value filename items t ws0 name ws1 path _ _ _ hwf hev hws0 hname
      hws1 hpath hbound hv]
    rw [cstr_error]
    intro c hc
    simp only [String.data_append, List.mem_append] at hc
    rcases hc with hc | hc
    · revert c; decide
    · exact isNumber_no_NUL hd c hc
  · intro filename inp r h hr
    exact parseFile_inRange h hr

/-- C7 at the literals `2147483647`, which is read whole as the number `2147483647`, and
`2147483648`, which is rejected; and at the document `a <- 2147483647`. -/
theorem number_literal_range_witness :
    (cursor "2147483647 ".toList 0 []).parseNumber
      = .ok (.number 2147483647) (cursor "2147483647 ".toList 10 [])
    ∧ (cursor "2147483648 ".toList 0 []).parseNumber
      = .thrown "Invalid number: 2147483648 at position 10" (cursor "2147483648 ".toList 10 [])
    ∧ parseFile ConfigParser.new "in.cfg" (some "b <- 2147483648".toList)
      = some ⟨false, "Parse error: Invalid number: 2147483648 at position 15\n",
          cursor "b <- 2147483648".toList 15 []⟩
    ∧ parseFile ConfigParser.new "in.cfg" (some "a <- 2147483647".toList)
      = some ⟨true, "", cursor "a <- 2147483647".toList 15 [(['a'], .number 2147483647)]⟩
    ∧ entriesInRange [(['a'], .number 2147483647)] = true :=
  ⟨(number_literal_range.1 "2147483647 ".toList "2147483647".toList [' '] 0 [] rfl
      (by decide) (by decide)).trans (if_pos (by decide)),
    (number_literal_range.1 "2147483648 ".toList "2147483648".toList [' '] 0 [] rfl
      (by decide) (by decide)).trans (if_neg (by decide)),
    number_literal_range.2.1 "in.cfg" [] [] [] ['b'] [' '] [] [' '] "2147483648".toList []
      (by decide) rfl (by decide) (by decide) (by decide) (by decide) (by decide) (by decide)
      (by decide) (by decide) (by decide),
    rfl,
    number_literal_range.2.2 "in.cfg" "a <- 2147483647".toList
      ⟨true, "", cursor "a <- 2147483647".toList 15 [(['a'], .number 2147483647)]⟩ rfl rfl⟩

end YAMLParser

namespace YAMLParser
open ConfigParser

/-- C11 (counterexample): a line that begins with `;` inside a dictionary literal is not
ignored.  With `pre = "a <- {\n"`, which ends with a newline, `c = "x"` and `post = "}"`,
parsing `pre ++ ";" ++ c ++ "\n" ++ post` fails, while parsing `pre ++ "\n" ++ post`
succeeds. -/
theorem comment_line_inside_dictionary :
    ("a <- \x7b\n".toList.getLast? = some '\n' ∧ '\n' ∉ "x".toList)
    ∧ (parseFile ConfigParser.new "in.cfg"
        (some ("a <- \x7b\n".toList ++ (';' :: ("x".toList ++ '\n' :: "\x7d".toList))))).map
          (fun r => r.returned) = some false
    ∧ (parseFile ConfigParser.new "in.cfg"
        (some ("a <- \x7b\n".toList ++ ('\n' :: "\x7d".toList)))).map
          (fun r => r.returned) = some true := by
  decide

/-- C11 (amended): a comment at the top level of the document is ignored up to the next
newline, and inside a definition `;` does not start a comment.  Here `pre` is the text of
complete definitions and comments (`items`, whose references are bound) followed by
whitespace `ws`.  First part: when `c` contains no newline, parsing
`pre ++ ";" ++ c ++ "\n" ++ post` and parsing `pre ++ "\n" ++ post` both return, with the same
value (success in both cases or failure in both cases) and the same constant table,
whatever the texts `c` and `post` are.  Second part: when `name ws1 "<-" wsv` follows
`pre` and the `;` stands where the value is expected, the parse fails with a syntax error
and the table of `pre`, whatever follows.  Third part: the same when the `;` stands inside
a dictionary literal, that is behind `"{" ++ body` where the braces of `body` do not
close the dictionary (`Unclosed`: every non-empty initial part of the text has more opening
than closing braces). -/
theorem comment_line_ignored (filename : String) (items : List SItem) (ws c post : List Char)
    (t : Dict) (hwf : documentWf items = true) (hev : evalDocument [] items = some t)
    (hws : isWs ws = true) (hc : ∀ x ∈ c, x ≠ '\n') :
    (∃ r1 r2,
      parseFile ConfigParser.new filename
          (some (documentText items ++ (ws ++ ';' :: (c ++ '\n' :: post)))) = some r1
      ∧ parseFile ConfigParser.new filename
          (some (documentText items ++ (ws ++ '\n' :: post))) = some r2
      ∧ r1.returned = r2.returned ∧ r1.self.constants = r2.self.constants)
    ∧ (∀ name ws1 wsv rest : List Char, isName name = true → isWs ws1 = true →
        isWs wsv = true →
        ∃ r, parseFile ConfigParser.new filename (some (documentText items ++ (ws ++ (name
              ++ (ws1 ++ '<' :: '-' :: (wsv ++ ';' :: rest)))))) = some r
          ∧ r.returned = false ∧ r.self.constants = t
          ∧ ∃ w, r.cerr = "Parse error: " ++ cstr w ++ "\n")
    ∧ (∀ name ws1 wsv body rest : List Char, isName name = true → isWs ws1 = true →
        isWs wsv = true → Unclosed ('{' :: body) →
        ∃ r, parseFile ConfigParser.new filename (some (documentText items ++ (ws ++ (name
              ++ (ws1 ++ '<' :: '-' :: (wsv ++ '{' :: (body ++ ';' :: rest))))))) = some r
          ∧ r.returned = false ∧ r.self.constants = t
          ∧ ∃ w, r.cerr = "Parse error: " ++ cstr w ++ "\n") := by
  have hdef : ∀ name ws1 wsv π rest : List Char, isName name = true → isWs ws1 = true →
      isWs wsv = true → Unclosed π →
      ∃ r, parseFile ConfigParser.new filename (some (documentText items ++ (ws ++ (name
            ++ (ws1 ++ '<' :: '-' :: (wsv ++ (π ++ ';' :: rest))))))) = some r
        ∧ r.returned = false ∧ r.self.constants = t
        ∧ ∃ w, r.cerr = "Parse error: " ++ cstr w ++ "\n" := by
    intro name ws1 wsv π rest hname hws1 hwsv hopen
    have htail : headIs isdigit (ws ++ (name ++ (ws1 ++ '<' :: '-' ::
        (wsv ++ (π ++ ';' :: rest))))) = false := by
      obtain ⟨a, as, rfl⟩ := List.exists_cons_of_ne_nil (isName_ne_nil hname)
      exact headIs_isdigit_ws_cons hws (isalpha_not_isdigit (isName_cons hname).1)
    obtain ⟨r, hr, h1, h2, _, h4⟩ := parseFile_items_then ConfigParser.new filename items _ t
      (false, t) hwf hev htail (agreesFile_semicolon t hws hname hws1 hwsv hopen)
    exact ⟨r, hr, h1, h2, h4 h1⟩
  refine ⟨?_, ?_, ?_⟩
  · obtain ⟨o, _, ho⟩ := fileSpec ('\n' :: post) t
    obtain ⟨r1, h1, a1, b1, _⟩ := parseFile_items_then ConfigParser.new filename items
      (ws ++ ';' :: (c ++ '\n' :: post)) t o hwf hev
      (headIs_isdigit_ws_cons hws (by decide)) (agreesFile_comment hws hc ho)
    obtain ⟨r2, h2, a2, b2, _⟩ := parseFile_items_then ConfigParser.new filename items
      (ws ++ '\n' :: post) t o hwf hev
      (headIs_isdigit_ws_cons hws (by decide)) (agreesFile_skip hws ho)
    exact ⟨r1, r2, h1, h2, a1.trans a2.symm, b1.trans b2.symm⟩
  · intro name ws1 wsv rest hname hws1 hwsv
    exact hdef name ws1 wsv [] rest hname hws1 hwsv unclosed_nil
  · intro name ws1 wsv body rest hname hws1 hwsv hopen
    exact hdef name ws1 wsv ('{' :: body) rest hname hws1 hwsv hopen

/-- C11 (amended) at `a <- 1`, a newline, and then the comment line `; b <- 2 {` in
front of `c <- 3`: the parse gives what it gives with an empty line instead; and at
`a <- 1`, a newline, and then `b <- ; 2` or `b <- { x -> 1 .`, a newline, `; y`, a newline
and `}`, where the parse fails with `a = 1` in the table. -/
theorem comment_line_ignored_witness :
    (∃ r1 r2,
      parseFile ConfigParser.new "in.cfg"
          (some ("a <- 1".toList ++ (['\n'] ++ ';' :: (" b <- 2 \x7b".toList
            ++ '\n' :: "c <- 3".toList)))) = some r1
      ∧ parseFile ConfigParser.new "in.cfg"
          (some ("a <- 1".toList ++ (['\n'] ++ '\n' :: "c <- 3".toList))) = some r2
      ∧ r1.returned = r2.returned ∧ r1.self.constants = r2.self.constants)
    ∧ (∃ r, parseFile ConfigParser.new "in.cfg" (some "a <- 1\nb <- ; 2".toList) = some r
        ∧ r.returned = false ∧ r.self.constants = [(['a'], .number 1)]
        ∧ ∃ w, r.cerr = "Parse error: " ++ cstr w ++ "\n")
    ∧ (∃ r, parseFile ConfigParser.new "in.cfg"
          (some "a <- 1\nb <- \x7b x -> 1 .\n; y\n\x7d".toList) = some r
        ∧ r.returned = false ∧ r.self.constants = [(['a'], .number 1)]
        ∧ ∃ w, r.cerr = "Parse error: " ++ cstr w ++ "\n") :=
  have h := comment_line_ignored "in.cfg" [.definition [] ['a'] [' '] [' '] (.num ['1'])] ['\n']
    " b <- 2 \x7b".toList "c <- 3".toList [(['a'], .number 1)] (by decide) rfl (by decide)
    (by decide)
  ⟨h.1, h.2.1 ['b'] [' '] [' '] " 2".toList (by decide) (by decide) (by decide),
    h.2.2 ['b'] [' '] [' '] " x -> 1 .\n".toList " y\n\x7d".toList (by decide) (by decide)
      (by decide) (unclosed_of_openAfter (by decide))⟩

/-- C12: the program is all-or-nothing.  Run as `prog -f filename` on any file system,
`main` always returns; what it writes to `std::cerr` is what `parseFile` wrote; when
`parseFile` returns false (the file cannot be opened, or parsing raised a syntax error,
whatever had been stored in the table before), nothing at all is written to `std::cout`
and the exit status is 1; when `parseFile` returns true, the cursor is at the end of the
input, the exit status is 0 and the text on `std::cout` is the rendering of the table. -/
theorem pipeline_all_or_nothing (prog filename : String)
    (files : String → Option (List Char)) :
    ∃ r res, parseFile ConfigParser.new filename (files filename) = some r
      ∧ main [prog, "-f", filename] files = some res
      ∧ res.cerr = r.cerr
      ∧ (r.returned = false → res.status = 1 ∧ res.cout = [])
      ∧ (r.returned = true → res.status = 0 ∧ res.cout = r.self.outputYAML
          ∧ ∃ inp, files filename = some inp ∧ r.self.input = inp
            ∧ r.self.pos = inp.length) := by
  have hm : main [prog, "-f", filename] files =
      match parseFile ConfigParser.new filename (files filename) with
      | none => none
      | some r =>
        if r.returned = true then some ⟨0, r.self.outputYAML, r.cerr⟩
        else some ⟨1, [], r.cerr⟩ := by
    have hcond : ¬ ([prog, "-f", filename].length ≠ 3
        ∨ [prog, "-f", filename].getD 1 "" ≠ "-f") := by simp
    rw [main, if_neg hcond]
    rfl
  cases hfile : files filename with
  | none =>
    refine ⟨⟨false, "Error: Cannot open file " ++ filename ++ "\n", ConfigParser.new⟩,
      ⟨1, [], "Error: Cannot open file " ++ filename ++ "\n"⟩, rfl, ?_, rfl,
      (fun _ => ⟨rfl, rfl⟩), (fun h => by cases h)⟩
    rw [hm, hfile]
    rfl
  | some inp =>
    obtain ⟨o, r, _, _, hr, _, _, hin, _, hend, _⟩ :=
      parseFile_outcome ConfigParser.new filename inp
    cases hret : r.returned with
    | false =>
      refine ⟨r, ⟨1, [], r.cerr⟩, hr, ?_, rfl, (fun _ => ⟨rfl, rfl⟩),
        (fun h => by rw [hret] at h; cases h)⟩
      rw [hm, hfile, hr]
      simp only [hret]
      rfl
    | true =>
      refine ⟨r, ⟨0, r.self.outputYAML, r.cerr⟩, hr, ?_, rfl,
        (fun h => by rw [hret] at h; cases h),
        (fun _ => ⟨rfl, rfl, inp, rfl, hin, (hend hret).1⟩)⟩
      rw [hm, hfile, hr]
      simp only [hret]
      rfl

/-- C12 at `a <- 1 b <- 0`: the parse fails at `0`, after `a = 1` has been stored in the
table; nothing is written to `std::cout` and the exit status is 1. -/
theorem pipeline_all_or_nothing_witness :
    ∃ r res, parseFile ConfigParser.new "in.cfg" (some "a <- 1 b <- 0".toList) = some r
      ∧ main ["prog", "-f", "in.cfg"] (fun _ => some "a <- 1 b <- 0".toList) = some res
      ∧ r.returned = false ∧ r.self.constants = [(['a'], .number 1)]
      ∧ res.status = 1 ∧ res.cout = [] := by
  obtain ⟨r, res, hr, hres, _, hfail, _⟩ :=
    pipeline_all_or_nothing "prog" "in.cfg" (fun _ => some "a <- 1 b <- 0".toList)
  have e : parseFile ConfigParser.new "in.cfg" (some "a <- 1 b <- 0".toList)
      = some ⟨false, "Parse error: Number must start with digit 1-9 at position 12\n",
          cursor "a <- 1 b <- 0".toList 12 [(['a'], .number 1)]⟩ := rfl
  have hr' : some r = some ⟨false,
      "Parse error: Number must start with digit 1-9 at position 12\n",
      cursor "a <- 1 b <- 0".toList 12 [(['a'], .number 1)]⟩ := hr.symm.trans e
  injection hr' with hr'
  have hret : r.returned = false := by rw [hr']
  have htab : r.self.constants = [(['a'], .number 1)] := by rw [hr']; rfl
  exact ⟨r, res, hr, hres, hret, htab, (hfail hret).1, (hfail hret).2⟩

end YAMLParser

namespace YAMLParser
open ConfigParser

/-- The keys of the map that the entries of a dictionary add up to: without repetition,
and those of the start together with the names of the entries. -/
theorem SEntries.eval_keys (t : Dict) :
    ∀ (es : SEntries) (acc d : Dict), es.eval t acc = some d → acc.keys.Nodup →
      d.keys.Nodup ∧ ∀ m, m ∈ d.keys ↔ m ∈ acc.keys ∨ m ∈ es.names
  | .last name w1 w2 value w3, acc, d, h, hn => by
    cases hv : value.eval t with
    | none => simp [SEntries.eval, hv] at h
    | some v =>
      simp only [SEntries.eval, hv, Option.some.injEq] at h
      subst h
      refine ⟨Dict.keys_assign_nodup acc name v hn, fun m => ?_⟩
      rw [Dict.mem_keys_assign]
      simp [SEntries.names]
  | .more name w1 w2 value w3 w4 rest, acc, d, h, hn => by
    cases hv : value.eval t with
    | none => simp [SEntries.eval, hv] at h
    | some v =>
      simp only [SEntries.eval, hv] at h
      obtain ⟨h1, h2⟩ := SEntries.eval_keys t rest (acc.assign name v) d h
        (Dict.keys_assign_nodup acc name v hn)
      refine ⟨h1, fun m => ?_⟩
      rw [h2, Dict.mem_keys_assign]
      simp only [SEntries.names, List.mem_cons]
      tauto

/-- C13: a well-formed dictionary literal `{ es }` that is the value of a definition of
`name`, after a well-formed document `pre`, parses to the dictionary `d` that its entries
add up to; the keys of `d` are the names of the entries, each exactly once (the list of keys
has no repetition), the number of keys is the number of distinct entry names, and a key is
bound to what the value of the last entry with that key denotes. -/
theorem duplicate_keys_last_wins (filename : String) (pre : List SItem)
    (ws0 name ws1 ws2 wsd : List Char) (es : SEntries) (ws : List Char) (t1 d : Dict)
    (hwf : documentWf (pre ++ [.definition ws0 name ws1 ws2 (.dict wsd es)]) = true)
    (hws : isWs ws = true) (hpre : evalDocument [] pre = some t1)
    (hd : es.eval t1 [] = some d) :
    (∃ s, parseFile ConfigParser.new filename
          (some (documentText (pre ++ [.definition ws0 name ws1 ws2 (.dict wsd es)]) ++ ws))
          = some ⟨true, "", s⟩
        ∧ s.constants.find name = some (.dict d))
    ∧ d.keys.Nodup
    ∧ (∀ k, k ∈ d.keys ↔ k ∈ es.names)
    ∧ d.length = es.names.dedup.length
    ∧ (∀ k sv, es.lastValueOf k = some sv →
        d.find k = sv.eval t1 ∧ (d.find k).isSome = true) := by
  have hev : evalDocument [] (pre ++ [.definition ws0 name ws1 ws2 (.dict wsd es)])
      = some (t1.assign name (.dict d)) := by
    rw [evalDocument_append, hpre]
    simp only [evalDocument, SValue.eval, hd]
  obtain ⟨hnodup, hmem⟩ := SEntries.eval_keys t1 es [] d hd (by simp [Dict.keys])
  have hmem' : ∀ k, k ∈ d.keys ↔ k ∈ es.names := fun k => by
    rw [hmem]
    simp [Dict.keys]
  refine ⟨⟨_, parseFile_whole filename hwf hws hev, ?_⟩, hnodup, hmem', ?_, ?_⟩
  · rw [cursor_constants]
    exact Dict.find_assign_same t1 name _
  · rw [← Dict.length_keys, ← List.toFinset_card_of_nodup hnodup, ← List.card_toFinset]
    congr 1
    ext m
    rw [List.mem_toFinset, List.mem_toFinset, hmem' m]
  · intro k sv hk
    have := SEntries.eval_find t1 k es [] d hd
    simp only [hk] at this
    exact ⟨this.1.symm, this.2⟩

/-- C13 at `a <- { x -> 1 . x -> 2 }`: the dictionary has the single entry `x = 2`. -/
theorem duplicate_keys_last_wins_witness :
    documentText [.definition [] ['a'] [' '] [' '] (.dict [' ']
        (.more ['x'] [' '] [' '] (.num ['1']) [' '] [' ']
          (.last ['x'] [' '] [' '] (.num ['2']) [' '])))]
      = "a <- \x7b x -> 1 . x -> 2 \x7d".toList
    ∧ (∃ s, parseFile ConfigParser.new "in.cfg"
          (some ("a <- \x7b x -> 1 . x -> 2 \x7d".toList ++ [])) = some ⟨true, "", s⟩
        ∧ s.constants.find ['a'] = some (.dict [(['x'], .number 2)]))
    ∧ [(['x'], ConfigValue.number 2)].length = [['x'], ['x']].dedup.length := by
  have h := duplicate_keys_last_wins "in.cfg" [] [] ['a'] [' '] [' '] [' ']
    (.more ['x'] [' '] [' '] (.num ['1']) [' '] [' ']
      (.last ['x'] [' '] [' '] (.num ['2']) [' '])) [] [] [(['x'], .number 2)]
    (by decide) (by decide) rfl rfl
  exact ⟨by decide, h.1, h.2.2.2.1⟩

end YAMLParser

namespace YAMLParser
open ConfigParser

/-- The top-level loop at a definition whose value is a dictionary that is not closed
raises an exception, with the table of the start. -/
theorem agreesFile_unclosed {ws0 name ws1 wsv body : List Char} (t : Dict)
    (hws0 : isWs ws0 = true) (hname : isName name = true) (hws1 : isWs ws1 = true)
    (hwsv : isWs wsv = true) (hopen : Unclosed ('{' :: body)) :
    ∀ inp s fuel, At inp (ws0 ++ (name ++ (ws1 ++ '<' :: '-' :: (wsv ++ '{' :: body)))) t s →
      (ws0 ++ (name ++ (ws1 ++ '<' :: '-' :: (wsv ++ '{' :: body)))).length + 2 ≤ fuel →
      Result.agreesFile inp (false, t) (parseFileLoop fuel s) := by
  intro inp s fuel hat hf
  obtain ⟨p, hp, hd, rfl⟩ := hat
  simp only [List.length_append, List.length_cons] at hf
  obtain ⟨f, rfl⟩ : ∃ f, fuel = f + 1 := ⟨fuel - 1, by omega⟩
  have hd' : inp.drop p = (ws0 ++ (name ++ (ws1 ++ ['<', '-']))) ++ (wsv ++ '{' :: body) := by
    rw [hd]
    simp
  have hat5 := at_of_drop t hp hd'
  have hpos : p + (ws0 ++ (name ++ (ws1 ++ ['<', '-']))).length
      = p + ws0.length + name.length + ws1.length + 2 := by
    simp only [List.length_append, List.length_cons, List.length_nil]
    omega
  rw [hpos] at hat5
  obtain ⟨w, s', τ, e, hat'⟩ := valueSpec_unclosed t hwsv hopen inp _ f hat5
    (by simp only [List.length_append, List.length_cons]; omega)
  rw [parseFileLoop_header t f hd hws0 hname hws1, e]
  exact ⟨rfl, τ, hat'⟩

/-- C14: a definition `name <- { body` whose dictionary is not closed by a matching brace
before the end of the input (every non-empty part of the text from the opening brace on
has more opening than closing braces), after a well-formed document `items`: `parseFile`
returns false with a message "Parse error: ..." on `std::cerr`, and the table is the table
of `items`, so that `name` is not bound unless `items` had defined it. -/
theorem unclosed_dictionary_rejected (filename : String) (items : List SItem)
    (ws0 name ws1 wsv body : List Char) (t : Dict) (hwf : documentWf items = true)
    (hev : evalDocument [] items = some t) (hws0 : isWs ws0 = true)
    (hname : isName name = true) (hws1 : isWs ws1 = true) (hwsv : isWs wsv = true)
    (hopen : Unclosed ('{' :: body)) :
    ∃ r, parseFile ConfigParser.new filename (some (documentText items
          ++ (ws0 ++ (name ++ (ws1 ++ '<' :: '-' :: (wsv ++ '{' :: body)))))) = some r
      ∧ r.returned = false
      ∧ (∃ w, r.cerr = "Parse error: " ++ cstr w ++ "\n")
      ∧ r.self.constants = t
      ∧ (name ∉ definedNames items → r.self.constants.find name = none) := by
  have htail : headIs isdigit
      (ws0 ++ (name ++ (ws1 ++ '<' :: '-' :: (wsv ++ '{' :: body)))) = false := by
    obtain ⟨a, as, rfl⟩ := List.exists_cons_of_ne_nil (isName_ne_nil hname)
    exact headIs_isdigit_ws_cons hws0 (isalpha_not_isdigit (isName_cons hname).1)
  obtain ⟨r, hr, h1, h2, _, h4⟩ := parseFile_items_then ConfigParser.new filename items _ t
    (false, t) hwf hev htail (agreesFile_unclosed t hws0 hname hws1 hwsv hopen)
  refine ⟨r, hr, h1, h4 h1, h2, fun hnot => ?_⟩
  rw [h2]
  exact evalDocument_find_of_not_defined items name [] t hev hnot

/-- C14 at `a <- { x -> { y -> 2 }`, where the inner dictionary is closed and the outer one
is not; the inputs `a <- {`, `a <- { x -> 1` and `a <- { x -> 1 .` fail as well. -/
theorem unclosed_dictionary_rejected_witness :
    (∃ r, parseFile ConfigParser.new "in.cfg"
          (some ([] ++ ([] ++ (['a'] ++ ([' '] ++ '<' :: '-' ::
            ([' '] ++ '{' :: " x -> \x7b y -> 2 \x7d".toList)))))) = some r
        ∧ r.returned = false ∧ r.self.constants = [])
    ∧ (parseFile ConfigParser.new "in.cfg" (some "a <- \x7b".toList)).map
        (fun r => (r.returned, r.self.constants.isEmpty)) = some (false, true)
    ∧ (parseFile ConfigParser.new "in.cfg" (some "a <- \x7b x -> 1".toList)).map
        (fun r => (r.returned, r.self.constants.isEmpty)) = some (false, true)
    ∧ (parseFile ConfigParser.new "in.cfg" (some "a <- \x7b x -> 1 .".toList)).map
        (fun r => (r.returned, r.self.constants.isEmpty)) = some (false, true) := by
  obtain ⟨r, hr, h1, _, h2, _⟩ := unclosed_dictionary_rejected "in.cfg" [] [] ['a'] [' '] [' ']
    " x -> \x7b y -> 2 \x7d".toList [] rfl rfl rfl rfl rfl rfl
    (unclosed_of_openAfter (by decide))
  exact ⟨⟨r, hr, h1, h2⟩, by decide, by decide, by decide⟩

end YAMLParser

namespace YAMLParser
open ConfigParser

/-- C15 (counterexample): parsing `a <- 1 . a <- 2` fails.  The first definition is
stored, and the `.` behind it raises "Unexpected character: ." at position 7. -/
theorem top_level_separator_rejected :
    parseFile ConfigParser.new "in.cfg" (some "a <- 1 . a <- 2".toList)
      = some ⟨false, "Parse error: Unexpected character: . at position 7\n",
          cursor "a <- 1 . a <- 2".toList 7 [(['a'], .number 1)]⟩ := rfl

/-- C15 (amended): top-level definitions follow each other without a separator.  A `.`
at the top level, behind any well-formed document `items`, makes the parse fail with the
table of `items`; the input `a <- 1 a <- 2`, with whitespace only between the two
definitions of the same name, parses, and the rendered output is the one line `a: 2`. -/
theorem definitions_follow_without_separator (filename : String) (items : List SItem)
    (ws rest : List Char) (t : Dict) (hwf : documentWf items = true)
    (hev : evalDocument [] items = some t) (hws : isWs ws = true) :
    (∃ r, parseFile ConfigParser.new filename
          (some (documentText items ++ (ws ++ '.' :: rest))) = some r
        ∧ r.returned = false ∧ r.self.constants = t)
    ∧ (∃ s, parseFile ConfigParser.new filename (some "a <- 1 a <- 2".toList)
          = some ⟨true, "", s⟩
        ∧ s.outputYAML = "a: 2\n".toList) := by
  constructor
  · obtain ⟨r, hr, h1, h2, _⟩ := parseFile_items_then ConfigParser.new filename items
      (ws ++ '.' :: rest) t (false, t) hwf hev (headIs_isdigit_ws_cons hws (by decide))
      (agreesFile_unexpected t hws (by decide) (by decide) (by decide))
    exact ⟨r, hr, h1, h2⟩
  · exact ⟨_, rfl, by decide⟩

/-- C15 (amended) at `a <- 1 . a <- 2`: the parse fails with `a = 1` in the table. -/
theorem definitions_follow_without_separator_witness :
    ∃ r, parseFile ConfigParser.new "in.cfg" (some ("a <- 1".toList ++ ([' '] ++ '.' ::
          " a <- 2".toList))) = some r
      ∧ r.returned = false ∧ r.self.constants = [(['a'], .number 1)] :=
  (definitions_follow_without_separator "in.cfg"
    [.definition [] ['a'] [' '] [' '] (.num ['1'])] [' '] " a <- 2".toList
    [(['a'], .number 1)] (by decide) rfl (by decide)).1

/-- C16 (counterexample): parsing `a <- { x -> 1 . }`, a dictionary with a separator
before the closing brace, succeeds and yields the dictionary with the entry `x = 1`. -/
theorem trailing_separator_parses :
    parseFile ConfigParser.new "in.cfg" (some "a <- \x7b x -> 1 . \x7d".toList)
      = some ⟨true, "", cursor "a <- \x7b x -> 1 . \x7d".toList 17
          [(['a'], .dict [(['x'], .number 1)])]⟩ := rfl

/-- C16 (amended): every dictionary literal that the parser accepts has the form
`"{" ws? ( entry ( "." entry )* "."? )? ws? "}"`, with optional whitespace around each
`.`: a `.` follows an entry, and another entry or the closing brace follows it.  The
trees `PEntries` are these sequences of entries (`last` is an entry before the brace,
`more` an entry, a `.` and what follows, `done` nothing), and `PValue`, `PItem` the values
and top-level items built from them.  First part: whenever `parseDict` returns, at any cursor over any input, it has
read whitespace, `{`, whitespace, the text of such entries and `}`, and returns the
dictionary of the entries.  Second part: `parseFile` returns true on exactly the
documents that are top-level items with such values, whose references are bound, followed
by whitespace or by a comment that the end of the input ends.  Third part: every literal
of the form, with or without a `.` behind the last entry, is accepted as the value of a
definition, and the name is bound to the dictionary of the entries.  Fourth part: in a
dictionary at any depth, behind complete entries each followed by its separator, a
character that is neither a letter nor `}` where an entry is expected (a second `.` for
one) makes the parse fail with "Expected name in dictionary", and an entry followed by a
character other than `.` and `}` (another entry for one) makes it fail with
"Expected '.' or '}' after dictionary entry". -/
theorem dictionary_literal_form (filename : String) :
    (∀ (fuel : Nat) (inp : List Char) (p : Nat) (t : Dict) (v : ConfigValue)
        (s' : ConfigParser),
      p ≤ inp.length → parseDict fuel (cursor inp p t) = .ok v s' →
      ∃ w ws0 es τ d, isWs w = true ∧ isWs ws0 = true ∧ PEntries.wf es = true
        ∧ inp.drop p = w ++ '{' :: (ws0 ++ (es.text ++ '}' :: τ))
        ∧ es.eval t [] = some d ∧ v = .dict d ∧ At inp τ t s')
    ∧ (∀ inp : List Char,
      (∃ r, parseFile ConfigParser.new filename (some inp) = some r ∧ r.returned = true)
        ↔ ∃ items trailer, itemsWf items = true ∧ isTrailer trailer = true
            ∧ inp = itemsText items ++ trailer ∧ (evalItems [] items).isSome = true)
    ∧ (∀ (items : List PItem) (ws0 name ws1 wsv w0 : List Char) (es : PEntries)
        (ws : List Char) (t d : Dict),
      itemsWf items = true → evalItems [] items = some t → isWs ws0 = true →
      isName name = true → isWs ws1 = true → isWs wsv = true → isWs w0 = true →
      es.wf = true → es.eval t [] = some d → isWs ws = true →
      ∃ r, parseFile ConfigParser.new filename (some (itemsText items ++ (ws0 ++ (name
            ++ (ws1 ++ '<' :: '-' :: (wsv ++ ('{' :: (w0 ++ (es.text ++ ['}'])) ++ ws)))))))
          = some r
        ∧ r.returned = true ∧ r.self.constants = t.assign name (.dict d))
    ∧ (∀ (items : List SItem) (t : Dict) (ws0 name ws1 : List Char)
        (path : List SFrame) (wsb w0 : List Char) (fields : List SField),
      documentWf items = true → evalDocument [] items = some t → isWs ws0 = true →
      isName name = true → isWs ws1 = true → pathWf path = true → pathBound t path = true →
      isWs wsb = true → isWs w0 = true → fieldsWf fields = true →
      fieldsBound t fields = true →
      (∀ (c : Char) (rest : List Char), isspace c = false → isalpha c = false →
        c ≠ '}' →
        ∃ r, parseFile ConfigParser.new filename (some (documentText items
            ++ (ws0 ++ (name ++ (ws1 ++ '<' :: '-' :: (pathText path
              ++ (wsb ++ '{' :: (w0 ++ (fieldsText fields
                ++ (c :: rest)))))))))) = some r
          ∧ r.returned = false ∧ r.self.constants = t
          ∧ r.cerr = "Parse error: " ++ ("Expected name in dictionary" ++ " at position "
              ++ toString ((documentText items).length + ws0.length + name.length + ws1.length + 2
                + (pathText path).length + wsb.length + 1 + w0.length
                + (fieldsText fields).length)) ++ "\n")
      ∧ (∀ (key w1 w2 : List Char) (value : SValue) (w3 : List Char) (c : Char)
          (rest : List Char), isName key = true → isWs w1 = true → isWs w2 = true →
        value.wf = true → (value.eval t).isSome = true → isWs w3 = true →
        (w3 = [] → isdigit c = false) → isspace c = false → c ≠ '.' → c ≠ '}' →
        ∃ r, parseFile ConfigParser.new filename (some (documentText items
            ++ (ws0 ++ (name ++ (ws1 ++ '<' :: '-' :: (pathText path
              ++ (wsb ++ '{' :: (w0 ++ (fieldsText fields
                ++ (key ++ (w1 ++ '-' :: '>' :: (w2 ++ (value.text
                  ++ (w3 ++ c :: rest)))))))))))))) = some r
          ∧ r.returned = false ∧ r.self.constants = t
          ∧ r.cerr = "Parse error: " ++ ("Expected '.' or '\x7d' after dictionary entry"
              ++ " at position "
              ++ toString ((documentText items).length + ws0.length + name.length + ws1.length + 2
                + (pathText path).length + wsb.length + 1 + w0.length
                + (fieldsText fields).length
                + key.length + w1.length + 2 + w2.length + value.text.length + w3.length))
              ++ "\n")) := by
  refine ⟨?_, ?_, ?_, ?_⟩
  · intro fuel inp p t v s' hp e
    exact parseDict_sound ⟨p, hp, rfl, rfl⟩ e
  · intro inp
    exact parseFile_accepts_iff ConfigParser.new filename inp
  · intro items ws0 name ws1 wsv w0 es ws t d hwf hev hws0 hname hws1 hwsv hw0 hes hd hws
    exact parseFile_items_definition filename items ws0 name ws1 wsv (.dict w0 es) ws t
      (.dict d) hwf hev hws0 hname hws1 hwsv
      (by simp only [PValue.wf, hw0, hes, Bool.and_self])
      (by simp only [PValue.eval, hd]) hws
  · intro items t ws0 name ws1 path wsb w0 fields hwf hev hws0 hname hws1 hpath hbound hwsb
      hw0 hfs hb
    constructor
    · intro c rest hc ha hclose
      refine ⟨_, parseFile_entry_no_name filename items t ws0 name ws1 path wsb w0 fields c
        rest hwf hev hws0 hname hws1 hpath hbound hwsb hw0 hfs hb hc ha hclose, rfl, rfl, ?_⟩
      show "Parse error: " ++ cstr _ ++ "\n" = _
      rw [cstr_error _ _ (by decide)]
    · intro key w1 w2 value w3 c rest hkey hw1 hw2 hvalue hbv hw3 hdigit hc hdot hclose
      refine ⟨_, parseFile_entry_no_separator filename items t ws0 name ws1 path wsb w0
        fields key w1 w2 value w3 c rest hwf hev hws0 hname hws1 hpath hbound hwsb hw0 hfs hb
        hkey hw1 hw2 hvalue hbv hw3 hdigit hc hdot hclose, rfl, rfl, ?_⟩
      show "Parse error: " ++ cstr _ ++ "\n" = _
      rw [cstr_error _ _ (by decide)]

/-- C16 (amended) at the literal `{ x -> 1 . }`, which `parseDict` reads as entries of the
form; at `a <- { x -> 1 . y -> 2 . }`, which parses; and at `a <- { x -> 1 . . }` and
`a <- { x -> 1 y -> 2 }`, which do not. -/
theorem dictionary_literal_form_witness :
    (∃ w ws0 es τ d, isWs w = true ∧ isWs ws0 = true ∧ PEntries.wf es = true
        ∧ "\x7b x -> 1 . \x7d".toList.drop 0 = w ++ '{' :: (ws0 ++ (es.text ++ '}' :: τ))
        ∧ es.eval [] [] = some d
        ∧ ConfigValue.dict [(['x'], .number 1)] = .dict d
        ∧ At "\x7b x -> 1 . \x7d".toList τ [] (cursor "\x7b x -> 1 . \x7d".toList 12 []))
    ∧ (∃ r, parseFile ConfigParser.new "in.cfg"
          (some "a <- \x7b x -> 1 . y -> 2 . \x7d".toList) = some r
        ∧ r.returned = true
        ∧ r.self.constants = [(['a'], .dict [(['x'], .number 1), (['y'], .number 2)])])
    ∧ (∃ r, parseFile ConfigParser.new "in.cfg" (some "a <- \x7b x -> 1 . . \x7d".toList)
          = some r
        ∧ r.returned = false ∧ r.self.constants = []
        ∧ r.cerr = "Parse error: Expected name in dictionary at position 16\n")
    ∧ (∃ r, parseFile ConfigParser.new "in.cfg" (some "a <- \x7b x -> 1 y -> 2 \x7d".toList)
          = some r
        ∧ r.returned = false ∧ r.self.constants = []
        ∧ r.cerr
          = "Parse error: Expected '.' or '\x7d' after dictionary entry at position 14\n") :=
  have h := dictionary_literal_form "in.cfg"
  have h4 := h.2.2.2 [] [] [] ['a'] [' '] [] [' '] [' ']
  ⟨h.1 20 "\x7b x -> 1 . \x7d".toList 0 [] (.dict [(['x'], .number 1)])
      (cursor "\x7b x -> 1 . \x7d".toList 12 []) (by decide) rfl,
    h.2.2.1 [] [] ['a'] [' '] [' '] [' ']
      (.more ['x'] [' '] [] [' '] (.num ['1']) [' '] [' ']
        (.more ['y'] [' '] [] [' '] (.num ['2']) [' '] [' '] .done)) [] []
      [(['x'], .number 1), (['y'], .number 2)] rfl rfl rfl rfl rfl rfl rfl (by decide) rfl rfl,
    (h4 [⟨['x'], [' '], [' '], .num ['1'], [' '], [' ']⟩] (by decide) rfl rfl rfl rfl rfl rfl
      rfl rfl (by decide) (by decide)).1 '.' " \x7d".toList (by decide) (by decide)
      (by decide),
    (h4 [] (by decide) rfl rfl rfl rfl rfl rfl rfl rfl (by decide) (by decide)).2
      ['x'] [' '] [' '] (.num ['1']) [' '] 'y' " -> 2 \x7d".toList (by decide) (by decide)
      (by decide) (by decide) (by decide) (by decide) (by decide) (by decide) (by decide)
      (by decide)⟩

/-- C17 (counterexample): parsing `a <- { x - > 1 }`, where a space separates `-` from
`>`, succeeds and yields the dictionary with the entry `x = 1`. -/
theorem split_arrow_parses :
    parseFile ConfigParser.new "in.cfg" (some "a <- \x7b x - > 1 \x7d".toList)
      = some ⟨true, "", cursor "a <- \x7b x - > 1 \x7d".toList 16
          [(['a'], .dict [(['x'], .number 1)])]⟩ := rfl

/-- C17 (amended): in every dictionary entry that the parser accepts, the key and the
value are separated by `-` and then `>`, with optional whitespace before each of the two
characters and before the value, because `expect` skips whitespace.  First part: whenever
the entry loop of `parseDict` returns, at any cursor over any input, from a text that
does not start (behind whitespace) with `}`, the text starts with whitespace, a name,
whitespace, `-`, whitespace, `>`, whitespace and a value.  Second part: in a dictionary at
any depth, behind complete entries, a key that `-` does not follow makes the parse fail
with "Expected '-'", and a key and `-` that `>` does not follow make it fail with
"Expected '>'".  Third part: a value with whitespace between `-` and `>` in its entries,
at any depth, is accepted as the value of a definition and the name is bound to the same
value as for the text with the whitespace between `-` and `>` taken out (`joinArrows`).
Fourth part: at the top level the definition token is looked up as the two adjacent
characters `<-`; when whitespace `wm`, not empty, separates `<` from `-`, the parse fails
with the table of the items before. -/
theorem entry_arrow_form (filename : String) :
    (∀ (fuel : Nat) (inp : List Char) (p : Nat) (t acc d : Dict) (s' : ConfigParser),
      p ≤ inp.length → parseDictLoop fuel (cursor inp p t) acc = .ok d s' →
      (inp.drop p).dropWhile isspace ≠ [] →
      ((inp.drop p).dropWhile isspace).headD NUL ≠ '}' →
      ∃ w key w1 wm w2 a rest v, isWs w = true ∧ isName key = true ∧ isWs w1 = true
        ∧ isWs wm = true ∧ isWs w2 = true ∧ PValue.wf a = true ∧ a.eval t = some v
        ∧ inp.drop p = w ++ (key ++ (w1 ++ '-' :: (wm ++ '>' :: (w2 ++ (a.text ++ rest))))))
    ∧ (∀ (items : List SItem) (t : Dict) (ws0 name ws1 : List Char)
        (path : List SFrame) (wsb w0 : List Char) (fields : List SField),
      documentWf items = true → evalDocument [] items = some t → isWs ws0 = true →
      isName name = true → isWs ws1 = true → pathWf path = true → pathBound t path = true →
      isWs wsb = true → isWs w0 = true → fieldsWf fields = true →
      fieldsBound t fields = true →
      (∀ (key w1 : List Char) (c : Char) (rest : List Char), isName key = true →
        isWs w1 = true → (w1 = [] → isalnum c = false) → isspace c = false → c ≠ '-' →
        ∃ r, parseFile ConfigParser.new filename (some (documentText items
            ++ (ws0 ++ (name ++ (ws1 ++ '<' :: '-' :: (pathText path
              ++ (wsb ++ '{' :: (w0 ++ (fieldsText fields
                ++ (key ++ (w1 ++ c :: rest))))))))))) = some r
          ∧ r.returned = false ∧ r.self.constants = t
          ∧ r.cerr = "Parse error: " ++ cstr ("Expected '" ++ String.singleton '-'
              ++ "', got '" ++ String.singleton c ++ "'" ++ " at position "
              ++ toString ((documentText items).length + ws0.length + name.length + ws1.length + 2
                + (pathText path).length + wsb.length + 1 + w0.length
                + (fieldsText fields).length
                + key.length + w1.length)) ++ "\n")
      ∧ (∀ (key w1 wm : List Char) (c : Char) (rest : List Char), isName key = true →
        isWs w1 = true → isWs wm = true → isspace c = false → c ≠ '>' →
        ∃ r, parseFile ConfigParser.new filename (some (documentText items
            ++ (ws0 ++ (name ++ (ws1 ++ '<' :: '-' :: (pathText path
              ++ (wsb ++ '{' :: (w0 ++ (fieldsText fields
                ++ (key ++ (w1 ++ '-' :: (wm ++ c :: rest)))))))))))) = some r
          ∧ r.returned = false ∧ r.self.constants = t
          ∧ r.cerr = "Parse error: " ++ cstr ("Expected '" ++ String.singleton '>'
              ++ "', got '" ++ String.singleton c ++ "'" ++ " at position "
              ++ toString ((documentText items).length + ws0.length + name.length + ws1.length + 2
                + (pathText path).length + wsb.length + 1 + w0.length
                + (fieldsText fields).length
                + key.length + w1.length + 1 + wm.length)) ++ "\n"))
    ∧ (∀ (items : List PItem) (ws0 name ws1 wsv : List Char) (a : PValue) (ws : List Char)
        (t : Dict) (v : ConfigValue),
      itemsWf items = true → evalItems [] items = some t → isWs ws0 = true →
      isName name = true → isWs ws1 = true → isWs wsv = true → a.wf = true →
      a.eval t = some v → isWs ws = true →
      (∃ r, parseFile ConfigParser.new filename (some (itemsText items ++ (ws0 ++ (name
            ++ (ws1 ++ '<' :: '-' :: (wsv ++ (a.text ++ ws))))))) = some r
        ∧ r.returned = true ∧ r.self.constants = t.assign name v)
      ∧ (∃ r, parseFile ConfigParser.new filename (some (itemsText items ++ (ws0 ++ (name
            ++ (ws1 ++ '<' :: '-' :: (wsv ++ (a.joinArrows.text ++ ws))))))) = some r
        ∧ r.returned = true ∧ r.self.constants = t.assign name v))
    ∧ (∀ (items : List SItem) (ws0 name ws1 wm rest : List Char) (t : Dict),
      documentWf items = true → evalDocument [] items = some t → isWs ws0 = true →
      isName name = true → isWs ws1 = true → isWs wm = true → wm ≠ [] →
      ∃ r, parseFile ConfigParser.new filename (some (documentText items ++ (ws0 ++ (name
          ++ (ws1 ++ '<' :: (wm ++ '-' :: rest)))))) = some r
        ∧ r.returned = false ∧ r.self.constants = t) := by
  refine ⟨?_, ?_, ?_, ?_⟩
  · intro fuel inp p t acc d s' hp e hne hb
    exact parseDictLoop_entry_form ⟨p, hp, rfl, rfl⟩ e hne hb
  · intro items t ws0 name ws1 path wsb w0 fields hwf hev hws0 hname hws1 hpath hbound hwsb
      hw0 hfs hb
    constructor
    · intro key w1 c rest hkey hw1 hmax hc hne
      exact ⟨_, parseFile_entry_no_dash filename items t ws0 name ws1 path wsb w0 fields key
        w1 c rest hwf hev hws0 hname hws1 hpath hbound hwsb hw0 hfs hb hkey hw1 hmax hc hne,
        rfl, rfl, rfl⟩
    · intro key w1 wm c rest hkey hw1 hwm hc hne
      exact ⟨_, parseFile_entry_no_gt filename items t ws0 name ws1 path wsb w0 fields key
        w1 wm c rest hwf hev hws0 hname hws1 hpath hbound hwsb hw0 hfs hb hkey hw1 hwm hc hne,
        rfl, rfl, rfl⟩
  · intro items ws0 name ws1 wsv a ws t v hwf hev hws0 hname hws1 hwsv ha hv hws
    exact ⟨parseFile_items_definition filename items ws0 name ws1 wsv a ws t v hwf hev hws0
        hname hws1 hwsv ha hv hws,
      parseFile_items_definition filename items ws0 name ws1 wsv a.joinArrows ws t v hwf hev
        hws0 hname hws1 hwsv (joinArrows_value_wf a ha)
        (by rw [joinArrows_value_eval]; exact hv) hws⟩
  · intro items ws0 name ws1 wm rest t hwf hev hws0 hname hws1 hwm hne
    have htail : headIs isdigit (ws0 ++ (name ++ (ws1 ++ '<' :: (wm ++ '-' :: rest))))
        = false := by
      obtain ⟨a, as, rfl⟩ := List.exists_cons_of_ne_nil (isName_ne_nil hname)
      exact headIs_isdigit_ws_cons hws0 (isalpha_not_isdigit (isName_cons hname).1)
    obtain ⟨r, hr, h1, h2, _⟩ := parseFile_items_then ConfigParser.new filename items _ t
      (false, t) hwf hev htail (agreesFile_split_token t hws0 hname hws1 hwm hne)
    exact ⟨r, hr, h1, h2⟩

/-- C17 (amended) at the entry loop on `x - > 1 }`, which returns; at `a <- { x = 1 }`
and `a <- { x - 1 }`, which do not parse; at `a <- { x - > { y -  > 1 } }`, which gives
the table of `a <- { x -> { y -> 1 } }`; and at `a < - 1`, which does not parse. -/
theorem entry_arrow_form_witness :
    (∃ w key w1 wm w2 a rest v, isWs w = true ∧ isName key = true ∧ isWs w1 = true
        ∧ isWs wm = true ∧ isWs w2 = true ∧ PValue.wf a = true ∧ a.eval [] = some v
        ∧ "x - > 1 \x7d".toList.drop 0
          = w ++ (key ++ (w1 ++ '-' :: (wm ++ '>' :: (w2 ++ (a.text ++ rest))))))
    ∧ (∃ r, parseFile ConfigParser.new "in.cfg" (some "a <- \x7b x = 1 \x7d".toList) = some r
        ∧ r.returned = false ∧ r.self.constants = []
        ∧ r.cerr = "Parse error: Expected '-', got '=' at position 9\n")
    ∧ (∃ r, parseFile ConfigParser.new "in.cfg" (some "a <- \x7b x - 1 \x7d".toList) = some r
        ∧ r.returned = false ∧ r.self.constants = []
        ∧ r.cerr = "Parse error: Expected '>', got '1' at position 11\n")
    ∧ ((∃ r, parseFile ConfigParser.new "in.cfg"
          (some "a <- \x7b x - > \x7b y -  > 1 \x7d \x7d".toList) = some r
        ∧ r.returned = true
        ∧ r.self.constants = [(['a'], .dict [(['x'], .dict [(['y'], .number 1)])])])
      ∧ (∃ r, parseFile ConfigParser.new "in.cfg"
          (some "a <- \x7b x -> \x7b y -> 1 \x7d \x7d".toList) = some r
        ∧ r.returned = true
        ∧ r.self.constants = [(['a'], .dict [(['x'], .dict [(['y'], .number 1)])])]))
    ∧ (∃ r, parseFile ConfigParser.new "in.cfg" (some "a < - 1".toList) = some r
        ∧ r.returned = false ∧ r.self.constants = []) :=
  have h := entry_arrow_form "in.cfg"
  have h2 := h.2.1 [] [] [] ['a'] [' '] [] [' '] [' '] [] (by decide) rfl rfl rfl rfl rfl rfl
    rfl rfl (by decide) (by decide)
  ⟨h.1 5 "x - > 1 \x7d".toList 0 [] [] [(['x'], .number 1)] (cursor "x - > 1 \x7d".toList 8 [])
      (by decide) rfl (by decide) (by decide),
    h2.1 ['x'] [' '] '=' " 1 \x7d".toList (by decide) (by decide) (by decide) (by decide)
      (by decide),
    h2.2 ['x'] [' '] [' '] '1' " \x7d".toList (by decide) (by decide) (by decide) (by decide)
      (by decide),
    h.2.2.1 [] [] ['a'] [' '] [' ']
      (.dict [' '] (.last ['x'] [' '] [' '] [' ']
        (.dict [' '] (.last ['y'] [' '] [' ', ' '] [' '] (.num ['1']) [' '])) [' '])) [] []
      (.dict [(['x'], .dict [(['y'], .number 1)])]) rfl rfl rfl rfl rfl rfl (by decide) rfl
      rfl,
    h.2.2.2 [] [] ['a'] [' '] [' '] " 1".toList [] (by decide) rfl rfl rfl rfl rfl
      (by decide)⟩

/-- C18 (counterexample): a second call of `parseFile` on the same parser keeps the
constants of the first document and resolves references to them: after `a <- 1`, the
document `b <- ?(a)` parses and the table holds `a = 1` and `b = 1`. -/
theorem second_parse_keeps_table :
    ∃ s1, parseFile ConfigParser.new "one.cfg" (some "a <- 1".toList) = some ⟨true, "", s1⟩
      ∧ parseFile s1 "two.cfg" (some "b <- ?(a)".toList)
        = some ⟨true, "", cursor "b <- ?(a)".toList 9
            [(['a'], .number 1), (['b'], .number 1)]⟩ :=
  ⟨_, rfl, rfl⟩

/-- C18 (amended): a parse starts from the table that the parser holds, which is empty for
a parser just constructed, as the one of `main` is.  On a well-formed document `items`
(followed by whitespace) whose references are bound in the table of the parser or by the
document, `parseFile` returns true and leaves the table that the definitions build on the
table of the parser; for a parser whose table is empty, as `ConfigParser.new`, the names
bound after the parse are exactly the names that the document defines. -/
theorem parse_starts_from_parser_table (self : ConfigParser) (filename : String)
    (items : List SItem) (ws : List Char) (t : Dict) (hwf : documentWf items = true)
    (hws : isWs ws = true) (hev : evalDocument self.constants items = some t) :
    ConfigParser.new.constants = []
    ∧ (∃ r, parseFile self filename (some (documentText items ++ ws)) = some r
        ∧ r.returned = true ∧ r.self.constants = t)
    ∧ (self.constants = [] → ∀ m, m ∈ t.keys ↔ m ∈ definedNames items) := by
  refine ⟨rfl, ?_, ?_⟩
  · obtain ⟨r, hr, h1, h2, _⟩ := parseFile_items_then self filename items ws t (true, t)
      hwf hev (headIs_isdigit_ws hws) (agreesFile_end t hws)
    exact ⟨r, hr, h1, h2⟩
  · intro h0 m
    rw [h0] at hev
    have := (evalDocument_keys items [] t hev (by simp [Dict.keys])).2 m
    simpa [Dict.keys] using this

/-- C18 (amended) at the parser left by a parse of `a <- 1`, on the document
`b <- ?(a)`: the table after the second parse is built on `a = 1`. -/
theorem parse_starts_from_parser_table_witness :
    ∃ r, parseFile (cursor "a <- 1".toList 6 [(['a'], .number 1)]) "two.cfg"
          (some ("b <- ?(a)".toList ++ [])) = some r
      ∧ r.returned = true ∧ r.self.constants = [(['a'], .number 1), (['b'], .number 1)] :=
  (parse_starts_from_parser_table (cursor "a <- 1".toList 6 [(['a'], .number 1)]) "two.cfg"
    [.definition [] ['b'] [' '] [' '] (.ref ['a'])] []
    [(['a'], .number 1), (['b'], .number 1)] (by decide) rfl rfl).2.1

end YAMLParser

namespace YAMLParser
open ConfigParser

theorem entriesNamesOk_mem {d : Dict} (h : entriesNamesOk d = true) {k : List Char}
    {v : ConfigValue} (hm : (k, v) ∈ d) : isName k = true ∧ v.namesOk = true := by
  induction d with
  | nil => cases hm
  | cons e rest ih =>
    obtain ⟨k', v'⟩ := e
    simp only [entriesNamesOk, Bool.and_eq_true] at h
    rcases List.mem_cons.mp hm with e | hm'
    · simp only [Prod.mk.injEq] at e
      rw [e.1, e.2]
      exact h.1
    · exact ih h.2 hm'

theorem EntryAt.isName_key {n : Nat} {key : List Char} {val v : ConfigValue}
    (h : EntryAt n key val v) : v.namesOk = true → isName key = true := by
  induction h with
  | here hm =>
    intro hv
    exact (entriesNamesOk_mem (by simpa [ConfigValue.namesOk] using hv) hm).1
  | inside hm _ ih =>
    intro hv
    exact ih (entriesNamesOk_mem (by simpa [ConfigValue.namesOk] using hv) hm).2

theorem isName_chars {k : List Char} (h : isName k = true) :
    k ≠ [] ∧ isalpha (k.headD NUL) = true ∧ ∀ c ∈ k, isalnum c = true := by
  cases k with
  | nil => cases h
  | cons a as =>
    obtain ⟨ha, has⟩ := isName_cons h
    refine ⟨by simp, ha, fun c hc => ?_⟩
    rcases List.mem_cons.mp hc with e | hm
    · rw [e]
      simp [isalnum, ha]
    · exact has c hm

/-- C19: after `parseFile` on a fresh parser, whatever the input, every constant name in
the table and every key of every dictionary nested at any depth in a value of the table is
a name of the grammar: it is not empty, its first character is alphabetic, and all its
characters are alphabetic or numeric (characters for which the serializer needs no
quoting).  This holds in particular for every input that parses successfully. -/
theorem names_are_alphanumeric (filename : String) (inp : List Char) (r : ParseFileResult)
    (h : parseFile ConfigParser.new filename (some inp) = some r) (key : List Char)
    (hkey : key ∈ r.self.constants.keys
      ∨ ∃ name value n val, (name, value) ∈ r.self.constants ∧ EntryAt n key val value) :
    isName key = true ∧ key ≠ [] ∧ isalpha (key.headD NUL) = true
      ∧ ∀ c ∈ key, isalnum c = true := by
  obtain ⟨o, r', po, _, hr, _, h2, _⟩ := parseFile_outcome ConfigParser.new filename inp
  have hrr : r' = r := Option.some.inj (hr.symm.trans h)
  subst hrr
  have hok : entriesNamesOk r'.self.constants = true := by
    rw [h2]
    exact po rfl
  have hname : isName key = true := by
    rcases hkey with hk | ⟨name, value, n, val, hm, he⟩
    · simp only [Dict.keys, List.mem_map] at hk
      obtain ⟨⟨k, v⟩, hm, rfl⟩ := hk
      exact (entriesNamesOk_mem hok hm).1
    · exact he.isName_key (entriesNamesOk_mem hok hm).2
  exact ⟨hname, isName_chars hname⟩

/-- C19 at `a1 <- { x -> { y2 -> 2 } }`, for the key `y2` at depth 2. -/
theorem names_are_alphanumeric_witness :
    isName ['y', '2'] = true ∧ ['y', '2'] ≠ [] ∧ isalpha (['y', '2'].headD NUL) = true
      ∧ ∀ c ∈ ['y', '2'], isalnum c = true :=
  names_are_alphanumeric "in.cfg" "a1 <- \x7b x -> \x7b y2 -> 2 \x7d \x7d".toList
    ⟨true, "", cursor "a1 <- \x7b x -> \x7b y2 -> 2 \x7d \x7d".toList 26
      [(['a', '1'], .dict [(['x'], .dict [(['y', '2'], .number 2)])])]⟩
    rfl ['y', '2']
    (Or.inr ⟨['a', '1'], .dict [(['x'], .dict [(['y', '2'], .number 2)])], 2, .number 2,
      by simp, .inside (List.mem_singleton.mpr rfl) (.here (List.mem_singleton.mpr rfl))⟩)

/-- C20: parsing terminates on every input.  (1) `parseFile` returns for every parser, file
name and file: it never runs out of the fuel `2 * length + 3`.  (2) When it has read
`inp`, it returns either true or false, with a cursor that does not exceed the length of
`inp`.  (3) One iteration of the top-level loop, started inside the buffer, either raises an
exception or goes on from a position that is strictly further and not beyond the end
(leaving the loop at the end of the input is going on from the end).  (4) The same
holds for one iteration of the entry loop of `parseDict`, started on an entry.  (5) The
mutual recursion of `parseValue` and `parseDict` is bounded by the text that remains: with
fuel above its length by two, `parseValue` returns a value at a position that is strictly
further and not beyond the end, or raises an exception at a position not beyond the
end. -/
theorem parsing_terminates :
    (∀ (self : ConfigParser) (filename : String) (file : Option (List Char)),
      ∃ r, parseFile self filename file = some r)
    ∧ (∀ (self : ConfigParser) (filename : String) (inp : List Char),
      ∃ r, parseFile self filename (some inp) = some r ∧ r.self.input = inp
        ∧ r.self.pos ≤ inp.length)
    ∧ (∀ (inp : List Char) (p : Nat) (t : Dict) (f : Nat), p < inp.length →
      inp.length - p ≤ f →
      (∃ w s', parseFileLoop (f + 1) (cursor inp p t) = .thrown w s' ∧ s'.pos ≤ inp.length)
      ∨ (∃ p' t', p < p' ∧ p' ≤ inp.length
          ∧ parseFileLoop (f + 1) (cursor inp p t) = parseFileLoop f (cursor inp p' t')))
    ∧ (∀ (inp : List Char) (p : Nat) (t acc : Dict) (f : Nat), p < inp.length →
      (cursor inp p t).currentChar ≠ '}' → inp.length - p ≤ f →
      (∃ w s', parseDictLoop (f + 1) (cursor inp p t) acc = .thrown w s'
          ∧ s'.pos ≤ inp.length)
      ∨ (∃ p' d, p < p' ∧ p' ≤ inp.length
          ∧ parseDictLoop (f + 1) (cursor inp p t) acc = parseDictLoop f (cursor inp p' t) d))
    ∧ (∀ (inp : List Char) (p : Nat) (t : Dict) (fuel : Nat), p ≤ inp.length →
      inp.length - p + 2 ≤ fuel →
      (∃ v p', p < p' ∧ p' ≤ inp.length
          ∧ parseValue fuel (cursor inp p t) = .ok v (cursor inp p' t))
      ∨ (∃ w p', p' ≤ inp.length
          ∧ parseValue fuel (cursor inp p t) = .thrown w (cursor inp p' t))) := by
  refine ⟨parseFile_total, ?_, ?_, ?_, ?_⟩
  · intro self filename inp
    obtain ⟨o, r, _, _, hr, _, _, h3, h4, _⟩ := parseFile_outcome self filename inp
    exact ⟨r, hr, h3, h4⟩
  · intro inp p t f hp hf
    have hat := @at_cursor inp p t (Nat.le_of_lt hp)
    have hlen : (inp.drop p).length = inp.length - p := List.length_drop p inp
    have hσ : inp.drop p ≠ [] := by
      intro h0
      rw [h0] at hlen
      simp only [List.length_nil] at hlen
      omega
    rcases parseFileLoop_step (inp.drop p) t hσ with hthrow | ⟨t', τ, hlt, _, hstep⟩
    · left
      obtain ⟨w, s', τ, e, hat'⟩ := hthrow inp _ f hat (by omega)
      have := at_pos hat'
      exact ⟨w, s', e, by omega⟩
    · right
      obtain ⟨s', hat', e⟩ := hstep inp _ f hat (by omega)
      have hpos := at_pos hat'
      obtain ⟨p', hp', hd', rfl⟩ := hat'
      simp only [cursor_pos] at hpos
      exact ⟨p', t', by omega, hp', e⟩
  · intro inp p t acc f hp hne hf
    have hat := @at_cursor inp p t (Nat.le_of_lt hp)
    have hlen : (inp.drop p).length = inp.length - p := List.length_drop p inp
    have hσ : inp.drop p ≠ [] := by
      intro h0
      rw [h0] at hlen
      simp only [List.length_nil] at hlen
      omega
    have hb : (inp.drop p).headD NUL ≠ '}' := by
      rw [← at_currentChar hat]
      exact hne
    rcases parseDictLoop_step (inp.drop p) t acc hσ hb (fun σ' _ => valueSpec σ' t) with
      hthrow | ⟨d, τ, hlt, _, _, hstep⟩
    · left
      obtain ⟨w, s', τ, e, hat'⟩ := hthrow inp _ f hat (by omega)
      have := at_pos hat'
      exact ⟨w, s', e, by omega⟩
    · right
      obtain ⟨s', hat', e⟩ := hstep inp _ f hat (by omega)
      have hpos := at_pos hat'
      obtain ⟨p', hp', hd', rfl⟩ := hat'
      simp only [cursor_pos] at hpos
      exact ⟨p', d, by omega, hp', e⟩
  · intro inp p t fuel hp hf
    have hat := @at_cursor inp p t hp
    have hlen : (inp.drop p).length = inp.length - p := List.length_drop p inp
    obtain ⟨o, po, ho⟩ := valueSpec (inp.drop p) t
    cases o with
    | none =>
      right
      obtain ⟨w, s', τ, e, hat'⟩ := agrees_none (ho inp _ fuel hat (by omega))
      obtain ⟨p', hp', hd', rfl⟩ := hat'
      exact ⟨w, p', hp', e⟩
    | some x =>
      left
      obtain ⟨v, τ⟩ := x
      obtain ⟨_, _, hlt⟩ := po v τ rfl
      have hle := length_dropWhile_le isspace (inp.drop p)
      obtain ⟨s', e, hat'⟩ := agrees_some (ho inp _ fuel hat (by omega))
      have hpos := at_pos hat'
      obtain ⟨p', hp', hd', rfl⟩ := hat'
      simp only [cursor_pos] at hpos
      exact ⟨v, p', by omega, hp', e⟩

/-- C20 at `a <- {`, and at the first iteration of the top-level loop on `a <- 1 b`. -/
theorem parsing_terminates_witness :
    (∃ r, parseFile ConfigParser.new "in.cfg" (some "a <- \x7b".toList) = some r)
    ∧ ((∃ w s', parseFileLoop (8 + 1) (cursor "a <- 1 b".toList 0 []) = .thrown w s'
          ∧ s'.pos ≤ "a <- 1 b".toList.length)
      ∨ (∃ p' t', 0 < p' ∧ p' ≤ "a <- 1 b".toList.length
          ∧ parseFileLoop (8 + 1) (cursor "a <- 1 b".toList 0 [])
            = parseFileLoop 8 (cursor "a <- 1 b".toList p' t'))) :=
  ⟨parsing_terminates.1 ConfigParser.new "in.cfg" (some "a <- \x7b".toList),
    parsing_terminates.2.2.1 "a <- 1 b".toList 0 [] 8 (by decide) (by decide)⟩

end YAMLParser
